import Mathlib

/-!
# git-author: the tally engine

A shallow embedding of `internal/tally` (tally.go, bucket.go, tree.go) and
`internal/utils/timeutils` of git-author, with the properties of the combine
algebra, finalisation, ranking, re-bucketing and the tree of tallies; and of
what feeds the engine:
the parser of git log output (`internal/git/parse.go`), the record reader of
the subprocess driver (cmd.go), the pathspec filter (pathspec.go, git.go) and
the gob cache backend (`internal/cache/backends/gob.go`).

Conventions of the embedding:

* Go `int` / `int64` values are `Int`. Counts that are sums over the input
  (lines, commits, files) are kept unbounded; where the source computes on a
  value the input gives directly, the result wraps as an int64 does
  (`wrapInt64`): the seconds stored by `time.Unix` and the sort key of
  FinalTally.SortKey.
* A Go `map[string]bool` used as a set is a `Finset String`; the nil map and
  the empty map are both `∅` (same `len`, same keys).
* A Go `map[string]V` that is ranged over is an association list with
  pairwise distinct keys; the list order stands for the (unspecified) order
  of iteration.
* A tree of `*TreeNode` pointers is a tree of nodes: every node has one
  parent, and a function that changes a node in place returns the node.
* A Go `panic` is the result `none` (`Run.panic` for Rebucket, whose first loop
  takes a fuel counter because it need not terminate for every resolution).
* A `time.Time` is the instant it denotes, in nanoseconds since the Unix epoch;
  `time.Local` is a fixed-offset zone, and a calendar date is carried as its
  day number. The one comparison of `time.Time` structs in the source, in
  TimeBucket.Combine, sees more than the instant: a bucket carries the rest of
  its time struct as `TimeRepr`.
* A Go `string` is a `String`, read character by character; a byte buffer is a
  list of numbers below 256. The regular expressions of the package are
  syntax trees with a backtracking matcher.
* A Go `iter.Seq2` is the list of the pairs it yields to a consumer that never
  stops it; an error ends the list.
* What the repository takes from outside the standard library is passed in:
  `doublestar.PathMatch` and the gob encoding are parameters of the functions
  that call them.
-/

set_option autoImplicit false

namespace GitAuthor

/-! ## Machine integers -/

/-- The value a Go `int64` (and `int`, on the 64-bit platforms the tool is built
for) holds after an arithmetic result `x`: the representative of `x` modulo 2^64
in the range from -2^63 to 2^63 - 1. -/
def wrapInt64 (x : Int) : Int :=
  (x + 9223372036854775808) % 18446744073709551616 - 9223372036854775808

/-! ## time.Time -/

/-- Go `time.Time`, as the instant it denotes: nanoseconds since the Unix
epoch. The location (always `time.Local` for the values the tally engine
builds) and the monotonic clock reading are not part of this type; where the
source compares two time structs with `!=` (TimeBucket.Combine) the rest of the
struct is carried next to the instant, as `TimeBucket.TimeRepr`. -/
structure Time where
  nanos : Int
deriving DecidableEq, Repr

namespace Time

/-- Nanoseconds per second. -/
def second : Int := 1000000000

/-- Go `time.Unix(sec, 0)`. The library keeps the seconds since January 1 of
year 1, `sec + 62135596800`, in an int64, and `Before`, `After` and `Equal`
compare that stored count: for `sec` above 9223371974719179007 the sum wraps and
the time denotes an instant 2^64 seconds earlier. -/
def ofUnix (sec : Int) : Time := ⟨(wrapInt64 (sec + 62135596800) - 62135596800) * second⟩

/-- Go `t.Unix()`: whole seconds since the epoch, rounded down, as an int64: the
library subtracts 62135596800 from the stored count of seconds, and the
difference wraps (so `time.Unix(sec, 0).Unix()` is `sec` also where `time.Unix`
wrapped). -/
def Unix (t : Time) : Int := wrapInt64 (t.nanos / second)

/-- The zero value `time.Time{}`: January 1, year 1, 00:00:00 UTC. -/
def zero : Time := ⟨-62135596800 * second⟩

/-- Go `t.IsZero()`. -/
def IsZero (t : Time) : Bool := decide (t = zero)

/-- Go `t.Before(u)`. -/
def Before (t u : Time) : Bool := decide (t.nanos < u.nanos)

/-- Go `t.After(u)`. -/
def After (t u : Time) : Bool := decide (u.nanos < t.nanos)

/-- Go `t.Equal(u)`. -/
def Equal (t u : Time) : Bool := decide (t.nanos = u.nanos)

/-- Go `t.Compare(u)`: -1, 0 or +1. -/
def Compare (t u : Time) : Int :=
  if t.nanos < u.nanos then -1 else if u.nanos < t.nanos then 1 else 0

end Time

namespace timeutils

/-- Source: timeutils.Max. -/
def Max (a b : Time) : Time :=
  if b.Before a then a else b

/-- Source: timeutils.Min. -/
def Min (a b : Time) : Time :=
  if b.Before a then b else a

end timeutils

/-! ## Tally and FinalTally -/

/-- Source: tally.TallyMode: the five declared constants. (The Go type is an
`int`; on any other value SortKey panics, and such values are not modelled.) -/
inductive TallyMode where
  | CommitMode
  | LinesMode
  | FilesMode
  | LastModifiedMode
  | FirstModifiedMode
deriving DecidableEq, Repr

/-- Source: tally.FinalTally. -/
structure FinalTally where
  AuthorName : String
  AuthorEmail : String
  Commits : Int
  LinesAdded : Int
  LinesRemoved : Int
  FileCount : Int
  FirstCommitTime : Time
  LastCommitTime : Time
deriving DecidableEq

/-- Source: tally.Tally. -/
structure Tally where
  name : String
  email : String
  commitset : Finset String
  added : Int
  removed : Int
  fileset : Finset String
  firstCommitTime : Time
  lastCommitTime : Time
  numTallied : Int
deriving DecidableEq

/-- The zero value `Tally{}`. -/
def Tally.zero : Tally :=
  { name := "", email := "", commitset := ∅, added := 0, removed := 0,
    fileset := ∅, firstCommitTime := Time.zero, lastCommitTime := Time.zero,
    numTallied := 0 }

/-- Source: tally.or. -/
def or (a b : String) : String :=
  if a = "" then b
  else if b = "" then a
  else a

/-- Source: tally.unionInPlace. With nil and empty both `∅`, the `a == nil`
branch (which returns `b`) is `∅ ∪ b`. -/
def unionInPlace (a b : Finset String) : Finset String :=
  a ∪ b

/-- Source: Tally.Combine. -/
def Tally.Combine (a b : Tally) : Tally :=
  { name := or a.name b.name
    email := or a.email b.email
    commitset := unionInPlace a.commitset b.commitset
    added := a.added + b.added
    removed := a.removed + b.removed
    fileset := unionInPlace a.fileset b.fileset
    firstCommitTime := timeutils.Min a.firstCommitTime b.firstCommitTime
    lastCommitTime := timeutils.Max a.lastCommitTime b.lastCommitTime
    numTallied := a.numTallied + b.numTallied }

/-- Source: Tally.Final. The result is `none` where the source panics. -/
def Tally.Final (t : Tally) : Option FinalTally :=
  let commits : Int := if t.commitset.card > 0 then t.commitset.card else t.numTallied
  let files : Int := if t.fileset.card > 0 then t.fileset.card else t.numTallied
  if t.name = "" ∧ t.email = "" then
    none
  else
    some
      { AuthorName := t.name
        AuthorEmail := t.email
        Commits := commits
        LinesAdded := t.added
        LinesRemoved := t.removed
        FileCount := files
        FirstCommitTime := t.firstCommitTime
        LastCommitTime := t.lastCommitTime }

/-! ## Go maps -/

/-- A Go map, as an association list whose keys are pairwise distinct. Ranging
over the map visits the entries in list order, which stands for whatever order
the Go runtime picks. -/
abbrev GoMap (K V : Type) := List (K × V)

namespace GoMap

variable {K V : Type} [DecidableEq K]

/-- The read `v, ok := m[k]`: `none` when `ok` is false. -/
def find : GoMap K V → K → Option V
  | [], _ => none
  | (k', v) :: rest, k => if k' = k then some v else find rest k

/-- The write `m[k] = v`: replaces the entry of `k`, or adds one. -/
def put : GoMap K V → K → V → GoMap K V
  | [], k, v => [(k, v)]
  | (k', v') :: rest, k, v => if k' = k then (k, v) :: rest else (k', v') :: put rest k v

/-- The keys of the map, in iteration order. -/
def keys (m : GoMap K V) : List K := m.map Prod.fst

end GoMap

/-! ## git.Commit -/

/-- Source: git.FileDiff. -/
structure FileDiff where
  Path : String
  LinesAdded : Int
  LinesRemoved : Int
deriving DecidableEq

/-- Source: git.Commit. -/
structure Commit where
  Hash : String
  ShortHash : String
  IsMerge : Bool
  AuthorName : String
  AuthorEmail : String
  Date : Time
  FileDiffs : List FileDiff
deriving DecidableEq

/-- Go `iter.Seq2[git.Commit, error]`, as the list of the pairs it yields; the
error is `none` for Go's `nil`. -/
abbrev CommitSeq := List (Commit × Option String)

/-- Source: iterutils.WithoutErrors. -/
def WithoutErrors (commits : List Commit) : CommitSeq :=
  commits.map (fun c => (c, none))

/-! ## Tallying commits -/

/-- Source: tally.NoDiffPathname. -/
def NoDiffPathname : String := ".git-author-no-diff-commits"

/-- Source: tally.TallyOpts. -/
structure TallyOpts where
  Mode : TallyMode
  Key : Commit → String
  CountMerges : Bool

/-- Source: TallyOpts.IsDiffMode. -/
def TallyOpts.IsDiffMode (opts : TallyOpts) : Bool :=
  opts.Mode = TallyMode.FilesMode || opts.Mode = TallyMode.LinesMode

/-- Source: tally.TalliesByPath (author -> path -> tally). -/
abbrev TalliesByPath := GoMap String (GoMap String Tally)

/-- Source: TallyCommitsByPath, the branch for a commit without file diffs:
the commit is counted under `NoDiffPathname`. -/
def tallyNoDiff (commit : Commit) (pathTallies : GoMap String Tally) : GoMap String Tally :=
  let tally : Tally :=
    match GoMap.find pathTallies NoDiffPathname with
    | some t => t
    | none =>
      { Tally.zero with
        name := commit.AuthorName
        email := commit.AuthorEmail
        firstCommitTime := commit.Date
        commitset := ∅
        numTallied := 0 }
  let tally : Tally :=
    { tally with
      commitset := insert commit.ShortHash tally.commitset
      firstCommitTime := timeutils.Min tally.firstCommitTime commit.Date
      lastCommitTime := timeutils.Max tally.lastCommitTime commit.Date }
  GoMap.put pathTallies NoDiffPathname tally

/-- Source: TallyCommitsByPath, the body of the loop over `commit.FileDiffs`. -/
def tallyDiff (commit : Commit) (pathTallies : GoMap String Tally) (diff : FileDiff) :
    GoMap String Tally :=
  let tally : Tally :=
    match GoMap.find pathTallies diff.Path with
    | some t => t
    | none =>
      { Tally.zero with
        name := commit.AuthorName
        email := commit.AuthorEmail
        firstCommitTime := commit.Date
        commitset := ∅ }
  let tally : Tally :=
    { tally with
      commitset := insert commit.ShortHash tally.commitset
      firstCommitTime := timeutils.Min tally.firstCommitTime commit.Date
      lastCommitTime := timeutils.Max tally.lastCommitTime commit.Date }
  let tally : Tally :=
    if !commit.IsMerge then
      { tally with
        numTallied := 1
        added := tally.added + diff.LinesAdded
        removed := tally.removed + diff.LinesRemoved }
    else tally
  GoMap.put pathTallies diff.Path tally

/-- Source: TallyCommitsByPath, what a counted commit does to its author's
per-path tallies: the `if len(commit.FileDiffs) == 0 ... else ...` statement. -/
def tallyCommitPaths (commit : Commit) (pathTallies : GoMap String Tally) : GoMap String Tally :=
  if commit.FileDiffs.length = 0 then
    tallyNoDiff commit pathTallies
  else
    commit.FileDiffs.foldl (tallyDiff commit) pathTallies

/-- Source: TallyCommitsByPath, the body of the loop over the commits (after
the error check). -/
def tallyCommitByPath (opts : TallyOpts) (tallies : TalliesByPath) (commit : Commit) :
    TalliesByPath :=
  if commit.IsMerge && !opts.CountMerges then
    tallies
  else
    let key := opts.Key commit
    let pathTallies : GoMap String Tally :=
      match GoMap.find tallies key with
      | some pt => pt
      | none => []
    GoMap.put tallies key (tallyCommitPaths commit pathTallies)

/-- Source: TallyCommitsByPath, the loop over the commit sequence, from the
tallies accumulated so far. -/
def TallyCommitsByPath.loop (opts : TallyOpts) : TalliesByPath → CommitSeq → Except String TalliesByPath
  | tallies, [] => .ok tallies
  | tallies, (commit, err) :: rest =>
    match err with
    | some e => .error ("error iterating commits: " ++ e)
    | none => TallyCommitsByPath.loop opts (tallyCommitByPath opts tallies commit) rest

/-- Source: tally.TallyCommitsByPath. -/
def TallyCommitsByPath (commits : CommitSeq) (opts : TallyOpts) : Except String TalliesByPath :=
  TallyCommitsByPath.loop opts [] commits

/-- Source: TalliesByPath.Reduce, the running tally of one author before the
loop over the paths: empty commit set, first commit time `time.Unix(1<<62, 0)`. -/
def reduceInit : Tally :=
  { Tally.zero with commitset := ∅, firstCommitTime := Time.ofUnix (2 ^ 62) }

/-- Source: TalliesByPath.Reduce, the loop over one author's paths. -/
def reducePaths (pathTallies : GoMap String Tally) : Tally :=
  pathTallies.foldl (fun runningTally kv => runningTally.Combine kv.2) reduceInit

/-- Source: TalliesByPath.Reduce. -/
def TalliesByPath.Reduce (byPath : TalliesByPath) : GoMap String Tally :=
  byPath.foldl
    (fun tallies kv =>
      let runningTally := reducePaths kv.2
      if runningTally.commitset.card > 0 then GoMap.put tallies kv.1 runningTally else tallies)
    []

/-- Source: TallyCommits, the body of the loop of the modes that need no
diffs (after the error check). -/
def tallyCommitNoDiffMode (opts : TallyOpts) (tallies : GoMap String Tally) (commit : Commit) :
    GoMap String Tally :=
  if commit.IsMerge && !opts.CountMerges then
    tallies
  else
    let key := opts.Key commit
    let tally : Tally :=
      match GoMap.find tallies key with
      | some t => t
      | none =>
        { Tally.zero with
          name := commit.AuthorName
          email := commit.AuthorEmail
          firstCommitTime := commit.Date }
    let tally : Tally :=
      { tally with
        numTallied := tally.numTallied + 1
        firstCommitTime := timeutils.Min commit.Date tally.firstCommitTime
        lastCommitTime := timeutils.Max commit.Date tally.lastCommitTime }
    GoMap.put tallies key tally

/-- Source: TallyCommits, the loop of the modes that need no diffs. -/
def TallyCommits.loop (opts : TallyOpts) :
    GoMap String Tally → CommitSeq → Except String (GoMap String Tally)
  | tallies, [] => .ok tallies
  | tallies, (commit, err) :: rest =>
    match err with
    | some e => .error ("error iterating commits: " ++ e)
    | none => TallyCommits.loop opts (tallyCommitNoDiffMode opts tallies commit) rest

/-- Source: tally.TallyCommits (timing and logging left out). -/
def TallyCommits (commits : CommitSeq) (opts : TallyOpts) : Except String (GoMap String Tally) :=
  if !opts.IsDiffMode then
    TallyCommits.loop opts [] commits
  else
    match TallyCommitsByPath commits opts with
    | .error e => .error e
    | .ok talliesByPath => .ok talliesByPath.Reduce

/-! ## Ranking -/

/-- Source: FinalTally.SortKey. The result is an int64: the sum of the two line
counts and the negation of the first-commit second are machine arithmetic and
wrap. -/
def FinalTally.SortKey (t : FinalTally) (mode : TallyMode) : Int :=
  match mode with
  | .CommitMode => t.Commits
  | .FilesMode => t.FileCount
  | .LinesMode => wrapInt64 (t.LinesAdded + t.LinesRemoved)
  | .FirstModifiedMode => wrapInt64 (-t.FirstCommitTime.Unix)
  | .LastModifiedMode => t.LastCommitTime.Unix

/-- Source: FinalTally.Compare. -/
def FinalTally.Compare (a b : FinalTally) (mode : TallyMode) : Int :=
  let aRank := a.SortKey mode
  let bRank := b.SortKey mode
  if aRank < bRank then -1
  else if bRank < aRank then 1
  else a.LastCommitTime.Compare b.LastCommitTime

/-- Go `slices.SortFunc(x, cmp)`: sorts in ascending order as determined by
`cmp`; the library's sort is not stable, and an insertion sort stands for it
here (the properties proved of its result are those of every sorted
permutation). -/
def SortFunc {α : Type} (cmp : α → α → Int) (x : List α) : List α :=
  x.insertionSort (fun a b => cmp a b ≤ 0)

/-- Source: tally.Rank, the loop `final = append(final, t.Final())` over the
map. The result is `none` where a `Final` panics. -/
def Rank.finals : GoMap String Tally → Option (List FinalTally)
  | [] => some []
  | kv :: rest =>
    match kv.2.Final with
    | none => none
    | some f =>
      match Rank.finals rest with
      | none => none
      | some final => some (f :: final)

/-- Source: tally.Rank. The result is `none` where a `Final` panics. -/
def Rank (tallies : GoMap String Tally) (mode : TallyMode) : Option (List FinalTally) :=
  match Rank.finals tallies with
  | none => none
  | some final => some (SortFunc (fun a b => -a.Compare b mode) final)

/-! ## Time buckets and time series -/

/-- The zero value `FinalTally{}`. -/
def FinalTally.zero : FinalTally :=
  { AuthorName := "", AuthorEmail := "", Commits := 0, LinesAdded := 0, LinesRemoved := 0,
    FileCount := 0, FirstCommitTime := Time.zero, LastCommitTime := Time.zero }

/-- Source: tally.TimeBucket. The field `Time` of the source is a `time.Time`
struct. Its instant is the field `Time` here; `TimeRepr` is the rest of what the
struct comparison `a.Time != b.Time` sees: the location pointer and the form of
the two words that hold the instant (with or without a monotonic clock reading).
The value 0 is the representation of the times the package builds with
`time.Date(..., time.Local)` and the parser with `time.Unix`: location
`time.Local`, no monotonic reading. Two times of one representation are the same
struct exactly when they are the same instant. -/
structure TimeBucket where
  Name : String
  Time : GitAuthor.Time
  TimeRepr : Nat := 0
  Tally : FinalTally
  TotalTally : FinalTally
  tallies : GoMap String GitAuthor.Tally
deriving DecidableEq

/-- The zero value `TimeBucket{}`. -/
def TimeBucket.zero : TimeBucket :=
  { Name := "", Time := Time.zero, Tally := FinalTally.zero, TotalTally := FinalTally.zero,
    tallies := [] }

/-- Source: tally.newBucket. Every caller passes the result of a resolution's
`apply`, a `time.Date(..., time.Local)`: representation 0. -/
def newBucket (name : String) (t : Time) : TimeBucket :=
  { Name := name, Time := t, TimeRepr := 0, Tally := FinalTally.zero,
    TotalTally := FinalTally.zero, tallies := [] }

/-- Source: TimeBucket.Combine, the body of the loop over `b.tallies`. In the
source `merged.tallies` and `a.tallies` are one and the same map, so the read
`a.tallies[key]` is a read of the map being written. -/
def TimeBucket.Combine.step (merged : GoMap String GitAuthor.Tally)
    (kv : String × GitAuthor.Tally) : GoMap String GitAuthor.Tally :=
  match GoMap.find merged kv.1 with
  | some existing => GoMap.put merged kv.1 (existing.Combine kv.2)
  | none => GoMap.put merged kv.1 kv.2

/-- Source: TimeBucket.Combine. The result is `none` where the source panics
(names or times that do not match). The guard `a.Time != b.Time` compares the
two structs, not the instants: it also fires for one instant in two
representations, such as a local time and its `.UTC()`. -/
def TimeBucket.Combine (a b : TimeBucket) : Option TimeBucket :=
  if a.Name ≠ b.Name then
    none
  else if a.Time ≠ b.Time ∨ a.TimeRepr ≠ b.TimeRepr then
    none
  else
    some { a with tallies := b.tallies.foldl TimeBucket.Combine.step a.tallies }

/-- Source: tally.TimeSeries. -/
abbrev TimeSeries := List TimeBucket

/-- Source: TimeSeries.Combine, the loop over `b`. -/
def TimeSeries.Combine.merge : GoMap Int TimeBucket → List TimeBucket → Option (GoMap Int TimeBucket)
  | buckets, [] => some buckets
  | buckets, bucket :: rest =>
    match GoMap.find buckets bucket.Time.Unix with
    | some existing =>
      match existing.Combine bucket with
      | none => none
      | some combined =>
        TimeSeries.Combine.merge (GoMap.put buckets bucket.Time.Unix combined) rest
    | none => TimeSeries.Combine.merge (GoMap.put buckets bucket.Time.Unix bucket) rest

/-- Go `slices.Sorted(maps.Keys(m))` for integer keys: the keys in ascending order. -/
def sortedKeys {V : Type} (m : GoMap Int V) : List Int :=
  (GoMap.keys m).insertionSort (fun x y => x ≤ y)

/-- Source: TimeSeries.Combine. The result is `none` where a
TimeBucket.Combine panics. -/
def TimeSeries.Combine (a b : TimeSeries) : Option TimeSeries :=
  let buckets : GoMap Int TimeBucket :=
    a.foldl (fun buckets bucket => GoMap.put buckets bucket.Time.Unix bucket) []
  match TimeSeries.Combine.merge buckets b with
  | none => none
  | some buckets =>
    some ((sortedKeys buckets).map (fun key =>
      match GoMap.find buckets key with
      | some bucket => bucket
      | none => TimeBucket.zero))

/-! ## Calendar and resolutions -/

/-- Go `time.Local`, as a zone with a fixed offset (seconds east of UTC);
daylight-saving transitions are not modelled. -/
structure Location where
  offset : Int

/-- Seconds per day. -/
def secondsPerDay : Int := 86400

/-- The calendar date `t.Date()` in the zone. The triple (year, month, day) is
carried as its day number, the count of days since 1970-01-01, which determines
the triple and is determined by it. -/
def Time.civilDay (loc : Location) (t : Time) : Int :=
  (t.nanos / Time.second + loc.offset) / secondsPerDay

/-- Go `time.Date(year, month, day, 0, 0, 0, 0, loc)`, for the date with the
given day number: midnight of that day in the zone. A day argument of `day + 1`
is the next day number (time.Date normalises the overflow). -/
def Time.midnight (loc : Location) (day : Int) : Time :=
  ⟨(day * secondsPerDay - loc.offset) * Time.second⟩

/-- The day number of a proleptic Gregorian date (days since 1970-01-01). -/
def daysFromCivil (y m d : Int) : Int :=
  let y1 := if m ≤ 2 then y - 1 else y
  let era := y1 / 400
  let yoe := y1 - era * 400
  let mp := if m > 2 then m - 3 else m + 9
  let doy := (153 * mp + 2) / 5 + d - 1
  let doe := yoe * 365 + yoe / 4 - yoe / 100 + doy
  era * 146097 + doe - 719468

/-- The (year, month, day) of a day number. -/
def civilFromDays (z0 : Int) : Int × Int × Int :=
  let z := z0 + 719468
  let era := z / 146097
  let doe := z - era * 146097
  let yoe := (doe - doe / 1460 + doe / 36524 - doe / 146096) / 365
  let y := yoe + era * 400
  let doy := doe - (365 * yoe + yoe / 4 - yoe / 100)
  let mp := (5 * doy + 2) / 153
  let d := doy - (153 * mp + 2) / 5 + 1
  let m := if mp < 10 then mp + 3 else mp - 9
  (if m ≤ 2 then y + 1 else y, m, d)

/-- Go `time.Date(year, month, day, 0, 0, 0, 0, loc)` for a calendar date. -/
def Time.Date (loc : Location) (year month day : Int) : Time :=
  Time.midnight loc (daysFromCivil year month day)

/-- The decimal digit of a number below ten. -/
def digitChar (n : Nat) : Char :=
  Char.ofNat (48 + n % 10)

/-- Go `Format(time.DateOnly)` ("2006-01-02") of the date with the given day
number, for the years 0 to 9999. -/
def formatDateOnly (day : Int) : String :=
  let ymd := civilFromDays day
  let y := ymd.1.toNat
  let m := ymd.2.1.toNat
  let d := ymd.2.2.toNat
  String.mk
    [ digitChar (y / 1000), digitChar (y / 100), digitChar (y / 10), digitChar y, '-',
      digitChar (m / 10), digitChar m, '-', digitChar (d / 10), digitChar d ]

/-- Source: tally.Resolution. -/
structure Resolution where
  apply : Time → Time
  label : Time → String
  next : Time → Time

/-- Source: tally.applyDaily. -/
def applyDaily (loc : Location) (t : Time) : Time :=
  let day := t.civilDay loc
  Time.midnight loc day

/-- Source: tally.daily. -/
def daily (loc : Location) : Resolution :=
  { apply := applyDaily loc
    next := fun t =>
      let t := applyDaily loc t
      let day := t.civilDay loc
      Time.midnight loc (day + 1)
    label := fun t => formatDateOnly ((applyDaily loc t).civilDay loc) }

/-! ## Rebucket -/

/-- The outcome of running code whose loops are cut off by a fuel counter. -/
inductive Run (α : Type) where
  | result (a : α)
  | panic
  | outOfFuel
deriving DecidableEq

/-- Source: Rebucket, the first loop: the buckets allocated from `t` on, while
`t` is not after `end`. The fuel bounds the number of iterations. -/
def Rebucket.allocate (resolution : Resolution) (endTime : Time) :
    Nat → Time → Option (List TimeBucket)
  | 0, _ => none
  | fuel + 1, t =>
    if t.Before endTime || t.Equal endTime then
      match Rebucket.allocate resolution endTime fuel (resolution.next t) with
      | none => none
      | some rest => some (newBucket (resolution.label t) (resolution.apply t) :: rest)
    else
      some []

/-- Source: Rebucket, the inner loop `for !rebucketedTime.Equal(rebucket.Time)`,
run on the buckets from index `i` on: the first index at which the times are
equal, `none` where the index runs past the end (the source panics). -/
def Rebucket.seek (rebucketedTime : Time) : List TimeBucket → Nat → Option Nat
  | [], _ => none
  | rebucket :: rest, i =>
    if !rebucketedTime.Equal rebucket.Time then Rebucket.seek rebucketedTime rest (i + 1)
    else some i

/-- Source: Rebucket, the second loop, over the input buckets. The result is
`none` where the source panics (index out of range). -/
def Rebucket.fold (resolution : Resolution) :
    List TimeBucket → Nat → List TimeBucket → Option (List TimeBucket)
  | rebuckets, _, [] => some rebuckets
  | rebuckets, i, bucket :: rest =>
    let rebucketedTime := resolution.apply bucket.Time
    match rebuckets[i]? with
    | none => none
    | some rebucket =>
      let found : Option Nat :=
        if rebucketedTime.After rebucket.Time then
          Rebucket.seek rebucketedTime (rebuckets.drop i) i
        else some i
      match found with
      | none => none
      | some i =>
        match rebuckets[i]? with
        | none => none
        | some rebucket =>
          let bucket := { bucket with Time := rebucket.Time, TimeRepr := rebucket.TimeRepr,
                                      Name := rebucket.Name }
          match rebucket.Combine bucket with
          | none => none
          | some combined => Rebucket.fold resolution (rebuckets.set i combined) i rest

/-- Source: tally.Rebucket. -/
def Rebucket (fuel : Nat) (buckets : List TimeBucket) (resolution : Resolution)
    (endTime : Time) : Run (List TimeBucket) :=
  match buckets with
  | [] => Run.result buckets
  | first :: _ =>
    match Rebucket.allocate resolution endTime fuel (resolution.apply first.Time) with
    | none => Run.outOfFuel
    | some rebuckets =>
      match Rebucket.fold resolution rebuckets 0 buckets with
      | none => Run.panic
      | some rebuckets => Run.result rebuckets

/-! ## Quantities the statements speak about -/

/-- Whether the tally kernels count a commit: always for an ordinary commit,
for a merge commit only with count-merges. -/
def counted (opts : TallyOpts) (c : Commit) : Bool :=
  !(c.IsMerge && !opts.CountMerges)

/-- The counted commits of a list whose author key is `key`. -/
def countedCommitsOf (opts : TallyOpts) (key : String) (commits : List Commit) : List Commit :=
  commits.filter (fun c => counted opts c && decide (opts.Key c = key))

/-- The distinct short hashes of a list of commits. -/
def shortHashes (commits : List Commit) : Finset String :=
  (commits.map (fun c => c.ShortHash)).toFinset

/-- All file diffs of the non-merge commits of a list. -/
def nonMergeDiffs (commits : List Commit) : List FileDiff :=
  (commits.filter (fun c => !c.IsMerge)).flatMap (fun c => c.FileDiffs)

/-- The sum of the added counts of a list of file diffs. -/
def totalAdded (diffs : List FileDiff) : Int :=
  (diffs.map (fun d => d.LinesAdded)).sum

/-- The sum of the removed counts of a list of file diffs. -/
def totalRemoved (diffs : List FileDiff) : Int :=
  (diffs.map (fun d => d.LinesRemoved)).sum

/-- The distinct paths of a list of file diffs. -/
def diffPaths (diffs : List FileDiff) : Finset String :=
  (diffs.map (fun d => d.Path)).toFinset

/-- The lines added, summed over the tallies of a map. -/
def sumAdded (m : GoMap String Tally) : Int :=
  (m.map (fun kv => kv.2.added)).sum

/-- The lines removed, summed over the tallies of a map. -/
def sumRemoved (m : GoMap String Tally) : Int :=
  (m.map (fun kv => kv.2.removed)).sum

/-- The numTallied counters, summed over the tallies of a map. -/
def sumNumTallied (m : GoMap String Tally) : Int :=
  (m.map (fun kv => kv.2.numTallied)).sum

/-- The union of the commit sets of the tallies of a map. -/
def unionCommitsets (m : GoMap String Tally) : Finset String :=
  m.foldr (fun kv acc => kv.2.commitset ∪ acc) ∅

/-- The numTallied counter stored for a key, 0 when the key is absent. -/
def numTalliedAt (m : GoMap String Tally) (k : String) : Int :=
  match GoMap.find m k with
  | some t => t.numTallied
  | none => 0

/-- The lines added stored for a key, 0 when the key is absent. -/
def addedAt (m : GoMap String Tally) (k : String) : Int :=
  match GoMap.find m k with
  | some t => t.added
  | none => 0

/-- The lines removed stored for a key, 0 when the key is absent. -/
def removedAt (m : GoMap String Tally) (k : String) : Int :=
  match GoMap.find m k with
  | some t => t.removed
  | none => 0

/-- The file diffs of a list that touch the path `p`. -/
def diffsOfPath (p : String) (diffs : List FileDiff) : List FileDiff :=
  diffs.filter (fun d => decide (d.Path = p))

/-- The per-path tallies stored for an author key, empty when the key is absent. -/
def pathsOfKey (tallies : TalliesByPath) (key : String) : GoMap String Tally :=
  match GoMap.find tallies key with
  | some pt => pt
  | none => []

/-- The invariant of one author's per-path tallies: `cs` are the counted
commits of that author tallied so far. -/
structure PathsInv (pt : GoMap String Tally) (cs : List Commit) : Prop where
  commits : unionCommitsets pt = shortHashes cs
  added : sumAdded pt = totalAdded (nonMergeDiffs cs)
  removed : sumRemoved pt = totalRemoved (nonMergeDiffs cs)
  files : sumNumTallied pt = (diffPaths (nonMergeDiffs cs)).card
  numAt : ∀ p, numTalliedAt pt p = if p ∈ diffPaths (nonMergeDiffs cs) then 1 else 0
  addedPerPath : ∀ p, addedAt pt p = totalAdded (diffsOfPath p (nonMergeDiffs cs))
  removedPerPath : ∀ p, removedAt pt p = totalRemoved (diffsOfPath p (nonMergeDiffs cs))
  fileset : ∀ kv ∈ pt, kv.2.fileset = ∅
  named : (∀ c ∈ cs, c.AuthorName ≠ "" ∨ c.AuthorEmail ≠ "") →
    ∀ kv ∈ pt, kv.2.name ≠ "" ∨ kv.2.email ≠ ""
  nodup : (GoMap.keys pt).Nodup

/-- The invariant of TallyCommitsByPath: `cs` are the commits read so far. -/
structure ByPathInv (opts : TallyOpts) (tallies : TalliesByPath) (cs : List Commit) : Prop where
  nodup : (GoMap.keys tallies).Nodup
  paths : ∀ key, PathsInv (pathsOfKey tallies key) (countedCommitsOf opts key cs)

/-- Two optional tallies of one author combined: Tally.Combine when both are
there, the one that is there otherwise. -/
def combineOpt : Option Tally → Option Tally → Option Tally
  | some s, some t => some (s.Combine t)
  | some s, none => some s
  | none, some t => some t
  | none, none => none

/-- The first bucket of a series whose time, in unix seconds, is `u`. -/
def bucketAt (s : TimeSeries) (u : Int) : Option TimeBucket :=
  s.find? (fun b => decide (b.Time.Unix = u))

/-- The bucket times of a series, in unix seconds. -/
def unixTimes (s : TimeSeries) : List Int :=
  s.map (fun b => b.Time.Unix)

/-- The laws of a calendar resolution (daily, monthly, yearly): `apply`
truncates a time to the start of its bucket and `next` gives the start of the
following bucket. -/
structure Resolution.Lawful (r : Resolution) : Prop where
  apply_idem : ∀ t, r.apply (r.apply t) = r.apply t
  apply_le : ∀ t, (r.apply t).nanos ≤ t.nanos
  apply_next : ∀ t, r.apply (r.next t) = r.next t
  lt_next : ∀ t, t.nanos < (r.next t).nanos
  apply_between : ∀ t u, r.apply t = t → t.nanos ≤ u.nanos → u.nanos < (r.next t).nanos →
    r.apply u = t

/-- The value of an integer field of the tally stored for an author, 0 when
the author is absent. -/
def valueAt (f : Tally → Int) (m : GoMap String Tally) (key : String) : Int :=
  match GoMap.find m key with
  | some t => f t
  | none => 0

/-- The sum of an integer field of an author's tallies over the buckets of a series. -/
def seriesSum (f : Tally → Int) (s : TimeSeries) (key : String) : Int :=
  (s.map (fun b => valueAt f b.tallies key)).sum

/-- The tallies of an author in the buckets of a series that the resolution
truncates to the time `t`, combined in the order of the series. -/
def foldedAt (r : Resolution) (buckets : TimeSeries) (t : Time) (key : String) : Option Tally :=
  (buckets.filter (fun b => decide (r.apply b.Time = t))).foldl
    (fun acc b => combineOpt acc (GoMap.find b.tallies key)) none

/-- The invariant of the second loop of Rebucket: `rebuckets` has one bucket
for each of the `n` times `t0, next t0, ...`, named by its label, holding the
tallies of the input buckets `processed` so far that belong to it. -/
structure RebucketInv (r : Resolution) (t0 : Time) (n : Nat) (processed : TimeSeries)
    (rebuckets : List TimeBucket) : Prop where
  len : rebuckets.length = n
  slot : ∀ j, j < n → ∃ x, rebuckets[j]? = some x ∧
    x.Time = r.next^[j] t0 ∧ x.Name = r.label (r.next^[j] t0) ∧
    ∀ key, GoMap.find x.tallies key = foldedAt r processed (r.next^[j] t0) key
  sums : ∀ f : Tally → Int, (∀ s t : Tally, f (s.Combine t) = f s + f t) →
    ∀ key, seriesSum f rebuckets key = seriesSum f processed key

/-- The by-path tallies `m2` hold the entries of `m`, in some other order of
the authors and, for each author, of the paths: what a loop over the Go maps
may visit. -/
def TalliesByPath.Reordered (m2 m : TalliesByPath) : Prop :=
  ∃ mid : TalliesByPath, m2.Perm mid ∧
    List.Forall₂ (fun e2 e => e2.1 = e.1 ∧ e2.2.Perm e.2) mid m

/-! ## Go strings, strconv and regexp

A Go `string` is carried as a Lean `String`, character by character. The
strings the parser and the pathspec engine branch on are compared with ASCII
characters only (tab, space, `:`, `*`, digits, hex digits), for which a test on
the first byte and a test on the first character agree, and `len(s) == 0` is
`s.length = 0`. -/

namespace strings

/-- Puts a character in front of the first piece of a split. -/
def consHead (c : Char) : List (List Char) → List (List Char)
  | [] => [[c]]
  | p :: ps => (c :: p) :: ps

/-- Go `strings.Split(s, sep)` for a one-character separator, on characters:
the pieces between the separators, one more than there are separators. -/
def splitChars (sep : Char) : List Char → List (List Char)
  | [] => [[]]
  | c :: cs => if c = sep then [] :: splitChars sep cs else consHead c (splitChars sep cs)

/-- Go `strings.Split(s, sep)` for a one-character separator. -/
def Split (s : String) (sep : Char) : List String :=
  (splitChars sep s.data).map String.mk

/-- Go `strings.SplitN(s, sep, n)` for a one-character separator, on
characters: at most `n` pieces, the last one being the unsplit remainder. -/
def splitNChars (sep : Char) : List Char → Nat → List (List Char)
  | _, 0 => []
  | s, 1 => [s]
  | [], _ + 2 => [[]]
  | c :: cs, n + 2 =>
    if c = sep then [] :: splitNChars sep cs (n + 1) else consHead c (splitNChars sep cs (n + 2))

/-- Go `strings.SplitN(s, sep, n)` for a one-character separator. -/
def SplitN (s : String) (sep : Char) (n : Nat) : List String :=
  (splitNChars sep s.data n).map String.mk

end strings

namespace strconv

/-- The value of a decimal digit. -/
def digitValue (c : Char) : Option Nat :=
  if '0'.toNat ≤ c.toNat ∧ c.toNat ≤ '9'.toNat then some (c.toNat - '0'.toNat) else none

/-- The number written by a run of decimal digits, added to `acc` times a power
of ten; `none` when a character is not a digit. -/
def parseDigits : List Char → Nat → Option Nat
  | [], acc => some acc
  | c :: cs, acc =>
    match digitValue c with
    | none => none
    | some d => parseDigits cs (acc * 10 + d)

/-- The digits of `strconv.Atoi`, after the sign: at least one digit, nothing
but digits. -/
def magnitude (ds : List Char) : Option Nat :=
  if ds.isEmpty then none else parseDigits ds 0

/-- Go `strconv.Atoi(s)` on a 64-bit platform: an optional sign and decimal
digits, within the range of `int`; `none` stands for the error. -/
def Atoi (s : String) : Option Int :=
  match s.data with
  | '-' :: ds =>
    match magnitude ds with
    | some n => if n ≤ 2 ^ 63 then some (-(n : Int)) else none
    | none => none
  | '+' :: ds =>
    match magnitude ds with
    | some n => if n < 2 ^ 63 then some (n : Int) else none
    | none => none
  | ds =>
    match magnitude ds with
    | some n => if n < 2 ^ 63 then some (n : Int) else none
    | none => none

end strconv

/-- The regular expressions the package compiles, as syntax trees. The anchors
`^` and `$` are not nodes: every pattern of the package starts with `^`, and
the functions below say where a match has to start and end. -/
inductive Regexp where
  | eps
  | lit (c : Char)
  | cls (negated : Bool) (chars : List Char) (ranges : List (Char × Char))
  | seq (a b : Regexp)
  | alt (a b : Regexp)
  | opt (a : Regexp)
  | plus (a : Regexp)

namespace Regexp

/-- A character is listed in a class, or lies in one of its ranges. -/
def inClass (chars : List Char) (ranges : List (Char × Char)) (c : Char) : Bool :=
  chars.contains c || ranges.any (fun r => decide (r.1.toNat ≤ c.toNat ∧ c.toNat ≤ r.2.toNat))

/-- The literal string `cs`. -/
def lits : List Char → Regexp
  | [] => eps
  | c :: cs => seq (lit c) (lits cs)

/-- Repetition of a matcher, zero or more times, greedily: every way to go
on is tried before stopping. The fuel bounds the number of repetitions. -/
def iterate (f : List Char → List (List Char)) : Nat → List Char → List (List Char)
  | 0, s => [s]
  | n + 1, s => (f s).flatMap (iterate f n) ++ [s]

/-- The matches of `re` at the start of `s`, each given by what is left of `s`
after it, in the order a backtracking matcher finds them: the first is the
leftmost-first match Go's regexp package reports. -/
def ends : Regexp → List Char → List (List Char)
  | eps, s => [s]
  | lit c, s =>
    match s with
    | d :: rest => if d = c then [rest] else []
    | [] => []
  | cls negated chars ranges, s =>
    match s with
    | d :: rest => if inClass chars ranges d != negated then [rest] else []
    | [] => []
  | seq a b, s => (ends a s).flatMap (ends b)
  | alt a b, s => ends a s ++ ends b s
  | opt a, s => ends a s ++ [s]
  | plus a, s => (ends a s).flatMap (iterate (ends a) s.length)

/-- Go `re.MatchString(s)` for the pattern `^re`: some match starts at the
start of `s`. -/
def matchPrefix (re : Regexp) (s : String) : Bool :=
  !(ends re s.data).isEmpty

/-- Go `re.MatchString(s)` for the pattern `^re$`: some match is all of `s`. -/
def matchWhole (re : Regexp) (s : String) : Bool :=
  (ends re s.data).any List.isEmpty

/-- Go `re.ReplaceAllString(s, "")` for the pattern `^re`, where `re` matches
no empty string: the match at the start of `s`, if there is one, is cut off. -/
def stripPrefix (re : Regexp) (s : String) : String :=
  match ends re s.data with
  | rest :: _ => String.mk rest
  | [] => s

end Regexp

/-! ## The parser of git log output -/

/-- Source: commitHashRegexp (parse.go), the pattern `^[\^a-f0-9]+$` without
its anchors. -/
def commitHashRegexp : Regexp :=
  .plus (.cls false ['^'] [('a', 'f'), ('0', '9')])

/-- Source: isRev (parse.go). -/
def isRev (s : String) : Bool :=
  let matched := commitHashRegexp.matchWhole s
  matched && (s.length == 40 || s.length == 41)

/-- Source: parseLinesChanged (parse.go); `none` stands for the error. -/
def parseLinesChanged (s : String) : Option Int :=
  strconv.Atoi s

/-- The zero value `FileDiff{}`. -/
def FileDiff.zero : FileDiff := { Path := "", LinesAdded := 0, LinesRemoved := 0 }

/-- The zero value `Commit{}`. -/
def Commit.zero : Commit :=
  { Hash := "", ShortHash := "", IsMerge := false, AuthorName := "", AuthorEmail := "",
    Date := Time.zero, FileDiffs := [] }

/-- Source: allowCommit (parse.go). -/
def allowCommit (commit : Commit) (now : Time) : Bool :=
  if commit.AuthorName == "" && commit.AuthorEmail == "" then false
  else if commit.Date.After now then false
  else true

/-- Go `iter.Seq2[string, error]`, as the list of the pairs it yields. -/
abbrev LineSeq := List (String × Option String)

/-- The local variables of ParseCommits that live across lines: the commit
being read, the file diff being read (`none` for the nil pointer) and the
number of lines read of this commit. -/
structure ParseState where
  commit : Commit
  diff : Option FileDiff
  linesThisCommit : Nat
deriving DecidableEq

/-- The state ParseCommits starts in, and returns to after each commit. -/
def ParseState.init : ParseState :=
  { commit := Commit.zero, diff := none, linesThisCommit := 0 }

/-- Source: ParseCommits, the two counts of a file-diff line, each parsed
unless it is `-`; `none` stands for the error. -/
def parseCounts (diff : FileDiff) (added removed : String) : Option FileDiff :=
  let withAdded : Option FileDiff :=
    if added != "-" then
      match parseLinesChanged added with
      | some n => some { diff with LinesAdded := n }
      | none => none
    else some diff
  match withAdded with
  | none => none
  | some diff =>
    if removed != "-" then
      match parseLinesChanged removed with
      | some n => some { diff with LinesRemoved := n }
      | none => none
    else some diff

/-- Source: ParseCommits, the default case of the switch: one line of the file
diffs of a commit. The error is the message without the commit's name. -/
def parseDiffLine (commit : Commit) (diff : Option FileDiff) (line : String) :
    Except String (Commit × Option FileDiff) :=
  match diff with
  | none =>
    let parts := strings.SplitN line '\t' 3
    let nonemptyParts := parts.filter (fun p => p.length > 0)
    match nonemptyParts with
    | [added, removed, path] =>
      match parseCounts FileDiff.zero added removed with
      | none => .error "error parsing file diffs: could not parse as int"
      | some d =>
        .ok ({ commit with FileDiffs := commit.FileDiffs ++ [{ d with Path := path }] }, none)
    | [added, removed] =>
      match parseCounts FileDiff.zero added removed with
      | none => .error "error parsing file diffs: could not parse as int"
      | some d => .ok (commit, some d)
    | _ => .error "error parsing file diffs: wrong number of elements on line after split"
  | some d =>
    if d.Path.length > 0 then
      .ok ({ commit with FileDiffs := commit.FileDiffs ++ [{ d with Path := line }] }, none)
    else
      .ok (commit, some { d with Path := line })

/-- Source: ParseCommits, the switch on `linesThisCommit` and the increment
after it. The error is the message without the commit's name. -/
def parseLine (st : ParseState) (line : String) : Except String ParseState :=
  match st.linesThisCommit with
  | 0 => .ok { st with commit := { st.commit with Hash := line }, linesThisCommit := 1 }
  | 1 => .ok { st with commit := { st.commit with ShortHash := line }, linesThisCommit := 2 }
  | 2 =>
    let parts := strings.Split line ' '
    .ok { st with commit := { st.commit with IsMerge := decide (parts.length > 1) },
                  linesThisCommit := 3 }
  | 3 => .ok { st with commit := { st.commit with AuthorName := line }, linesThisCommit := 4 }
  | 4 => .ok { st with commit := { st.commit with AuthorEmail := line }, linesThisCommit := 5 }
  | 5 =>
    match strconv.Atoi line with
    | none => .error "error parsing date from commit"
    | some i =>
      .ok { st with commit := { st.commit with Date := Time.ofUnix i }, linesThisCommit := 6 }
  | n + 6 =>
    match parseDiffLine st.commit st.diff line with
    | .error e => .error e
    | .ok (commit, diff) => .ok { commit := commit, diff := diff, linesThisCommit := n + 7 }

/-- Source: ParseCommits, the loop over the lines and the yield after it, for a
consumer that never stops the sequence. `now` is the wall-clock time read
before the loop. An error ends the sequence; it is yielded with the commit
being read. -/
def ParseCommits.loop (now : Time) : ParseState → LineSeq → CommitSeq
  | st, [] =>
    if st.linesThisCommit > 0 && allowCommit st.commit now then [(st.commit, none)] else []
  | st, (_, some _) :: _ => [(st.commit, some "error reading commit")]
  | st, (line, none) :: rest =>
    let done := decide (st.linesThisCommit ≥ 6) && (line.length == 0 || isRev line)
    let yielded : CommitSeq :=
      if done && allowCommit st.commit now then [(st.commit, none)] else []
    let st1 := if done then ParseState.init else st
    if done && line.length == 0 then yielded ++ ParseCommits.loop now st1 rest
    else
      match parseLine st1 line with
      | .error e => yielded ++ [(st1.commit, some e)]
      | .ok st2 => yielded ++ ParseCommits.loop now st2 rest

/-- Source: ParseCommits (parse.go). -/
def ParseCommits (now : Time) (lines : LineSeq) : CommitSeq :=
  ParseCommits.loop now ParseState.init lines

/-! ## The record reader of the subprocess driver -/

namespace bytes

/-- Go `bytes.IndexByte(data, c)`: the index of the first `c`, or -1. A byte
is a natural number below 256. -/
def IndexByte : List Nat → Nat → Int
  | [], _ => -1
  | b :: rest, c =>
    if b = c then 0
    else
      let i := IndexByte rest c
      if i < 0 then -1 else i + 1

end bytes

/-- The error a split function returns next to its token. -/
inductive SplitError where
  | ErrFinalToken
deriving DecidableEq

/-- What a `bufio.SplitFunc` returns: the number of bytes to advance, the
token (`none` for the nil slice: no token yet) and the error (`none` for nil). -/
structure SplitResult where
  advance : Int
  token : Option (List Nat)
  err : Option SplitError
deriving DecidableEq

/-- Source: Subprocess.StdoutLogLines (cmd.go), the function given to
`scanner.Split`. -/
def StdoutLogLines.split (data : List Nat) (atEOF : Bool) : SplitResult :=
  let null_i := bytes.IndexByte data 0
  let newline_i := bytes.IndexByte data 10
  if null_i ≥ 0 ∧ newline_i ≥ 0 then
    let i := min null_i newline_i
    { advance := i + 1, token := some (data.take i.toNat), err := none }
  else if newline_i > 0 then
    { advance := newline_i + 1, token := some (data.take newline_i.toNat), err := none }
  else if null_i > 0 then
    { advance := null_i + 1, token := some (data.take null_i.toNat), err := none }
  else if atEOF then
    { advance := 0, token := some data, err := some SplitError.ErrFinalToken }
  else
    { advance := 0, token := none, err := none }

/-! ## Pathspecs -/

/-- Source: excludePathspecRegexp (pathspec.go), the pattern
`^(:[!\^]:|:[!\^][^!\^/]|:\(exclude\))` without its anchor. -/
def excludePathspecRegexp : Regexp :=
  .alt (.seq (.lit ':') (.seq (.cls false ['!', '^'] []) (.lit ':')))
    (.alt (.seq (.lit ':') (.seq (.cls false ['!', '^'] []) (.cls true ['!', '^', '/'] [])))
      (Regexp.lits ":(exclude)".data))

/-- Source: excludeStripRegexp (pathspec.go), the pattern
`^(:[!\^]:?|:\(exclude\))` without its anchor. -/
def excludeStripRegexp : Regexp :=
  .alt (.seq (.lit ':') (.seq (.cls false ['!', '^'] []) (.opt (.lit ':'))))
    (Regexp.lits ":(exclude)".data)

/-- Source: IsSupportedPathspec (pathspec.go). -/
def IsSupportedPathspec (pathspec : String) : Bool :=
  if pathspec.length > 0 ∧ pathspec.data.head? = some ':' then
    excludePathspecRegexp.matchPrefix pathspec
  else true

/-- Source: SplitPathspecs, the body of the loop. -/
def SplitPathspecs.step (acc : List String × List String) (p : String) :
    List String × List String :=
  if p.length == 0 then acc
  else if p.data.head? = some ':' then
    let stripped := excludeStripRegexp.stripPrefix p
    (acc.1, acc.2 ++ [stripped])
  else (acc.1 ++ [p], acc.2)

/-- Source: SplitPathspecs (pathspec.go): the includes and the excludes. -/
def SplitPathspecs (pathspecs : List String) : List String × List String :=
  pathspecs.foldl SplitPathspecs.step ([], [])

namespace filepath

/-- The path elements that `Clean` keeps, from the elements between the
slashes: empty elements and `.` go, `..` takes the element before it with it
(at the start of a rooted path it just goes). `acc` holds the elements kept so
far, last first. -/
def cleanParts (rooted : Bool) : List (List Char) → List (List Char) → List (List Char)
  | acc, [] => acc.reverse
  | acc, p :: ps =>
    if p = [] ∨ p = ['.'] then cleanParts rooted acc ps
    else if p = ['.', '.'] then
      match acc with
      | q :: acc2 =>
        if q = ['.', '.'] then cleanParts rooted (p :: acc) ps else cleanParts rooted acc2 ps
      | [] => if rooted then cleanParts rooted [] ps else cleanParts rooted [p] ps
    else cleanParts rooted (p :: acc) ps

/-- The elements joined by slashes. -/
def joinParts : List (List Char) → List Char
  | [] => []
  | [p] => p
  | p :: q :: rest => p ++ '/' :: joinParts (q :: rest)

/-- Go `filepath.Clean(path)` on Unix. -/
def Clean (path : String) : String :=
  if path.length == 0 then "."
  else
    let rooted := path.data.head? == some '/'
    let body := joinParts (cleanParts rooted [] (strings.splitChars '/' path.data))
    if rooted then String.mk ('/' :: body)
    else if body.isEmpty then "." else String.mk body

/-- Go `filepath.Join(elem...)` on Unix: the elements from the first non-empty
one on, joined by slashes and cleaned; the empty string when all are empty. -/
def Join : List String → String
  | [] => ""
  | e :: es =>
    if e.length == 0 then Join es
    else Clean (String.mk (joinParts ((e :: es).map String.data)))

end filepath

/-- Source: PathspecMatch (pathspec.go); `none` stands for a panic.
`PathMatch` is `doublestar.PathMatch` of the module
github.com/bmatcuk/doublestar/v4, which is not part of this repository and is
passed in: it returns `none` for its error. -/
def PathspecMatch (PathMatch : String → String → Option Bool) (pathspec path : String) :
    Option Bool :=
  if pathspec.length == 0 then none
  else
    match PathMatch pathspec path with
    | none => none
    | some true => some true
    | some false =>
      let subdirPathspec := filepath.Join [pathspec, "**"]
      match PathMatch subdirPathspec path with
      | none => none
      | some true => some true
      | some false =>
        if pathspec.data.head? = some '*' then
          let toplevelPathspec := filepath.Join ["**/"]
          match PathMatch toplevelPathspec path with
          | none => none
          | some true => some true
          | some false => some false
        else some false

/-- Source: LimitDiffsByPathspec, the loops over the includes and over the
excludes: whether some pathspec of the list matches, the loop ending at the
first match; `none` when a call of PathspecMatch panics. -/
def LimitDiffsByPathspec.matchAny (PathMatch : String → String → Option Bool) (path : String) :
    List String → Option Bool
  | [] => some false
  | p :: ps =>
    match PathspecMatch PathMatch p path with
    | none => none
    | some true => some true
    | some false => LimitDiffsByPathspec.matchAny PathMatch path ps

/-- Source: LimitDiffsByPathspec, the loop over the file diffs of one commit. -/
def LimitDiffsByPathspec.filter (PathMatch : String → String → Option Bool)
    (includes excludes : List String) : List FileDiff → Option (List FileDiff)
  | [] => some []
  | diff :: rest =>
    match LimitDiffsByPathspec.matchAny PathMatch diff.Path includes with
    | none => none
    | some shouldInclude =>
      match LimitDiffsByPathspec.matchAny PathMatch diff.Path excludes with
      | none => none
      | some shouldExclude =>
        match LimitDiffsByPathspec.filter PathMatch includes excludes rest with
        | none => none
        | some filtered =>
          some (if shouldInclude && !shouldExclude then diff :: filtered else filtered)

/-- Source: LimitDiffsByPathspec, the loop over the commits. -/
def LimitDiffsByPathspec.loop (PathMatch : String → String → Option Bool)
    (includes excludes : List String) : CommitSeq → Option CommitSeq
  | [] => some []
  | (commit, some err) :: _ => some [(commit, some err)]
  | (commit, none) :: rest =>
    match LimitDiffsByPathspec.filter PathMatch includes excludes commit.FileDiffs with
    | none => none
    | some filtered =>
      match LimitDiffsByPathspec.loop PathMatch includes excludes rest with
      | none => none
      | some out => some (({ commit with FileDiffs := filtered }, none) :: out)

/-- Source: LimitDiffsByPathspec (git.go), for a consumer that never stops the
sequence: the pairs yielded, or `none` when PathspecMatch panics on the way. -/
def LimitDiffsByPathspec (PathMatch : String → String → Option Bool) (commits : CommitSeq)
    (pathspecs : List String) : Option CommitSeq :=
  if pathspecs.length == 0 then some commits
  else
    match pathspecs.find? (fun p => !IsSupportedPathspec p) with
    | some p => some [(Commit.zero, some ("unsupported magic in pathspec: \"" ++ p ++ "\""))]
    | none =>
      let split := SplitPathspecs pathspecs
      LimitDiffsByPathspec.loop PathMatch split.1 split.2 commits

namespace doublestar

/-- Modelled from the spec: a glob of one path element, with `?` for any one
character and `*` for any run of characters; every other character stands for
itself. -/
def matchElement : List Char → List Char → Bool
  | [], name => name.isEmpty
  | p :: ps, name =>
    if p = '*' then name.tails.any (matchElement ps)
    else
      match name with
      | [] => false
      | c :: cs => (p = '?' || p = c) && matchElement ps cs

/-- Modelled from the spec: a glob of a path, element by element, with `**`
for any run of elements, the empty run included. -/
def matchElements : List (List Char) → List (List Char) → Bool
  | [], names => names.isEmpty
  | p :: ps, names =>
    if p = ['*', '*'] then names.tails.any (matchElements ps)
    else
      match names with
      | [] => false
      | n :: ns => matchElement p n && matchElements ps ns

/-- Modelled from the spec: `doublestar.PathMatch` for the globs with `?`, `*`
and `**` (no character classes, no alternatives, no escapes), which never
returns an error. It serves as the matcher of the examples; the theorems hold
for every matcher. -/
def PathMatch (pattern name : String) : Option Bool :=
  some (matchElements (strings.splitChars '/' pattern.data) (strings.splitChars '/' name.data))

end doublestar

/-! ## The gob cache backend -/

namespace binary

/-- Go `binary.Write(w, binary.LittleEndian, n)` for a `uint32`: the four
bytes of `n`, lowest first. -/
def putUint32 (n : Nat) : List Nat :=
  [n % 256, n / 256 % 256, n / 65536 % 256, n / 16777216 % 256]

/-- Go `binary.Read(r, binary.LittleEndian, &size)` for a `uint32`, on the four
bytes read. -/
def uint32 (b : List Nat) : Nat :=
  b.getD 0 0 + 256 * b.getD 1 0 + 65536 * b.getD 2 0 + 16777216 * b.getD 3 0

end binary

/-- Go `f.Read(b)` on a regular file, where `b` is a fresh buffer of `n` zero
bytes: the buffer after the read, which holds the next `n` bytes of the file or
as many as are left, and what is left of the file after it. -/
def File.Read (n : Nat) (file : List Nat) : List Nat × List Nat :=
  (file.take n ++ List.replicate (n - (file.take n).length) 0, file.drop n)

/-- Source: GobBackend (gob.go). The cache directory `Dir` and the
uncompressed cache file at `Path`, a file in that directory (getCache builds
`Path` as `Dir` joined with the file name), are part of the state: whether the
directory exists, and the bytes of the file, `none` while it does not exist.
Reads and writes of an open file are taken not to fail. -/
structure GobBackend where
  Dir : String
  Path : String
  wasOpened : Bool
  isDirty : Bool
  dirExists : Bool
  file : Option (List Nat)
deriving DecidableEq

namespace GobBackend

/-- Source: GobBackend.Open, when no compressed file exists: only the flag is
set. (Decompression by compress/gzip is not part of the model.) -/
def Open (b : GobBackend) : GobBackend :=
  { b with wasOpened := true }

/-- Source: GobBackend.Add. `encode` is the encoding of a commit array by
encoding/gob, which is passed in. The result is `none` for the panic, else the
backend after the call and the error returned (`none` for nil). `os.OpenFile`
with `O_CREATE` creates the file but not its directory: it fails when the
directory does not exist. -/
def Add (encode : List Commit → List Nat) (b : GobBackend) (commits : List Commit) :
    Option (GobBackend × Option String) :=
  if !b.wasOpened then none
  else if !b.dirExists then
    some ({ b with isDirty := true }, some "open: no such file or directory")
  else
    let opened := { b with isDirty := true, file := some (b.file.getD []) }
    let data := encode commits
    if data.length > 0x7FFFFFFF then
      some (opened, some "cannot add more than 2,147,483,648 bytes to cache at once")
    else
      some ({ opened with
              file := some (b.file.getD [] ++ binary.putUint32 (data.length % 2 ^ 32) ++ data) },
            none)

/-- Source: GobBackend.Get, the loop over the commits of one decoded array:
the pairs yielded, and the set `seen` after it, or `none` when a duplicate
ended the sequence. -/
def Get.yieldMatching (lookingFor : Finset String) :
    Finset String → List Commit → CommitSeq × Option (Finset String)
  | seen, [] => ([], some seen)
  | seen, c :: rest =>
    if c.Hash ∈ lookingFor then
      if c.Hash ∈ seen then ([(c, some ("duplicate commit in cache: " ++ c.Hash))], none)
      else
        let r := Get.yieldMatching lookingFor (insert c.Hash seen) rest
        ((c, none) :: r.1, r.2)
    else Get.yieldMatching lookingFor seen rest

/-- Source: GobBackend.Get, the loop over the records of the file, for a
consumer that never stops the sequence. `decode` is the decoding of a commit
array by encoding/gob, which is passed in (`none` for its error). The fuel
bounds the number of records read; `none` when it runs out. -/
def Get.loop (decode : List Nat → Option (List Commit)) (lookingFor : Finset String) :
    Nat → Finset String → List Nat → Option CommitSeq
  | 0, _, _ => none
  | fuel + 1, seen, file =>
    if file.isEmpty then some []
    else
      let sizeBytes := File.Read 4 file
      let size := binary.uint32 sizeBytes.1
      let data := File.Read size sizeBytes.2
      match decode data.1 with
      | none => some [(Commit.zero, some "gob: decoding failed")]
      | some commits =>
        let r := Get.yieldMatching lookingFor seen commits
        match r.2 with
        | none => some r.1
        | some seen2 =>
          match Get.loop decode lookingFor fuel seen2 data.2 with
          | none => none
          | some out => some (r.1 ++ out)

/-- Source: GobBackend.Get, with the sequence it returns read to its end. -/
def Get (decode : List Nat → Option (List Commit)) (fuel : Nat) (b : GobBackend)
    (revs : List String) : Run CommitSeq :=
  if !b.wasOpened then .panic
  else
    let lookingFor : Finset String := revs.toFinset
    match b.file with
    | none => .result []
    | some file =>
      match Get.loop decode lookingFor fuel ∅ file with
      | none => .outOfFuel
      | some out => .result out

/-- Source: GobBackend.Clear: `os.RemoveAll(b.Dir)` removes the directory and
the file in it, and returns no error. -/
def Clear (b : GobBackend) : GobBackend :=
  { b with dirExists := false, file := none }

/-- A sequence of Add calls, one per array of commits, up to the first call
that panics or returns an error. -/
def AddAll (encode : List Commit → List Nat) :
    GobBackend → List (List Commit) → Option (GobBackend × Option String)
  | b, [] => some (b, none)
  | b, commits :: rest =>
    match Add encode b commits with
    | none => none
    | some (b2, some e) => some (b2, some e)
    | some (b2, none) => AddAll encode b2 rest

/-- The record Add appends for an array of commits: the length of the encoding,
then the encoding. -/
def record (encode : List Commit → List Nat) (commits : List Commit) : List Nat :=
  binary.putUint32 ((encode commits).length % 2 ^ 32) ++ encode commits

end GobBackend

/-! ## Quantities the parser statements speak about -/

/-- A lower-case hexadecimal digit. -/
def isHexDigit (c : Char) : Bool :=
  decide ('0'.toNat ≤ c.toNat ∧ c.toNat ≤ '9'.toNat) ||
    decide ('a'.toNat ≤ c.toNat ∧ c.toNat ≤ 'f'.toNat)

/-- A full commit hash as git prints it: 40 lower-case hexadecimal digits. -/
def isFullHash (s : String) : Bool :=
  s.length == 40 && s.data.all isHexDigit

/-- A count of a file-diff line is well formed when it is `-` or a decimal
integer. -/
def isCount (s : String) : Bool :=
  s == "-" || (strconv.Atoi s).isSome

/-- The number a well-formed count stands for: 0 for `-`. -/
def countValue (s : String) : Int :=
  if s = "-" then 0 else (strconv.Atoi s).getD 0

/-- One file-diff entry of a commit record, as git log writes it: an ordinary
entry is the line `added<TAB>removed<TAB>path`; a rename entry is the line
`added<TAB>removed<TAB>` followed by a token with the old path and a token
with the new path. -/
inductive DiffEntry where
  | ordinary (added removed path : String)
  | rename (added removed oldPath newPath : String)
deriving DecidableEq

namespace DiffEntry

/-- The lines of the entry. -/
def lines : DiffEntry → List String
  | ordinary added removed path => [added ++ "\t" ++ removed ++ "\t" ++ path]
  | rename added removed oldPath newPath => [added ++ "\t" ++ removed ++ "\t", oldPath, newPath]

/-- The entry is not a rename. -/
def isOrdinary : DiffEntry → Bool
  | ordinary _ _ _ => true
  | rename _ _ _ _ => false

/-- The entry is well formed: its counts are `-` or decimal integers, its paths
are not empty, and the path tokens of a rename are not shaped like a revision. -/
def WellFormed : DiffEntry → Bool
  | ordinary added removed path => isCount added && isCount removed && decide (path.length > 0)
  | rename added removed oldPath newPath =>
    isCount added && isCount removed && decide (oldPath.length > 0) && decide (newPath.length > 0)
      && !isRev oldPath && !isRev newPath

/-- The file diff the entry stands for: the counts, and the path (the new path
of a rename). -/
def fileDiff : DiffEntry → FileDiff
  | ordinary added removed path =>
    { Path := path, LinesAdded := countValue added, LinesRemoved := countValue removed }
  | rename added removed _ newPath =>
    { Path := newPath, LinesAdded := countValue added, LinesRemoved := countValue removed }

end DiffEntry

/-- One commit record of git log: the six header lines, the file-diff
entries, and whether a blank line follows the record (otherwise the next
record, if any, follows directly). -/
structure LogRecord where
  hash : String
  shortHash : String
  parents : List String
  authorName : String
  authorEmail : String
  timestamp : String
  diffs : List DiffEntry
  blankAfter : Bool
deriving DecidableEq

namespace LogRecord

/-- The parent list, separated by single spaces. -/
def parentLine : List String → String
  | [] => ""
  | [p] => p
  | p :: q :: rest => p ++ " " ++ parentLine (q :: rest)

/-- The lines of the record. -/
def lines (r : LogRecord) : List String :=
  [r.hash, r.shortHash, parentLine r.parents, r.authorName, r.authorEmail, r.timestamp]
    ++ r.diffs.flatMap DiffEntry.lines ++ (if r.blankAfter then [""] else [])

/-- The record is well formed: a full hash, parents without spaces, a decimal
timestamp, and well-formed file-diff entries. -/
def WellFormed (r : LogRecord) : Bool :=
  isFullHash r.hash && r.parents.all (fun p => !p.data.contains ' ')
    && (strconv.Atoi r.timestamp).isSome && r.diffs.all DiffEntry.WellFormed

/-- The commit the record describes. -/
def commit (r : LogRecord) : Commit :=
  { Hash := r.hash
    ShortHash := r.shortHash
    IsMerge := decide (r.parents.length > 1)
    AuthorName := r.authorName
    AuthorEmail := r.authorEmail
    Date := Time.ofUnix ((strconv.Atoi r.timestamp).getD 0)
    FileDiffs := r.diffs.map DiffEntry.fileDiff }

end LogRecord

/-- The lines of a list of records, none of them carrying a read error. -/
def recordLines (rs : List LogRecord) : LineSeq :=
  (rs.flatMap LogRecord.lines).map (fun l => (l, none))

/-- What ParseCommits has yielded and the state it is in after reading the
error-free lines `pre` from the state `st`; `none` when one of these lines
already ended the sequence with an error. -/
def ParseCommits.after (now : Time) : ParseState → List String → Option (List Commit × ParseState)
  | st, [] => some ([], st)
  | st, line :: rest =>
    let done := decide (st.linesThisCommit ≥ 6) && (line.length == 0 || isRev line)
    let yielded : List Commit := if done && allowCommit st.commit now then [st.commit] else []
    let st1 := if done then ParseState.init else st
    if done && line.length == 0 then
      (ParseCommits.after now st1 rest).map (fun r => (yielded ++ r.1, r.2))
    else
      match parseLine st1 line with
      | .error _ => none
      | .ok st2 => (ParseCommits.after now st2 rest).map (fun r => (yielded ++ r.1, r.2))

/-- The non-empty pieces of a file-diff line, split at its first two tabs. -/
def diffTokens (line : String) : List String :=
  (strings.SplitN line '\t' 3).filter (fun p => p.length > 0)

/-- A count that is neither `-` nor an integer. -/
def isBadCount (s : String) : Bool :=
  s != "-" && (strconv.Atoi s).isNone

/-- The line `line`, read in the state `st`, is malformed: it is in the
position of the timestamp and is not a decimal integer; or it is in the
position of a file diff, no rename is pending, it is not a commit boundary
(neither blank nor shaped like a revision), and it does not split into two or
three non-empty pieces or one of its two counts is neither `-` nor an integer. -/
def Malformed (st : ParseState) (line : String) : Bool :=
  (st.linesThisCommit == 5 && (strconv.Atoi line).isNone) ||
  (decide (st.linesThisCommit ≥ 6) && st.diff.isNone && line.length != 0 && !isRev line &&
    (match diffTokens line with
     | [added, removed, _] => isBadCount added || isBadCount removed
     | [added, removed] => isBadCount added || isBadCount removed
     | _ => true))

/-- The character class of commitHashRegexp: `^`, `a` to `f` and `0` to `9`. -/
def revClass (c : Char) : Bool := Regexp.inClass ['^'] [('a', 'f'), ('0', '9')] c

/-- A parser state between two file-diff entries of a commit: the header has
been read and no file diff is pending. -/
structure BetweenEntries (st : ParseState) : Prop where
  header : 6 ≤ st.linesThisCommit
  noDiff : st.diff = none

/-- The state in which ParseCommits meets the first line of a record: the
initial state, or the state at the end of a record that no blank line
followed, whose commit is then still to be yielded. The list `ys` holds what
the first line makes the parser yield. -/
def RecordStart (now : Time) (st : ParseState) (ys : List Commit) : Prop :=
  (st = ParseState.init ∧ ys = []) ∨
    (BetweenEntries st ∧ allowCommit st.commit now = true ∧ ys = [st.commit])

/-! ## Quantities the pathspec statements speak about -/

/-- The pathspec starts with a colon. -/
def startsWithColon (p : String) : Bool :=
  p.data.head? == some ':'

/-- The pathspecs IsSupportedPathspec is said to accept: those that do not
start with `:`, and of those that do, the ones that start with `:(exclude)`, or
with `:!` or `:^` followed by `:` or by a character other than `!`, `^` and
`/`. -/
def acceptsExcludeMagicOnly (p : String) : Bool :=
  match p.data with
  | ':' :: rest =>
    ":(exclude)".data.isPrefixOf p.data ||
      (match rest with
       | c :: d :: _ => (c == '!' || c == '^') && (d == ':' || (d != '!' && d != '^' && d != '/'))
       | _ => false)
  | _ => true

/-- The pathspec without its exclusion magic: the leading `:(exclude)`, `:!:`,
`:^:`, `:!` or `:^` removed. -/
def withoutMagic (p : String) : String :=
  if ":(exclude)".data.isPrefixOf p.data then String.mk (p.data.drop 10)
  else if ":!:".data.isPrefixOf p.data || ":^:".data.isPrefixOf p.data then String.mk (p.data.drop 3)
  else if ":!".data.isPrefixOf p.data || ":^".data.isPrefixOf p.data then String.mk (p.data.drop 2)
  else p

/-- Whether LimitDiffsByPathspec is to keep a file diff: its path matches at
least one include pathspec and no exclude pathspec. -/
def keptByPathspecs (PathMatch : String → String → Option Bool) (includes excludes : List String)
    (diff : FileDiff) : Bool :=
  includes.any (fun p => PathspecMatch PathMatch p diff.Path == some true) &&
    !excludes.any (fun p => PathspecMatch PathMatch p diff.Path == some true)

/-- The commit with its file diffs restricted to those `keep` holds for, every
other field unchanged. -/
def Commit.restrictDiffs (keep : FileDiff → Bool) (c : Commit) : Commit :=
  { c with FileDiffs := c.FileDiffs.filter keep }


/-! ## The cache in the orchestrator -/

/-- Source: concurrent.handleCacheFailure, on the gob backend: the cache is
wiped with Clear, whose error (none on this backend) is returned. -/
def handleCacheFailure (b : GobBackend) : GobBackend × Option String :=
  (b.Clear, none)

/-- Source: concurrent.runCacher, on the gob backend, for the chunks of commits
the workers send to the cache and a context that is not cancelled: each chunk
is added; the first error of Add ends the loop and is returned. The result is
`none` where Add panics. -/
def runCacher (encode : List Commit → List Nat) :
    GobBackend → List (List Commit) → Option (GobBackend × Option String)
  | b, [] => some (b, none)
  | b, commits :: rest =>
    match GobBackend.Add encode b commits with
    | none => none
    | some (b2, some err) => some (b2, some ("error in cacher: " ++ err))
    | some (b2, none) => runCacher encode b2 rest

/-! ## Ranking a bucket, and the timeline -/

/-- Source: TimeBucket.Value. The result is `none` where the source panics (a
mode outside the switch). -/
def TimeBucket.Value (b : TimeBucket) (mode : TallyMode) : Option Int :=
  match mode with
  | .CommitMode => some b.Tally.Commits
  | .FilesMode => some b.Tally.FileCount
  | .LinesMode => some (b.Tally.LinesAdded + b.Tally.LinesRemoved)
  | _ => none

/-- Source: TimeBucket.TotalValue. The result is `none` where the source panics
(a mode outside the switch). -/
def TimeBucket.TotalValue (b : TimeBucket) (mode : TallyMode) : Option Int :=
  match mode with
  | .CommitMode => some b.TotalTally.Commits
  | .FilesMode => some b.TotalTally.FileCount
  | .LinesMode => some (b.TotalTally.LinesAdded + b.TotalTally.LinesRemoved)
  | _ => none

/-- Source: TimeBucket.Rank, the loop over `b.tallies` from the zero value of
the running tally. -/
def TimeBucket.Rank.total (tallies : GoMap String GitAuthor.Tally) : GitAuthor.Tally :=
  tallies.foldl (fun runningTally kv => runningTally.Combine kv.2) Tally.zero

/-- Source: TimeBucket.Rank. The result is `none` where the source panics (a
Final that panics). The in-place union of the loop also grows a file set that a
tally of `b.tallies` holds; the tallies are not read again once a bucket is
ranked, and they are left as they were here. -/
def TimeBucket.Rank (b : TimeBucket) (mode : TallyMode) : Option TimeBucket :=
  if b.tallies.length > 0 then
    match GitAuthor.Rank b.tallies mode with
    | none => none
    | some [] => none
    | some (top :: _) =>
      match (TimeBucket.Rank.total b.tallies).Final with
      | none => none
      | some total => some { b with Tally := top, TotalTally := total }
  else some b

/-- Go `t.Sub(u)`: the duration in nanoseconds, which is an `int64` and
saturates at its bounds. -/
def Time.Sub (t u : Time) : Int :=
  max (-(2 ^ 63)) (min (2 ^ 63 - 1) (t.nanos - u.nanos))

/-- The year of the date with the given day number. -/
def yearOfDay (day : Int) : Int :=
  (civilFromDays day).1

/-- The month of the date with the given day number. -/
def monthOfDay (day : Int) : Int :=
  (civilFromDays day).2.1

/-- Go `Format("2006")` of a date in the given year, for the years 0 to 9999. -/
def formatYear (year : Int) : String :=
  let y := year.toNat
  String.mk [digitChar (y / 1000), digitChar (y / 100), digitChar (y / 10), digitChar y]

/-- The month names of Go `Format("Jan")`. -/
def monthAbbrev (month : Int) : String :=
  match month with
  | 1 => "Jan"
  | 2 => "Feb"
  | 3 => "Mar"
  | 4 => "Apr"
  | 5 => "May"
  | 6 => "Jun"
  | 7 => "Jul"
  | 8 => "Aug"
  | 9 => "Sep"
  | 10 => "Oct"
  | 11 => "Nov"
  | _ => "Dec"

/-- Source: CalcResolution, the closure `apply` of the yearly buckets. -/
def CalcResolution.applyYearly (loc : Location) (t : Time) : Time :=
  let year := yearOfDay (t.civilDay loc)
  Time.Date loc year 1 1

/-- Source: CalcResolution, the closure `apply` of the monthly buckets. -/
def CalcResolution.applyMonthly (loc : Location) (t : Time) : Time :=
  let year := yearOfDay (t.civilDay loc)
  let month := monthOfDay (t.civilDay loc)
  Time.Date loc year month 1

/-- Source: CalcResolution (bucket.go). A month argument of `month + 1` after
December is January of the next year (time.Date normalises the overflow, and so
does the day count from March that daysFromCivil uses). -/
def CalcResolution (loc : Location) (start endTime : Time) : Resolution :=
  let duration := endTime.Sub start
  let day := 3600 * Time.second * 24
  let year := day * 365
  if duration > year * 5 then
    { apply := CalcResolution.applyYearly loc
      next := fun t =>
        let t := CalcResolution.applyYearly loc t
        let year := yearOfDay (t.civilDay loc)
        Time.Date loc (year + 1) 1 1
      label := fun t => formatYear (yearOfDay ((CalcResolution.applyYearly loc t).civilDay loc)) }
  else if duration > day * 60 then
    { apply := CalcResolution.applyMonthly loc
      next := fun t =>
        let t := CalcResolution.applyMonthly loc t
        let year := yearOfDay (t.civilDay loc)
        let month := monthOfDay (t.civilDay loc)
        Time.Date loc year (month + 1) 1
      label := fun t =>
        let d := (CalcResolution.applyMonthly loc t).civilDay loc
        monthAbbrev (monthOfDay d) ++ " " ++ formatYear (yearOfDay d) }
  else daily loc

/-- Source: TallyCommitsByDate, the loop over the file diffs of a commit. -/
def TallyCommitsByDate.addDiff (tally : Tally) (diff : FileDiff) : Tally :=
  { tally with
    added := tally.added + diff.LinesAdded
    removed := tally.removed + diff.LinesRemoved
    fileset := insert diff.Path tally.fileset }

/-- Source: TallyCommitsByDate, the body of `if !skipMerge`, up to the store in
the bucket. -/
def TallyCommitsByDate.tally (opts : TallyOpts) (commit : Commit) (bucket : TimeBucket) :
    TimeBucket :=
  let key := opts.Key commit
  let tally : Tally :=
    match GoMap.find bucket.tallies key with
    | some t => t
    | none => { Tally.zero with name := commit.AuthorName, email := commit.AuthorEmail, fileset := ∅ }
  let tally : Tally := { tally with numTallied := tally.numTallied + 1 }
  let tally : Tally :=
    if !commit.IsMerge then commit.FileDiffs.foldl TallyCommitsByDate.addDiff tally else tally
  { bucket with tallies := GoMap.put bucket.tallies key tally }

/-- Source: TallyCommitsByDate, the loop over the commits, for the daily
resolution in the zone `loc`: the least and the greatest bucketed commit time
and the map of buckets, from their values so far. The error is the message
without the words TallyCommitsByDate puts in front. -/
def TallyCommitsByDate.loop (loc : Location) (opts : TallyOpts) :
    Time → Time → GoMap Int TimeBucket → CommitSeq →
      Except String (Time × Time × GoMap Int TimeBucket)
  | minTime, maxTime, buckets, [] => .ok (minTime, maxTime, buckets)
  | _, _, _, (_, some e) :: _ => .error ("error iterating commits: " ++ e)
  | minTime, maxTime, buckets, (commit, none) :: rest =>
    let resolution := daily loc
    let bucketedCommitTime := resolution.apply commit.Date
    let minTime := if bucketedCommitTime.Before minTime then bucketedCommitTime else minTime
    let maxTime := if bucketedCommitTime.After maxTime then bucketedCommitTime else maxTime
    let bucket : TimeBucket :=
      match GoMap.find buckets bucketedCommitTime.Unix with
      | some b => b
      | none =>
        newBucket (resolution.label bucketedCommitTime) (resolution.apply bucketedCommitTime)
    let skipMerge := commit.IsMerge && !opts.CountMerges
    let buckets : GoMap Int TimeBucket :=
      if !skipMerge then
        let bucket := TallyCommitsByDate.tally opts commit bucket
        GoMap.put buckets bucket.Time.Unix bucket
      else buckets
    TallyCommitsByDate.loop loc opts minTime maxTime buckets rest

/-- Source: TallyCommitsByDate, the loop that builds the dense series, from
`t` on while `t` is not after `maxTime`. The fuel bounds the number of
iterations; `none` when it runs out. -/
def TallyCommitsByDate.dense (loc : Location) (buckets : GoMap Int TimeBucket)
    (maxTime : Time) : Nat → Time → Option (List TimeBucket)
  | 0, _ => none
  | fuel + 1, t =>
    if t.Before maxTime || t.Equal maxTime then
      let resolution := daily loc
      let bucket : TimeBucket :=
        match GoMap.find buckets t.Unix with
        | some b => b
        | none => newBucket (resolution.label t) (resolution.apply t)
      match TallyCommitsByDate.dense loc buckets maxTime fuel (resolution.next t) with
      | none => none
      | some rest => some (bucket :: rest)
    else some []

/-- Source: tally.TallyCommitsByDate. `now` is the wall-clock time that
`minTime` starts from, `loc` the zone of `time.Local`; the fuel bounds the
number of buckets of the dense series. -/
def TallyCommitsByDate (loc : Location) (now : Time) (fuel : Nat) (commits : CommitSeq)
    (opts : TallyOpts) : Run (Except String TimeSeries) :=
  if opts.Mode = TallyMode.LastModifiedMode ∨ opts.Mode = TallyMode.FirstModifiedMode then
    .result (.error "error while tallying commits by date: mode not implemented")
  else
    match TallyCommitsByDate.loop loc opts now Time.zero [] commits with
    | .error e => .result (.error ("error while tallying commits by date: " ++ e))
    | .ok (minTime, maxTime, buckets) =>
      match TallyCommitsByDate.dense loc buckets maxTime fuel minTime with
      | none => .outOfFuel
      | some bucketSlice => .result (.ok bucketSlice)

/-- Equality of the results of a function that may return an error is
decidable. -/
instance decEqExcept {ε α : Type} [DecidableEq ε] [DecidableEq α] : DecidableEq (Except ε α) :=
  fun a b =>
    match a, b with
    | .ok x, .ok y =>
      if h : x = y then isTrue (by rw [h]) else isFalse (fun e => h (by cases e; rfl))
    | .error x, .error y =>
      if h : x = y then isTrue (by rw [h]) else isFalse (fun e => h (by cases e; rfl))
    | .ok _, .error _ => isFalse (fun e => by cases e)
    | .error _, .ok _ => isFalse (fun e => by cases e)

/-- Go `s[i]` for a slice and an `int` index: `none` stands for the panic of an
index out of range. -/
def indexSlice {α : Type} (s : List α) (i : Int) : Option α :=
  if i < 0 then none else s[i.toNat]?

/-- The outcome of Rebucket, as that of a function that returns it with a nil
error. -/
def Run.ok {α : Type} : Run α → Run (Except String α)
  | .result a => .result (.ok a)
  | .panic => .panic
  | .outOfFuel => .outOfFuel

/-- Source: tally.TallyCommitsTimeline (bucket.go). -/
def TallyCommitsTimeline (loc : Location) (now : Time) (fuel : Nat) (commits : CommitSeq)
    (opts : TallyOpts) (endTime : Time) : Run (Except String TimeSeries) :=
  match TallyCommitsByDate loc now fuel commits opts with
  | .panic => .panic
  | .outOfFuel => .outOfFuel
  | .result (.error e) => .result (.error e)
  | .result (.ok buckets) =>
    if buckets.length == 0 then .result (.ok buckets)
    else
      let last := indexSlice buckets ((buckets.length : Int) - 1)
      let endOpt : Option Time := if endTime.IsZero then last.map (fun b => b.Time) else some endTime
      match endOpt with
      | none => .panic
      | some endTime =>
        match indexSlice buckets 0 with
        | none => .panic
        | some first =>
          let resolution := CalcResolution loc first.Time endTime
          (Rebucket fuel buckets resolution endTime).ok

/-- Source: tallyFanOutFanIn (concurrent.go), up to the fork: the error of
RevList is returned, and with no revisions the zero value of the accumulator
(the nil slice, for a time series). `revList` is the result of git.RevList. The
result is `none` when the function goes on to the cache and the workers, which
are not part of the model. -/
def tallyFanOutFanIn.early {T : Type} (zero : T) (revList : Except String (List String)) :
    Option (Except String T) :=
  match revList with
  | .error e => some (.error ("error running concurrent tally: " ++ e))
  | .ok revs => if revs.length == 0 then some (.ok zero) else none

/-- Source: concurrent.TallyCommitsTimeline, from the result of
tallyFanOutFanIn, which is passed in. -/
def concurrent.TallyCommitsTimeline (loc : Location) (fuel : Nat)
    (fanOut : Except String TimeSeries) (endTime : Time) : Run (Except String TimeSeries) :=
  match fanOut with
  | .error e => .result (.error e)
  | .ok buckets =>
    let last := indexSlice buckets ((buckets.length : Int) - 1)
    let endOpt : Option Time := if endTime.IsZero then last.map (fun b => b.Time) else some endTime
    match endOpt with
    | none => .panic
    | some endTime =>
      match indexSlice buckets 0 with
      | none => .panic
      | some first =>
        let resolution := CalcResolution loc first.Time endTime
        (Rebucket fuel buckets resolution endTime).ok

/-! ## Combining by-path tallies -/

/-- Source: TalliesByPath.Combine, the body of the loop over the paths of one
author of `left`: the tally of `left` is combined with the one `right` has for
the path, or with a tally that only has the first commit time
`time.Unix(1<<62, 0)`, and stored in `right`. -/
def TalliesByPath.Combine.path (rightPathTallies : GoMap String Tally) (kv : String × Tally) :
    GoMap String Tally :=
  let rightTally : Tally :=
    match GoMap.find rightPathTallies kv.1 with
    | some t => t
    | none => { Tally.zero with firstCommitTime := Time.ofUnix (2 ^ 62) }
  let t := kv.2.Combine rightTally
  let t : Tally := { t with numTallied := min t.numTallied 1 }
  GoMap.put rightPathTallies kv.1 t

/-- Source: TalliesByPath.Combine, the body of the loop over the authors of
`left`. -/
def TalliesByPath.Combine.author (right : TalliesByPath) (kv : String × GoMap String Tally) :
    TalliesByPath :=
  let rightPathTallies : GoMap String Tally :=
    match GoMap.find right kv.1 with
    | some pt => pt
    | none => []
  GoMap.put right kv.1 (kv.2.foldl TalliesByPath.Combine.path rightPathTallies)

/-- Source: TalliesByPath.Combine: `right`, with the tallies of `left` combined
into it. -/
def TalliesByPath.Combine (left right : TalliesByPath) : TalliesByPath :=
  left.foldl TalliesByPath.Combine.author right

/-! ## Quantities the chunking statements speak about -/

/-- The tally stored for an author key and a path, if there is one. -/
def tallyAt (m : TalliesByPath) (key path : String) : Option Tally :=
  match GoMap.find m key with
  | some pt => GoMap.find pt path
  | none => none

/-- Two tallies have the same commit set, lines added, lines removed,
numTallied and first and last commit time. -/
def Tally.sameNumbers (a b : Tally) : Prop :=
  a.commitset = b.commitset ∧ a.added = b.added ∧ a.removed = b.removed ∧
    a.numTallied = b.numTallied ∧ a.firstCommitTime = b.firstCommitTime ∧
    a.lastCommitTime = b.lastCommitTime

/-- Two by-path tallies have an entry for the same paths of an author, and
entries with the same numbers. -/
def sameEntry : Option Tally → Option Tally → Prop
  | some a, some b => a.sameNumbers b
  | none, none => True
  | _, _ => False

/-- The first commit time that stands for no commit yet: `time.Unix(1<<62, 0)`. -/
def sentinelTime : Time := Time.ofUnix (2 ^ 62)

/-- The tally TallyCommitsByPath starts with for a path a commit is the first
to touch. -/
def Tally.started (c : Commit) : Tally :=
  { Tally.zero with
    name := c.AuthorName
    email := c.AuthorEmail
    firstCommitTime := c.Date
    commitset := ∅ }

/-- What TallyCommitsByPath does to the tally of a path for a commit that
touches it: the commit joins the commit set and the first and last commit time
are brought up to date. -/
def Tally.seen (c : Commit) (t : Tally) : Tally :=
  { t with
    commitset := insert c.ShortHash t.commitset
    firstCommitTime := timeutils.Min t.firstCommitTime c.Date
    lastCommitTime := timeutils.Max t.lastCommitTime c.Date }

/-- What TallyCommitsByPath does to the tally of a path for one file diff of a
commit. -/
def Tally.changed (c : Commit) (d : FileDiff) (t : Tally) : Tally :=
  if !c.IsMerge then
    { Tally.seen c t with
      numTallied := 1
      added := (Tally.seen c t).added + d.LinesAdded
      removed := (Tally.seen c t).removed + d.LinesRemoved }
  else Tally.seen c t

/-- What one file diff of a commit does to the entry of the path `p`. -/
def diffUpdate (c : Commit) (p : String) (o : Option Tally) (d : FileDiff) : Option Tally :=
  if d.Path = p then some (Tally.changed c d (o.getD (Tally.started c))) else o

/-- What a counted commit does to the entry of the path `p` of its author. -/
def pathUpdate (c : Commit) (p : String) (o : Option Tally) : Option Tally :=
  if c.FileDiffs.length = 0 then
    if p = NoDiffPathname then some (Tally.seen c (o.getD (Tally.started c))) else o
  else c.FileDiffs.foldl (diffUpdate c p) o

/-- What a commit does to the entry of the path `p` of the author `key`. -/
def keyUpdate (opts : TallyOpts) (key p : String) (o : Option Tally) (c : Commit) :
    Option Tally :=
  if c.IsMerge && !opts.CountMerges then o
  else if opts.Key c = key then pathUpdate c p o
  else o

/-- What TalliesByPath.Combine makes of the entries of `left` and `right` for
one author and path. -/
def combineAt : Option Tally → Option Tally → Option Tally
  | none, r => r
  | some l, r =>
    let t := l.Combine (r.getD { Tally.zero with firstCommitTime := Time.ofUnix (2 ^ 62) })
    some { t with numTallied := min t.numTallied 1 }

/-- The numbers of a tally that do not depend on the order of the commits: name
and email are left out, and the first commit time counts up to
`time.Unix(1<<62, 0)` only. -/
def Tally.norm (t : Tally) : Tally :=
  { t with
    name := ""
    email := ""
    firstCommitTime := timeutils.Min sentinelTime t.firstCommitTime }

/-- An update of the entry of a path that goes with Combine: entries with the
same numbers get the same numbers, and combining with a tally of the left side
before or after the update gives the same numbers. -/
structure Good (f : Option Tally → Option Tally) : Prop where
  congr : ∀ o o2 : Option Tally, o.map Tally.norm = o2.map Tally.norm →
    (f o).map Tally.norm = (f o2).map Tally.norm
  comm : ∀ (l : Tally) (r : Option Tally), 0 ≤ l.numTallied →
    (combineAt (some l) (f r)).map Tally.norm = (f (combineAt (some l) r)).map Tally.norm
  keeps : ∀ o : Option Tally, o.isSome = true → (f o).isSome = true

/-- The numTallied of a tally is 0 or 1 and its last commit time is not before
the zero time. -/
def Tally.Counted (t : Tally) : Prop :=
  (t.numTallied = 0 ∨ t.numTallied = 1) ∧ Time.zero.nanos ≤ t.lastCommitTime.nanos

/-! ## Quantities the determinism statement speaks about -/

/-- One change TallyCommitsByPath makes to the tally of a path: the commit
whose hash and date go into the tally, whether it counts the path as a file
changed, the lines it adds and removes, and the name and email a new tally
gets. -/
structure Touch where
  name : String
  email : String
  hash : String
  date : Time
  counts : Bool
  added : Int
  removed : Int

/-- The tally a change starts a path with. -/
def Touch.fresh (e : Touch) : Tally :=
  { name := e.name, email := e.email, commitset := ∅, added := 0, removed := 0,
    fileset := ∅, firstCommitTime := e.date, lastCommitTime := Time.zero, numTallied := 0 }

/-- The tally of a path after a change. -/
def Touch.step (e : Touch) (t : Tally) : Tally :=
  { name := t.name
    email := t.email
    commitset := insert e.hash t.commitset
    added := t.added + e.added
    removed := t.removed + e.removed
    fileset := t.fileset
    firstCommitTime := timeutils.Min t.firstCommitTime e.date
    lastCommitTime := timeutils.Max t.lastCommitTime e.date
    numTallied := if e.counts then 1 else t.numTallied }

/-- The entry of a path after a change, from the entry before it if there is
one. -/
def Touch.apply (e : Touch) (o : Option Tally) : Option Tally :=
  some (e.step (o.getD e.fresh))

/-- The change a commit without file diffs makes to the no-diff path. -/
def Touch.ofCommit (c : Commit) : Touch :=
  { name := c.AuthorName, email := c.AuthorEmail, hash := c.ShortHash, date := c.Date,
    counts := false, added := 0, removed := 0 }

/-- The change one file diff of a commit makes to its path: a merge commit
adds no lines and does not count the file. -/
def Touch.ofDiff (c : Commit) (d : FileDiff) : Touch :=
  { name := c.AuthorName, email := c.AuthorEmail, hash := c.ShortHash, date := c.Date,
    counts := !c.IsMerge
    added := if c.IsMerge then 0 else d.LinesAdded
    removed := if c.IsMerge then 0 else d.LinesRemoved }

/-- The changes a commit makes to the tally of the path `p` of the author
`key`, in order. -/
def touches (opts : TallyOpts) (key p : String) (c : Commit) : List Touch :=
  if c.IsMerge && !opts.CountMerges then []
  else if opts.Key c = key then
    if c.FileDiffs.length = 0 then
      if p = NoDiffPathname then [Touch.ofCommit c] else []
    else (c.FileDiffs.filter (fun d => decide (d.Path = p))).map (Touch.ofDiff c)
  else []

/-- A finalised tally without the author's name and email. -/
def FinalTally.withoutAuthor (f : FinalTally) : FinalTally :=
  { f with AuthorName := "", AuthorEmail := "" }

/-- The numbers of the finalised form of a tally. -/
def finalNumbers (t : Tally) : FinalTally :=
  { AuthorName := ""
    AuthorEmail := ""
    Commits := if t.commitset.card > 0 then t.commitset.card else t.numTallied
    LinesAdded := t.added
    LinesRemoved := t.removed
    FileCount := if t.fileset.card > 0 then t.fileset.card else t.numTallied
    FirstCommitTime := t.firstCommitTime
    LastCommitTime := t.lastCommitTime }

/-- The by-path tallies a run can arrive at for a list of commits: the commits
are tallied as one chunk, or the tallies of two chunks are combined; before
each step and at the end the entries of the maps may come in any order. -/
inductive Obtainable (opts : TallyOpts) : List Commit → TalliesByPath → Prop where
  | tally (cs : List Commit) (m : TalliesByPath) :
      TalliesByPath.Reordered m (cs.foldl (tallyCommitByPath opts) []) → Obtainable opts cs m
  | combine (cs1 cs2 : List Commit) (m1 m2 m : TalliesByPath) :
      Obtainable opts cs1 m1 → Obtainable opts cs2 m2 →
      TalliesByPath.Reordered m (m1.Combine m2) → Obtainable opts (cs1 ++ cs2) m

/-- What holds of every tally of the by-path tallies a run arrives at for the
commits `cs`, at the author `key`: numTallied is 0 or 1, the last commit time
is not before the zero time, the file set is empty, the name is the name of a
counted commit of the author and the email the email of one, and one of the two
is non-empty when that holds of every commit. -/
structure Entry (opts : TallyOpts) (cs : List Commit) (key : String) (t : Tally) : Prop where
  counted : t.Counted
  fileset : t.fileset = ∅
  named : (∀ c ∈ cs, c.AuthorName ≠ "" ∨ c.AuthorEmail ≠ "") → t.name ≠ "" ∨ t.email ≠ ""
  name : ∃ c ∈ cs, GitAuthor.counted opts c = true ∧ opts.Key c = key ∧ t.name = c.AuthorName
  email : ∃ c ∈ cs, GitAuthor.counted opts c = true ∧ opts.Key c = key ∧ t.email = c.AuthorEmail

/-- What holds of the by-path tallies a run arrives at for the commits `cs`:
they are maps, they hold the numbers of the tallies of `cs` as one chunk, and
each tally is an entry of its author. -/
structure Content (opts : TallyOpts) (cs : List Commit) (m : TalliesByPath) : Prop where
  nodup : (GoMap.keys m).Nodup
  paths : ∀ kv ∈ m, (GoMap.keys kv.2).Nodup
  numbers : ∀ key p, (tallyAt m key p).map Tally.norm
    = (cs.foldl (keyUpdate opts key p) none).map Tally.norm
  entries : ∀ key p t, tallyAt m key p = some t → Entry opts cs key t

/-! ## Calendar periods -/

/-- The day number on which the month with index `k` starts, the months being
counted from January of year 0: month `k % 12 + 1` of year `k / 12`. -/
def monthStart (k : Int) : Int :=
  daysFromCivil (k / 12) (k % 12 + 1) 1

/-- The index of the month that the day with the given number lies in. -/
def monthIndex (day : Int) : Int :=
  yearOfDay day * 12 + monthOfDay day - 1

/-- The day number of January 1 of a year. -/
def yearStart (year : Int) : Int :=
  daysFromCivil year 1 1

/-- The days from March 1 of year 0 to March 1 of the given year. -/
def daysBeforeYear (y : Int) : Int :=
  y / 400 * 146097 +
    ((y - y / 400 * 400) * 365 + (y - y / 400 * 400) / 4 - (y - y / 400 * 400) / 100)

/-! ## The tree of tallies -/

/-- Source: tally.TreeNode (tree.go). The children, a Go map from path element
to node pointer, are an association list of the nodes themselves: every node
has one parent, and the functions below return the node they changed. -/
inductive TreeNode where
  | mk (Tally : FinalTally) (Children : List (String × TreeNode)) (InWorkTree : Bool)
      (tallies : GoMap String GitAuthor.Tally)

/-- The field `Tally` of a node. -/
def TreeNode.Tally : TreeNode → FinalTally
  | .mk t _ _ _ => t

/-- The field `Children` of a node. -/
def TreeNode.Children : TreeNode → List (String × TreeNode)
  | .mk _ c _ _ => c

/-- The field `InWorkTree` of a node. -/
def TreeNode.InWorkTree : TreeNode → Bool
  | .mk _ _ w _ => w

/-- The field `tallies` of a node. -/
def TreeNode.tallies : TreeNode → GoMap String GitAuthor.Tally
  | .mk _ _ _ tl => tl

/-- Source: tally.newNode. -/
def newNode (inWTree : Bool) : TreeNode :=
  .mk FinalTally.zero [] inWTree []

/-- Go `strings.Cut(s, sep)` for a one-character separator, on characters:
the text before the first separator and the text after it, or `none` when
there is no separator. -/
def strings.cutChars (sep : Char) : List Char → Option (List Char × List Char)
  | [] => none
  | c :: cs =>
    if c = sep then some ([], cs)
    else
      match strings.cutChars sep cs with
      | some (before, after) => some (c :: before, after)
      | none => none

/-- Source: tally.splitPath, with `/` as the path separator. -/
def splitPath (path : String) : String × String :=
  match strings.cutChars '/' path.data with
  | some (dir, subpath) => (String.mk dir, String.mk subpath)
  | none => (path, "")

/-- Source: TreeNode.insert. The node is returned with the change made. The
fuel bounds the depth of the recursion, which takes one call per path element
and one for the leaf; `none` when it runs out. -/
def TreeNode.insert : Nat → TreeNode → String → String → GitAuthor.Tally → Bool →
    Option TreeNode
  | 0, _, _, _, _, _ => none
  | fuel + 1, t, path, key, tally, inWTree =>
    if path = "" then
      some (.mk t.Tally t.Children t.InWorkTree (GoMap.put t.tallies key tally))
    else
      let split := splitPath path
      let child : TreeNode :=
        match GoMap.find t.Children split.1 with
        | some c => c
        | none => newNode inWTree
      let child : TreeNode :=
        .mk child.Tally child.Children (child.InWorkTree || inWTree) child.tallies
      match TreeNode.insert fuel child split.2 key tally inWTree with
      | none => none
      | some child => some (.mk t.Tally (GoMap.put t.Children split.1 child) t.InWorkTree t.tallies)

/-- Source: TreeNode.Rank, the body of the loop over `child.tallies`. -/
def TreeNode.Rank.merge (tallies : GoMap String GitAuthor.Tally)
    (kv : String × GitAuthor.Tally) : GoMap String GitAuthor.Tally :=
  let tally : GitAuthor.Tally :=
    match GoMap.find tallies kv.1 with
    | some t => t
    | none =>
      { Tally.zero with
        name := kv.2.name
        email := kv.2.email
        commitset := ∅
        firstCommitTime := Time.ofUnix (2 ^ 62) }
  GoMap.put tallies kv.1 (tally.Combine kv.2)

mutual
/-- Source: TreeNode.Rank. The result is `none` where the source panics: a
Final that panics, or no tally to pick at a node. -/
def TreeNode.Rank (mode : TallyMode) : TreeNode → Option TreeNode
  | .mk _ children inWTree tallies =>
    match TreeNode.Rank.children mode children tallies with
    | none => none
    | some (children, tallies) =>
      match GitAuthor.Rank tallies mode with
      | none => none
      | some [] => none
      | some (top :: _) => some (.mk top children inWTree tallies)
termination_by structural t => t
/-- Source: TreeNode.Rank, the loop over the children (which does nothing for
a node without children): each child is ranked and its tallies are merged into
those of the node. -/
def TreeNode.Rank.children (mode : TallyMode) :
    List (String × TreeNode) → GoMap String GitAuthor.Tally →
      Option (List (String × TreeNode) × GoMap String GitAuthor.Tally)
  | [], tallies => some ([], tallies)
  | (p, child) :: rest, tallies =>
    match TreeNode.Rank mode child with
    | none => none
    | some child =>
      match TreeNode.Rank.children mode rest (child.tallies.foldl TreeNode.Rank.merge tallies) with
      | none => none
      | some (rest, tallies) => some ((p, child) :: rest, tallies)
termination_by structural children => children
end

/-- Source: tally.EmptyTreeErr. -/
def EmptyTreeErr : String := "No commits; tree is empty."

/-- Source: TallyCommitsTreeFromPaths, the loop over the paths of one author,
for an empty git root path. -/
def TallyCommitsTreeFromPaths.paths (fuel : Nat) (worktreePaths : Finset String)
    (key : String) : TreeNode → List (String × GitAuthor.Tally) → Option TreeNode
  | root, [] => some root
  | root, (path, tally) :: rest =>
    let relPath := path
    let inWTree := decide (relPath ∈ worktreePaths)
    match root.insert fuel relPath key tally inWTree with
    | none => none
    | some root => TallyCommitsTreeFromPaths.paths fuel worktreePaths key root rest

/-- Source: TallyCommitsTreeFromPaths, the loop over the authors. -/
def TallyCommitsTreeFromPaths.authors (fuel : Nat) (worktreePaths : Finset String) :
    TreeNode → TalliesByPath → Option TreeNode
  | root, [] => some root
  | root, (key, pathTallies) :: rest =>
    match TallyCommitsTreeFromPaths.paths fuel worktreePaths key root pathTallies with
    | none => none
    | some root => TallyCommitsTreeFromPaths.authors fuel worktreePaths root rest

/-- Source: TallyCommitsTreeFromPaths, for an empty git root path: the paths
are taken as they are, and the working directory, which the source reads first
and uses only for a non-empty git root path, is taken to be readable. The maps
are ranged over in the order of their lists. The fuel bounds the depth of each
insert. -/
def TallyCommitsTreeFromPaths (fuel : Nat) (talliesByPath : TalliesByPath)
    (worktreePaths : Finset String) : Run (Except String TreeNode) :=
  match TallyCommitsTreeFromPaths.authors fuel worktreePaths (newNode true) talliesByPath with
  | none => .outOfFuel
  | some root =>
    if root.Children.length == 0 then .result (.error EmptyTreeErr)
    else .result (.ok root)

/-- The node a path of elements leads to, from a node down. -/
def TreeNode.descend : TreeNode → List String → Option TreeNode
  | t, [] => some t
  | t, p :: rest =>
    match GoMap.find t.Children p with
    | some c => c.descend rest
    | none => none

/-- A quantity of a tally that Tally.Combine adds up: lines added, lines
removed, numTallied (sums), the commit set and the file set (unions), and the
presence of a tally. -/
structure TallyMeasure (M : Type) where
  μ : GitAuthor.Tally → M
  op : M → M → M
  unit : M
  assoc : ∀ a b c, op (op a b) c = op a (op b c)
  comm : ∀ a b, op a b = op b a
  unit_op : ∀ a, op unit a = a
  combine : ∀ a b, μ (a.Combine b) = op (μ a) (μ b)
  fresh : ∀ (name email : String) (t : GitAuthor.Tally),
    μ (GitAuthor.Tally.Combine
      { Tally.zero with
        name := name
        email := email
        commitset := ∅
        firstCommitTime := Time.ofUnix (2 ^ 62) } t) = μ t

/-- The quantity of the tally a map holds for an author key, the unit when it
holds none. -/
def TallyMeasure.own {M : Type} (ms : TallyMeasure M) (tallies : GoMap String GitAuthor.Tally)
    (key : String) : M :=
  match GoMap.find tallies key with
  | some t => ms.μ t
  | none => ms.unit

mutual
/-- The quantity of an author key added up over a node and all nodes below it. -/
def TreeNode.total {M : Type} (ms : TallyMeasure M) (key : String) : TreeNode → M
  | .mk _ children _ tallies => ms.op (ms.own tallies key) (TreeNode.totalList ms key children)
termination_by structural t => t
/-- The quantity of an author key added up over the nodes of a list of children
and all nodes below them. -/
def TreeNode.totalList {M : Type} (ms : TallyMeasure M) (key : String) :
    List (String × TreeNode) → M
  | [] => ms.unit
  | (_, child) :: rest => ms.op (TreeNode.total ms key child) (TreeNode.totalList ms key rest)
termination_by structural children => children
end

mutual
/-- A property of the children and the tallies of a node holds of the node and
of all nodes below it. -/
def TreeNode.All (P : List (String × TreeNode) → GoMap String GitAuthor.Tally → Prop) :
    TreeNode → Prop
  | .mk _ children _ tallies => P children tallies ∧ TreeNode.AllList P children
termination_by structural t => t
/-- A property of the children and the tallies of a node holds of all nodes of
a list of children and of all nodes below them. -/
def TreeNode.AllList (P : List (String × TreeNode) → GoMap String GitAuthor.Tally → Prop) :
    List (String × TreeNode) → Prop
  | [] => True
  | (_, child) :: rest => TreeNode.All P child ∧ TreeNode.AllList P rest
termination_by structural children => children
end

/-- The tallies of a node are a map of tallies that each have a name or an
email. -/
def TreeNode.Sound (tallies : GoMap String GitAuthor.Tally) : Prop :=
  (GoMap.keys tallies).Nodup ∧ ∀ kv ∈ tallies, kv.2.name ≠ "" ∨ kv.2.email ≠ ""

/-- A node of a tree built by TreeNode.insert: its tallies are sound, and it
has a tally or a child. -/
def TreeNode.Built (children : List (String × TreeNode))
    (tallies : GoMap String GitAuthor.Tally) : Prop :=
  TreeNode.Sound tallies ∧ (tallies ≠ [] ∨ children ≠ [])

/-- The entries of by-path tallies in the order TallyCommitsTreeFromPaths
inserts them: author key, path, tally. -/
def TalliesByPath.entries (m : TalliesByPath) : List (String × String × GitAuthor.Tally) :=
  m.flatMap (fun kv => kv.2.map (fun pt => (kv.1, pt.1, pt.2)))

/-- The quantities of a list of tallies, added up. -/
def TallyMeasure.sum {M : Type} (ms : TallyMeasure M) (ts : List GitAuthor.Tally) : M :=
  ts.foldr (fun t acc => ms.op (ms.μ t) acc) ms.unit

/-- The measure of the lines added. -/
def TallyMeasure.added : TallyMeasure Int :=
  { μ := fun t => t.added, op := fun a b => a + b, unit := 0
    assoc := fun a b c => add_assoc a b c
    comm := fun a b => add_comm a b
    unit_op := fun a => zero_add a
    combine := fun _ _ => rfl
    fresh := fun _ _ t => by simp [Tally.Combine, Tally.zero] }

/-- The measure of the lines removed. -/
def TallyMeasure.removed : TallyMeasure Int :=
  { μ := fun t => t.removed, op := fun a b => a + b, unit := 0
    assoc := fun a b c => add_assoc a b c
    comm := fun a b => add_comm a b
    unit_op := fun a => zero_add a
    combine := fun _ _ => rfl
    fresh := fun _ _ t => by simp [Tally.Combine, Tally.zero] }

/-- The measure of numTallied. -/
def TallyMeasure.numTallied : TallyMeasure Int :=
  { μ := fun t => t.numTallied, op := fun a b => a + b, unit := 0
    assoc := fun a b c => add_assoc a b c
    comm := fun a b => add_comm a b
    unit_op := fun a => zero_add a
    combine := fun _ _ => rfl
    fresh := fun _ _ t => by simp [Tally.Combine, Tally.zero] }

/-- The measure of the commit set. -/
def TallyMeasure.commitset : TallyMeasure (Finset String) :=
  { μ := fun t => t.commitset, op := fun a b => a ∪ b, unit := ∅
    assoc := fun a b c => Finset.union_assoc a b c
    comm := fun a b => Finset.union_comm a b
    unit_op := fun a => Finset.empty_union a
    combine := fun _ _ => rfl
    fresh := fun _ _ t => by simp [Tally.Combine, Tally.zero, unionInPlace] }

/-- The measure of the file set. -/
def TallyMeasure.fileset : TallyMeasure (Finset String) :=
  { μ := fun t => t.fileset, op := fun a b => a ∪ b, unit := ∅
    assoc := fun a b c => Finset.union_assoc a b c
    comm := fun a b => Finset.union_comm a b
    unit_op := fun a => Finset.empty_union a
    combine := fun _ _ => rfl
    fresh := fun _ _ t => by simp [Tally.Combine, Tally.zero, unionInPlace] }

namespace Examples

/-- A tally named bob and nothing else. -/
def bobOnly : Tally := { Tally.zero with name := "bob" }

/-- A tally named jim and nothing else. -/
def jimOnly : Tally := { Tally.zero with name := "jim" }

/-- A tally of bob whose first and last commit are at the Unix epoch. -/
def bobEpoch : Tally :=
  { name := "bob", email := "", commitset := ∅, added := 0, removed := 0, fileset := ∅,
    firstCommitTime := Time.ofUnix 0, lastCommitTime := Time.ofUnix 0, numTallied := 0 }

/-- A tally of bob with two commits in its commit set, no file set, numTallied 3. -/
def bobTwoCommits : Tally :=
  { name := "bob", email := "", commitset := {"a1", "b2"}, added := 0, removed := 0,
    fileset := ∅, firstCommitTime := Time.zero, lastCommitTime := Time.zero, numTallied := 3 }

/-- The two commits of TestTallyCommits. -/
def testCommits : List Commit :=
  [ { Hash := "baa", ShortHash := "baa", IsMerge := false, AuthorName := "bob",
      AuthorEmail := "bob@mail.com", Date := Time.zero,
      FileDiffs := [⟨"bim.txt", 4, 0⟩, ⟨"vim.txt", 8, 2⟩, ⟨"nim.txt", 2, 1⟩] },
    { Hash := "bab", ShortHash := "bab", IsMerge := false, AuthorName := "jim",
      AuthorEmail := "jim@mail.com", Date := Time.zero,
      FileDiffs := [⟨"bim.txt", 3, 1⟩] } ]

/-- The options of TestTallyCommits: lines mode, keyed by email. -/
def testOpts : TallyOpts :=
  { Mode := TallyMode.LinesMode, Key := fun c => c.AuthorEmail, CountMerges := false }

/-- A single commit without author name and email, touching one file. -/
def namelessCommits : List Commit :=
  [ { Hash := "abc", ShortHash := "abc", IsMerge := false, AuthorName := "",
      AuthorEmail := "", Date := Time.ofUnix 0, FileDiffs := [⟨"a.txt", 1, 0⟩] } ]

/-- A merge commit by bob that touches bim.txt. -/
def bobMerge : Commit :=
  { Hash := "bac", ShortHash := "bac", IsMerge := true, AuthorName := "bob",
    AuthorEmail := "bob@mail.com", Date := Time.zero, FileDiffs := [⟨"bim.txt", 5, 5⟩] }

/-- Three tallies keyed by author: jim and bob tie on commits, ann has fewer. -/
def rankInput : GoMap String Tally :=
  [ ("jim", { name := "jim", email := "", commitset := ∅, added := 3, removed := 1, fileset := ∅,
              firstCommitTime := Time.ofUnix 100, lastCommitTime := Time.ofUnix 200,
              numTallied := 2 }),
    ("ann", { name := "ann", email := "", commitset := ∅, added := 9, removed := 0, fileset := ∅,
              firstCommitTime := Time.ofUnix 50, lastCommitTime := Time.ofUnix 900,
              numTallied := 1 }),
    ("bob", { name := "bob", email := "", commitset := ∅, added := 1, removed := 1, fileset := ∅,
              firstCommitTime := Time.ofUnix 150, lastCommitTime := Time.ofUnix 300,
              numTallied := 2 }) ]

/-- The zone of the examples: UTC. -/
def utc : Location := ⟨0⟩

/-- A tally with the given lines added and nothing else. -/
def addedOnly (n : Int) : Tally := { Tally.zero with added := n }

/-- A bucket of the examples: the given day of April 2024, named by its date. -/
def aprilBucket (day : Int) (name : String) (tallies : GoMap String Tally) : TimeBucket :=
  { Name := name, Time := Time.Date utc 2024 4 day, Tally := FinalTally.zero,
    TotalTally := FinalTally.zero, tallies := tallies }

/-- The series `a` of TestTimeSeriesCombine. -/
def seriesA : TimeSeries :=
  [ aprilBucket 1 "2024-04-01" [("alice", addedOnly 3), ("bob", addedOnly 2)],
    aprilBucket 2 "2024-04-02" [("bob", addedOnly 1)],
    aprilBucket 3 "2024-04-03" [("bob", addedOnly 4), ("john", addedOnly 7)] ]

/-- The series `b` of TestTimeSeriesCombine. -/
def seriesB : TimeSeries :=
  [ aprilBucket 2 "2024-04-02" [("alice", addedOnly 1)],
    aprilBucket 3 "2024-04-03" [("bob", addedOnly 2)],
    aprilBucket 4 "2024-04-04" [("alice", addedOnly 9)] ]

/-- A series of one empty bucket at the Unix epoch. -/
def epochSeries : TimeSeries :=
  [ { Name := "1970-01-01", Time := ⟨0⟩, Tally := FinalTally.zero,
      TotalTally := FinalTally.zero, tallies := [] } ]

/-- A series of one empty bucket of the same name, one nanosecond after the epoch. -/
def epochPlusNanoSeries : TimeSeries :=
  [ { Name := "1970-01-01", Time := ⟨1⟩, Tally := FinalTally.zero,
      TotalTally := FinalTally.zero, tallies := [] } ]

/-- A daily series with a gap: buckets for 2024-04-01 and 2024-04-03 only. -/
def sparseSeries : TimeSeries :=
  [ aprilBucket 1 "2024-04-01" [("bob", addedOnly 2)],
    aprilBucket 3 "2024-04-03" [("bob", addedOnly 4)] ]

/-- The series `sparseSeries` with an empty bucket for 2024-04-02 in the gap. -/
def sparseSeriesFilled : TimeSeries :=
  [ aprilBucket 1 "2024-04-01" [("bob", addedOnly 2)],
    aprilBucket 2 "2024-04-02" [],
    aprilBucket 3 "2024-04-03" [("bob", addedOnly 4)] ]


/-- The wall-clock time of the parser examples. -/
def parseNow : Time := Time.ofUnix 1800000000

/-- A record of bob with two ordinary file diffs, directly followed by the
next record. -/
def bobRecord : LogRecord :=
  { hash := "9e9ea7662b1001d860471a4cece5e2f1de8062fb"
    shortHash := "9e9ea76"
    parents := ["aaa1111", "bbb2222"]
    authorName := "Bob"
    authorEmail := "bob@mail.com"
    timestamp := "1700000000"
    diffs := [.ordinary "3" "5" "foo/bar.txt", .ordinary "-" "-" "bin.dat"]
    blankAfter := false }

/-- A record of jim with a rename, followed by a blank line. -/
def jimRecord : LogRecord :=
  { hash := "879e94bbbcbbec348ba1df332dd46e7314c62df1"
    shortHash := "879e94b"
    parents := ["9e9ea76"]
    authorName := "Jim"
    authorEmail := ""
    timestamp := "1700000100"
    diffs := [.ordinary "1" "0" "a.txt", .rename "1" "2" "file-rename/bar.go" "file-rename/bim.go"]
    blankAfter := true }

/-- A record of jim with one ordinary file diff, followed by a blank line. -/
def jimPlainRecord : LogRecord :=
  { jimRecord with diffs := [.ordinary "1" "0" "a.txt"] }

/-- The six header lines of bob's record. -/
def bobHeader : List String :=
  ["9e9ea7662b1001d860471a4cece5e2f1de8062fb", "9e9ea76", "aaa1111", "Bob", "bob@mail.com",
   "1700000000"]

/-- The commit of bob's header, without file diffs. -/
def bobHeaderCommit : Commit :=
  { Hash := "9e9ea7662b1001d860471a4cece5e2f1de8062fb"
    ShortHash := "9e9ea76"
    IsMerge := false
    AuthorName := "Bob"
    AuthorEmail := "bob@mail.com"
    Date := Time.ofUnix 1700000000
    FileDiffs := [] }

/-- A commit whose one file, named by forty hexadecimal digits, is renamed to
b.txt. -/
def hashNamedRename : LineSeq :=
  (bobHeader ++ ["1\t2\t", "aaaaaaaaaabbbbbbbbbbccccccccccdddddddddd", "b.txt"]).map
    (fun l => (l, none))

/-- A commit whose one file diff has a tab in its path. -/
def tabInPath : LineSeq :=
  (bobHeader ++ ["1\t2\ta\tb"]).map (fun l => (l, none))

/-- A buffer that starts with a newline and holds no NUL: newline, `abc`. -/
def leadingNewline : List Nat := [10, 97, 98, 99]

/-- The commit of the pathspec scenario: diffs of a.txt, vendor/b.txt and c.md. -/
def scenarioCommit : Commit :=
  { bobHeaderCommit with
    FileDiffs := [{ Path := "a.txt", LinesAdded := 1, LinesRemoved := 0 },
                  { Path := "vendor/b.txt", LinesAdded := 2, LinesRemoved := 0 },
                  { Path := "c.md", LinesAdded := 3, LinesRemoved := 0 }] }

/-- The first commit of TestGobAddGetAddGet. -/
def commitOne : Commit :=
  { Hash := "1e9ea7662b1001d860471a4cece5e2f1de8062fb"
    ShortHash := "1e9ea7662b1"
    IsMerge := false
    AuthorName := "John"
    AuthorEmail := "john@doe.local"
    Date := Time.ofUnix 1738254926
    FileDiffs := [{ Path := "foo/bar.txt", LinesAdded := 3, LinesRemoved := 5 }] }

/-- The second commit of TestGobAddGetAddGet. -/
def commitTwo : Commit :=
  { Hash := "2e9ea7662b1001d860471a4cece5e2f1de8062fb"
    ShortHash := "2e9ea7662b1"
    IsMerge := false
    AuthorName := "John"
    AuthorEmail := "john@doe.local"
    Date := Time.ofUnix 1738341326
    FileDiffs := [{ Path := "foo/bim.txt", LinesAdded := 4, LinesRemoved := 0 }] }

/-- A stand-in for the gob encoding on the arrays of the example: one byte
that names the array. -/
def toyEncode (commits : List Commit) : List Nat :=
  if commits = [commitOne] then [1] else if commits = [commitTwo] then [2] else [0]

/-- The decoding that goes with `toyEncode`. -/
def toyDecode (data : List Nat) : Option (List Commit) :=
  if data = [1] then some [commitOne] else if data = [2] then some [commitTwo] else none

/-- A backend that was never opened and has no file. -/
def closedBackend : GobBackend :=
  { Dir := "cache", Path := "cache/commits.gob", wasOpened := false, isDirty := false,
    dirExists := true, file := none }

/-- Forty-one hexadecimal digits. -/
def hex41 : String := "9e9ea7662b1001d860471a4cece5e2f1de8062fb0"

/-- Forty characters of the class of commitHashRegexp, with `^` in the middle. -/
def caretInside : String := "9e9ea7662b1001d86047^a4cece5e2f1de8062fb"

/-- A full hash with a `^` in front. -/
def caretInFront : String := "^9e9ea7662b1001d860471a4cece5e2f1de8062fb"

/-- The backend after the first commit of TestGobAddGetAddGet has been added
twice to a fresh cache, with the stand-in encoding. -/
def twiceAdded : GobBackend :=
  { Dir := "cache", Path := "cache/commits.gob", wasOpened := true, isDirty := true,
    dirExists := true, file := some [1, 0, 0, 0, 1, 1, 0, 0, 0, 1] }

/-- The options of TestTallyCommitsTimelineEmpty: commit mode, keyed by email. -/
def emptyTimelineOpts : TallyOpts :=
  { Mode := TallyMode.CommitMode, Key := fun c => c.AuthorEmail, CountMerges := false }

/-- Files mode, keyed by author name, merges not counted. -/
def filesOpts : TallyOpts :=
  { Mode := TallyMode.FilesMode, Key := fun c => c.AuthorName, CountMerges := false }

/-- Three commits of April 1, 2024: two by alice that change no file, one by
bob that changes a.txt. -/
def quietDay : List Commit :=
  [ { Hash := "a1", ShortHash := "a1", IsMerge := false, AuthorName := "alice",
      AuthorEmail := "alice@mail.com", Date := Time.ofUnix 1711965600, FileDiffs := [] },
    { Hash := "a2", ShortHash := "a2", IsMerge := false, AuthorName := "alice",
      AuthorEmail := "alice@mail.com", Date := Time.ofUnix 1711969200, FileDiffs := [] },
    { Hash := "b1", ShortHash := "b1", IsMerge := false, AuthorName := "bob",
      AuthorEmail := "bob@mail.com", Date := Time.ofUnix 1711972800,
      FileDiffs := [⟨"a.txt", 1, 0⟩] } ]

/-- The bucket of April 1, 2024 with the tallies of the three commits. -/
def quietDayBucket : TimeBucket :=
  { Name := "2024-04-01", Time := Time.ofUnix 1711929600, Tally := FinalTally.zero,
    TotalTally := FinalTally.zero,
    tallies :=
      [ ("alice", { name := "alice", email := "alice@mail.com", commitset := ∅, added := 0,
                    removed := 0, fileset := ∅, firstCommitTime := Time.zero,
                    lastCommitTime := Time.zero, numTallied := 2 }),
        ("bob", { name := "bob", email := "bob@mail.com", commitset := ∅, added := 1,
                  removed := 0, fileset := {"a.txt"}, firstCommitTime := Time.zero,
                  lastCommitTime := Time.zero, numTallied := 1 }) ] }

/-- A commit by bob dated one second after `time.Unix(1<<62, 0)` that changes
a.txt. -/
def lateCommit : Commit :=
  { Hash := "f00", ShortHash := "f00", IsMerge := false, AuthorName := "bob",
    AuthorEmail := "bob@mail.com", Date := Time.ofUnix (2 ^ 62 + 1),
    FileDiffs := [⟨"a.txt", 1, 0⟩] }

/-- The by-path tallies of the late commit, keyed by email. -/
def lateTallies : TalliesByPath :=
  [ ("bob@mail.com",
      [ ("a.txt", { name := "bob", email := "bob@mail.com", commitset := {"f00"}, added := 1,
                    removed := 0, fileset := ∅, firstCommitTime := Time.ofUnix (2 ^ 62 + 1),
                    lastCommitTime := Time.ofUnix (2 ^ 62 + 1), numTallied := 1 }) ]) ]

/-- Two commits with one email and two names, each changing a file of its own. -/
def twoNames : List Commit :=
  [ { Hash := "c01", ShortHash := "c01", IsMerge := false, AuthorName := "Bob",
      AuthorEmail := "bob@mail.com", Date := Time.ofUnix 100, FileDiffs := [⟨"a.txt", 1, 0⟩] },
    { Hash := "c02", ShortHash := "c02", IsMerge := false, AuthorName := "Robert",
      AuthorEmail := "bob@mail.com", Date := Time.ofUnix 200, FileDiffs := [⟨"b.txt", 2, 0⟩] } ]

/-- The tally of a.txt for the two commits. -/
def twoNamesFirst : Tally :=
  { name := "Bob", email := "bob@mail.com", commitset := {"c01"}, added := 1, removed := 0,
    fileset := ∅, firstCommitTime := Time.ofUnix 100, lastCommitTime := Time.ofUnix 100,
    numTallied := 1 }

/-- The tally of b.txt for the two commits. -/
def twoNamesSecond : Tally :=
  { name := "Robert", email := "bob@mail.com", commitset := {"c02"}, added := 2, removed := 0,
    fileset := ∅, firstCommitTime := Time.ofUnix 200, lastCommitTime := Time.ofUnix 200,
    numTallied := 1 }

/-- The by-path tallies of the two commits, keyed by email, a.txt first. -/
def twoNamesTallies : TalliesByPath :=
  [("bob@mail.com", [("a.txt", twoNamesFirst), ("b.txt", twoNamesSecond)])]

/-- The same by-path tallies with b.txt visited first. -/
def twoNamesSwapped : TalliesByPath :=
  [("bob@mail.com", [("b.txt", twoNamesSecond), ("a.txt", twoNamesFirst)])]

/-- Two commits for first-modified ranking: one dated at second 0, one at the
least second an int64 holds. -/
def leastSecondCommits : List Commit :=
  [ { Hash := "c01", ShortHash := "c01", IsMerge := false, AuthorName := "new",
      AuthorEmail := "", Date := Time.ofUnix 0, FileDiffs := [] },
    { Hash := "c02", ShortHash := "c02", IsMerge := false, AuthorName := "old",
      AuthorEmail := "", Date := Time.ofUnix (-9223372036854775808), FileDiffs := [] } ]

/-- Options for first-modified ranking, keyed by author name. -/
def firstModifiedOpts : TallyOpts :=
  { Mode := TallyMode.FirstModifiedMode, Key := fun c => c.AuthorName, CountMerges := false }

/-- The tallies of the two commits of `leastSecondCommits`. -/
def leastSecond : GoMap String Tally :=
  [ ("new", { name := "new", email := "", commitset := ∅, added := 0, removed := 0, fileset := ∅,
              firstCommitTime := Time.ofUnix 0, lastCommitTime := Time.ofUnix 0,
              numTallied := 1 }),
    ("old", { name := "old", email := "", commitset := ∅, added := 0, removed := 0, fileset := ∅,
              firstCommitTime := Time.ofUnix (-9223372036854775808),
              lastCommitTime := Time.zero, numTallied := 1 }) ]

/-- A record of bob dated at the greatest second an int64 holds. -/
def wrappedRecord : LogRecord :=
  { bobRecord with timestamp := "9223372036854775807" }

/-- A series of one empty bucket at the Unix epoch whose time is in another
representation than that of `epochSeries` (as after `.UTC()`). -/
def epochUTCSeries : TimeSeries :=
  [ { Name := "1970-01-01", Time := ⟨0⟩, TimeRepr := 1, Tally := FinalTally.zero,
      TotalTally := FinalTally.zero, tallies := [] } ]

/-- The tally of bob the test expects at the root. -/
def treeRootTally : FinalTally :=
  { AuthorName := "bob", AuthorEmail := "bob@mail.com", Commits := 2, LinesAdded := 35,
    LinesRemoved := 2, FileCount := 2, FirstCommitTime := Time.zero,
    LastCommitTime := Time.zero }

/-- The tally of bob the test expects at foo/bim.txt. -/
def treeBimTally : FinalTally :=
  { AuthorName := "bob", AuthorEmail := "bob@mail.com", Commits := 2, LinesAdded := 27,
    LinesRemoved := 0, FileCount := 1, FirstCommitTime := Time.zero,
    LastCommitTime := Time.zero }

end Examples

/-! ## Theorems: Go maps -/

section GoMapLemmas

variable {K V : Type} [DecidableEq K]

theorem GoMap.find_put_self (m : GoMap K V) (k : K) (v : V) :
    GoMap.find (GoMap.put m k v) k = some v := by
  induction m with
  | nil => simp [GoMap.put, GoMap.find]
  | cons kv rest ih =>
    obtain ⟨k', v'⟩ := kv
    by_cases h : k' = k
    · simp [GoMap.put, GoMap.find, h]
    · simp [GoMap.put, GoMap.find, h, ih]

theorem GoMap.find_put_ne (m : GoMap K V) (k k2 : K) (v : V) (hne : k2 ≠ k) :
    GoMap.find (GoMap.put m k v) k2 = GoMap.find m k2 := by
  induction m with
  | nil => simp [GoMap.put, GoMap.find, Ne.symm hne]
  | cons kv rest ih =>
    obtain ⟨k', v'⟩ := kv
    by_cases h : k' = k
    · subst h
      simp [GoMap.put, GoMap.find, Ne.symm hne]
    · by_cases h2 : k' = k2
      · subst h2
        simp [GoMap.put, GoMap.find, hne]
      · simp [GoMap.put, GoMap.find, h, h2, ih]

theorem GoMap.find_put (m : GoMap K V) (k k2 : K) (v : V) :
    GoMap.find (GoMap.put m k v) k2 = if k2 = k then some v else GoMap.find m k2 := by
  by_cases h : k2 = k
  · subst h; simp [GoMap.find_put_self]
  · simp [h, GoMap.find_put_ne m k k2 v h]

theorem GoMap.mem_keys_put (m : GoMap K V) (k k2 : K) (v : V) :
    k2 ∈ GoMap.keys (GoMap.put m k v) ↔ k2 = k ∨ k2 ∈ GoMap.keys m := by
  induction m with
  | nil => simp [GoMap.put, GoMap.keys]
  | cons kv rest ih =>
    obtain ⟨k', v'⟩ := kv
    by_cases h : k' = k
    · subst h
      simp [GoMap.put, GoMap.keys]
    · simp only [GoMap.keys] at ih
      simp only [GoMap.put, h, GoMap.keys, if_false, List.map_cons, List.mem_cons, ih]
      tauto

theorem GoMap.nodup_keys_put (m : GoMap K V) (k : K) (v : V) (h : (GoMap.keys m).Nodup) :
    (GoMap.keys (GoMap.put m k v)).Nodup := by
  induction m with
  | nil => simp [GoMap.put, GoMap.keys]
  | cons kv rest ih =>
    obtain ⟨k', v'⟩ := kv
    have h' : k' ∉ GoMap.keys rest ∧ (GoMap.keys rest).Nodup := by
      simpa [GoMap.keys] using h
    by_cases hk : k' = k
    · subst hk
      simpa [GoMap.put, GoMap.keys] using h
    · have hmem : k' ∉ GoMap.keys (GoMap.put rest k v) := by
        rw [GoMap.mem_keys_put]
        rintro (h1 | h1)
        · exact hk h1
        · exact h'.1 h1
      have := ih h'.2
      simp only [GoMap.put, hk, if_false]
      simp only [GoMap.keys, List.map_cons, List.nodup_cons] at hmem this ⊢
      exact ⟨hmem, this⟩

theorem GoMap.mem_keys_iff (m : GoMap K V) (k : K) :
    k ∈ GoMap.keys m ↔ ∃ v, GoMap.find m k = some v := by
  induction m with
  | nil => simp [GoMap.keys, GoMap.find]
  | cons kv rest ih =>
    obtain ⟨k', v'⟩ := kv
    by_cases h : k' = k
    · subst h; simp [GoMap.keys, GoMap.find]
    · simp only [GoMap.keys] at ih
      simp [GoMap.keys, GoMap.find, h, ih, Ne.symm h]

theorem GoMap.find_eq_none_iff (m : GoMap K V) (k : K) :
    GoMap.find m k = none ↔ k ∉ GoMap.keys m := by
  rw [GoMap.mem_keys_iff]
  cases h : GoMap.find m k <;> simp

theorem GoMap.find_mem (m : GoMap K V) (k : K) (v : V) (h : GoMap.find m k = some v) :
    (k, v) ∈ m := by
  induction m with
  | nil => simp [GoMap.find] at h
  | cons kv rest ih =>
    obtain ⟨k', v'⟩ := kv
    by_cases hk : k' = k
    · subst hk
      simp [GoMap.find] at h
      simp [h]
    · simp [GoMap.find, hk] at h
      exact List.mem_cons_of_mem _ (ih h)

theorem GoMap.mem_find (m : GoMap K V) (k : K) (v : V) (hnd : (GoMap.keys m).Nodup)
    (h : (k, v) ∈ m) : GoMap.find m k = some v := by
  induction m with
  | nil => simp at h
  | cons kv rest ih =>
    obtain ⟨k', v'⟩ := kv
    have h' : k' ∉ GoMap.keys rest ∧ (GoMap.keys rest).Nodup := by
      simpa [GoMap.keys] using hnd
    rcases List.mem_cons.mp h with h1 | h1
    · cases h1
      simp [GoMap.find]
    · have hk : k' ≠ k := by
        rintro rfl
        exact h'.1 (List.mem_map_of_mem Prod.fst h1)
      simp [GoMap.find, hk, ih h'.2 h1]

/-- The sum of an integer measure over the values of a map changes, on a write,
by the new value's measure minus the old one's. -/
theorem GoMap.sum_put (f : V → Int) (m : GoMap K V) (k : K) (v : V) :
    ((GoMap.put m k v).map (fun kv => f kv.2)).sum =
      (m.map (fun kv => f kv.2)).sum
        - (match GoMap.find m k with | some v0 => f v0 | none => 0) + f v := by
  induction m with
  | nil => simp [GoMap.put, GoMap.find]
  | cons kv rest ih =>
    obtain ⟨k', v'⟩ := kv
    by_cases h : k' = k
    · simp [GoMap.put, GoMap.find, h, add_comm]
    · simp only [GoMap.put, GoMap.find, h, if_false, List.map_cons, List.sum_cons, ih]
      ring

end GoMapLemmas

/-! ## Theorems: the combine algebra -/

section TimeLemmas

theorem Time.ext_nanos {a b : Time} (h : a.nanos = b.nanos) : a = b := by
  cases a; cases b; simp_all

theorem timeutils.Min_nanos (a b : Time) :
    (timeutils.Min a b).nanos = min a.nanos b.nanos := by
  unfold timeutils.Min Time.Before
  by_cases h : b.nanos < a.nanos
  · simp [h, min_eq_right (le_of_lt h)]
  · simp [h, min_eq_left (not_lt.mp h)]

theorem timeutils.Max_nanos (a b : Time) :
    (timeutils.Max a b).nanos = max a.nanos b.nanos := by
  unfold timeutils.Max Time.Before
  by_cases h : b.nanos < a.nanos
  · simp [h, max_eq_left (le_of_lt h)]
  · simp [h, max_eq_right (not_lt.mp h)]

theorem timeutils.Min_comm (a b : Time) : timeutils.Min a b = timeutils.Min b a :=
  Time.ext_nanos (by simp [timeutils.Min_nanos, min_comm])

theorem timeutils.Max_comm (a b : Time) : timeutils.Max a b = timeutils.Max b a :=
  Time.ext_nanos (by simp [timeutils.Max_nanos, max_comm])

theorem timeutils.Min_assoc (a b c : Time) :
    timeutils.Min a (timeutils.Min b c) = timeutils.Min (timeutils.Min a b) c :=
  Time.ext_nanos (by simp [timeutils.Min_nanos, min_assoc])

theorem timeutils.Max_assoc (a b c : Time) :
    timeutils.Max a (timeutils.Max b c) = timeutils.Max (timeutils.Max a b) c :=
  Time.ext_nanos (by simp [timeutils.Max_nanos, max_assoc])

/-- The wrap of `time.Unix`: the greatest int64 second gives an instant before
the epoch, 2^64 seconds earlier than the second asked for, and it is not after
a time of parsing in the year 2027; the seconds up to 9223371974719179007 are
kept. -/
theorem Time.ofUnix_wraps :
    Time.ofUnix 9223372036854775807 = ⟨-9223372036854775809 * Time.second⟩ ∧
    (Time.ofUnix 9223372036854775807).After Examples.parseNow = false ∧
    Time.ofUnix 9223371974719179007 = ⟨9223371974719179007 * Time.second⟩ ∧
    Time.ofUnix 9223371974719179008 = ⟨-9223372098990372608 * Time.second⟩ := by
  decide

/-- In the range that does not wrap, `time.Unix(sec, 0)` is the instant `sec`
seconds after the epoch. -/
theorem Time.ofUnix_nanos (sec : Int) (h0 : -9223372098990372608 ≤ sec)
    (h1 : sec ≤ 9223371974719179007) : (Time.ofUnix sec).nanos = sec * Time.second := by
  simp only [Time.ofUnix, wrapInt64, Time.second]
  omega

/-- The result of `t.Unix()` is an int64. -/
theorem Time.Unix_range (t : Time) :
    -9223372036854775808 ≤ t.Unix ∧ t.Unix ≤ 9223372036854775807 := by
  simp only [Time.Unix, wrapInt64]
  omega

/-- The seconds given to `time.Unix` are the seconds `Unix()` returns, whether
or not the stored count wrapped. -/
theorem Time.Unix_ofUnix (sec : Int) (h0 : -9223372036854775808 ≤ sec)
    (h1 : sec ≤ 9223372036854775807) : (Time.ofUnix sec).Unix = sec := by
  simp only [Time.Unix, Time.ofUnix, wrapInt64, Time.second]
  omega

end TimeLemmas

section OrLemmas

theorem or_empty_left (b : String) : or "" b = b := by
  simp [or]

theorem or_empty_right (a : String) : or a "" = a := by
  unfold or
  by_cases h : a = "" <;> simp [h]

theorem or_of_ne (a b : String) (h : a ≠ "") : or a b = a := by
  unfold or
  by_cases hb : b = "" <;> simp [h, hb]

theorem or_assoc_str (a b c : String) : or a (or b c) = or (or a b) c := by
  by_cases ha : a = ""
  · subst ha; simp [or_empty_left]
  · rw [or_of_ne a _ ha, or_of_ne a b ha, or_of_ne a c ha]

theorem or_comm_iff (a b : String) : or a b = or b a ↔ (a = b ∨ a = "" ∨ b = "") := by
  by_cases ha : a = ""
  · subst ha; simp [or_empty_left, or_empty_right]
  · by_cases hb : b = ""
    · subst hb; simp [or_empty_left, or_empty_right]
    · rw [or_of_ne a b ha, or_of_ne b a hb]; simp [ha, hb]

end OrLemmas

/-- C1 (counterexample): two tallies with different non-empty names combine to
different tallies depending on the receiver (bob.Combine(jim) is named bob,
jim.Combine(bob) is named jim), so Combine is not commutative in the name. -/
theorem Tally.Combine_not_comm :
    Examples.bobOnly.Combine Examples.jimOnly ≠ Examples.jimOnly.Combine Examples.bobOnly ∧
    (Examples.bobOnly.Combine Examples.jimOnly).name = "bob" ∧
    (Examples.jimOnly.Combine Examples.bobOnly).name = "jim" := by
  decide

/-- C1 (amended): A.Combine(B) and B.Combine(A) agree in commit set, file set,
lines added, lines removed, first and last commit time and numTallied; they
agree in the name (email) exactly when the two names (emails) are equal or one
of them is empty, since otherwise each side keeps its receiver's. -/
theorem Tally.Combine_comm_fields (a b : Tally) :
    (a.Combine b).commitset = (b.Combine a).commitset ∧
    (a.Combine b).fileset = (b.Combine a).fileset ∧
    (a.Combine b).added = (b.Combine a).added ∧
    (a.Combine b).removed = (b.Combine a).removed ∧
    (a.Combine b).firstCommitTime = (b.Combine a).firstCommitTime ∧
    (a.Combine b).lastCommitTime = (b.Combine a).lastCommitTime ∧
    (a.Combine b).numTallied = (b.Combine a).numTallied ∧
    ((a.Combine b).name = (b.Combine a).name ↔ (a.name = b.name ∨ a.name = "" ∨ b.name = "")) ∧
    ((a.Combine b).email = (b.Combine a).email ↔
      (a.email = b.email ∨ a.email = "" ∨ b.email = "")) := by
  simp only [Tally.Combine, unionInPlace]
  refine ⟨Finset.union_comm _ _, Finset.union_comm _ _, add_comm _ _, add_comm _ _,
    timeutils.Min_comm _ _, timeutils.Max_comm _ _, add_comm _ _, or_comm_iff _ _, or_comm_iff _ _⟩

/-- C2: Combine is associative: A.Combine(B.Combine(C)) equals
A.Combine(B).Combine(C) in every field. -/
theorem Tally.Combine_assoc (a b c : Tally) :
    a.Combine (b.Combine c) = (a.Combine b).Combine c := by
  simp only [Tally.Combine, unionInPlace, or_assoc_str, Finset.union_assoc, add_assoc,
    timeutils.Min_assoc, timeutils.Max_assoc]

/-- C3 (counterexample): a tally whose first commit is at the Unix epoch,
combined with the zero-value tally on either side, gets the zero time (year 1)
as its first commit time and so differs from the tally itself. -/
theorem Tally.Combine_zero_not_identity :
    (Examples.bobEpoch.Combine Tally.zero).firstCommitTime = Time.zero ∧
    (Tally.zero.Combine Examples.bobEpoch).firstCommitTime = Time.zero ∧
    Examples.bobEpoch.firstCommitTime ≠ Time.zero ∧
    Examples.bobEpoch.Combine Tally.zero ≠ Examples.bobEpoch ∧
    Tally.zero.Combine Examples.bobEpoch ≠ Examples.bobEpoch := by
  decide

/-- C3 (amended): combining with the zero-value tally, on either side, keeps
name, email, commit set, file set, lines added, lines removed and numTallied;
the first commit time becomes the earlier of A's and the zero time and the last
commit time the later of the two, so the result is A exactly when A's first
commit time is not after the zero time and its last commit time not before it. -/
theorem Tally.Combine_zero (a : Tally) :
    a.Combine Tally.zero =
      { a with firstCommitTime := timeutils.Min a.firstCommitTime Time.zero,
               lastCommitTime := timeutils.Max a.lastCommitTime Time.zero } ∧
    Tally.zero.Combine a =
      { a with firstCommitTime := timeutils.Min Time.zero a.firstCommitTime,
               lastCommitTime := timeutils.Max Time.zero a.lastCommitTime } ∧
    (a.Combine Tally.zero = a ↔
      (a.firstCommitTime.nanos ≤ Time.zero.nanos ∧ Time.zero.nanos ≤ a.lastCommitTime.nanos)) ∧
    (Tally.zero.Combine a = a ↔
      (a.firstCommitTime.nanos ≤ Time.zero.nanos ∧ Time.zero.nanos ≤ a.lastCommitTime.nanos)) := by
  have h1 : a.Combine Tally.zero =
      { a with firstCommitTime := timeutils.Min a.firstCommitTime Time.zero,
               lastCommitTime := timeutils.Max a.lastCommitTime Time.zero } := by
    simp [Tally.Combine, Tally.zero, unionInPlace, or_empty_right]
  have h2 : Tally.zero.Combine a =
      { a with firstCommitTime := timeutils.Min Time.zero a.firstCommitTime,
               lastCommitTime := timeutils.Max Time.zero a.lastCommitTime } := by
    simp [Tally.Combine, Tally.zero, unionInPlace, or_empty_left]
  have key : ∀ f l : Time, ({ a with firstCommitTime := f, lastCommitTime := l } : Tally) = a ↔
      f = a.firstCommitTime ∧ l = a.lastCommitTime := by
    intro f l
    constructor
    · intro h
      exact ⟨by rw [← h], by rw [← h]⟩
    · rintro ⟨rfl, rfl⟩; rfl
  have t1 : ∀ x : Time, timeutils.Min x Time.zero = x ↔ x.nanos ≤ Time.zero.nanos := by
    intro x
    constructor
    · intro h
      have := congrArg Time.nanos h
      rw [timeutils.Min_nanos] at this
      exact min_eq_left_iff.mp this
    · intro h
      exact Time.ext_nanos (by rw [timeutils.Min_nanos]; exact min_eq_left h)
  have t2 : ∀ x : Time, timeutils.Max x Time.zero = x ↔ Time.zero.nanos ≤ x.nanos := by
    intro x
    constructor
    · intro h
      have := congrArg Time.nanos h
      rw [timeutils.Max_nanos] at this
      exact max_eq_left_iff.mp this
    · intro h
      exact Time.ext_nanos (by rw [timeutils.Max_nanos]; exact max_eq_left h)
  refine ⟨h1, h2, ?_, ?_⟩
  · rw [h1, key, t1, t2]
  · rw [h2, key, timeutils.Min_comm, timeutils.Max_comm, t1, t2]

/-- Final of a tally with a name or an email: the counts are the sizes of the
sets where these are non-empty and numTallied otherwise, the rest is copied. -/
theorem Tally.Final_of_named (t : Tally) (h : t.name ≠ "" ∨ t.email ≠ "") :
    ∃ f, t.Final = some f ∧
      f.Commits = (if t.commitset.card > 0 then (t.commitset.card : Int) else t.numTallied) ∧
      f.FileCount = (if t.fileset.card > 0 then (t.fileset.card : Int) else t.numTallied) ∧
      f.AuthorName = t.name ∧ f.AuthorEmail = t.email ∧
      f.LinesAdded = t.added ∧ f.LinesRemoved = t.removed ∧
      f.FirstCommitTime = t.firstCommitTime ∧ f.LastCommitTime = t.lastCommitTime := by
  have hne : ¬ (t.name = "" ∧ t.email = "") := by
    rintro ⟨h1, h2⟩
    rcases h with h | h
    · exact h h1
    · exact h h2
  refine ⟨_, by simp only [Tally.Final, if_neg hne]; rfl, ?_⟩
  simp

/-- C4: for a tally with a non-empty name or email, Final returns a FinalTally
with Commits = size of the commit set when non-empty and numTallied otherwise,
FileCount = size of the file set when non-empty and numTallied otherwise, and
the name, email, lines added, lines removed, first and last commit time copied;
Final panics exactly when both name and email are empty. -/
theorem Tally.Final_spec (t : Tally) :
    ((t.name ≠ "" ∨ t.email ≠ "") →
      ∃ f, t.Final = some f ∧
        f.Commits = (if t.commitset.card > 0 then (t.commitset.card : Int) else t.numTallied) ∧
        f.FileCount = (if t.fileset.card > 0 then (t.fileset.card : Int) else t.numTallied) ∧
        f.AuthorName = t.name ∧ f.AuthorEmail = t.email ∧
        f.LinesAdded = t.added ∧ f.LinesRemoved = t.removed ∧
        f.FirstCommitTime = t.firstCommitTime ∧ f.LastCommitTime = t.lastCommitTime) ∧
    (t.Final = none ↔ (t.name = "" ∧ t.email = "")) := by
  constructor
  · intro h
    have hne : ¬ (t.name = "" ∧ t.email = "") := by
      rintro ⟨h1, h2⟩
      rcases h with h | h
      · exact h h1
      · exact h h2
    refine ⟨_, by simp only [Tally.Final, if_neg hne]; rfl, ?_⟩
    simp
  · unfold Tally.Final
    by_cases h : t.name = "" ∧ t.email = ""
    · simp [h]
    · simp only [if_neg h]
      simp [h]

/-- C4 (witness): a tally named bob with two commits in its commit set, an
empty file set and numTallied 3 finalises to 2 commits and 3 files. -/
theorem Tally.Final_spec_witness :
    (Examples.bobTwoCommits.name ≠ "" ∨ Examples.bobTwoCommits.email ≠ "") ∧
    ∃ f, Examples.bobTwoCommits.Final = some f ∧ f.Commits = 2 ∧ f.FileCount = 3 := by
  refine ⟨by decide, ?_⟩
  obtain ⟨f, hf, hc, hfc, -⟩ := (Tally.Final_spec Examples.bobTwoCommits).1 (by decide)
  refine ⟨f, hf, ?_, ?_⟩
  · rw [hc]; decide
  · rw [hfc]; decide

/-! ## Theorems: tallying by path -/

section ByPathLemmas

theorem GoMap.forall_put {K V : Type} [DecidableEq K] (P : V → Prop) (m : GoMap K V) (k : K)
    (v : V) (hm : ∀ kv ∈ m, P kv.2) (hv : P v) : ∀ kv ∈ GoMap.put m k v, P kv.2 := by
  induction m with
  | nil =>
    intro kv hkv
    simp only [GoMap.put, List.mem_singleton] at hkv
    subst hkv
    exact hv
  | cons kv0 rest ih =>
    obtain ⟨k', v'⟩ := kv0
    intro kv hkv
    by_cases h : k' = k
    · simp only [GoMap.put, h, if_true, List.mem_cons] at hkv
      rcases hkv with rfl | hkv
      · exact hv
      · exact hm kv (List.mem_cons_of_mem _ hkv)
    · simp only [GoMap.put, h, if_false, List.mem_cons] at hkv
      rcases hkv with rfl | hkv
      · exact hm _ (List.mem_cons_self _ _)
      · exact ih (fun kv1 h1 => hm kv1 (List.mem_cons_of_mem _ h1)) kv hkv

theorem commitset_subset_union (m : GoMap String Tally) (k : String) (t : Tally)
    (h : GoMap.find m k = some t) : t.commitset ⊆ unionCommitsets m := by
  induction m with
  | nil => simp [GoMap.find] at h
  | cons kv rest ih =>
    obtain ⟨k', v'⟩ := kv
    by_cases hk : k' = k
    · simp only [GoMap.find, hk, if_true, Option.some.injEq] at h
      subst h
      simp [unionCommitsets]
    · simp only [GoMap.find, hk, if_false] at h
      have := ih h
      simp only [unionCommitsets, List.foldr_cons] at this ⊢
      exact this.trans Finset.subset_union_right

theorem unionCommitsets_put (m : GoMap String Tally) (k : String) (v : Tally)
    (h : ∀ v0, GoMap.find m k = some v0 → v0.commitset ⊆ v.commitset) :
    unionCommitsets (GoMap.put m k v) = unionCommitsets m ∪ v.commitset := by
  induction m with
  | nil => simp [GoMap.put, unionCommitsets]
  | cons kv rest ih =>
    obtain ⟨k', v'⟩ := kv
    by_cases hk : k' = k
    · have hsub : v'.commitset ⊆ v.commitset := h v' (by simp [GoMap.find, hk])
      simp only [GoMap.put, hk, if_true, unionCommitsets, List.foldr_cons]
      ext x
      simp only [Finset.mem_union]
      constructor
      · rintro (h1 | h1)
        · exact Or.inr h1
        · exact Or.inl (Or.inr h1)
      · rintro ((h1 | h1) | h1)
        · exact Or.inl (hsub h1)
        · exact Or.inr h1
        · exact Or.inl h1
    · have := ih (fun v0 h0 => h v0 (by simpa [GoMap.find, hk] using h0))
      simp only [unionCommitsets] at this
      simp only [GoMap.put, hk, if_false, unionCommitsets, List.foldr_cons, this,
        Finset.union_assoc]

theorem numTalliedAt_put (m : GoMap String Tally) (k p : String) (v : Tally) :
    numTalliedAt (GoMap.put m k v) p = if p = k then v.numTallied else numTalliedAt m p := by
  unfold numTalliedAt
  rw [GoMap.find_put]
  by_cases h : p = k <;> simp [h]

theorem sumNumTallied_put (m : GoMap String Tally) (k : String) (v : Tally) :
    sumNumTallied (GoMap.put m k v) = sumNumTallied m - numTalliedAt m k + v.numTallied := by
  have := GoMap.sum_put (fun t : Tally => t.numTallied) m k v
  unfold sumNumTallied numTalliedAt
  cases h : GoMap.find m k <;> simpa [h] using this

theorem sumAdded_put (m : GoMap String Tally) (k : String) (v : Tally) :
    sumAdded (GoMap.put m k v) =
      sumAdded m - (match GoMap.find m k with | some t => t.added | none => 0) + v.added := by
  have := GoMap.sum_put (fun t : Tally => t.added) m k v
  unfold sumAdded
  cases h : GoMap.find m k <;> simpa [h] using this

theorem sumRemoved_put (m : GoMap String Tally) (k : String) (v : Tally) :
    sumRemoved (GoMap.put m k v) =
      sumRemoved m - (match GoMap.find m k with | some t => t.removed | none => 0) + v.removed := by
  have := GoMap.sum_put (fun t : Tally => t.removed) m k v
  unfold sumRemoved
  cases h : GoMap.find m k <;> simpa [h] using this

theorem union_insert_of_subset (u s : Finset String) (x : String) (h : s ⊆ u) :
    u ∪ insert x s = insert x u := by
  ext y
  simp only [Finset.mem_union, Finset.mem_insert]
  constructor
  · rintro (h1 | h1 | h1)
    · exact Or.inr h1
    · exact Or.inl h1
    · exact Or.inr (h h1)
  · rintro (h1 | h1)
    · exact Or.inr (Or.inl h1)
    · exact Or.inl h1

/-- What one file diff of a commit does to the measures of the author's
per-path tallies. -/
theorem tallyDiff_measures (c : Commit) (pt : GoMap String Tally) (d : FileDiff) :
    unionCommitsets (tallyDiff c pt d) = insert c.ShortHash (unionCommitsets pt) ∧
    sumAdded (tallyDiff c pt d) = sumAdded pt + (if c.IsMerge then 0 else d.LinesAdded) ∧
    sumRemoved (tallyDiff c pt d) = sumRemoved pt + (if c.IsMerge then 0 else d.LinesRemoved) ∧
    sumNumTallied (tallyDiff c pt d) =
      sumNumTallied pt + (if c.IsMerge then 0 else 1 - numTalliedAt pt d.Path) ∧
    (∀ p, numTalliedAt (tallyDiff c pt d) p =
      if p = d.Path ∧ c.IsMerge = false then 1 else numTalliedAt pt p) := by
  cases hf : GoMap.find pt d.Path with
  | none =>
    refine ⟨?_, ?_, ?_, ?_, ?_⟩
    · simp only [tallyDiff, hf]
      rw [unionCommitsets_put _ _ _ (by simp [hf])]
      cases c.IsMerge <;>
        simpa using union_insert_of_subset (unionCommitsets pt) ∅ c.ShortHash (by simp)
    · simp only [tallyDiff, hf]
      rw [sumAdded_put]
      cases c.IsMerge <;> simp [hf, Tally.zero]
    · simp only [tallyDiff, hf]
      rw [sumRemoved_put]
      cases c.IsMerge <;> simp [hf, Tally.zero]
    · simp only [tallyDiff, hf]
      rw [sumNumTallied_put]
      cases c.IsMerge <;> simp [hf, Tally.zero, numTalliedAt]
    · intro p
      simp only [tallyDiff, hf]
      rw [numTalliedAt_put]
      by_cases hp : p = d.Path
      · cases c.IsMerge <;> simp [hf, hp, Tally.zero, numTalliedAt]
      · simp [hp]
  | some t =>
    have hsub := commitset_subset_union pt d.Path t hf
    refine ⟨?_, ?_, ?_, ?_, ?_⟩
    · simp only [tallyDiff, hf]
      rw [unionCommitsets_put _ _ _ (by
        intro v0 h0
        rw [hf] at h0
        cases h0
        cases c.IsMerge <;> simp)]
      cases c.IsMerge <;>
        simpa using union_insert_of_subset (unionCommitsets pt) t.commitset c.ShortHash hsub
    · simp only [tallyDiff, hf]
      rw [sumAdded_put]
      cases c.IsMerge <;> simp [hf] <;> ring
    · simp only [tallyDiff, hf]
      rw [sumRemoved_put]
      cases c.IsMerge <;> simp [hf] <;> ring
    · simp only [tallyDiff, hf]
      rw [sumNumTallied_put]
      cases c.IsMerge <;> simp [hf, numTalliedAt] <;> ring
    · intro p
      simp only [tallyDiff, hf]
      rw [numTalliedAt_put]
      by_cases hp : p = d.Path
      · cases c.IsMerge <;> simp [hf, hp, numTalliedAt]
      · simp [hp]

/-- What a commit without file diffs does to the measures of the author's
per-path tallies. -/
theorem tallyNoDiff_measures (c : Commit) (pt : GoMap String Tally) :
    unionCommitsets (tallyNoDiff c pt) = insert c.ShortHash (unionCommitsets pt) ∧
    sumAdded (tallyNoDiff c pt) = sumAdded pt ∧
    sumRemoved (tallyNoDiff c pt) = sumRemoved pt ∧
    sumNumTallied (tallyNoDiff c pt) = sumNumTallied pt ∧
    (∀ p, numTalliedAt (tallyNoDiff c pt) p = numTalliedAt pt p) := by
  cases hf : GoMap.find pt NoDiffPathname with
  | none =>
    refine ⟨?_, ?_, ?_, ?_, ?_⟩
    · simp only [tallyNoDiff, hf]
      rw [unionCommitsets_put _ _ _ (by simp [hf])]
      simpa using union_insert_of_subset (unionCommitsets pt) ∅ c.ShortHash (by simp)
    · simp only [tallyNoDiff, hf]
      rw [sumAdded_put]
      simp [hf, Tally.zero]
    · simp only [tallyNoDiff, hf]
      rw [sumRemoved_put]
      simp [hf, Tally.zero]
    · simp only [tallyNoDiff, hf]
      rw [sumNumTallied_put]
      simp [hf, numTalliedAt]
    · intro p
      simp only [tallyNoDiff, hf]
      rw [numTalliedAt_put]
      by_cases hp : p = NoDiffPathname
      · simp [hf, hp, numTalliedAt]
      · simp [hp]
  | some t =>
    have hsub := commitset_subset_union pt NoDiffPathname t hf
    refine ⟨?_, ?_, ?_, ?_, ?_⟩
    · simp only [tallyNoDiff, hf]
      rw [unionCommitsets_put _ _ _ (by
        intro v0 h0
        rw [hf] at h0
        cases h0
        simp)]
      simpa using union_insert_of_subset (unionCommitsets pt) t.commitset c.ShortHash hsub
    · simp only [tallyNoDiff, hf]
      rw [sumAdded_put]
      simp [hf]
    · simp only [tallyNoDiff, hf]
      rw [sumRemoved_put]
      simp [hf]
    · simp only [tallyNoDiff, hf]
      rw [sumNumTallied_put]
      simp [hf, numTalliedAt]
    · intro p
      simp only [tallyNoDiff, hf]
      rw [numTalliedAt_put]
      by_cases hp : p = NoDiffPathname
      · simp [hf, hp, numTalliedAt]
      · simp [hp]

/-- What the file diffs of one commit, tallied in turn, do to the measures of
the author's per-path tallies; `P` is the set of paths counted so far. -/
theorem foldl_tallyDiff_measures (c : Commit) (ds : List FileDiff) :
    ∀ (pt : GoMap String Tally) (P : Finset String),
      (∀ p, numTalliedAt pt p = if p ∈ P then 1 else 0) →
      sumNumTallied pt = P.card →
      unionCommitsets (ds.foldl (tallyDiff c) pt) =
        (if ds = [] then unionCommitsets pt else insert c.ShortHash (unionCommitsets pt)) ∧
      sumAdded (ds.foldl (tallyDiff c) pt) =
        sumAdded pt + (if c.IsMerge then 0 else totalAdded ds) ∧
      sumRemoved (ds.foldl (tallyDiff c) pt) =
        sumRemoved pt + (if c.IsMerge then 0 else totalRemoved ds) ∧
      sumNumTallied (ds.foldl (tallyDiff c) pt) =
        ((if c.IsMerge then P else P ∪ diffPaths ds).card : Int) ∧
      (∀ p, numTalliedAt (ds.foldl (tallyDiff c) pt) p =
        if p ∈ (if c.IsMerge then P else P ∪ diffPaths ds) then 1 else 0) := by
  induction ds with
  | nil =>
    intro pt P hAt hSum
    cases c.IsMerge <;> simp [totalAdded, totalRemoved, diffPaths, hAt, hSum]
  | cons d rest ih =>
    intro pt P hAt hSum
    obtain ⟨m1, m2, m3, m4, m5⟩ := tallyDiff_measures c pt d
    cases hm : c.IsMerge with
    | true =>
      have hAt' : ∀ p, numTalliedAt (tallyDiff c pt d) p = if p ∈ P then 1 else 0 := by
        intro p
        rw [m5 p, hAt p]
        simp [hm]
      have hSum' : sumNumTallied (tallyDiff c pt d) = P.card := by
        rw [m4, hSum]
        simp [hm]
      obtain ⟨i1, i2, i3, i4, i5⟩ := ih (tallyDiff c pt d) P hAt' hSum'
      simp only [hm, if_true] at i2 i3 i4 i5 m2 m3
      refine ⟨?_, ?_, ?_, ?_, ?_⟩
      · rw [List.foldl_cons, i1, m1]
        by_cases hr : rest = [] <;> simp [hr]
      · rw [List.foldl_cons, i2, m2]
        simp
      · rw [List.foldl_cons, i3, m3]
        simp
      · rw [List.foldl_cons, i4]
        simp
      · intro p
        rw [List.foldl_cons, i5 p]
        simp
    | false =>
      have hAt' : ∀ p, numTalliedAt (tallyDiff c pt d) p =
          if p ∈ insert d.Path P then 1 else 0 := by
        intro p
        rw [m5 p, hAt p]
        by_cases hp : p = d.Path
        · simp [hp, hm]
        · simp [hp, hm]
      have hSum' : sumNumTallied (tallyDiff c pt d) = (insert d.Path P).card := by
        rw [m4, hSum, hAt d.Path]
        by_cases hp : d.Path ∈ P
        · simp [hp, hm]
        · simp [hp, hm, Finset.card_insert_of_not_mem]
      obtain ⟨i1, i2, i3, i4, i5⟩ := ih (tallyDiff c pt d) (insert d.Path P) hAt' hSum'
      simp only [hm] at i2 i3 i4 i5 m2 m3
      have hP : insert d.Path P ∪ diffPaths rest = P ∪ diffPaths (d :: rest) := by
        ext x
        simp [diffPaths]
      refine ⟨?_, ?_, ?_, ?_, ?_⟩
      · rw [List.foldl_cons, i1, m1]
        by_cases hr : rest = [] <;> simp [hr]
      · rw [List.foldl_cons, i2, m2]
        simp [totalAdded]
        ring
      · rw [List.foldl_cons, i3, m3]
        simp [totalRemoved]
        ring
      · rw [List.foldl_cons, i4]
        simp [hP]
      · intro p
        rw [List.foldl_cons, i5 p]
        simp [hP]

theorem addedAt_put (m : GoMap String Tally) (k p : String) (v : Tally) :
    addedAt (GoMap.put m k v) p = if p = k then v.added else addedAt m p := by
  unfold addedAt
  rw [GoMap.find_put]
  by_cases h : p = k <;> simp [h]

theorem removedAt_put (m : GoMap String Tally) (k p : String) (v : Tally) :
    removedAt (GoMap.put m k v) p = if p = k then v.removed else removedAt m p := by
  unfold removedAt
  rw [GoMap.find_put]
  by_cases h : p = k <;> simp [h]

/-- What one file diff of a commit does to the lines stored for each path. -/
theorem tallyDiff_linesAt (c : Commit) (pt : GoMap String Tally) (d : FileDiff) (p : String) :
    addedAt (tallyDiff c pt d) p =
      addedAt pt p + (if p = d.Path ∧ c.IsMerge = false then d.LinesAdded else 0) ∧
    removedAt (tallyDiff c pt d) p =
      removedAt pt p + (if p = d.Path ∧ c.IsMerge = false then d.LinesRemoved else 0) := by
  simp only [tallyDiff]
  rw [addedAt_put, removedAt_put]
  by_cases hp : p = d.Path
  · subst hp
    cases hf : GoMap.find pt d.Path <;> cases c.IsMerge <;>
      simp [hf, addedAt, removedAt, Tally.zero]
  · simp [hp]

/-- A commit without file diffs leaves the lines stored for each path as they are. -/
theorem tallyNoDiff_linesAt (c : Commit) (pt : GoMap String Tally) (p : String) :
    addedAt (tallyNoDiff c pt) p = addedAt pt p ∧
    removedAt (tallyNoDiff c pt) p = removedAt pt p := by
  simp only [tallyNoDiff]
  rw [addedAt_put, removedAt_put]
  by_cases hp : p = NoDiffPathname
  · subst hp
    cases hf : GoMap.find pt NoDiffPathname <;> simp [hf, addedAt, removedAt, Tally.zero]
  · simp [hp]

/-- What the file diffs of one commit, tallied in turn, do to the lines stored
for each path. -/
theorem foldl_tallyDiff_linesAt (c : Commit) (ds : List FileDiff) (p : String) :
    ∀ pt : GoMap String Tally,
      addedAt (ds.foldl (tallyDiff c) pt) p =
        addedAt pt p + (if c.IsMerge then 0 else totalAdded (diffsOfPath p ds)) ∧
      removedAt (ds.foldl (tallyDiff c) pt) p =
        removedAt pt p + (if c.IsMerge then 0 else totalRemoved (diffsOfPath p ds)) := by
  induction ds with
  | nil =>
    intro pt
    cases c.IsMerge <;> simp [diffsOfPath, totalAdded, totalRemoved]
  | cons d rest ih =>
    intro pt
    obtain ⟨i1, i2⟩ := ih (tallyDiff c pt d)
    obtain ⟨m1, m2⟩ := tallyDiff_linesAt c pt d p
    rw [List.foldl_cons, i1, i2, m1, m2]
    cases hm : c.IsMerge with
    | true => simp
    | false =>
      by_cases hp : p = d.Path
      · subst hp
        simp [diffsOfPath, totalAdded, totalRemoved, List.filter_cons, add_assoc]
      · have hp2 : ¬ d.Path = p := fun h => hp h.symm
        simp [diffsOfPath, totalAdded, totalRemoved, List.filter_cons, hp, hp2]

theorem diffsOfPath_append (p : String) (a b : List FileDiff) :
    diffsOfPath p (a ++ b) = diffsOfPath p a ++ diffsOfPath p b := by
  simp [diffsOfPath]

theorem tallyDiff_forall (R : Tally → Prop)
    (hR : ∀ t t2 : Tally, t2.name = t.name → t2.email = t.email → t2.fileset = t.fileset →
      R t → R t2)
    (c : Commit) (pt : GoMap String Tally) (d : FileDiff) (hpt : ∀ kv ∈ pt, R kv.2)
    (hnew : R { Tally.zero with name := c.AuthorName, email := c.AuthorEmail }) :
    ∀ kv ∈ tallyDiff c pt d, R kv.2 := by
  simp only [tallyDiff]
  apply GoMap.forall_put R _ _ _ hpt
  cases hf : GoMap.find pt d.Path with
  | none =>
    refine hR _ _ ?_ ?_ ?_ hnew <;> cases c.IsMerge <;> simp [Tally.zero]
  | some t =>
    have ht : R t := hpt (d.Path, t) (GoMap.find_mem pt d.Path t hf)
    refine hR _ _ ?_ ?_ ?_ ht <;> cases c.IsMerge <;> simp

theorem tallyNoDiff_forall (R : Tally → Prop)
    (hR : ∀ t t2 : Tally, t2.name = t.name → t2.email = t.email → t2.fileset = t.fileset →
      R t → R t2)
    (c : Commit) (pt : GoMap String Tally) (hpt : ∀ kv ∈ pt, R kv.2)
    (hnew : R { Tally.zero with name := c.AuthorName, email := c.AuthorEmail }) :
    ∀ kv ∈ tallyNoDiff c pt, R kv.2 := by
  simp only [tallyNoDiff]
  apply GoMap.forall_put R _ _ _ hpt
  cases hf : GoMap.find pt NoDiffPathname with
  | none =>
    refine hR _ _ ?_ ?_ ?_ hnew <;> simp [Tally.zero]
  | some t =>
    have ht : R t := hpt (NoDiffPathname, t) (GoMap.find_mem pt NoDiffPathname t hf)
    refine hR _ _ ?_ ?_ ?_ ht <;> simp

theorem tallyCommitPaths_forall (R : Tally → Prop)
    (hR : ∀ t t2 : Tally, t2.name = t.name → t2.email = t.email → t2.fileset = t.fileset →
      R t → R t2)
    (c : Commit) (pt : GoMap String Tally) (hpt : ∀ kv ∈ pt, R kv.2)
    (hnew : R { Tally.zero with name := c.AuthorName, email := c.AuthorEmail }) :
    ∀ kv ∈ tallyCommitPaths c pt, R kv.2 := by
  unfold tallyCommitPaths
  by_cases h0 : c.FileDiffs.length = 0
  · rw [if_pos h0]
    exact tallyNoDiff_forall R hR c pt hpt hnew
  · rw [if_neg h0]
    generalize c.FileDiffs = ds
    induction ds generalizing pt with
    | nil => simpa using hpt
    | cons d rest ih =>
      rw [List.foldl_cons]
      exact ih _ (tallyDiff_forall R hR c pt d hpt hnew)

theorem tallyCommitPaths_nodup (c : Commit) (pt : GoMap String Tally)
    (h : (GoMap.keys pt).Nodup) : (GoMap.keys (tallyCommitPaths c pt)).Nodup := by
  unfold tallyCommitPaths
  by_cases h0 : c.FileDiffs.length = 0
  · rw [if_pos h0]
    simp only [tallyNoDiff]
    exact GoMap.nodup_keys_put _ _ _ h
  · rw [if_neg h0]
    generalize c.FileDiffs = ds
    induction ds generalizing pt with
    | nil => simpa using h
    | cons d rest ih =>
      rw [List.foldl_cons]
      apply ih
      simp only [tallyDiff]
      exact GoMap.nodup_keys_put _ _ _ h

theorem shortHashes_append_singleton (cs : List Commit) (c : Commit) :
    shortHashes (cs ++ [c]) = insert c.ShortHash (shortHashes cs) := by
  ext x
  simp only [shortHashes, List.map_append, List.map_cons, List.map_nil, List.toFinset_append,
    List.toFinset_cons, List.toFinset_nil, Finset.mem_union, Finset.mem_insert,
    Finset.not_mem_empty, or_false]
  tauto

theorem nonMergeDiffs_append_singleton (cs : List Commit) (c : Commit) :
    nonMergeDiffs (cs ++ [c]) = nonMergeDiffs cs ++ (if c.IsMerge then [] else c.FileDiffs) := by
  unfold nonMergeDiffs
  cases h : c.IsMerge <;> simp [List.filter_append, List.filter_cons, h]

theorem totalAdded_append (a b : List FileDiff) :
    totalAdded (a ++ b) = totalAdded a + totalAdded b := by
  simp [totalAdded]

theorem totalRemoved_append (a b : List FileDiff) :
    totalRemoved (a ++ b) = totalRemoved a + totalRemoved b := by
  simp [totalRemoved]

theorem diffPaths_append (a b : List FileDiff) :
    diffPaths (a ++ b) = diffPaths a ∪ diffPaths b := by
  simp [diffPaths]

/-- The invariant of an author's per-path tallies holds before any commit. -/
theorem PathsInv.empty : PathsInv [] [] := by
  refine ⟨?_, ?_, ?_, ?_, ?_, ?_, ?_, ?_, ?_, ?_⟩ <;>
    simp [unionCommitsets, shortHashes, sumAdded, sumRemoved, sumNumTallied, totalAdded,
      totalRemoved, nonMergeDiffs, diffPaths, numTalliedAt, GoMap.find, GoMap.keys,
      addedAt, removedAt, diffsOfPath]

/-- Tallying one more counted commit of the author keeps the invariant. -/
theorem PathsInv.afterCommit (c : Commit) (pt : GoMap String Tally) (cs : List Commit)
    (h : PathsInv pt cs) : PathsInv (tallyCommitPaths c pt) (cs ++ [c]) := by
  have hfs : ∀ kv ∈ tallyCommitPaths c pt, kv.2.fileset = ∅ :=
    tallyCommitPaths_forall (fun t => t.fileset = ∅)
      (fun t t2 _ _ h3 ht => by show t2.fileset = ∅; rw [h3]; exact ht) c pt h.fileset (by simp [Tally.zero])
  have hnamed : (∀ c2 ∈ cs ++ [c], c2.AuthorName ≠ "" ∨ c2.AuthorEmail ≠ "") →
      ∀ kv ∈ tallyCommitPaths c pt, kv.2.name ≠ "" ∨ kv.2.email ≠ "" := by
    intro hall
    have hc := hall c (by simp)
    have hold := h.named (fun c2 h2 => hall c2 (List.mem_append_left _ h2))
    exact tallyCommitPaths_forall (fun t => t.name ≠ "" ∨ t.email ≠ "")
      (fun t t2 h1 h2 _ ht => by show t2.name ≠ "" ∨ t2.email ≠ ""; rw [h1, h2]; exact ht) c pt hold (by simpa using hc)
  have hnd := tallyCommitPaths_nodup c pt h.nodup
  by_cases h0 : c.FileDiffs.length = 0
  · have hds : c.FileDiffs = [] := List.length_eq_zero.mp h0
    have hnm : nonMergeDiffs (cs ++ [c]) = nonMergeDiffs cs := by
      rw [nonMergeDiffs_append_singleton, hds]; simp
    obtain ⟨m1, m2, m3, m4, m5⟩ := tallyNoDiff_measures c pt
    have he : tallyCommitPaths c pt = tallyNoDiff c pt := by
      unfold tallyCommitPaths; rw [if_pos h0]
    refine ⟨?_, ?_, ?_, ?_, ?_, ?_, ?_, hfs, hnamed, hnd⟩
    · rw [he, m1, h.commits, shortHashes_append_singleton]
    · rw [he, m2, h.added, hnm]
    · rw [he, m3, h.removed, hnm]
    · rw [he, m4, h.files, hnm]
    · intro p
      rw [he, m5 p, h.numAt p, hnm]
    · intro p
      rw [he, (tallyNoDiff_linesAt c pt p).1, h.addedPerPath p, hnm]
    · intro p
      rw [he, (tallyNoDiff_linesAt c pt p).2, h.removedPerPath p, hnm]
  · have hds : c.FileDiffs ≠ [] := fun hh => h0 (by simp [hh])
    obtain ⟨m1, m2, m3, m4, m5⟩ :=
      foldl_tallyDiff_measures c c.FileDiffs pt (diffPaths (nonMergeDiffs cs)) h.numAt h.files
    have he : tallyCommitPaths c pt = c.FileDiffs.foldl (tallyDiff c) pt := by
      unfold tallyCommitPaths; rw [if_neg h0]
    have hP : (if c.IsMerge then diffPaths (nonMergeDiffs cs)
        else diffPaths (nonMergeDiffs cs) ∪ diffPaths c.FileDiffs)
        = diffPaths (nonMergeDiffs (cs ++ [c])) := by
      rw [nonMergeDiffs_append_singleton, diffPaths_append]
      cases c.IsMerge <;> simp [diffPaths]
    refine ⟨?_, ?_, ?_, ?_, ?_, ?_, ?_, hfs, hnamed, hnd⟩
    · rw [he, m1, if_neg hds, h.commits, shortHashes_append_singleton]
    · rw [he, m2, h.added, nonMergeDiffs_append_singleton, totalAdded_append]
      cases c.IsMerge <;> simp [totalAdded]
    · rw [he, m3, h.removed, nonMergeDiffs_append_singleton, totalRemoved_append]
      cases c.IsMerge <;> simp [totalRemoved]
    · rw [he, m4, hP]
    · intro p
      rw [he, m5 p, hP]
    · intro p
      rw [he, (foldl_tallyDiff_linesAt c c.FileDiffs p pt).1, h.addedPerPath p,
        nonMergeDiffs_append_singleton, diffsOfPath_append, totalAdded_append]
      cases c.IsMerge <;> simp [totalAdded, diffsOfPath]
    · intro p
      rw [he, (foldl_tallyDiff_linesAt c c.FileDiffs p pt).2, h.removedPerPath p,
        nonMergeDiffs_append_singleton, diffsOfPath_append, totalRemoved_append]
      cases c.IsMerge <;> simp [totalRemoved, diffsOfPath]

theorem pathsOfKey_put (tallies : TalliesByPath) (k key : String) (pt : GoMap String Tally) :
    pathsOfKey (GoMap.put tallies k pt) key = if key = k then pt else pathsOfKey tallies key := by
  unfold pathsOfKey
  rw [GoMap.find_put]
  by_cases h : key = k <;> simp [h]

theorem pathsOfKey_tallyCommitByPath (opts : TallyOpts) (tallies : TalliesByPath) (c : Commit)
    (key : String) :
    pathsOfKey (tallyCommitByPath opts tallies c) key =
      if counted opts c = true ∧ opts.Key c = key
      then tallyCommitPaths c (pathsOfKey tallies key)
      else pathsOfKey tallies key := by
  unfold tallyCommitByPath counted
  by_cases hskip : (c.IsMerge && !opts.CountMerges) = true
  · simp [hskip]
  · simp only [hskip, Bool.false_eq_true, if_false]
    rw [pathsOfKey_put]
    by_cases hk : key = opts.Key c
    · subst hk
      simp [hskip, pathsOfKey]
    · have hk2 : ¬ opts.Key c = key := fun h => hk h.symm
      simp [hk, hk2]

theorem countedCommitsOf_append_singleton (opts : TallyOpts) (key : String) (cs : List Commit)
    (c : Commit) :
    countedCommitsOf opts key (cs ++ [c]) =
      if counted opts c = true ∧ opts.Key c = key
      then countedCommitsOf opts key cs ++ [c]
      else countedCommitsOf opts key cs := by
  unfold countedCommitsOf
  rw [List.filter_append]
  by_cases h : counted opts c = true ∧ opts.Key c = key
  · rw [if_pos h]
    simp [List.filter_cons, h.1, h.2]
  · rw [if_neg h]
    have : (counted opts c && decide (opts.Key c = key)) = false := by
      by_cases h1 : counted opts c = true
      · have h2 : ¬ opts.Key c = key := fun hh => h ⟨h1, hh⟩
        simp [h2]
      · simp [h1]
    simp [List.filter_cons, this]

/-- The invariant of TallyCommitsByPath holds before any commit. -/
theorem ByPathInv.start (opts : TallyOpts) : ByPathInv opts [] [] := by
  refine ⟨by simp [GoMap.keys], ?_⟩
  intro key
  simpa [pathsOfKey, GoMap.find, countedCommitsOf] using PathsInv.empty

/-- One iteration of the loop of TallyCommitsByPath keeps the invariant. -/
theorem ByPathInv.afterCommit_all (opts : TallyOpts) (tallies : TalliesByPath) (cs : List Commit)
    (c : Commit) (h : ByPathInv opts tallies cs) :
    ByPathInv opts (tallyCommitByPath opts tallies c) (cs ++ [c]) := by
  constructor
  · unfold tallyCommitByPath
    by_cases hskip : (c.IsMerge && !opts.CountMerges) = true
    · simpa [hskip] using h.nodup
    · simp only [hskip, Bool.false_eq_true, if_false]
      exact GoMap.nodup_keys_put _ _ _ h.nodup
  · intro key
    rw [pathsOfKey_tallyCommitByPath, countedCommitsOf_append_singleton]
    by_cases hc : counted opts c = true ∧ opts.Key c = key
    · rw [if_pos hc, if_pos hc]
      exact PathsInv.afterCommit c _ _ (h.paths key)
    · rw [if_neg hc, if_neg hc]
      exact h.paths key

/-- The loop of TallyCommitsByPath, on its commits read in turn, keeps the invariant. -/
theorem ByPathInv.foldl (opts : TallyOpts) (rest : List Commit) :
    ∀ (tallies : TalliesByPath) (cs : List Commit), ByPathInv opts tallies cs →
      ByPathInv opts (rest.foldl (tallyCommitByPath opts) tallies) (cs ++ rest) := by
  induction rest with
  | nil =>
    intro tallies cs h
    simpa using h
  | cons c rest ih =>
    intro tallies cs h
    have := ih _ _ (ByPathInv.afterCommit_all opts tallies cs c h)
    simpa using this

/-- On an error-free sequence TallyCommitsByPath returns, and its result is
the fold of the loop body over the commits. -/
theorem TallyCommitsByPath.loop_WithoutErrors (opts : TallyOpts) (commits : List Commit) :
    ∀ tallies, TallyCommitsByPath.loop opts tallies (WithoutErrors commits) =
      .ok (commits.foldl (tallyCommitByPath opts) tallies) := by
  induction commits with
  | nil =>
    intro tallies
    simp [WithoutErrors, TallyCommitsByPath.loop]
  | cons c rest ih =>
    intro tallies
    have := ih (tallyCommitByPath opts tallies c)
    simp only [WithoutErrors] at this
    simp [WithoutErrors, TallyCommitsByPath.loop, this]

theorem TallyCommitsByPath_WithoutErrors (opts : TallyOpts) (commits : List Commit) :
    TallyCommitsByPath (WithoutErrors commits) opts =
      .ok (commits.foldl (tallyCommitByPath opts) []) :=
  TallyCommitsByPath.loop_WithoutErrors opts commits []

/-- The invariant holds of the result of TallyCommitsByPath. -/
theorem ByPathInv.result (opts : TallyOpts) (commits : List Commit) :
    ByPathInv opts (commits.foldl (tallyCommitByPath opts) []) commits := by
  simpa using ByPathInv.foldl opts commits [] [] (ByPathInv.start opts)

/-- The running tally of Reduce after the loop over one author's paths. -/
theorem foldl_Combine_measures (pt : GoMap String Tally) :
    ∀ r : Tally,
      (pt.foldl (fun runningTally kv => runningTally.Combine kv.2) r).commitset =
        r.commitset ∪ unionCommitsets pt ∧
      (pt.foldl (fun runningTally kv => runningTally.Combine kv.2) r).added =
        r.added + sumAdded pt ∧
      (pt.foldl (fun runningTally kv => runningTally.Combine kv.2) r).removed =
        r.removed + sumRemoved pt ∧
      (pt.foldl (fun runningTally kv => runningTally.Combine kv.2) r).numTallied =
        r.numTallied + sumNumTallied pt ∧
      ((∀ kv ∈ pt, kv.2.fileset = ∅) →
        (pt.foldl (fun runningTally kv => runningTally.Combine kv.2) r).fileset = r.fileset) ∧
      (((r.name ≠ "" ∨ r.email ≠ "") ∨ ∃ kv ∈ pt, kv.2.name ≠ "" ∨ kv.2.email ≠ "") →
        ((pt.foldl (fun runningTally kv => runningTally.Combine kv.2) r).name ≠ "" ∨
         (pt.foldl (fun runningTally kv => runningTally.Combine kv.2) r).email ≠ "")) := by
  induction pt with
  | nil =>
    intro r
    simp [unionCommitsets, sumAdded, sumRemoved, sumNumTallied]
  | cons kv rest ih =>
    intro r
    obtain ⟨i1, i2, i3, i4, i5, i6⟩ := ih (r.Combine kv.2)
    simp only [List.foldl_cons]
    refine ⟨?_, ?_, ?_, ?_, ?_, ?_⟩
    · rw [i1]
      simp [Tally.Combine, unionInPlace, unionCommitsets, Finset.union_assoc]
    · rw [i2]
      simp [Tally.Combine, sumAdded, add_assoc]
    · rw [i3]
      simp [Tally.Combine, sumRemoved, add_assoc]
    · rw [i4]
      simp [Tally.Combine, sumNumTallied, add_assoc]
    · intro hfs
      rw [i5 (fun kv2 h2 => hfs kv2 (List.mem_cons_of_mem _ h2))]
      simp [Tally.Combine, unionInPlace, hfs kv (List.mem_cons_self _ _)]
    · intro hn
      apply i6
      have hor : ∀ a b : String, (a ≠ "" ∨ b ≠ "") → or a b ≠ "" := by
        intro a b hab
        by_cases ha : a = ""
        · subst ha
          rw [or_empty_left]
          rcases hab with hab | hab
          · exact absurd rfl hab
          · exact hab
        · rw [or_of_ne a b ha]; exact ha
      cases hn with
      | inl hr =>
        left
        cases hr with
        | inl hr => exact Or.inl (hor _ _ (Or.inl hr))
        | inr hr => exact Or.inr (hor _ _ (Or.inl hr))
      | inr hex =>
        obtain ⟨kv2, hmem, hkv2⟩ := hex
        cases List.mem_cons.mp hmem with
        | inl heq =>
          subst heq
          left
          cases hkv2 with
          | inl hr => exact Or.inl (hor _ _ (Or.inr hr))
          | inr hr => exact Or.inr (hor _ _ (Or.inr hr))
        | inr hmem2 => exact Or.inr ⟨kv2, hmem2, hkv2⟩

theorem find_foldl_Reduce (byPath : TalliesByPath) (key : String)
    (hnd : (GoMap.keys byPath).Nodup) :
    ∀ acc : GoMap String Tally,
      GoMap.find
        (byPath.foldl
          (fun tallies kv =>
            if (reducePaths kv.2).commitset.card > 0
            then GoMap.put tallies kv.1 (reducePaths kv.2) else tallies)
          acc) key =
      match GoMap.find byPath key with
      | some pt =>
        if (reducePaths pt).commitset.card > 0 then some (reducePaths pt) else GoMap.find acc key
      | none => GoMap.find acc key := by
  induction byPath with
  | nil =>
    intro acc
    simp [GoMap.find]
  | cons kv rest ih =>
    obtain ⟨k', pt'⟩ := kv
    intro acc
    have h' : k' ∉ GoMap.keys rest ∧ (GoMap.keys rest).Nodup := by
      simpa [GoMap.keys] using hnd
    rw [List.foldl_cons, ih h'.2]
    by_cases hk : k' = key
    · subst hk
      have hnone : GoMap.find rest k' = none := (GoMap.find_eq_none_iff rest k').mpr h'.1
      simp only [hnone, GoMap.find, if_true]
      by_cases hc : (reducePaths pt').commitset.card > 0
      · simp [hc, GoMap.find_put_self]
      · simp [hc]
    · simp only [GoMap.find, hk, if_false]
      have hacc : GoMap.find
          (if (reducePaths pt').commitset.card > 0
            then GoMap.put acc k' (reducePaths pt') else acc) key = GoMap.find acc key := by
        by_cases hc : (reducePaths pt').commitset.card > 0
        · rw [if_pos hc, GoMap.find_put_ne _ _ _ _ (fun h => hk h.symm)]
        · rw [if_neg hc]
      simp only [hacc]

/-- Looking an author key up in the result of Reduce. -/
theorem find_Reduce (byPath : TalliesByPath) (key : String) (hnd : (GoMap.keys byPath).Nodup) :
    GoMap.find byPath.Reduce key =
      if (reducePaths (pathsOfKey byPath key)).commitset.card > 0
      then some (reducePaths (pathsOfKey byPath key)) else none := by
  unfold TalliesByPath.Reduce
  rw [find_foldl_Reduce byPath key hnd []]
  unfold pathsOfKey
  cases hf : GoMap.find byPath key with
  | none => simp [GoMap.find, reducePaths, reduceInit, Tally.zero]
  | some pt => simp [GoMap.find]

theorem nodup_keys_Reduce (byPath : TalliesByPath) : (GoMap.keys byPath.Reduce).Nodup := by
  unfold TalliesByPath.Reduce
  have : ∀ acc : GoMap String Tally, (GoMap.keys acc).Nodup →
      (GoMap.keys (byPath.foldl
          (fun tallies kv =>
            if (reducePaths kv.2).commitset.card > 0
            then GoMap.put tallies kv.1 (reducePaths kv.2) else tallies)
          acc)).Nodup := by
    induction byPath with
    | nil => intro acc h; simpa using h
    | cons kv rest ih =>
      intro acc h
      rw [List.foldl_cons]
      apply ih
      by_cases hc : (reducePaths kv.2).commitset.card > 0
      · rw [if_pos hc]; exact GoMap.nodup_keys_put _ _ _ h
      · rw [if_neg hc]; exact h
  exact this [] (by simp [GoMap.keys])

theorem shortHashes_eq_empty_iff (cs : List Commit) : shortHashes cs = ∅ ↔ cs = [] := by
  cases cs with
  | nil => simp [shortHashes]
  | cons c rest => simp [shortHashes]

/-- The measures of the reduced tally of an author whose per-path tallies
satisfy the invariant. -/
theorem reducePaths_of_inv (pt : GoMap String Tally) (cs : List Commit) (h : PathsInv pt cs) :
    (reducePaths pt).commitset = shortHashes cs ∧
    (reducePaths pt).added = totalAdded (nonMergeDiffs cs) ∧
    (reducePaths pt).removed = totalRemoved (nonMergeDiffs cs) ∧
    (reducePaths pt).numTallied = (diffPaths (nonMergeDiffs cs)).card ∧
    (reducePaths pt).fileset = ∅ := by
  obtain ⟨m1, m2, m3, m4, m5, -⟩ := foldl_Combine_measures pt reduceInit
  unfold reducePaths
  refine ⟨?_, ?_, ?_, ?_, ?_⟩
  · rw [m1, h.commits]; simp [reduceInit]
  · rw [m2, h.added]; simp [reduceInit, Tally.zero]
  · rw [m3, h.removed]; simp [reduceInit, Tally.zero]
  · rw [m4, h.files]; simp [reduceInit, Tally.zero]
  · rw [m5 h.fileset]; simp [reduceInit, Tally.zero]

end ByPathLemmas

/-- C5 (counterexample): a commit without author name and email is tallied
under the key of its (empty) email, and the tally returned for it cannot be
finalised: Final panics, so there is no finalised form with Commits = 1. -/
theorem TallyCommits_nameless_not_final :
    ∃ t, TallyCommits (WithoutErrors Examples.namelessCommits) Examples.testOpts = .ok [("", t)] ∧
      t.commitset = {"abc"} ∧ t.Final = none := by
  refine ⟨_, rfl, ?_, ?_⟩ <;> decide

section ReorderLemmas

theorem GoMap.find_perm {K V : Type} [DecidableEq K] (m2 m : GoMap K V) (hp : m2.Perm m)
    (hnd : (GoMap.keys m).Nodup) (k : K) : GoMap.find m2 k = GoMap.find m k := by
  have hnd2 : (GoMap.keys m2).Nodup := (hp.map Prod.fst).nodup_iff.mpr hnd
  cases h : GoMap.find m k with
  | none =>
    rw [GoMap.find_eq_none_iff] at h ⊢
    intro hk
    exact h ((hp.map Prod.fst).subset hk)
  | some v =>
    exact GoMap.mem_find m2 k v hnd2 (hp.symm.subset (GoMap.find_mem m k v h))

theorem unionCommitsets_perm (m2 m : GoMap String Tally) (hp : m2.Perm m) :
    unionCommitsets m2 = unionCommitsets m := by
  unfold unionCommitsets
  apply List.Perm.foldr_eq' hp
  intro x _ y _ z
  ext a
  simp only [Finset.mem_union]
  tauto

/-- The invariant of one author's per-path tallies does not depend on the
order of the paths. -/
theorem PathsInv.of_perm (pt2 pt : GoMap String Tally) (cs : List Commit) (hp : pt2.Perm pt)
    (h : PathsInv pt cs) : PathsInv pt2 cs := by
  have hfind := fun k => GoMap.find_perm pt2 pt hp h.nodup k
  refine ⟨?_, ?_, ?_, ?_, ?_, ?_, ?_, ?_, ?_, ?_⟩
  · rw [unionCommitsets_perm pt2 pt hp, h.commits]
  · rw [← h.added]
    exact (hp.map (fun kv => kv.2.added)).sum_eq
  · rw [← h.removed]
    exact (hp.map (fun kv => kv.2.removed)).sum_eq
  · rw [← h.files]
    exact (hp.map (fun kv => kv.2.numTallied)).sum_eq
  · intro p
    rw [← h.numAt p]
    simp only [numTalliedAt, hfind p]
  · intro p
    rw [← h.addedPerPath p]
    simp only [addedAt, hfind p]
  · intro p
    rw [← h.removedPerPath p]
    simp only [removedAt, hfind p]
  · intro kv hkv
    exact h.fileset kv (hp.subset hkv)
  · intro hall kv hkv
    exact h.named hall kv (hp.subset hkv)
  · exact (hp.map Prod.fst).nodup_iff.mpr h.nodup

theorem pathsOfKey_of_forall₂ (key : String) :
    ∀ (mid m : TalliesByPath),
      List.Forall₂ (fun e2 e => e2.1 = e.1 ∧ e2.2.Perm e.2) mid m →
      (pathsOfKey mid key).Perm (pathsOfKey m key) ∧ GoMap.keys mid = GoMap.keys m := by
  intro mid
  induction mid with
  | nil =>
    intro m h
    cases h
    exact ⟨List.Perm.refl _, rfl⟩
  | cons e2 rest2 ih =>
    intro m h
    cases h with
    | cons hhead htail =>
      rename_i e rest
      obtain ⟨hk, hperm⟩ := hhead
      obtain ⟨ih1, ih2⟩ := ih rest htail
      refine ⟨?_, by simp only [GoMap.keys, List.map_cons] at ih2 ⊢; rw [hk, ih2]⟩
      by_cases hkey : e2.1 = key
      · have hkey2 : e.1 = key := by rw [← hk]; exact hkey
        have h1 : pathsOfKey (e2 :: rest2) key = e2.2 := by
          simp [pathsOfKey, GoMap.find, hkey]
        have h2 : pathsOfKey (e :: rest) key = e.2 := by
          simp [pathsOfKey, GoMap.find, hkey2]
        rw [h1, h2]
        exact hperm
      · have hkey2 : ¬ e.1 = key := by rw [← hk]; exact hkey
        have h1 : pathsOfKey (e2 :: rest2) key = pathsOfKey rest2 key := by
          simp [pathsOfKey, GoMap.find, hkey]
        have h2 : pathsOfKey (e :: rest) key = pathsOfKey rest key := by
          simp [pathsOfKey, GoMap.find, hkey2]
        rw [h1, h2]
        exact ih1

/-- The invariant of TallyCommitsByPath does not depend on the order in which
the authors and the paths sit in the maps. -/
theorem ByPathInv.of_reordered (opts : TallyOpts) (m2 m : TalliesByPath) (cs : List Commit)
    (hre : TalliesByPath.Reordered m2 m) (h : ByPathInv opts m cs) : ByPathInv opts m2 cs := by
  obtain ⟨mid, hperm, hall⟩ := hre
  have hkeys : GoMap.keys mid = GoMap.keys m := (pathsOfKey_of_forall₂ "" mid m hall).2
  have hndmid : (GoMap.keys mid).Nodup := by rw [hkeys]; exact h.nodup
  refine ⟨(hperm.map Prod.fst).nodup_iff.mpr hndmid, ?_⟩
  intro key
  have h1 : pathsOfKey m2 key = pathsOfKey mid key := by
    simp only [pathsOfKey, GoMap.find_perm m2 mid hperm hndmid key]
  rw [h1]
  exact PathsInv.of_perm _ _ _ (pathsOfKey_of_forall₂ key mid m hall).1 (h.paths key)

theorem TalliesByPath.Reordered.refl (m : TalliesByPath) : TalliesByPath.Reordered m m := by
  refine ⟨m, List.Perm.refl _, ?_⟩
  induction m with
  | nil => exact List.Forall₂.nil
  | cons e rest ih => exact List.Forall₂.cons ⟨rfl, List.Perm.refl _⟩ ih

/-- What Reduce returns on by-path tallies that satisfy the invariant of
TallyCommitsByPath. -/
theorem Reduce_of_inv (opts : TallyOpts) (byPath : TalliesByPath) (commits : List Commit)
    (hinv : ByPathInv opts byPath commits)
    (hnamed : ∀ c ∈ commits, c.AuthorName ≠ "" ∨ c.AuthorEmail ≠ "") :
    (GoMap.keys byPath.Reduce).Nodup ∧
    (∀ key, key ∈ GoMap.keys byPath.Reduce ↔ countedCommitsOf opts key commits ≠ []) ∧
    (∀ key t, GoMap.find byPath.Reduce key = some t →
      ∃ f, t.Final = some f ∧
        f.Commits = (shortHashes (countedCommitsOf opts key commits)).card ∧
        f.LinesAdded = totalAdded (nonMergeDiffs (countedCommitsOf opts key commits)) ∧
        f.LinesRemoved = totalRemoved (nonMergeDiffs (countedCommitsOf opts key commits)) ∧
        f.FileCount = (diffPaths (nonMergeDiffs (countedCommitsOf opts key commits))).card) := by
  have hfind := fun key => find_Reduce byPath key hinv.nodup
  have hcard : ∀ key,
      (reducePaths (pathsOfKey byPath key)).commitset.card > 0
        ↔ countedCommitsOf opts key commits ≠ [] := by
    intro key
    rw [(reducePaths_of_inv _ _ (hinv.paths key)).1, gt_iff_lt, Finset.card_pos,
      Finset.nonempty_iff_ne_empty, Ne, shortHashes_eq_empty_iff]
  refine ⟨nodup_keys_Reduce _, ?_, ?_⟩
  · intro key
    rw [GoMap.mem_keys_iff, hfind key, ← hcard key]
    by_cases hc : (reducePaths (pathsOfKey byPath key)).commitset.card > 0
    · simp [hc]
    · simp [hc]
  · intro key t ht
    rw [hfind key] at ht
    by_cases hc : (reducePaths (pathsOfKey byPath key)).commitset.card > 0
    · rw [if_pos hc] at ht
      cases ht
      obtain ⟨r1, r2, r3, r4, r5⟩ := reducePaths_of_inv _ _ (hinv.paths key)
      have hnamedKey : ∀ c ∈ countedCommitsOf opts key commits,
          c.AuthorName ≠ "" ∨ c.AuthorEmail ≠ "" := by
        intro c hcmem
        exact hnamed c (List.mem_of_mem_filter hcmem)
      have hentries := (hinv.paths key).named hnamedKey
      have hpt : pathsOfKey byPath key ≠ [] := by
        intro hnil
        rw [hnil] at hc
        simp [reducePaths, reduceInit, Tally.zero] at hc
      obtain ⟨kv, hkv⟩ := List.exists_mem_of_ne_nil _ hpt
      have hname := (foldl_Combine_measures _ reduceInit).2.2.2.2.2
        (Or.inr ⟨kv, hkv, hentries kv hkv⟩)
      obtain ⟨f, hf, f1, f2, -, -, f5, f6, -, -⟩ :=
        Tally.Final_of_named (reducePaths (pathsOfKey byPath key)) hname
      refine ⟨f, hf, ?_, ?_, ?_, ?_⟩
      · rw [f1, if_pos hc, r1]
      · rw [f5, r2]
      · rw [f6, r3]
      · rw [f2, r5]
        simp [r4]
    · rw [if_neg hc] at ht
      cases ht

end ReorderLemmas

/-- C5 (amended): for every error-free list of commits that each have a
non-empty author name or email, and every key function, TallyCommits in lines
or files mode returns the Reduce of the by-path tallies, and this result (for
whatever order Reduce visits the authors and paths in) has exactly one tally
per author key with at least one counted commit; its finalised form has
Commits = number of distinct short hashes of the author's counted commits,
LinesAdded and LinesRemoved = the sums over all file diffs of the author's
non-merge commits, and FileCount = the number of distinct paths in those
diffs. -/
theorem TallyCommits_diffMode_spec (commits : List Commit) (opts : TallyOpts)
    (hmode : opts.IsDiffMode = true)
    (hnamed : ∀ c ∈ commits, c.AuthorName ≠ "" ∨ c.AuthorEmail ≠ "") :
    ∃ byPath : TalliesByPath,
      TallyCommitsByPath (WithoutErrors commits) opts = .ok byPath ∧
      TallyCommits (WithoutErrors commits) opts = .ok byPath.Reduce ∧
      ∀ visited : TalliesByPath, TalliesByPath.Reordered visited byPath →
        (GoMap.keys visited.Reduce).Nodup ∧
        (∀ key, key ∈ GoMap.keys visited.Reduce ↔ countedCommitsOf opts key commits ≠ []) ∧
        (∀ key t, GoMap.find visited.Reduce key = some t →
          ∃ f, t.Final = some f ∧
            f.Commits = (shortHashes (countedCommitsOf opts key commits)).card ∧
            f.LinesAdded = totalAdded (nonMergeDiffs (countedCommitsOf opts key commits)) ∧
            f.LinesRemoved = totalRemoved (nonMergeDiffs (countedCommitsOf opts key commits)) ∧
            f.FileCount
              = (diffPaths (nonMergeDiffs (countedCommitsOf opts key commits))).card) := by
  refine ⟨commits.foldl (tallyCommitByPath opts) [], TallyCommitsByPath_WithoutErrors opts commits,
    ?_, ?_⟩
  · unfold TallyCommits
    simp [hmode, TallyCommitsByPath_WithoutErrors]
  · intro visited hre
    exact Reduce_of_inv opts visited commits
      (ByPathInv.of_reordered opts visited _ commits hre (ByPathInv.result opts commits)) hnamed

/-- C5 (witness): the commits of TestTallyCommits, in lines mode keyed by
email: bob's tally finalises to 1 commit, +14 / -3, 3 files. -/
theorem TallyCommits_diffMode_spec_witness :
    Examples.testOpts.IsDiffMode = true ∧
    (∀ c ∈ Examples.testCommits, c.AuthorName ≠ "" ∨ c.AuthorEmail ≠ "") ∧
    ∃ tallies, TallyCommits (WithoutErrors Examples.testCommits) Examples.testOpts = .ok tallies ∧
      GoMap.keys tallies = ["bob@mail.com", "jim@mail.com"] ∧
      ∃ t f, GoMap.find tallies "bob@mail.com" = some t ∧ t.Final = some f ∧
        f.Commits = 1 ∧ f.LinesAdded = 14 ∧ f.LinesRemoved = 3 ∧ f.FileCount = 3 := by
  have hm : Examples.testOpts.IsDiffMode = true := by decide
  have hn : ∀ c ∈ Examples.testCommits, c.AuthorName ≠ "" ∨ c.AuthorEmail ≠ "" := by decide
  refine ⟨hm, hn, ?_⟩
  obtain ⟨byPath, hby, hres, hspec⟩ :=
    TallyCommits_diffMode_spec Examples.testCommits Examples.testOpts hm hn
  have hval : byPath = Examples.testCommits.foldl (tallyCommitByPath Examples.testOpts) [] := by
    rw [TallyCommitsByPath_WithoutErrors] at hby
    cases hby
    rfl
  subst hval
  obtain ⟨-, -, hfinal⟩ := hspec _ (TalliesByPath.Reordered.refl _)
  refine ⟨_, hres, by decide, ?_⟩
  have hsome : (GoMap.find
      ((Examples.testCommits.foldl (tallyCommitByPath Examples.testOpts) []).Reduce)
      "bob@mail.com").isSome = true := by
    decide
  obtain ⟨t, ht⟩ := Option.isSome_iff_exists.mp hsome
  obtain ⟨f, hf, c1, c2, c3, c4⟩ := hfinal "bob@mail.com" t ht
  refine ⟨t, f, ht, hf, ?_, ?_, ?_, ?_⟩
  · rw [c1]; decide
  · rw [c2]; decide
  · rw [c3]; decide
  · rw [c4]; decide

section MergeLemmas

theorem foldl_tallyCommitByPath_filter (opts : TallyOpts) (hcm : opts.CountMerges = false)
    (commits : List Commit) :
    ∀ tallies : TalliesByPath,
      commits.foldl (tallyCommitByPath opts) tallies =
        (commits.filter (fun c => !c.IsMerge)).foldl (tallyCommitByPath opts) tallies := by
  induction commits with
  | nil => intro tallies; rfl
  | cons c rest ih =>
    intro tallies
    cases hm : c.IsMerge with
    | true =>
      have hskip : tallyCommitByPath opts tallies c = tallies := by
        simp [tallyCommitByPath, hm, hcm]
      simp [List.filter_cons, hm, hskip, ih tallies]
    | false =>
      simp [List.filter_cons, hm, ih (tallyCommitByPath opts tallies c)]

theorem nonMergeDiffs_append (a b : List Commit) :
    nonMergeDiffs (a ++ b) = nonMergeDiffs a ++ nonMergeDiffs b := by
  simp [nonMergeDiffs, List.filter_append]

theorem countedCommitsOf_append (opts : TallyOpts) (key : String) (a b : List Commit) :
    countedCommitsOf opts key (a ++ b) =
      countedCommitsOf opts key a ++ countedCommitsOf opts key b := by
  simp [countedCommitsOf, List.filter_append]

theorem nonMergeDiffs_counted_insert_merge (opts : TallyOpts) (key : String)
    (pre post : List Commit) (m : Commit) (hm : m.IsMerge = true) :
    nonMergeDiffs (countedCommitsOf opts key (pre ++ m :: post)) =
      nonMergeDiffs (countedCommitsOf opts key (pre ++ post)) := by
  have hcons : countedCommitsOf opts key (m :: post) =
      (if (counted opts m && decide (opts.Key m = key)) = true then [m] else [])
        ++ countedCommitsOf opts key post := by
    unfold countedCommitsOf
    by_cases h : (counted opts m && decide (opts.Key m = key)) = true
    · simp [List.filter_cons, h]
    · simp [List.filter_cons, h]
  rw [countedCommitsOf_append, countedCommitsOf_append, hcons, nonMergeDiffs_append,
    nonMergeDiffs_append, nonMergeDiffs_append]
  have : nonMergeDiffs
      (if (counted opts m && decide (opts.Key m = key)) = true then [m] else []) = [] := by
    by_cases h : (counted opts m && decide (opts.Key m = key)) = true
    · simp [h, nonMergeDiffs, List.filter_cons, hm]
    · simp [h, nonMergeDiffs]
  rw [this, List.nil_append]

theorem shortHashes_counted_insert_merge (opts : TallyOpts) (hcm : opts.CountMerges = true)
    (key : String) (pre post : List Commit) (m : Commit) :
    shortHashes (countedCommitsOf opts key (pre ++ m :: post)) =
      if key = opts.Key m
      then insert m.ShortHash (shortHashes (countedCommitsOf opts key (pre ++ post)))
      else shortHashes (countedCommitsOf opts key (pre ++ post)) := by
  have hcounted : counted opts m = true := by simp [counted, hcm]
  rw [countedCommitsOf_append, countedCommitsOf_append]
  by_cases hk : key = opts.Key m
  · rw [if_pos hk]
    have : countedCommitsOf opts key (m :: post) = m :: countedCommitsOf opts key post := by
      simp [countedCommitsOf, List.filter_cons, hcounted, hk]
    rw [this]
    ext x
    simp only [shortHashes, List.map_append, List.map_cons, List.toFinset_append,
      List.toFinset_cons, Finset.mem_union, Finset.mem_insert]
    tauto
  · rw [if_neg hk]
    have : countedCommitsOf opts key (m :: post) = countedCommitsOf opts key post := by
      have hk2 : ¬ opts.Key m = key := fun h => hk h.symm
      simp [countedCommitsOf, List.filter_cons, hk2]
    rw [this]

end MergeLemmas

/-- C6: with count-merges false, TallyCommitsByPath returns what it returns on
the list with all merge commits removed; with count-merges true, a merge commit
adds its short hash to its author's commit set (and to no other author's) and
leaves the lines added, lines removed and numTallied of every author and path,
and their totals per author, as they are without that merge commit. -/
theorem TallyCommitsByPath_merge_commits (opts : TallyOpts) :
    (∀ commits : List Commit,
      TallyCommitsByPath (WithoutErrors commits) { opts with CountMerges := false } =
        TallyCommitsByPath (WithoutErrors (commits.filter (fun c => !c.IsMerge)))
          { opts with CountMerges := false }) ∧
    (∀ (pre post : List Commit) (m : Commit), m.IsMerge = true →
      ∃ withMerge without,
        TallyCommitsByPath (WithoutErrors (pre ++ m :: post)) { opts with CountMerges := true }
          = .ok withMerge ∧
        TallyCommitsByPath (WithoutErrors (pre ++ post)) { opts with CountMerges := true }
          = .ok without ∧
        (∀ key, unionCommitsets (pathsOfKey withMerge key) =
          if key = opts.Key m
          then insert m.ShortHash (unionCommitsets (pathsOfKey without key))
          else unionCommitsets (pathsOfKey without key)) ∧
        (∀ key path,
          addedAt (pathsOfKey withMerge key) path = addedAt (pathsOfKey without key) path ∧
          removedAt (pathsOfKey withMerge key) path = removedAt (pathsOfKey without key) path ∧
          numTalliedAt (pathsOfKey withMerge key) path
            = numTalliedAt (pathsOfKey without key) path) ∧
        (∀ key,
          sumAdded (pathsOfKey withMerge key) = sumAdded (pathsOfKey without key) ∧
          sumRemoved (pathsOfKey withMerge key) = sumRemoved (pathsOfKey without key) ∧
          sumNumTallied (pathsOfKey withMerge key) = sumNumTallied (pathsOfKey without key))) := by
  constructor
  · intro commits
    rw [TallyCommitsByPath_WithoutErrors, TallyCommitsByPath_WithoutErrors,
      foldl_tallyCommitByPath_filter _ rfl commits []]
  · intro pre post m hm
    have h1 := ByPathInv.result { opts with CountMerges := true } (pre ++ m :: post)
    have h0 := ByPathInv.result { opts with CountMerges := true } (pre ++ post)
    refine ⟨_, _, TallyCommitsByPath_WithoutErrors _ _, TallyCommitsByPath_WithoutErrors _ _,
      ?_, ?_, ?_⟩
    · intro key
      rw [(h1.paths key).commits, (h0.paths key).commits]
      exact shortHashes_counted_insert_merge { opts with CountMerges := true } rfl key pre post m
    · intro key path
      have hd := nonMergeDiffs_counted_insert_merge { opts with CountMerges := true } key
        pre post m hm
      refine ⟨?_, ?_, ?_⟩
      · rw [(h1.paths key).addedPerPath, (h0.paths key).addedPerPath, hd]
      · rw [(h1.paths key).removedPerPath, (h0.paths key).removedPerPath, hd]
      · rw [(h1.paths key).numAt, (h0.paths key).numAt, hd]
    · intro key
      have hd := nonMergeDiffs_counted_insert_merge { opts with CountMerges := true } key
        pre post m hm
      refine ⟨?_, ?_, ?_⟩
      · rw [(h1.paths key).added, (h0.paths key).added, hd]
      · rw [(h1.paths key).removed, (h0.paths key).removed, hd]
      · rw [(h1.paths key).files, (h0.paths key).files, hd]

/-- C6 (witness): after the two commits of TestTallyCommits, a merge commit by
bob touching bim.txt (5 added, 5 removed) puts its hash into bob's commit set and leaves
bob's lines and numTallied for bim.txt at 4, 0 and 1. -/
theorem TallyCommitsByPath_merge_commits_witness :
    Examples.bobMerge.IsMerge = true ∧
    ∃ withMerge without,
      TallyCommitsByPath (WithoutErrors (Examples.testCommits ++ Examples.bobMerge :: []))
        { Examples.testOpts with CountMerges := true } = .ok withMerge ∧
      TallyCommitsByPath (WithoutErrors (Examples.testCommits ++ []))
        { Examples.testOpts with CountMerges := true } = .ok without ∧
      "bac" ∈ unionCommitsets (pathsOfKey withMerge "bob@mail.com") ∧
      "bac" ∉ unionCommitsets (pathsOfKey without "bob@mail.com") ∧
      addedAt (pathsOfKey withMerge "bob@mail.com") "bim.txt" = 4 ∧
      removedAt (pathsOfKey withMerge "bob@mail.com") "bim.txt" = 0 ∧
      numTalliedAt (pathsOfKey withMerge "bob@mail.com") "bim.txt" = 1 := by
  refine ⟨rfl, ?_⟩
  obtain ⟨w, wo, hw, hwo, hcs, hat, -⟩ :=
    (TallyCommitsByPath_merge_commits Examples.testOpts).2 Examples.testCommits []
      Examples.bobMerge rfl
  have hwo2 : wo = (Examples.testCommits ++ []).foldl
      (tallyCommitByPath { Examples.testOpts with CountMerges := true }) [] := by
    rw [TallyCommitsByPath_WithoutErrors] at hwo
    cases hwo
    rfl
  refine ⟨w, wo, hw, hwo, ?_, ?_, ?_, ?_, ?_⟩
  · rw [hcs "bob@mail.com"]
    have : "bob@mail.com" = Examples.testOpts.Key Examples.bobMerge := by decide
    rw [if_pos this]
    exact Finset.mem_insert.mpr (Or.inl (by decide))
  · rw [hwo2]; decide
  · rw [(hat "bob@mail.com" "bim.txt").1, hwo2]; decide
  · rw [(hat "bob@mail.com" "bim.txt").2.1, hwo2]; decide
  · rw [(hat "bob@mail.com" "bim.txt").2.2, hwo2]; decide

/-! ## Theorems: ranking -/

section RankLemmas

theorem Time.Compare_nonneg_iff_le (t u : Time) : 0 ≤ t.Compare u ↔ u.nanos ≤ t.nanos := by
  unfold Time.Compare
  by_cases h1 : t.nanos < u.nanos
  · simp [h1]
  · by_cases h2 : u.nanos < t.nanos
    · simp [h1, h2, le_of_lt h2]
    · simp [h1, h2, not_lt.mp h1]

theorem FinalTally.Compare_nonneg_iff (a b : FinalTally) (mode : TallyMode) :
    0 ≤ a.Compare b mode ↔
      (b.SortKey mode < a.SortKey mode ∨
        (a.SortKey mode = b.SortKey mode ∧ b.LastCommitTime.nanos ≤ a.LastCommitTime.nanos)) := by
  simp only [FinalTally.Compare]
  by_cases h1 : a.SortKey mode < b.SortKey mode
  · simp only [h1, if_true]
    constructor
    · intro h; omega
    · rintro (h | ⟨h, -⟩) <;> omega
  · by_cases h2 : b.SortKey mode < a.SortKey mode
    · simp [h1, h2]
    · simp only [h1, h2, if_false, Time.Compare_nonneg_iff_le, false_or]
      constructor
      · intro h
        exact ⟨by omega, h⟩
      · rintro ⟨-, h⟩
        exact h

theorem Rank.finals_of_named (tallies : GoMap String Tally)
    (h : ∀ kv ∈ tallies, kv.2.name ≠ "" ∨ kv.2.email ≠ "") :
    ∃ final : List FinalTally,
      Rank.finals tallies = some final ∧
      tallies.map (fun kv => kv.2.Final) = final.map some := by
  induction tallies with
  | nil => exact ⟨[], by simp [Rank.finals], by simp⟩
  | cons kv rest ih =>
    obtain ⟨final, h1, h2⟩ := ih (fun kv2 hkv2 => h kv2 (List.mem_cons_of_mem _ hkv2))
    obtain ⟨f, hf, -⟩ := Tally.Final_of_named kv.2 (h kv (List.mem_cons_self _ _))
    refine ⟨f :: final, ?_, ?_⟩
    · simp [Rank.finals, hf, h1]
    · simp [hf, h2]

end RankLemmas

/-- C7 (counterexample): two commits, by `new` at second 0 and by `old` at the
least int64 second, -9223372036854775808, are tallied by TallyCommits; in
first-modified mode Rank puts `new` before `old`: the negation of the least
second wraps to itself, the smallest sort key. The ranked first-commit times do
not ascend. -/
theorem Rank_first_modified_least_second :
    TallyCommits (WithoutErrors Examples.leastSecondCommits) Examples.firstModifiedOpts
      = .ok Examples.leastSecond ∧
    (∀ kv ∈ Examples.leastSecond, kv.2.name ≠ "" ∨ kv.2.email ≠ "") ∧
    (Rank Examples.leastSecond TallyMode.FirstModifiedMode).map
        (fun ranked => ranked.map (fun f => (f.AuthorName, f.FirstCommitTime.Unix))) =
      some [("new", 0), ("old", -9223372036854775808)] ∧
    ¬ ∃ ranked, Rank Examples.leastSecond TallyMode.FirstModifiedMode = some ranked ∧
        ranked.Pairwise (fun a b => a.FirstCommitTime.Unix ≤ b.FirstCommitTime.Unix) := by
  refine ⟨by decide, by decide, by decide, ?_⟩
  rintro ⟨ranked, hr, hp⟩
  have hval : Rank Examples.leastSecond TallyMode.FirstModifiedMode =
      some ((Rank Examples.leastSecond TallyMode.FirstModifiedMode).getD []) := by decide
  rw [hval] at hr
  cases hr
  revert hp
  decide

/-- C7: for a map of tallies that each have a name or an email, and every mode,
Rank returns a permutation of the finalised tallies in which every element,
compared with every later one (so also with the next one), has a greater sort
key, or an equal sort key and a last commit time that is not earlier; in
first-modified mode the first commit times (unix seconds) ascend, provided none
of them is the least int64 second. -/
theorem Rank_spec (tallies : GoMap String Tally) (mode : TallyMode)
    (h : ∀ kv ∈ tallies, kv.2.name ≠ "" ∨ kv.2.email ≠ "") :
    ∃ final ranked : List FinalTally,
      tallies.map (fun kv => kv.2.Final) = final.map some ∧
      Rank tallies mode = some ranked ∧
      ranked.Perm final ∧
      ranked.Pairwise (fun a b =>
        b.SortKey mode < a.SortKey mode ∨
          (a.SortKey mode = b.SortKey mode ∧
            b.LastCommitTime.nanos ≤ a.LastCommitTime.nanos)) ∧
      (mode = TallyMode.FirstModifiedMode →
        (∀ f ∈ ranked, f.FirstCommitTime.Unix ≠ -9223372036854775808) →
        ranked.Pairwise (fun a b => a.FirstCommitTime.Unix ≤ b.FirstCommitTime.Unix)) := by
  obtain ⟨final, h1, h2⟩ := Rank.finals_of_named tallies h
  haveI : IsTotal FinalTally (fun a b => -a.Compare b mode ≤ 0) := by
    constructor
    intro a b
    have ha := FinalTally.Compare_nonneg_iff a b mode
    have hb := FinalTally.Compare_nonneg_iff b a mode
    by_cases hab : 0 ≤ a.Compare b mode
    · left; show -a.Compare b mode ≤ 0; omega
    · right
      show -b.Compare a mode ≤ 0
      have : 0 ≤ b.Compare a mode := by
        rw [hb]
        rw [ha] at hab
        by_cases hk : a.SortKey mode < b.SortKey mode
        · exact Or.inl hk
        · right
          constructor
          · by_contra hne
            exact hab (Or.inl (by omega))
          · by_contra hle
            exact hab (Or.inr ⟨by
              by_contra hne
              exact hab (Or.inl (by omega)), by omega⟩)
      omega
  haveI : IsTrans FinalTally (fun a b => -a.Compare b mode ≤ 0) := by
    constructor
    intro a b c hab hbc
    have hab2 : 0 ≤ a.Compare b mode := by
      have : -a.Compare b mode ≤ 0 := hab
      omega
    have hbc2 : 0 ≤ b.Compare c mode := by
      have : -b.Compare c mode ≤ 0 := hbc
      omega
    rw [FinalTally.Compare_nonneg_iff] at hab2 hbc2
    have : 0 ≤ a.Compare c mode := by
      rw [FinalTally.Compare_nonneg_iff]
      rcases hab2 with h1 | ⟨h1, h1t⟩ <;> rcases hbc2 with h2 | ⟨h2, h2t⟩
      · left; omega
      · left; omega
      · left; omega
      · right; exact ⟨by omega, by omega⟩
    show -a.Compare c mode ≤ 0
    omega
  have hsorted := List.sorted_insertionSort (fun a b : FinalTally => -a.Compare b mode ≤ 0) final
  have hperm := List.perm_insertionSort (fun a b : FinalTally => -a.Compare b mode ≤ 0) final
  have hpair : (SortFunc (fun a b : FinalTally => -a.Compare b mode) final).Pairwise (fun a b =>
        b.SortKey mode < a.SortKey mode ∨
          (a.SortKey mode = b.SortKey mode ∧
            b.LastCommitTime.nanos ≤ a.LastCommitTime.nanos)) := by
    unfold SortFunc
    refine List.Pairwise.imp ?_ hsorted
    intro a b hab
    rw [← FinalTally.Compare_nonneg_iff]
    have : -a.Compare b mode ≤ 0 := hab
    omega
  refine ⟨final, SortFunc (fun a b => -a.Compare b mode) final, h2, ?_, hperm, hpair, ?_⟩
  · simp [Rank, h1]
  · intro hmode hrange
    subst hmode
    refine List.Pairwise.imp_of_mem ?_ hpair
    intro a b ha hb hab
    have hra := hrange a ha
    have hrb := hrange b hb
    have hua := Time.Unix_range a.FirstCommitTime
    have hub := Time.Unix_range b.FirstCommitTime
    simp only [FinalTally.SortKey, wrapInt64] at hab
    rcases hab with h | ⟨h, -⟩ <;> omega

/-- C7 (witness): three named tallies ranked in first-modified mode: ann, first
committed at second 50, comes first, then jim (100) and bob (150); the sort keys
descend and the first commit times ascend. -/
theorem Rank_spec_witness :
    (∀ kv ∈ Examples.rankInput, kv.2.name ≠ "" ∨ kv.2.email ≠ "") ∧
    ∃ ranked : List FinalTally,
      Rank Examples.rankInput TallyMode.FirstModifiedMode = some ranked ∧
      ranked.map (fun f => f.AuthorName) = ["ann", "jim", "bob"] ∧
      ranked.Pairwise (fun a b =>
        b.SortKey TallyMode.FirstModifiedMode < a.SortKey TallyMode.FirstModifiedMode ∨
          (a.SortKey TallyMode.FirstModifiedMode = b.SortKey TallyMode.FirstModifiedMode ∧
            b.LastCommitTime.nanos ≤ a.LastCommitTime.nanos)) ∧
      ranked.Pairwise (fun a b => a.FirstCommitTime.Unix ≤ b.FirstCommitTime.Unix) := by
  have hn : ∀ kv ∈ Examples.rankInput, kv.2.name ≠ "" ∨ kv.2.email ≠ "" := by decide
  obtain ⟨final, ranked, -, hr, -, hp, hf⟩ :=
    Rank_spec Examples.rankInput TallyMode.FirstModifiedMode hn
  have hval : Rank Examples.rankInput TallyMode.FirstModifiedMode =
      some (((Rank Examples.rankInput TallyMode.FirstModifiedMode).getD [])) := by decide
  have hrange : ∀ f ∈ ranked, f.FirstCommitTime.Unix ≠ -9223372036854775808 := by
    rw [hval] at hr
    cases hr
    decide
  refine ⟨hn, ranked, hr, ?_, hp, hf rfl hrange⟩
  rw [hval] at hr
  cases hr
  decide

/-! ## Theorems: combining time series -/

section SeriesLemmas

/-- The tallies of a combined bucket, author by author (the second map being
a map: its keys are pairwise distinct). -/
theorem find_foldl_Combine_step (kvs : GoMap String Tally) (key : String)
    (hnd : (GoMap.keys kvs).Nodup) :
    ∀ m : GoMap String Tally,
      GoMap.find (kvs.foldl TimeBucket.Combine.step m) key =
        combineOpt (GoMap.find m key) (GoMap.find kvs key) := by
  induction kvs with
  | nil =>
    intro m
    cases h : GoMap.find m key <;> simp [GoMap.find, combineOpt, h]
  | cons kv rest ih =>
    obtain ⟨k', t⟩ := kv
    intro m
    have h' : k' ∉ GoMap.keys rest ∧ (GoMap.keys rest).Nodup := by
      simpa [GoMap.keys] using hnd
    rw [List.foldl_cons, ih h'.2]
    by_cases hk : k' = key
    · subst hk
      have hnone : GoMap.find rest k' = none := (GoMap.find_eq_none_iff rest k').mpr h'.1
      cases hm : GoMap.find m k' <;>
        simp [TimeBucket.Combine.step, hm, hnone, GoMap.find, GoMap.find_put_self, combineOpt]
    · have hne : key ≠ k' := fun h => hk h.symm
      have : GoMap.find (TimeBucket.Combine.step m (k', t)) key = GoMap.find m key := by
        cases hm : GoMap.find m k' <;>
          simp [TimeBucket.Combine.step, hm, GoMap.find_put_ne _ _ _ _ hne]
      simp [this, GoMap.find, hk]

/-- Two buckets with the same name and the same time struct combine without a
panic: the result is the first bucket with the tallies of the second merged
in. -/
theorem TimeBucket.Combine_of_eq (a b : TimeBucket) (hn : a.Name = b.Name) (ht : a.Time = b.Time)
    (hr : a.TimeRepr = b.TimeRepr) :
    a.Combine b = some { a with tallies := b.tallies.foldl TimeBucket.Combine.step a.tallies } := by
  simp [TimeBucket.Combine, hn, ht, hr]

theorem bucketAt_eq_none_iff (s : TimeSeries) (u : Int) :
    bucketAt s u = none ↔ u ∉ unixTimes s := by
  simp [bucketAt, unixTimes, List.find?_eq_none]

theorem bucketAt_some_unix (s : TimeSeries) (u : Int) (x : TimeBucket)
    (h : bucketAt s u = some x) : x.Time.Unix = u ∧ x ∈ s := by
  unfold bucketAt at h
  have h1 := List.find?_some h
  have h2 := List.mem_of_find?_eq_some h
  exact ⟨by simpa using h1, h2⟩

theorem bucketAt_of_mem (s : TimeSeries) (x : TimeBucket) (hnd : (unixTimes s).Nodup)
    (hx : x ∈ s) : bucketAt s x.Time.Unix = some x := by
  induction s with
  | nil => simp at hx
  | cons y rest ih =>
    have h' : y.Time.Unix ∉ unixTimes rest ∧ (unixTimes rest).Nodup := by
      simpa [unixTimes] using hnd
    rcases List.mem_cons.mp hx with rfl | hx
    · simp [bucketAt]
    · have hne : ¬ y.Time.Unix = x.Time.Unix := by
        intro heq
        apply h'.1
        rw [heq]
        exact List.mem_map_of_mem (fun b : TimeBucket => b.Time.Unix) hx
      have := ih h'.2 hx
      simp only [bucketAt] at this ⊢
      simp [List.find?_cons, hne, this]

/-- The first loop of TimeSeries.Combine: the map holds each bucket of `a`
under its unix time. -/
theorem find_foldl_put_buckets (a : TimeSeries) (u : Int) (hnd : (unixTimes a).Nodup) :
    ∀ m : GoMap Int TimeBucket,
      GoMap.find (a.foldl (fun buckets bucket => GoMap.put buckets bucket.Time.Unix bucket) m) u =
        match bucketAt a u with
        | some x => some x
        | none => GoMap.find m u := by
  induction a with
  | nil => intro m; simp [bucketAt]
  | cons x rest ih =>
    intro m
    have h' : x.Time.Unix ∉ unixTimes rest ∧ (unixTimes rest).Nodup := by
      simpa [unixTimes] using hnd
    rw [List.foldl_cons, ih h'.2]
    by_cases hx : x.Time.Unix = u
    · subst hx
      have hnone : bucketAt rest x.Time.Unix = none := (bucketAt_eq_none_iff _ _).mpr h'.1
      have hb : bucketAt (x :: rest) x.Time.Unix = some x := by simp [bucketAt]
      rw [hnone, hb, GoMap.find_put_self]
    · have hb : bucketAt (x :: rest) u = bucketAt rest u := by
        simp [bucketAt, List.find?_cons, hx]
      rw [hb, GoMap.find_put_ne _ _ _ _ (fun h => hx h.symm)]

theorem keys_foldl_put_buckets (a : TimeSeries) :
    ∀ m : GoMap Int TimeBucket, (GoMap.keys m).Nodup →
      (GoMap.keys
        (a.foldl (fun buckets bucket => GoMap.put buckets bucket.Time.Unix bucket) m)).Nodup ∧
      ∀ u, u ∈ GoMap.keys
          (a.foldl (fun buckets bucket => GoMap.put buckets bucket.Time.Unix bucket) m) ↔
        (u ∈ GoMap.keys m ∨ u ∈ unixTimes a) := by
  induction a with
  | nil => intro m h; simp [h, unixTimes]
  | cons x rest ih =>
    intro m h
    obtain ⟨i1, i2⟩ := ih (GoMap.put m x.Time.Unix x) (GoMap.nodup_keys_put _ _ _ h)
    refine ⟨by simpa using i1, ?_⟩
    intro u
    rw [List.foldl_cons, i2 u, GoMap.mem_keys_put]
    simp only [unixTimes, List.map_cons, List.mem_cons]
    tauto

/-- The second loop of TimeSeries.Combine: when every bucket of `b` that meets
a bucket already in the map has its name and time, the loop does not panic, and
the map then holds, under each unix time, the combination of what it held with
the bucket of `b` at that time. -/
theorem TimeSeries.Combine.merge_spec (b : TimeSeries) (hnd : (unixTimes b).Nodup) :
    ∀ m : GoMap Int TimeBucket, (GoMap.keys m).Nodup →
      (∀ y ∈ b, ∀ e, GoMap.find m y.Time.Unix = some e → e.Name = y.Name ∧ e.Time = y.Time ∧ e.TimeRepr = y.TimeRepr) →
      ∃ m2, TimeSeries.Combine.merge m b = some m2 ∧
        (GoMap.keys m2).Nodup ∧
        (∀ u, u ∈ GoMap.keys m2 ↔ (u ∈ GoMap.keys m ∨ u ∈ unixTimes b)) ∧
        (∀ u, GoMap.find m2 u =
          match bucketAt b u with
          | some y =>
            (match GoMap.find m u with
             | some e => e.Combine y
             | none => some y)
          | none => GoMap.find m u) := by
  induction b with
  | nil =>
    intro m hm _
    exact ⟨m, rfl, hm, by simp [unixTimes], by simp [bucketAt]⟩
  | cons y rest ih =>
    intro m hm hcompat
    have h' : y.Time.Unix ∉ unixTimes rest ∧ (unixTimes rest).Nodup := by
      simpa [unixTimes] using hnd
    have hbnone : bucketAt rest y.Time.Unix = none := (bucketAt_eq_none_iff _ _).mpr h'.1
    -- the bucket stored for `y`, and the map after the iteration
    have hstep : ∃ stored,
        (match GoMap.find m y.Time.Unix with
         | some e => e.Combine y
         | none => some y) = some stored ∧
        TimeSeries.Combine.merge m (y :: rest) =
          TimeSeries.Combine.merge (GoMap.put m y.Time.Unix stored) rest := by
      cases hf : GoMap.find m y.Time.Unix with
      | none => exact ⟨y, rfl, by simp [TimeSeries.Combine.merge, hf]⟩
      | some e =>
        obtain ⟨hn, ht, hrp⟩ := hcompat y (List.mem_cons_self _ _) e hf
        refine ⟨_, TimeBucket.Combine_of_eq e y hn ht hrp, ?_⟩
        simp [TimeSeries.Combine.merge, hf, TimeBucket.Combine_of_eq e y hn ht hrp]
    obtain ⟨stored, hstored, hmerge⟩ := hstep
    have hcompat2 : ∀ y2 ∈ rest, ∀ e, GoMap.find (GoMap.put m y.Time.Unix stored) y2.Time.Unix
        = some e → e.Name = y2.Name ∧ e.Time = y2.Time ∧ e.TimeRepr = y2.TimeRepr := by
      intro y2 hy2 e he
      have hne : y2.Time.Unix ≠ y.Time.Unix := by
        intro heq
        apply h'.1
        rw [← heq]
        exact List.mem_map_of_mem (fun b : TimeBucket => b.Time.Unix) hy2
      rw [GoMap.find_put_ne _ _ _ _ hne] at he
      exact hcompat y2 (List.mem_cons_of_mem _ hy2) e he
    obtain ⟨m2, r1, r2, r3, r4⟩ :=
      ih h'.2 (GoMap.put m y.Time.Unix stored) (GoMap.nodup_keys_put _ _ _ hm) hcompat2
    refine ⟨m2, by rw [hmerge, r1], r2, ?_, ?_⟩
    · intro u
      rw [r3 u, GoMap.mem_keys_put]
      simp only [unixTimes, List.map_cons, List.mem_cons]
      tauto
    · intro u
      rw [r4 u]
      by_cases hu : y.Time.Unix = u
      · subst hu
        have hb : bucketAt (y :: rest) y.Time.Unix = some y := by simp [bucketAt]
        rw [hbnone, hb, GoMap.find_put_self]
        exact hstored.symm
      · have hb : bucketAt (y :: rest) u = bucketAt rest u := by
          simp [bucketAt, List.find?_cons, hu]
        rw [hb, GoMap.find_put_ne _ _ _ _ (fun h => hu h.symm)]

/-- Looking a unix time up in the buckets read off a map along a list of
distinct keys, when each bucket sits under its own unix time. -/
theorem bucketAt_map_find (m : GoMap Int TimeBucket)
    (hkey : ∀ u z, GoMap.find m u = some z → z.Time.Unix = u) (ks : List Int)
    (hks : ∀ k ∈ ks, k ∈ GoMap.keys m) (u : Int) :
    bucketAt (ks.map (fun key =>
        match GoMap.find m key with
        | some bucket => bucket
        | none => TimeBucket.zero)) u =
      if u ∈ ks then GoMap.find m u else none := by
  induction ks with
  | nil => simp [bucketAt]
  | cons k rest ih =>
    obtain ⟨z, hz⟩ := (GoMap.mem_keys_iff m k).mp (hks k (List.mem_cons_self _ _))
    have hzu := hkey k z hz
    have ih2 := ih (fun k2 h2 => hks k2 (List.mem_cons_of_mem _ h2))
    simp only [bucketAt] at ih2 ⊢
    by_cases hk : k = u
    · subst hk
      simp [List.find?_cons, hz, hzu]
    · have hne : ¬ z.Time.Unix = u := by rw [hzu]; exact hk
      have hne2 : ¬ u = k := fun h => hk h.symm
      simp only [List.map_cons, List.find?_cons, hz, hne, decide_False, List.mem_cons, hne2,
        false_or]
      exact ih2

theorem unixTimes_map_find (m : GoMap Int TimeBucket)
    (hkey : ∀ u z, GoMap.find m u = some z → z.Time.Unix = u) (ks : List Int)
    (hks : ∀ k ∈ ks, k ∈ GoMap.keys m) :
    unixTimes (ks.map (fun key =>
        match GoMap.find m key with
        | some bucket => bucket
        | none => TimeBucket.zero)) = ks := by
  induction ks with
  | nil => simp [unixTimes]
  | cons k rest ih =>
    obtain ⟨z, hz⟩ := (GoMap.mem_keys_iff m k).mp (hks k (List.mem_cons_self _ _))
    have hzu := hkey k z hz
    have ih2 := ih (fun k2 h2 => hks k2 (List.mem_cons_of_mem _ h2))
    simp only [unixTimes] at ih2 ⊢
    simp [hz, hzu, ih2]

end SeriesLemmas

/-- C8 (counterexample): two one-bucket series with the same name whose bucket
times fall in the same unix second but differ by a nanosecond: each series has
pairwise distinct bucket times and all names are equal, yet Combine panics
(the bucket times do not match). -/
theorem TimeSeries.Combine_same_second_panics :
    TimeSeries.Combine Examples.epochSeries Examples.epochPlusNanoSeries = none ∧
    (unixTimes Examples.epochSeries).Nodup ∧
    (unixTimes Examples.epochPlusNanoSeries).Nodup ∧
    (∀ x ∈ Examples.epochSeries, ∀ y ∈ Examples.epochPlusNanoSeries, x.Name = y.Name) ∧
    unixTimes Examples.epochSeries = unixTimes Examples.epochPlusNanoSeries := by
  decide

/-- One instant in two representations: two equally named buckets at the Unix
epoch, one in the representation of `time.Unix` and one in another (as after
`.UTC()`), are unequal structs, and combining the series panics. -/
theorem TimeSeries.Combine_other_representation_panics :
    TimeSeries.Combine Examples.epochSeries Examples.epochUTCSeries = none ∧
    (∀ x ∈ Examples.epochSeries, ∀ y ∈ Examples.epochUTCSeries,
      x.Name = y.Name ∧ x.Time = y.Time) := by
  decide

/-- C8 (amended): for two series, each with pairwise distinct bucket times
(unix seconds), such that buckets of the two series in the same unix second
have equal names and equal times as `time.Time` values (the same instant in the
same representation), a.Combine(b) returns a series with exactly
one bucket for each unix time occurring in a or b, in strictly ascending order;
a bucket present on one side only is adopted unchanged; for a time present on
both sides the bucket is a's with, author by author, the Tally.Combine of the
two tallies where both sides have one and the single tally otherwise. -/
theorem TimeSeries.Combine_spec (a b : TimeSeries)
    (ha : (unixTimes a).Nodup) (hb : (unixTimes b).Nodup)
    (hab : ∀ x ∈ a, ∀ y ∈ b, x.Time.Unix = y.Time.Unix →
      x.Name = y.Name ∧ x.Time = y.Time ∧ x.TimeRepr = y.TimeRepr)
    (hmaps : ∀ y ∈ b, (GoMap.keys y.tallies).Nodup) :
    ∃ c, TimeSeries.Combine a b = some c ∧
      (unixTimes c).Pairwise (fun u v => u < v) ∧
      (∀ u, u ∈ unixTimes c ↔ (u ∈ unixTimes a ∨ u ∈ unixTimes b)) ∧
      (∀ u, bucketAt c u =
        match bucketAt a u, bucketAt b u with
        | some x, some y => x.Combine y
        | some x, none => some x
        | none, some y => some y
        | none, none => none) ∧
      (∀ x ∈ a, ∀ y ∈ b, x.Time.Unix = y.Time.Unix →
        ∃ z, x.Combine y = some z ∧ z.Name = x.Name ∧ z.Time = x.Time ∧
          z.TimeRepr = x.TimeRepr ∧
          ∀ key, GoMap.find z.tallies key =
            combineOpt (GoMap.find x.tallies key) (GoMap.find y.tallies key)) := by
  -- the map after the first loop
  have hfa : ∀ u, GoMap.find
      (a.foldl (fun buckets bucket => GoMap.put buckets bucket.Time.Unix bucket) []) u
        = bucketAt a u := by
    intro u
    rw [find_foldl_put_buckets a u ha []]
    cases bucketAt a u <;> simp [GoMap.find]
  obtain ⟨hka1, hka2⟩ := keys_foldl_put_buckets a [] (by simp [GoMap.keys])
  have hcompat : ∀ y ∈ b, ∀ e, GoMap.find
      (a.foldl (fun buckets bucket => GoMap.put buckets bucket.Time.Unix bucket) [])
        y.Time.Unix = some e → e.Name = y.Name ∧ e.Time = y.Time ∧ e.TimeRepr = y.TimeRepr := by
    intro y hy e he
    rw [hfa] at he
    obtain ⟨heu, hea⟩ := bucketAt_some_unix a _ e he
    exact hab e hea y hy heu
  obtain ⟨m2, r1, r2, r3, r4⟩ := TimeSeries.Combine.merge_spec b hb _ hka1 hcompat
  -- every bucket of the final map sits under its own unix time
  have hkey : ∀ u z, GoMap.find m2 u = some z → z.Time.Unix = u := by
    intro u z hz
    rw [r4 u, hfa u] at hz
    cases hbu : bucketAt b u with
    | none =>
      rw [hbu] at hz
      exact (bucketAt_some_unix a u z hz).1
    | some y =>
      rw [hbu] at hz
      obtain ⟨hyu, hyb⟩ := bucketAt_some_unix b u y hbu
      cases hau : bucketAt a u with
      | none =>
        rw [hau] at hz
        cases hz
        exact hyu
      | some e =>
        rw [hau] at hz
        obtain ⟨heu, hea⟩ := bucketAt_some_unix a u e hau
        obtain ⟨hn, ht, hrp⟩ := hab e hea y hyb (by rw [heu, hyu])
        change e.Combine y = some z at hz
        rw [TimeBucket.Combine_of_eq e y hn ht hrp] at hz
        cases hz
        exact heu
  have hperm : (sortedKeys m2).Perm (GoMap.keys m2) := List.perm_insertionSort _ _
  have hks : ∀ k ∈ sortedKeys m2, k ∈ GoMap.keys m2 := fun k hk => hperm.subset hk
  have hsorted : (sortedKeys m2).Sorted (fun x y => x ≤ y) :=
    List.sorted_insertionSort (fun x y : Int => x ≤ y) _
  have hlt : (sortedKeys m2).Pairwise (fun u v => u < v) :=
    List.Sorted.lt_of_le hsorted (hperm.nodup_iff.mpr r2)
  have hmem : ∀ u, u ∈ sortedKeys m2 ↔ (u ∈ unixTimes a ∨ u ∈ unixTimes b) := by
    intro u
    rw [hperm.mem_iff, r3 u, hka2 u]
    simp [GoMap.keys]
  refine ⟨(sortedKeys m2).map (fun key =>
      match GoMap.find m2 key with
      | some bucket => bucket
      | none => TimeBucket.zero), by simp only [TimeSeries.Combine, r1], ?_, ?_, ?_, ?_⟩
  · rw [unixTimes_map_find m2 hkey _ hks]
    exact hlt
  · intro u
    rw [unixTimes_map_find m2 hkey _ hks]
    exact hmem u
  · intro u
    rw [bucketAt_map_find m2 hkey _ hks u]
    have hfind : GoMap.find m2 u =
        match bucketAt a u, bucketAt b u with
        | some x, some y => x.Combine y
        | some x, none => some x
        | none, some y => some y
        | none, none => none := by
      rw [r4 u, hfa u]
      cases bucketAt a u <;> cases bucketAt b u <;> rfl
    by_cases hu : u ∈ sortedKeys m2
    · rw [if_pos hu, hfind]
    · rw [if_neg hu]
      have hnot := (hmem u).not.mp hu
      have h1 : bucketAt a u = none := (bucketAt_eq_none_iff a u).mpr (fun h => hnot (Or.inl h))
      have h2 : bucketAt b u = none := (bucketAt_eq_none_iff b u).mpr (fun h => hnot (Or.inr h))
      rw [h1, h2]
  · intro x hx y hy hxy
    obtain ⟨hn, ht, hrp⟩ := hab x hx y hy hxy
    refine ⟨_, TimeBucket.Combine_of_eq x y hn ht hrp, rfl, rfl, rfl, ?_⟩
    intro key
    exact find_foldl_Combine_step y.tallies key (hmaps y hy) x.tallies

/-- C8 (witness): the two series of TestTimeSeriesCombine, 04-01..04-03 and
04-02..04-04, combine to four buckets, and bob's lines added on 04-03 are
4 + 2 = 6. -/
theorem TimeSeries.Combine_spec_witness :
    (unixTimes Examples.seriesA).Nodup ∧ (unixTimes Examples.seriesB).Nodup ∧
    (∀ x ∈ Examples.seriesA, ∀ y ∈ Examples.seriesB,
      x.Time.Unix = y.Time.Unix →
        x.Name = y.Name ∧ x.Time = y.Time ∧ x.TimeRepr = y.TimeRepr) ∧
    (∀ y ∈ Examples.seriesB, (GoMap.keys y.tallies).Nodup) ∧
    ∃ c, TimeSeries.Combine Examples.seriesA Examples.seriesB = some c ∧
      c.map (fun bucket => bucket.Name) =
        ["2024-04-01", "2024-04-02", "2024-04-03", "2024-04-04"] ∧
      (unixTimes c).Pairwise (fun u v => u < v) ∧
      ∃ bucket bob, c.get? 2 = some bucket ∧ GoMap.find bucket.tallies "bob" = some bob ∧
        bob.added = 6 := by
  have h1 : (unixTimes Examples.seriesA).Nodup := by decide
  have h2 : (unixTimes Examples.seriesB).Nodup := by decide
  have h3 : ∀ x ∈ Examples.seriesA, ∀ y ∈ Examples.seriesB,
      x.Time.Unix = y.Time.Unix →
        x.Name = y.Name ∧ x.Time = y.Time ∧ x.TimeRepr = y.TimeRepr := by decide
  have h4 : ∀ y ∈ Examples.seriesB, (GoMap.keys y.tallies).Nodup := by decide
  obtain ⟨c, hc, hlt, -, -, -⟩ :=
    TimeSeries.Combine_spec Examples.seriesA Examples.seriesB h1 h2 h3 h4
  refine ⟨h1, h2, h3, h4, c, hc, ?_, hlt, ?_⟩
  · have hval : TimeSeries.Combine Examples.seriesA Examples.seriesB =
        some ((TimeSeries.Combine Examples.seriesA Examples.seriesB).getD []) := by decide
    rw [hval] at hc
    cases hc
    decide
  · have hval : TimeSeries.Combine Examples.seriesA Examples.seriesB =
        some ((TimeSeries.Combine Examples.seriesA Examples.seriesB).getD []) := by decide
    rw [hval] at hc
    cases hc
    refine ⟨(((TimeSeries.Combine Examples.seriesA Examples.seriesB).getD []).get? 2).getD
      TimeBucket.zero, Examples.addedOnly 6, by decide, by decide, by decide⟩

/-! ## Theorems: re-bucketing -/

section RebucketLemmas

/-- The first loop of Rebucket with enough fuel: when the times
`t, next t, ...` stay at or before the end for `n` steps and then pass it, the
loop allocates exactly one bucket for each of these `n` times. -/
theorem Rebucket.allocate_eq (r : Resolution) (endTime : Time) :
    ∀ (n : Nat) (t : Time) (fuel : Nat),
      (∀ m, m < n → (r.next^[m] t).nanos ≤ endTime.nanos) →
      endTime.nanos < (r.next^[n] t).nanos →
      n < fuel →
      Rebucket.allocate r endTime fuel t =
        some ((List.iterate r.next t n).map (fun T => newBucket (r.label T) (r.apply T))) := by
  intro n
  induction n with
  | zero =>
    intro t fuel _ hgt hfuel
    obtain ⟨f, rfl⟩ : ∃ f, fuel = f + 1 := ⟨fuel - 1, by omega⟩
    have h1 : ¬ t.nanos < endTime.nanos := by
      simp only [Function.iterate_zero, id] at hgt
      omega
    have h2 : ¬ t.nanos = endTime.nanos := by
      simp only [Function.iterate_zero, id] at hgt
      omega
    simp [Rebucket.allocate, Time.Before, Time.Equal, h1, h2]
  | succ n ih =>
    intro t fuel hle hgt hfuel
    obtain ⟨f, rfl⟩ : ∃ f, fuel = f + 1 := ⟨fuel - 1, by omega⟩
    have h0 : t.nanos ≤ endTime.nanos := by
      have := hle 0 (by omega)
      simpa using this
    have hcond : (t.Before endTime || t.Equal endTime) = true := by
      simp only [Time.Before, Time.Equal, Bool.or_eq_true, decide_eq_true_eq]
      omega
    have hrec := ih (r.next t) f
      (fun m hm => by
        have := hle (m + 1) (by omega)
        simpa [Function.iterate_succ_apply] using this)
      (by simpa [Function.iterate_succ_apply] using hgt)
      (by omega)
    simp [Rebucket.allocate, hcond, hrec]

/-- The times `t, next t, ...` pass the end after finitely many steps. -/
theorem Rebucket.exists_steps (r : Resolution) (hlt : ∀ t, t.nanos < (r.next t).nanos)
    (endTime : Time) :
    ∀ (k : Nat) (t : Time), (endTime.nanos + 1 - t.nanos).toNat ≤ k →
      ∃ n, (∀ m, m < n → (r.next^[m] t).nanos ≤ endTime.nanos) ∧
        endTime.nanos < (r.next^[n] t).nanos := by
  intro k
  induction k with
  | zero =>
    intro t hk
    refine ⟨0, by intro m hm; omega, ?_⟩
    simp only [Function.iterate_zero, id]
    omega
  | succ k ih =>
    intro t hk
    by_cases hend : endTime.nanos < t.nanos
    · exact ⟨0, by intro m hm; omega, by simpa using hend⟩
    · have hnext := hlt t
      obtain ⟨n, h1, h2⟩ := ih (r.next t) (by omega)
      refine ⟨n + 1, ?_, by simpa [Function.iterate_succ_apply] using h2⟩
      intro m hm
      cases m with
      | zero => simpa using not_lt.mp hend
      | succ m =>
        have := h1 m (by omega)
        simpa [Function.iterate_succ_apply] using this

/-- The bucket starts `t0, next t0, ...` ascend strictly. -/
theorem Resolution.Lawful.grid_lt {r : Resolution} (hr : r.Lawful) (t0 : Time) (j k : Nat)
    (hjk : j < k) : (r.next^[j] t0).nanos < (r.next^[k] t0).nanos := by
  induction k with
  | zero => omega
  | succ k ih =>
    have hstep : (r.next^[k] t0).nanos < (r.next^[k + 1] t0).nanos := by
      rw [Function.iterate_succ_apply']
      exact hr.lt_next _
    by_cases h : j = k
    · subst h; exact hstep
    · exact lt_trans (ih (by omega)) hstep

/-- The bucket starts `apply t, next (apply t), ...` are fixed points of `apply`. -/
theorem Resolution.Lawful.grid_fixed {r : Resolution} (hr : r.Lawful) (t : Time) (j : Nat) :
    r.apply (r.next^[j] (r.apply t)) = r.next^[j] (r.apply t) := by
  cases j with
  | zero => simpa using hr.apply_idem t
  | succ j =>
    rw [Function.iterate_succ_apply']
    exact hr.apply_next _

/-- Every time from a bucket start of the grid up to the end is truncated to a
bucket start of the grid at or after that start. -/
theorem Resolution.Lawful.locate {r : Resolution} (hr : r.Lawful) (t : Time) (endTime : Time)
    (n : Nat) (hgt : endTime.nanos < (r.next^[n] (r.apply t)).nanos) (u : Time)
    (hu : u.nanos ≤ endTime.nanos) :
    ∀ (d i : Nat), i + d = n → (r.next^[i] (r.apply t)).nanos ≤ u.nanos →
      ∃ j, i ≤ j ∧ j < n ∧ r.apply u = r.next^[j] (r.apply t) := by
  intro d
  induction d with
  | zero =>
    intro i hi hle
    have : i = n := by omega
    subst this
    omega
  | succ d ih =>
    intro i hi hle
    by_cases hnext : u.nanos < (r.next^[i + 1] (r.apply t)).nanos
    · refine ⟨i, le_refl _, by omega, ?_⟩
      rw [Function.iterate_succ_apply'] at hnext
      exact hr.apply_between _ u (hr.grid_fixed t i) hle hnext
    · obtain ⟨j, h1, h2, h3⟩ := ih (i + 1) (by omega) (not_lt.mp hnext)
      exact ⟨j, by omega, h2, h3⟩

/-- The inner loop of Rebucket: started at index `i`, it stops at the first
index `j` at or after `i` whose bucket time is the one sought. -/
theorem Rebucket.seek_eq (rt : Time) (R : List TimeBucket) (j : Nat) (x : TimeBucket)
    (hj : R[j]? = some x) (hx : x.Time = rt) :
    ∀ (d i : Nat), i + d = j →
      (∀ k y, i ≤ k → k < j → R[k]? = some y → y.Time ≠ rt) →
      Rebucket.seek rt (R.drop i) i = some j := by
  have hjlen : j < R.length := by
    by_contra hcon
    rw [List.getElem?_eq_none (by omega)] at hj
    cases hj
  intro d
  induction d with
  | zero =>
    intro i hi _
    have : i = j := by omega
    subst this
    have hxj : R[i] = x := by
      rw [List.getElem?_eq_getElem hjlen] at hj
      exact Option.some.inj hj
    rw [List.drop_eq_getElem_cons hjlen, hxj]
    simp [Rebucket.seek, Time.Equal, hx]
  | succ d ih =>
    intro i hi hne
    have hilen : i < R.length := by omega
    have hy : R[i]? = some R[i] := List.getElem?_eq_getElem hilen
    have hyne : R[i].Time ≠ rt := hne i _ (le_refl _) (by omega) hy
    have hnanos : ¬ rt.nanos = R[i].Time.nanos := by
      intro h
      exact hyne (Time.ext_nanos h.symm)
    rw [List.drop_eq_getElem_cons hilen]
    simp only [Rebucket.seek, Time.Equal, hnanos, decide_False, Bool.not_false, if_true]
    exact ih (i + 1) (by omega) (fun k y hk1 hk2 hky => hne k y (by omega) hk2 hky)

theorem sum_map_set {α : Type} (g : α → Int) (l : List α) :
    ∀ (j : Nat) (x c : α), l[j]? = some x →
      ((l.set j c).map g).sum = (l.map g).sum - g x + g c := by
  induction l with
  | nil => intro j x c h; simp at h
  | cons y rest ih =>
    intro j x c h
    cases j with
    | zero =>
      simp only [List.getElem?_cons_zero, Option.some.injEq] at h
      subst h
      simp only [List.set_cons_zero, List.map_cons, List.sum_cons]
      ring
    | succ j =>
      simp only [List.getElem?_cons_succ] at h
      simp only [List.set_cons_succ, List.map_cons, List.sum_cons, ih j x c h]
      ring

theorem valueAt_of_combineOpt (f : Tally → Int)
    (hf : ∀ s t : Tally, f (s.Combine t) = f s + f t)
    (mc mx mb : GoMap String Tally) (key : String)
    (h : GoMap.find mc key = combineOpt (GoMap.find mx key) (GoMap.find mb key)) :
    valueAt f mc key = valueAt f mx key + valueAt f mb key := by
  unfold valueAt
  rw [h]
  cases GoMap.find mx key <;> cases GoMap.find mb key <;> simp [combineOpt, hf]

theorem seriesSum_append (f : Tally → Int) (a b : TimeSeries) (key : String) :
    seriesSum f (a ++ b) key = seriesSum f a key + seriesSum f b key := by
  simp [seriesSum]

theorem foldedAt_append_singleton (r : Resolution) (processed : TimeSeries) (b : TimeBucket)
    (t : Time) (key : String) :
    foldedAt r (processed ++ [b]) t key =
      if r.apply b.Time = t
      then combineOpt (foldedAt r processed t key) (GoMap.find b.tallies key)
      else foldedAt r processed t key := by
  unfold foldedAt
  by_cases h : r.apply b.Time = t
  · simp [List.filter_append, List.filter_cons, h, List.foldl_append]
  · simp [List.filter_append, List.filter_cons, h]

/-- One iteration of the second loop of Rebucket, for an input bucket whose
truncated time is the time of the rebucket at index `j`, at or after the
current index `i`: the input bucket is merged into that rebucket and the index
moves there. -/
theorem Rebucket.fold_cons_eq (r : Resolution) (R : List TimeBucket) (i j : Nat)
    (b : TimeBucket) (rest : List TimeBucket) (x : TimeBucket)
    (hij : i ≤ j) (hj : R[j]? = some x) (hx : x.Time = r.apply b.Time)
    (hbefore : ∀ k y, i ≤ k → k < j → R[k]? = some y →
      y.Time.nanos < (r.apply b.Time).nanos) :
    Rebucket.fold r R i (b :: rest) =
      Rebucket.fold r
        (R.set j { x with tallies := b.tallies.foldl TimeBucket.Combine.step x.tallies }) j
        rest := by
  have hjlen : j < R.length := by
    by_contra hcon
    rw [List.getElem?_eq_none (by omega)] at hj
    cases hj
  have hcomb : x.Combine { b with Time := x.Time, TimeRepr := x.TimeRepr, Name := x.Name } =
      some { x with tallies := b.tallies.foldl TimeBucket.Combine.step x.tallies } :=
    TimeBucket.Combine_of_eq x _ rfl rfl rfl
  by_cases hlt : i < j
  · have hilen : i < R.length := by omega
    have hy : R[i]? = some R[i] := List.getElem?_eq_getElem hilen
    have hylt := hbefore i _ (le_refl _) hlt hy
    have hseek : Rebucket.seek (r.apply b.Time) (R.drop i) i = some j :=
      Rebucket.seek_eq (r.apply b.Time) R j x hj hx (j - i) i (by omega)
        (fun k y hk1 hk2 hky => by
          intro heq
          have := hbefore k y hk1 hk2 hky
          rw [heq] at this
          omega)
    simp only [Rebucket.fold, hy, Time.After, hylt, decide_True, if_true, hseek, hj, hcomb]
  · have : i = j := by omega
    subst this
    have hnot : ¬ x.Time.nanos < (r.apply b.Time).nanos := by
      rw [hx]; omega
    simp only [Rebucket.fold, hj, Time.After, hnot, decide_False, Bool.false_eq_true, if_false,
      hcomb]

/-- Merging one more input bucket into the rebucket of its truncated time
keeps the invariant of the second loop of Rebucket. -/
theorem RebucketInv.merge {r : Resolution} (hr : r.Lawful) (t : Time) (n : Nat)
    (processed : TimeSeries) (R : List TimeBucket) (b : TimeBucket) (j : Nat) (x : TimeBucket)
    (hinv : RebucketInv r (r.apply t) n processed R) (hjn : j < n) (hj : R[j]? = some x)
    (hb : r.apply b.Time = r.next^[j] (r.apply t))
    (hmap : (GoMap.keys b.tallies).Nodup) :
    RebucketInv r (r.apply t) n (processed ++ [b])
      (R.set j { x with tallies := b.tallies.foldl TimeBucket.Combine.step x.tallies }) := by
  obtain ⟨x2, hx2, hxt, hxn, hxc⟩ := hinv.slot j hjn
  have hxx : x2 = x := by
    rw [hj] at hx2
    exact (Option.some.inj hx2).symm
  subst hxx
  have hfind : ∀ key,
      GoMap.find (b.tallies.foldl TimeBucket.Combine.step x2.tallies) key =
        combineOpt (GoMap.find x2.tallies key) (GoMap.find b.tallies key) :=
    fun key => find_foldl_Combine_step b.tallies key hmap x2.tallies
  refine ⟨by rw [List.length_set]; exact hinv.len, ?_, ?_⟩
  · intro j2 hj2
    by_cases hjj : j = j2
    · subst hjj
      refine ⟨{ x2 with tallies := b.tallies.foldl TimeBucket.Combine.step x2.tallies },
        by rw [List.getElem?_set, if_pos rfl, if_pos (by rw [hinv.len]; exact hjn)],
        hxt, hxn, ?_⟩
      intro key
      rw [foldedAt_append_singleton, if_pos hb]
      show GoMap.find (b.tallies.foldl TimeBucket.Combine.step x2.tallies) key = _
      rw [hfind key, hxc key]
    · obtain ⟨y, hy, hyt, hyn, hyc⟩ := hinv.slot j2 hj2
      refine ⟨y, by rw [List.getElem?_set_ne hjj]; exact hy, hyt, hyn, ?_⟩
      intro key
      have hne : ¬ r.apply b.Time = r.next^[j2] (r.apply t) := by
        rw [hb]
        intro heq
        rcases Nat.lt_or_gt_of_ne hjj with h | h
        · have := hr.grid_lt (r.apply t) j j2 h
          rw [heq] at this
          omega
        · have := hr.grid_lt (r.apply t) j2 j h
          rw [heq] at this
          omega
      rw [foldedAt_append_singleton, if_neg hne]
      exact hyc key
  · intro f hf key
    have hset := sum_map_set (fun bk : TimeBucket => valueAt f bk.tallies key) R j x2
      { x2 with tallies := b.tallies.foldl TimeBucket.Combine.step x2.tallies } hj
    have hval := valueAt_of_combineOpt f hf
      (b.tallies.foldl TimeBucket.Combine.step x2.tallies) x2.tallies b.tallies key (hfind key)
    have hold := hinv.sums f hf key
    simp only [seriesSum] at hold ⊢
    rw [hset]
    simp only [List.map_append, List.sum_append, List.map_cons, List.map_nil, List.sum_cons,
      List.sum_nil, add_zero]
    rw [hval, hold]
    ring

/-- The second loop of Rebucket does not panic on an ascending input that lies
between the current rebucket's start and the end, and keeps the invariant. -/
theorem Rebucket.fold_spec {r : Resolution} (hr : r.Lawful) (t endTime : Time) (n : Nat)
    (hgt : endTime.nanos < (r.next^[n] (r.apply t)).nanos) :
    ∀ (rest processed : TimeSeries) (R : List TimeBucket) (i : Nat),
      RebucketInv r (r.apply t) n processed R →
      i < n →
      rest.Pairwise (fun a b => a.Time.nanos ≤ b.Time.nanos) →
      (∀ b ∈ rest, (r.next^[i] (r.apply t)).nanos ≤ b.Time.nanos ∧
        b.Time.nanos ≤ endTime.nanos) →
      (∀ b ∈ rest, (GoMap.keys b.tallies).Nodup) →
      ∃ R2, Rebucket.fold r R i rest = some R2 ∧
        RebucketInv r (r.apply t) n (processed ++ rest) R2 := by
  intro rest
  induction rest with
  | nil =>
    intro processed R i hinv _ _ _ _
    exact ⟨R, by simp [Rebucket.fold], by simpa using hinv⟩
  | cons b rest ih =>
    intro processed R i hinv hin hasc hrange hmaps
    obtain ⟨hlo, hhi⟩ := hrange b (List.mem_cons_self _ _)
    obtain ⟨j, hij, hjn, hbj⟩ := hr.locate t endTime n hgt b.Time hhi (n - i) i (by omega) hlo
    obtain ⟨x, hx, hxt, -, -⟩ := hinv.slot j hjn
    have hbefore : ∀ k y, i ≤ k → k < j → R[k]? = some y →
        y.Time.nanos < (r.apply b.Time).nanos := by
      intro k y _ hkj hky
      obtain ⟨y2, hy2, hyt, -, -⟩ := hinv.slot k (by omega)
      rw [hky] at hy2
      cases hy2
      rw [hyt, hbj]
      exact hr.grid_lt (r.apply t) k j hkj
    have hstep := Rebucket.fold_cons_eq r R i j b rest x hij hx (by rw [hxt, hbj]) hbefore
    have hinv2 := RebucketInv.merge hr t n processed R b j x hinv hjn hx hbj
      (hmaps b (List.mem_cons_self _ _))
    have hasc2 := (List.pairwise_cons.mp hasc)
    obtain ⟨R2, hR2, hinvR2⟩ := ih (processed ++ [b]) _ j hinv2 hjn hasc2.2
      (fun b2 hb2 => by
        refine ⟨?_, (hrange b2 (List.mem_cons_of_mem _ hb2)).2⟩
        have h1 := hr.apply_le b.Time
        have h2 := hasc2.1 b2 hb2
        rw [← hbj]
        omega)
      (fun b2 hb2 => hmaps b2 (List.mem_cons_of_mem _ hb2))
    refine ⟨R2, by rw [hstep, hR2], ?_⟩
    simpa using hinvR2

/-- The invariant of the second loop of Rebucket holds of the freshly
allocated buckets, before any input bucket is merged. -/
theorem RebucketInv.init {r : Resolution} (hr : r.Lawful) (t : Time) (n : Nat) :
    RebucketInv r (r.apply t) n []
      ((List.iterate r.next (r.apply t) n).map (fun T => newBucket (r.label T) (r.apply T))) := by
  refine ⟨by simp, ?_, ?_⟩
  · intro j hj
    refine ⟨newBucket (r.label (r.next^[j] (r.apply t))) (r.apply (r.next^[j] (r.apply t))),
      ?_, ?_, rfl, ?_⟩
    · rw [List.getElem?_map, List.getElem?_iterate _ _ _ _ hj]
      rfl
    · exact hr.grid_fixed t j
    · intro key
      simp [newBucket, GoMap.find, foldedAt]
  · intro f _ key
    simp only [seriesSum, List.map_map, List.map_nil, List.sum_nil]
    apply List.sum_eq_zero
    intro v hv
    simp only [List.mem_map, Function.comp] at hv
    obtain ⟨T, -, rfl⟩ := hv
    simp [newBucket, valueAt, GoMap.find]

theorem pairwise_le_getLast (l : TimeSeries)
    (hasc : l.Pairwise (fun a b => a.Time.nanos ≤ b.Time.nanos)) (last : TimeBucket)
    (hlast : l.getLast? = some last) : ∀ b ∈ l, b.Time.nanos ≤ last.Time.nanos := by
  induction l with
  | nil => intro b hb; simp at hb
  | cons x rest ih =>
    intro b hb
    have hp := List.pairwise_cons.mp hasc
    cases rest with
    | nil =>
      simp only [List.getLast?_singleton, Option.some.injEq] at hlast
      subst hlast
      simp only [List.mem_singleton] at hb
      subst hb
      exact le_refl _
    | cons y rest2 =>
      have hlast2 : (y :: rest2).getLast? = some last := by
        simpa [List.getLast?_cons_cons] using hlast
      have hmemlast : last ∈ y :: rest2 := List.mem_of_getLast?_eq_some hlast2
      rcases List.mem_cons.mp hb with rfl | hb2
      · exact hp.1 last hmemlast
      · exact ih hp.2 hlast2 b hb2

theorem Time.civilDay_midnight (loc : Location) (d : Int) :
    (Time.midnight loc d).civilDay loc = d := by
  simp only [Time.civilDay, Time.midnight, Time.second, secondsPerDay]
  omega

theorem applyDaily_nanos (loc : Location) (t : Time) :
    (applyDaily loc t).nanos =
      (((t.nanos / 1000000000 + loc.offset) / 86400) * 86400 - loc.offset) * 1000000000 := by
  simp only [applyDaily, Time.civilDay, Time.midnight, Time.second,
    secondsPerDay]

theorem daily_next_nanos (loc : Location) (t : Time) :
    ((daily loc).next t).nanos =
      ((((t.nanos / 1000000000 + loc.offset) / 86400) + 1) * 86400 - loc.offset) * 1000000000 := by
  simp only [daily, applyDaily, Time.civilDay_midnight]
  simp only [Time.civilDay, Time.midnight, Time.second, secondsPerDay]

/-- The daily resolution is a calendar resolution. -/
theorem daily_Lawful (loc : Location) : (daily loc).Lawful := by
  refine ⟨?_, ?_, ?_, ?_, ?_⟩
  · intro t
    apply Time.ext_nanos
    show (applyDaily loc (applyDaily loc t)).nanos = (applyDaily loc t).nanos
    rw [applyDaily_nanos loc (applyDaily loc t), applyDaily_nanos loc t]
    omega
  · intro t
    show (applyDaily loc t).nanos ≤ t.nanos
    rw [applyDaily_nanos]
    omega
  · intro t
    apply Time.ext_nanos
    show (applyDaily loc ((daily loc).next t)).nanos = ((daily loc).next t).nanos
    rw [applyDaily_nanos, daily_next_nanos]
    omega
  · intro t
    rw [daily_next_nanos]
    omega
  · intro t u hfix hle hlt
    apply Time.ext_nanos
    show (applyDaily loc u).nanos = t.nanos
    have hfix2 : (applyDaily loc t).nanos = t.nanos := congrArg Time.nanos hfix
    rw [applyDaily_nanos] at hfix2 ⊢
    rw [daily_next_nanos] at hlt
    omega

end RebucketLemmas

/-! ## Theorems: the calendar and the resolutions of CalcResolution -/

section CalendarLemmas

/-- The year of the era that civilFromDays computes from the day of the era is
not too late: the year starts on or before the day. -/
theorem civilFromDays.yoe_lower (a b c d e f g : Int) (h0 : 0 ≤ a) (h1 : a ≤ 146096)
    (hc : c = a / 1460) (hd : d = a / 36524) (he : e = a / 146096)
    (hb : b = (a - c + d - e) / 365) (hf : f = b / 4) (hg : g = b / 100) :
    365 * b + f - g ≤ a := by
  have hb0 : 0 ≤ b ∧ b ≤ 399 := by omega
  have hgg : g = 0 ∨ g = 1 ∨ g = 2 ∨ g = 3 := by omega
  have hr : b - 4 * f = 0 ∨ b - 4 * f = 1 ∨ b - 4 * f = 2 ∨ b - 4 * f = 3 := by omega
  rcases hgg with h2 | h2 | h2 | h2 <;> rcases hr with h3 | h3 | h3 | h3 <;>
    omega

/-- The year of the era that civilFromDays computes is not too early: the next
year starts after the day. -/
theorem civilFromDays.yoe_upper (a b c d e k l : Int) (h0 : 0 ≤ a) (h1 : a ≤ 146096)
    (hc : c = a / 1460) (hd : d = a / 36524) (he : e = a / 146096)
    (hb : b = (a - c + d - e) / 365) (hk : k = (b + 1) / 4) (hl : l = (b + 1) / 100)
    (h399 : b < 399) :
    a < 365 * (b + 1) + k - l := by
  have hb0 : 0 ≤ b ∧ b ≤ 399 := by omega
  have hgg : l = 0 ∨ l = 1 ∨ l = 2 ∨ l = 3 := by omega
  have hr : b + 1 - 4 * k = 0 ∨ b + 1 - 4 * k = 1 ∨ b + 1 - 4 * k = 2 ∨ b + 1 - 4 * k = 3 := by
    omega
  have hw : c - k ≤ -1 ∨ c - k = 0 ∨ c - k = 1 ∨ 2 ≤ c - k := by omega
  rcases hgg with h2 | h2 | h2 | h2 <;> rcases hr with h3 | h3 | h3 | h3 <;>
    rcases hw with h4 | h4 | h4 | h4 <;>
    omega

/-- The decomposition of a day number that civilFromDays computes: the era, the
day of the era, the year of the era and the day of that year (counted from
March 1), and the month counted from March. -/
theorem civilFromDays_decomp (z : Int) :
    ∃ era doe yoe doy mp : Int,
      z + 719468 = era * 146097 + doe ∧ 0 ≤ doe ∧ doe ≤ 146096 ∧
      0 ≤ yoe ∧ yoe ≤ 399 ∧
      doe = 365 * yoe + yoe / 4 - yoe / 100 + doy ∧ 0 ≤ doy ∧
      (yoe < 399 → doe < 365 * (yoe + 1) + (yoe + 1) / 4 - (yoe + 1) / 100) ∧
      mp = (5 * doy + 2) / 153 ∧
      civilFromDays z =
        (if (if mp < 10 then mp + 3 else mp - 9) ≤ 2 then yoe + era * 400 + 1
          else yoe + era * 400,
         if mp < 10 then mp + 3 else mp - 9,
         doy - (153 * mp + 2) / 5 + 1) := by
  have h0 : 0 ≤ z + 719468 - (z + 719468) / 146097 * 146097 := by omega
  have h1 : z + 719468 - (z + 719468) / 146097 * 146097 ≤ 146096 := by omega
  have hl := civilFromDays.yoe_lower _ _ _ _ _ _ _ h0 h1 rfl rfl rfl rfl rfl rfl
  have hu := civilFromDays.yoe_upper _ _ _ _ _ _ _ h0 h1 rfl rfl rfl rfl rfl rfl
  refine ⟨(z + 719468) / 146097, z + 719468 - (z + 719468) / 146097 * 146097, _, _, _,
    by omega, h0, h1, ?_, ?_, ?_, ?_, hu, rfl, rfl⟩
  · omega
  · omega
  · omega
  · omega

/-- The day number of a date, given the era and the year of the era of its
year counted from March, and its month counted from March. -/
theorem daysFromCivil_of_era (era yoe mp y m d : Int) (h0 : 0 ≤ yoe) (h1 : yoe ≤ 399)
    (hy : (if m ≤ 2 then y - 1 else y) = yoe + era * 400)
    (hm : (if m > 2 then m - 3 else m + 9) = mp) :
    daysFromCivil y m d =
      era * 146097 + (yoe * 365 + yoe / 4 - yoe / 100 + ((153 * mp + 2) / 5 + d - 1)) - 719468 := by
  have he : (yoe + era * 400) / 400 = era := by omega
  have hyoe : yoe + era * 400 - era * 400 = yoe := by omega
  simp only [daysFromCivil, hy, hm, he, hyoe]

theorem monthOfDay_range (z : Int) : 1 ≤ monthOfDay z ∧ monthOfDay z ≤ 12 := by
  obtain ⟨era, doe, yoe, doy, mp, hz, h0, h1, hy0, hy1, hdoe, hdoy, hup, hmp, hcf⟩ :=
    civilFromDays_decomp z
  simp only [monthOfDay, hcf]
  split_ifs <;> omega

/-- A day is not before the first day of its month. -/
theorem month_start_le (z : Int) :
    daysFromCivil (yearOfDay z) (monthOfDay z) 1 ≤ z := by
  obtain ⟨era, doe, yoe, doy, mp, hz, h0, h1, hy0, hy1, hdoe, hdoy, hup, hmp, hcf⟩ :=
    civilFromDays_decomp z
  simp only [yearOfDay, monthOfDay, hcf]
  rw [daysFromCivil_of_era era yoe mp _ _ 1 hy0 hy1 (by split_ifs <;> omega)
    (by split_ifs <;> omega)]
  omega

/-- A day is before the first day of the month after its month. -/
theorem lt_next_month_start (z : Int) :
    z < daysFromCivil (yearOfDay z) (monthOfDay z + 1) 1 := by
  obtain ⟨era, doe, yoe, doy, mp, hz, h0, h1, hy0, hy1, hdoe, hdoy, hup, hmp, hcf⟩ :=
    civilFromDays_decomp z
  simp only [yearOfDay, monthOfDay, hcf]
  by_cases h11 : mp = 11
  · subst h11
    by_cases h399 : yoe = 399
    · rw [daysFromCivil_of_era (era + 1) 0 0 _ _ 1 (by omega) (by omega)
        (by split_ifs <;> omega) (by split_ifs <;> omega)]
      omega
    · rw [daysFromCivil_of_era era (yoe + 1) 0 _ _ 1 (by omega) (by omega)
        (by split_ifs <;> omega) (by split_ifs <;> omega)]
      have := hup (by omega)
      omega
  · rw [daysFromCivil_of_era era yoe (mp + 1) _ _ 1 hy0 hy1 (by split_ifs <;> omega)
      (by split_ifs <;> omega)]
    omega

theorem daysBeforeYear_succ (y : Int) :
    daysBeforeYear y + 365 ≤ daysBeforeYear (y + 1) := by
  unfold daysBeforeYear
  by_cases h : y - y / 400 * 400 = 399
  · have e1 : (y + 1) / 400 = y / 400 + 1 := by omega
    rw [e1]
    omega
  · have e1 : (y + 1) / 400 = y / 400 := by omega
    rw [e1]
    omega

theorem monthStart_eq (k : Int) :
    monthStart k =
      daysBeforeYear ((k - 2) / 12) + (153 * ((k - 2) % 12) + 2) / 5 - 719468 := by
  unfold monthStart daysBeforeYear
  rw [daysFromCivil_of_era ((k - 2) / 12 / 400) ((k - 2) / 12 - (k - 2) / 12 / 400 * 400)
    ((k - 2) % 12) _ _ 1 (by omega) (by omega) (by split_ifs <;> omega)
    (by split_ifs <;> omega)]
  omega

/-- Every month starts before the next one. -/
theorem monthStart_lt_succ (k : Int) : monthStart k < monthStart (k + 1) := by
  rw [monthStart_eq, monthStart_eq]
  by_cases h : (k - 2) % 12 = 11
  · have e1 : (k + 1 - 2) / 12 = (k - 2) / 12 + 1 := by omega
    have e2 : (k + 1 - 2) % 12 = 0 := by omega
    have := daysBeforeYear_succ ((k - 2) / 12)
    rw [e1, e2, h]
    omega
  · have e1 : (k + 1 - 2) / 12 = (k - 2) / 12 := by omega
    have e2 : (k + 1 - 2) % 12 = (k - 2) % 12 + 1 := by omega
    rw [e1, e2]
    omega

theorem monthStart_strictMono : StrictMono monthStart :=
  strictMono_int_of_lt_succ monthStart_lt_succ

/-- The first day of month `m` of year `y` is the start of the month with
index `12 y + m - 1`; for `m = 13` this is January of the next year. -/
theorem daysFromCivil_first (y m : Int) (h1 : 1 ≤ m) (h13 : m ≤ 13) :
    daysFromCivil y m 1 = monthStart (y * 12 + m - 1) := by
  by_cases h : m = 13
  · subst h
    have e1 : (y * 12 + 13 - 1) / 12 = y + 1 := by omega
    have e2 : (y * 12 + 13 - 1) % 12 = 0 := by omega
    simp only [monthStart, e1, e2]
    rw [daysFromCivil_of_era (y / 400) (y - y / 400 * 400) 10 y 13 1 (by omega) (by omega)
        (by split_ifs <;> omega) (by split_ifs <;> omega),
      daysFromCivil_of_era (y / 400) (y - y / 400 * 400) 10 (y + 1) (0 + 1) 1 (by omega)
        (by omega) (by split_ifs <;> omega) (by split_ifs <;> omega)]
  · have e1 : (y * 12 + m - 1) / 12 = y := by omega
    have e2 : (y * 12 + m - 1) % 12 + 1 = m := by omega
    simp only [monthStart, e1, e2]

theorem monthStart_monthIndex (z : Int) :
    monthStart (monthIndex z) ≤ z ∧ z < monthStart (monthIndex z + 1) := by
  have hr := monthOfDay_range z
  have h1 := month_start_le z
  have h2 := lt_next_month_start z
  rw [daysFromCivil_first _ _ hr.1 (by omega)] at h1
  rw [daysFromCivil_first _ _ (by omega) (by omega)] at h2
  have e : yearOfDay z * 12 + (monthOfDay z + 1) - 1 = monthIndex z + 1 := by
    unfold monthIndex; omega
  rw [e] at h2
  exact ⟨h1, h2⟩

theorem yearStart_eq (y : Int) : yearStart y = monthStart (y * 12) := by
  unfold yearStart
  rw [daysFromCivil_first y 1 (by omega) (by omega)]
  congr 1
  omega

theorem yearStart_lt_succ (y : Int) : yearStart y < yearStart (y + 1) := by
  rw [yearStart_eq, yearStart_eq]
  exact monthStart_strictMono (by omega)

theorem yearStart_yearOfDay (z : Int) :
    yearStart (yearOfDay z) ≤ z ∧ z < yearStart (yearOfDay z + 1) := by
  have hr := monthOfDay_range z
  obtain ⟨h1, h2⟩ := monthStart_monthIndex z
  rw [yearStart_eq, yearStart_eq]
  constructor
  · exact le_trans (monthStart_strictMono.monotone (by unfold monthIndex; omega)) h1
  · exact lt_of_lt_of_le h2 (monthStart_strictMono.monotone (by unfold monthIndex; omega))

/-- A time is at or after the midnight that starts a day exactly when its
calendar day is that day or a later one. -/
theorem Time.midnight_le_iff (loc : Location) (d : Int) (t : Time) :
    (Time.midnight loc d).nanos ≤ t.nanos ↔ d ≤ t.civilDay loc := by
  simp only [Time.civilDay, Time.midnight, Time.second, secondsPerDay]
  omega

theorem Time.lt_midnight_iff (loc : Location) (d : Int) (t : Time) :
    t.nanos < (Time.midnight loc d).nanos ↔ t.civilDay loc < d := by
  have := Time.midnight_le_iff loc d t
  omega

/-- A resolution whose periods are cut out of the days by a strictly increasing
sequence of first days `S`, `K` giving the period a day lies in, is a calendar
resolution. -/
theorem Resolution.Lawful.of_periods (loc : Location) (S K : Int → Int)
    (hS : ∀ k, S k < S (k + 1)) (hK : ∀ z, S (K z) ≤ z ∧ z < S (K z + 1)) (r : Resolution)
    (happly : ∀ t, r.apply t = Time.midnight loc (S (K (t.civilDay loc))))
    (hnext : ∀ t, r.next t = Time.midnight loc (S (K ((r.apply t).civilDay loc) + 1))) :
    r.Lawful := by
  have hmono : StrictMono S := strictMono_int_of_lt_succ hS
  have huniq : ∀ k z, S k ≤ z → z < S (k + 1) → K z = k := by
    intro k z h1 h2
    obtain ⟨h3, h4⟩ := hK z
    by_contra hne
    rcases lt_or_gt_of_ne hne with h | h
    · have : S (K z + 1) ≤ S k := hmono.monotone (by omega)
      omega
    · have : S (k + 1) ≤ S (K z) := hmono.monotone (by omega)
      omega
  have hKS : ∀ k, K (S k) = k := fun k => huniq k (S k) (le_refl _) (hS k)
  have hnext2 : ∀ t, r.next t = Time.midnight loc (S (K (t.civilDay loc) + 1)) := by
    intro t
    rw [hnext, happly, Time.civilDay_midnight, hKS]
  refine ⟨?_, ?_, ?_, ?_, ?_⟩
  · intro t
    rw [happly (r.apply t), happly t, Time.civilDay_midnight, hKS]
  · intro t
    rw [happly, Time.midnight_le_iff]
    exact (hK _).1
  · intro t
    rw [happly (r.next t), hnext2, Time.civilDay_midnight, hKS]
  · intro t
    rw [hnext2, Time.lt_midnight_iff]
    exact (hK _).2
  · intro t u hfix hle hlt
    rw [hnext2, Time.lt_midnight_iff] at hlt
    rw [happly t] at hfix
    rw [← hfix, Time.midnight_le_iff] at hle
    rw [happly u, huniq _ _ hle hlt, hfix]

/-- The resolutions that CalcResolution returns (yearly, monthly or daily,
depending on the span from start to end) are calendar resolutions. -/
theorem CalcResolution_Lawful (loc : Location) (start endTime : Time) :
    (CalcResolution loc start endTime).Lawful := by
  unfold CalcResolution
  simp only []
  split_ifs
  · exact Resolution.Lawful.of_periods loc yearStart yearOfDay yearStart_lt_succ
      yearStart_yearOfDay _ (fun t => rfl) (fun t => rfl)
  · refine Resolution.Lawful.of_periods loc monthStart monthIndex monthStart_lt_succ
      monthStart_monthIndex _ ?_ ?_
    · intro t
      show Time.midnight loc _ = _
      rw [daysFromCivil_first _ _ (monthOfDay_range _).1
        (by have := monthOfDay_range (t.civilDay loc); omega)]
      rfl
    · intro t
      show Time.midnight loc _ = _
      have hr := monthOfDay_range ((CalcResolution.applyMonthly loc t).civilDay loc)
      rw [daysFromCivil_first _ _ (by omega) (by omega)]
      show Time.midnight loc (monthStart _) = Time.midnight loc
        (monthStart (monthIndex ((CalcResolution.applyMonthly loc t).civilDay loc) + 1))
      congr 2
      unfold monthIndex
      omega
  · exact daily_Lawful loc

end CalendarLemmas

/-- Rebucket under the laws of a calendar resolution: for every non-empty
ascending series, every resolution that
is a calendar resolution (apply is idempotent and never later than its
argument, next(t) is later than t and a fixed point of apply, and apply maps
every time from a bucket start up to the following start to that bucket start)
and every end time not before the last bucket's time, Rebucket returns (for
every sufficient fuel) a dense series: its bucket times are exactly
apply(first bucket time), then next of the previous one, and so on, up to and
including the last such time that is not after end, each bucket is labelled
label(time), every output bucket holds, author by author, the combination of
the tallies of the input buckets whose truncated time is its time, every input
bucket has such an output bucket, and the sums of every author's lines added,
lines removed and numTallied over the output equal those over the input. -/
theorem Rebucket_lawful (r : Resolution) (hr : r.Lawful) (first : TimeBucket)
    (others : List TimeBucket) (endTime : Time)
    (hasc : (first :: others).Pairwise (fun a b => a.Time.nanos ≤ b.Time.nanos))
    (hend : ∀ last, (first :: others).getLast? = some last → last.Time.nanos ≤ endTime.nanos)
    (hmaps : ∀ b ∈ first :: others, (GoMap.keys b.tallies).Nodup) :
    ∃ (out : TimeSeries) (n : Nat),
      (∃ fuel0, ∀ fuel, fuel0 ≤ fuel →
        Rebucket fuel (first :: others) r endTime = Run.result out) ∧
      0 < n ∧
      out.map (fun b => b.Time) = List.iterate r.next (r.apply first.Time) n ∧
      (∀ T ∈ List.iterate r.next (r.apply first.Time) n, T.nanos ≤ endTime.nanos) ∧
      endTime.nanos < (r.next^[n] (r.apply first.Time)).nanos ∧
      (∀ x ∈ out, x.Name = r.label x.Time) ∧
      (∀ x ∈ out, ∀ key, GoMap.find x.tallies key = foldedAt r (first :: others) x.Time key) ∧
      (∀ b ∈ first :: others, ∃ x ∈ out, x.Time = r.apply b.Time) ∧
      (∀ key,
        seriesSum (fun t => t.added) out key
          = seriesSum (fun t => t.added) (first :: others) key ∧
        seriesSum (fun t => t.removed) out key
          = seriesSum (fun t => t.removed) (first :: others) key ∧
        seriesSum (fun t => t.numTallied) out key
          = seriesSum (fun t => t.numTallied) (first :: others) key) := by
  -- every input bucket lies between the first bucket and the end
  obtain ⟨last, hlast⟩ : ∃ last, (first :: others).getLast? = some last := by
    cases h : (first :: others).getLast? with
    | none => simp at h
    | some l => exact ⟨l, rfl⟩
  have hle_end : ∀ b ∈ first :: others, b.Time.nanos ≤ endTime.nanos := by
    intro b hb
    have h1 := pairwise_le_getLast _ hasc last hlast b hb
    have h2 := hend last hlast
    omega
  have hfirst_le : ∀ b ∈ first :: others, first.Time.nanos ≤ b.Time.nanos := by
    intro b hb
    rcases List.mem_cons.mp hb with rfl | hb2
    · exact le_refl _
    · exact (List.pairwise_cons.mp hasc).1 b hb2
  have hstart : ∀ b ∈ first :: others, (r.apply first.Time).nanos ≤ b.Time.nanos := by
    intro b hb
    have h1 := hr.apply_le first.Time
    have h2 := hfirst_le b hb
    omega
  -- the grid of bucket starts
  obtain ⟨n, hgrid, hgt⟩ := Rebucket.exists_steps r hr.lt_next endTime
    (endTime.nanos + 1 - (r.apply first.Time).nanos).toNat (r.apply first.Time) (le_refl _)
  have hn : 0 < n := by
    by_contra hcon
    have hz : n = 0 := by omega
    subst hz
    simp only [Function.iterate_zero, id] at hgt
    have h1 := hstart first (List.mem_cons_self _ _)
    have h2 := hle_end first (List.mem_cons_self _ _)
    omega
  have halloc := fun fuel (hfuel : n < fuel) =>
    Rebucket.allocate_eq r endTime n (r.apply first.Time) fuel hgrid hgt hfuel
  obtain ⟨out, hfold, hinv⟩ := Rebucket.fold_spec hr first.Time endTime n hgt (first :: others) []
    _ 0 (RebucketInv.init hr first.Time n) hn hasc
    (fun b hb => ⟨by simpa using hstart b hb, hle_end b hb⟩) hmaps
  simp only [List.nil_append] at hinv
  -- reading the invariant off
  have hget : ∀ x ∈ out, ∃ j, j < n ∧ out[j]? = some x := by
    intro x hx
    obtain ⟨j, hj⟩ := List.getElem?_of_mem hx
    refine ⟨j, ?_, hj⟩
    by_contra hcon
    rw [List.getElem?_eq_none (by rw [hinv.len]; omega)] at hj
    cases hj
  refine ⟨out, n, ⟨n + 1, ?_⟩, hn, ?_, ?_, hgt, ?_, ?_, ?_, ?_⟩
  · intro fuel hfuel
    simp only [Rebucket, halloc fuel (by omega), hfold]
  · apply List.ext_getElem?
    intro j
    by_cases hj : j < n
    · obtain ⟨x, hx, hxt, -, -⟩ := hinv.slot j hj
      rw [List.getElem?_map, hx, List.getElem?_iterate _ _ _ _ hj]
      simp [hxt]
    · rw [List.getElem?_eq_none (by simp [hinv.len]; omega),
        List.getElem?_eq_none (by simp; omega)]
  · intro T hT
    obtain ⟨m, hm, rfl⟩ := List.mem_iterate.mp hT
    exact hgrid m hm
  · intro x hx
    obtain ⟨j, hj, hxj⟩ := hget x hx
    obtain ⟨x2, hx2, hxt, hxn, -⟩ := hinv.slot j hj
    rw [hxj] at hx2
    cases hx2
    rw [hxn, hxt]
  · intro x hx key
    obtain ⟨j, hj, hxj⟩ := hget x hx
    obtain ⟨x2, hx2, hxt, -, hxc⟩ := hinv.slot j hj
    rw [hxj] at hx2
    cases hx2
    rw [hxc key, hxt]
  · intro b hb
    obtain ⟨j, -, hjn, hbj⟩ := hr.locate first.Time endTime n hgt b.Time (hle_end b hb) n 0
      (by omega) (by simpa using hstart b hb)
    obtain ⟨x, hx, hxt, -, -⟩ := hinv.slot j hjn
    exact ⟨x, List.getElem?_mem hx, by rw [hxt, hbj]⟩
  · intro key
    exact ⟨hinv.sums (fun t => t.added) (fun s t => rfl) key,
      hinv.sums (fun t => t.removed) (fun s t => rfl) key,
      hinv.sums (fun t => t.numTallied) (fun s t => rfl) key⟩


/-- C9: for every non-empty ascending series, every resolution of the package
(the daily resolution, and what CalcResolution returns: the yearly, the monthly
or the daily resolution; the fields of a Resolution are unexported, so these are
the resolutions a caller can pass) and every end time not before the last
bucket's time, Rebucket returns (for every sufficient fuel) a dense series: its
bucket times are exactly apply(first bucket time), then next of the previous
one, and so on, up to and including the last such time that is not after end,
each bucket is labelled label(time), every output bucket holds, author by
author, the combination of the tallies of the input buckets whose truncated
time is its time, every input bucket has such an output bucket, and the sums of
every author's lines added, lines removed and numTallied over the output equal
those over the input. -/
theorem Rebucket_spec (loc : Location) (start stop : Time) (r : Resolution)
    (hr : r = daily loc ∨ r = CalcResolution loc start stop) (first : TimeBucket)
    (others : List TimeBucket) (endTime : Time)
    (hasc : (first :: others).Pairwise (fun a b => a.Time.nanos ≤ b.Time.nanos))
    (hend : ∀ last, (first :: others).getLast? = some last → last.Time.nanos ≤ endTime.nanos)
    (hmaps : ∀ b ∈ first :: others, (GoMap.keys b.tallies).Nodup) :
    ∃ (out : TimeSeries) (n : Nat),
      (∃ fuel0, ∀ fuel, fuel0 ≤ fuel →
        Rebucket fuel (first :: others) r endTime = Run.result out) ∧
      0 < n ∧
      out.map (fun b => b.Time) = List.iterate r.next (r.apply first.Time) n ∧
      (∀ T ∈ List.iterate r.next (r.apply first.Time) n, T.nanos ≤ endTime.nanos) ∧
      endTime.nanos < (r.next^[n] (r.apply first.Time)).nanos ∧
      (∀ x ∈ out, x.Name = r.label x.Time) ∧
      (∀ x ∈ out, ∀ key, GoMap.find x.tallies key = foldedAt r (first :: others) x.Time key) ∧
      (∀ b ∈ first :: others, ∃ x ∈ out, x.Time = r.apply b.Time) ∧
      (∀ key,
        seriesSum (fun t => t.added) out key
          = seriesSum (fun t => t.added) (first :: others) key ∧
        seriesSum (fun t => t.removed) out key
          = seriesSum (fun t => t.removed) (first :: others) key ∧
        seriesSum (fun t => t.numTallied) out key
          = seriesSum (fun t => t.numTallied) (first :: others) key) := by
  have hlaw : r.Lawful := by
    rcases hr with rfl | rfl
    · exact daily_Lawful loc
    · exact CalcResolution_Lawful loc start stop
  exact Rebucket_lawful r hlaw first others endTime hasc hend hmaps

/-- C9 (witness): the three daily buckets of TestTimeSeriesCombine, re-bucketed
up to 2024-04-03 at the resolution CalcResolution returns for the span from
2024-01-01 to 2024-04-03, the monthly one (it labels 2024-04-02 as Apr 2024): a
series is returned, every bucket of it is labelled with the label of its time,
and bob's lines added over it are 2 + 1 + 4 = 7 as over the input. -/
theorem Rebucket_spec_witness :
    (CalcResolution Examples.utc (Time.Date Examples.utc 2024 1 1)
        (Time.Date Examples.utc 2024 4 3)).label (Time.Date Examples.utc 2024 4 2)
      = "Apr 2024" ∧
    (Examples.aprilBucket 1 "2024-04-01"
        [("alice", Examples.addedOnly 3), ("bob", Examples.addedOnly 2)] ::
      [Examples.aprilBucket 2 "2024-04-02" [("bob", Examples.addedOnly 1)],
       Examples.aprilBucket 3 "2024-04-03"
        [("bob", Examples.addedOnly 4), ("john", Examples.addedOnly 7)]]).Pairwise
      (fun a b => a.Time.nanos ≤ b.Time.nanos) ∧
    ∃ (out : TimeSeries),
      (∃ fuel0, ∀ fuel, fuel0 ≤ fuel →
        Rebucket fuel Examples.seriesA
            (CalcResolution Examples.utc (Time.Date Examples.utc 2024 1 1)
              (Time.Date Examples.utc 2024 4 3))
            (Time.Date Examples.utc 2024 4 3)
          = Run.result out) ∧
      (∀ x ∈ out, x.Name =
        (CalcResolution Examples.utc (Time.Date Examples.utc 2024 1 1)
          (Time.Date Examples.utc 2024 4 3)).label x.Time) ∧
      seriesSum (fun t => t.added) out "bob" = 7 := by
  have hasc : (Examples.aprilBucket 1 "2024-04-01"
        [("alice", Examples.addedOnly 3), ("bob", Examples.addedOnly 2)] ::
      [Examples.aprilBucket 2 "2024-04-02" [("bob", Examples.addedOnly 1)],
       Examples.aprilBucket 3 "2024-04-03"
        [("bob", Examples.addedOnly 4), ("john", Examples.addedOnly 7)]]).Pairwise
      (fun a b => a.Time.nanos ≤ b.Time.nanos) := by
    decide
  obtain ⟨out, n, hrun, -, -, -, -, hname, -, -, hsum⟩ :=
    Rebucket_spec Examples.utc (Time.Date Examples.utc 2024 1 1)
      (Time.Date Examples.utc 2024 4 3)
      (CalcResolution Examples.utc (Time.Date Examples.utc 2024 1 1)
        (Time.Date Examples.utc 2024 4 3))
      (Or.inr rfl)
      (Examples.aprilBucket 1 "2024-04-01"
        [("alice", Examples.addedOnly 3), ("bob", Examples.addedOnly 2)])
      [Examples.aprilBucket 2 "2024-04-02" [("bob", Examples.addedOnly 1)],
       Examples.aprilBucket 3 "2024-04-03"
        [("bob", Examples.addedOnly 4), ("john", Examples.addedOnly 7)]]
      (Time.Date Examples.utc 2024 4 3) hasc
      (by
        intro last hlast
        simp only [List.getLast?_cons_cons, List.getLast?_singleton, Option.some.injEq] at hlast
        subst hlast
        decide)
      (by decide)
  refine ⟨by decide, hasc, out, hrun, hname, ?_⟩
  rw [(hsum "bob").1]
  decide

section DailyLemmas

/-- In a series without gaps the bucket at index `j` is `j` steps after the first. -/
theorem chain_next_getElem? (r : Resolution) :
    ∀ (others : List TimeBucket) (first : TimeBucket),
      (first :: others).Chain' (fun a b => b.Time = r.next a.Time) →
      ∀ j b, (first :: others)[j]? = some b → b.Time = r.next^[j] first.Time := by
  intro others
  induction others with
  | nil =>
    intro first _ j b hb
    cases j with
    | zero =>
      simp only [List.getElem?_cons_zero, Option.some.injEq] at hb
      subst hb
      rfl
    | succ j => simp at hb
  | cons y rest ih =>
    intro first hchain j b hb
    have hc := List.chain'_cons.mp hchain
    cases j with
    | zero =>
      simp only [List.getElem?_cons_zero, Option.some.injEq] at hb
      subst hb
      rfl
    | succ j =>
      simp only [List.getElem?_cons_succ] at hb
      rw [ih y hc.2 j b hb, hc.1, Function.iterate_succ_apply]

/-- Where the truncated times of a series are pairwise distinct, the tallies
folded at the truncated time of one of its buckets are that bucket's tallies. -/
theorem foldedAt_of_nodup (r : Resolution) (buckets : TimeSeries)
    (hnd : (buckets.map (fun b => r.apply b.Time)).Nodup) (b : TimeBucket) (hb : b ∈ buckets)
    (key : String) :
    foldedAt r buckets (r.apply b.Time) key = GoMap.find b.tallies key := by
  have hnone : ∀ l : TimeSeries, (∀ y ∈ l, r.apply y.Time ≠ r.apply b.Time) →
      l.filter (fun y => decide (r.apply y.Time = r.apply b.Time)) = [] := by
    intro l hl
    rw [List.filter_eq_nil_iff]
    intro y hy
    simpa using hl y hy
  induction buckets with
  | nil => simp at hb
  | cons x rest ih =>
    have hnd2 : r.apply x.Time ∉ rest.map (fun b => r.apply b.Time) ∧
        (rest.map (fun b => r.apply b.Time)).Nodup := by
      simpa using hnd
    rcases List.mem_cons.mp hb with rfl | hb2
    · have hrest : ∀ y ∈ rest, r.apply y.Time ≠ r.apply b.Time := by
        intro y hy heq
        apply hnd2.1
        rw [← heq]
        exact List.mem_map_of_mem (fun b : TimeBucket => r.apply b.Time) hy
      unfold foldedAt
      rw [List.filter_cons, if_pos (by simp), hnone rest hrest]
      cases h : GoMap.find b.tallies key <;> simp [combineOpt, h]
    · have hx : ¬ r.apply x.Time = r.apply b.Time := by
        intro heq
        apply hnd2.1
        rw [heq]
        exact List.mem_map_of_mem (fun b : TimeBucket => r.apply b.Time) hb2
      have := ih hnd2.2 hb2
      unfold foldedAt at this ⊢
      rw [List.filter_cons, if_neg (by simpa using hx)]
      exact this

end DailyLemmas

/-- C10 (counterexample): a daily series with a gap (buckets for 2024-04-01
and 2024-04-03), re-bucketed at daily resolution up to its last bucket, comes
back with three buckets, an empty one for 2024-04-02 included: not the same
series. -/
theorem Rebucket_daily_fills_gaps :
    (∀ fuel, 4 ≤ fuel →
      Rebucket fuel Examples.sparseSeries (daily Examples.utc) (Time.Date Examples.utc 2024 4 3)
        = Run.result Examples.sparseSeriesFilled) ∧
    Examples.sparseSeriesFilled.length = 3 ∧ Examples.sparseSeries.length = 2 ∧
    (∀ b ∈ Examples.sparseSeries,
      b.Time = applyDaily Examples.utc b.Time ∧ b.Name = (daily Examples.utc).label b.Time) ∧
    ¬ ∃ fuel0, ∀ fuel, fuel0 ≤ fuel →
      Rebucket fuel Examples.sparseSeries (daily Examples.utc) (Time.Date Examples.utc 2024 4 3)
        = Run.result Examples.sparseSeries := by
  have hrun : ∀ fuel, 4 ≤ fuel →
      Rebucket fuel Examples.sparseSeries (daily Examples.utc) (Time.Date Examples.utc 2024 4 3)
        = Run.result Examples.sparseSeriesFilled := by
    intro fuel hfuel
    have halloc := Rebucket.allocate_eq (daily Examples.utc)
      (Time.Date Examples.utc 2024 4 3) 3
      ((daily Examples.utc).apply (Time.Date Examples.utc 2024 4 1)) fuel
      (by
        intro m hm
        have : m = 0 ∨ m = 1 ∨ m = 2 := by omega
        rcases this with rfl | rfl | rfl <;> decide)
      (by decide) (by omega)
    simp only [Rebucket, Examples.sparseSeries, Examples.aprilBucket, halloc]
    decide
  refine ⟨hrun, by decide, by decide, by decide, ?_⟩
  rintro ⟨fuel0, h⟩
  have h1 := h (fuel0 + 4) (by omega)
  rw [hrun (fuel0 + 4) (by omega)] at h1
  exact absurd h1 (by decide)

/-- C10 (amended): for every series of daily buckets without gaps (every
bucket's time is the start of its day, its name the label of that day, and each
bucket is the day after the previous one), Rebucket at daily resolution, with
the end equal to the last bucket's time, returns (for every sufficient fuel)
the same series: the same number of buckets, with the same times, labels and
per-author tallies at every index. -/
theorem Rebucket_daily_identity (loc : Location) (first : TimeBucket) (others : List TimeBucket)
    (last : TimeBucket)
    (hlast : (first :: others).getLast? = some last)
    (hdaily : ∀ b ∈ first :: others,
      b.Time = applyDaily loc b.Time ∧ b.Name = (daily loc).label b.Time)
    (hdense : (first :: others).Chain' (fun a b => b.Time = (daily loc).next a.Time))
    (hmaps : ∀ b ∈ first :: others, (GoMap.keys b.tallies).Nodup) :
    ∃ out : TimeSeries,
      (∃ fuel0, ∀ fuel, fuel0 ≤ fuel →
        Rebucket fuel (first :: others) (daily loc) last.Time = Run.result out) ∧
      out.length = (first :: others).length ∧
      (∀ (j : Nat) (b : TimeBucket), (first :: others)[j]? = some b →
        ∃ x : TimeBucket, out[j]? = some x ∧ x.Time = b.Time ∧ x.Name = b.Name ∧
          ∀ key, GoMap.find x.tallies key = GoMap.find b.tallies key) := by
  have hr := daily_Lawful loc
  have hfix : (daily loc).apply first.Time = first.Time :=
    (hdaily first (List.mem_cons_self _ _)).1.symm
  -- the input times are the grid from the first bucket on
  have htime : ∀ j b, (first :: others)[j]? = some b →
      b.Time = (daily loc).next^[j] ((daily loc).apply first.Time) := by
    intro j b hb
    rw [hfix]
    exact chain_next_getElem? (daily loc) others first hdense j b hb
  have hasc : (first :: others).Pairwise (fun a b => a.Time.nanos ≤ b.Time.nanos) := by
    rw [List.pairwise_iff_getElem]
    intro i j hi hj hij
    have h1 := htime i _ (List.getElem?_eq_getElem hi)
    have h2 := htime j _ (List.getElem?_eq_getElem hj)
    rw [h1, h2]
    exact le_of_lt (hr.grid_lt _ i j hij)
  obtain ⟨out, n, hrun, hn, htimes, hgrid, hgt, hname, htal, -, -⟩ :=
    Rebucket_lawful (daily loc) hr first others last.Time hasc
      (fun l hl => by
        rw [hlast] at hl
        cases hl
        exact le_refl _)
      hmaps
  -- the last input bucket sits at the last index
  have hlastIdx : (first :: others)[others.length]? = some last := by
    rw [List.getLast?_eq_getElem?] at hlast
    simpa using hlast
  have hlastT := htime others.length last hlastIdx
  have hlen : n = others.length + 1 := by
    have h1 : others.length < n := by
      by_contra hcon
      rcases Nat.lt_or_ge n others.length with h | h
      · have := hr.grid_lt ((daily loc).apply first.Time) n others.length h
        rw [← hlastT] at this
        omega
      · have hEq : n = others.length := by omega
        rw [hEq, ← hlastT] at hgt
        omega
    have h2 : ¬ others.length + 1 < n := by
      intro hcon
      have hle := hgrid ((daily loc).next^[others.length + 1] ((daily loc).apply first.Time))
        (List.mem_iterate.mpr ⟨others.length + 1, hcon, rfl⟩)
      have := hr.grid_lt ((daily loc).apply first.Time) others.length (others.length + 1)
        (by omega)
      rw [← hlastT] at this
      omega
    omega
  have houtlen : out.length = n := by
    have := congrArg List.length htimes
    simpa using this
  -- the truncated times of the input are pairwise distinct
  have hnd : ((first :: others).map (fun b => (daily loc).apply b.Time)).Nodup := by
    rw [List.nodup_iff_getElem?_ne_getElem?]
    intro i j hij hj
    simp only [List.length_map] at hj
    have hi : i < (first :: others).length := by omega
    have hbi := htime i _ (List.getElem?_eq_getElem hi)
    have hbj := htime j _ (List.getElem?_eq_getElem hj)
    have hai := (hdaily _ (List.getElem_mem hi)).1
    have haj := (hdaily _ (List.getElem_mem hj)).1
    rw [List.getElem?_map, List.getElem?_map, List.getElem?_eq_getElem hi,
      List.getElem?_eq_getElem hj]
    simp only [Option.map_some', ne_eq, Option.some.injEq]
    show ¬ (daily loc).apply _ = (daily loc).apply _
    have e1 : (daily loc).apply (first :: others)[i].Time = (first :: others)[i].Time := hai.symm
    have e2 : (daily loc).apply (first :: others)[j].Time = (first :: others)[j].Time := haj.symm
    rw [e1, e2, hbi, hbj]
    intro heq
    have := hr.grid_lt ((daily loc).apply first.Time) i j hij
    rw [heq] at this
    omega
  refine ⟨out, hrun, by rw [houtlen, hlen]; simp, ?_⟩
  intro j b hb
  have hjlen : j < (first :: others).length := by
    by_contra hcon
    rw [List.getElem?_eq_none (by omega)] at hb
    cases hb
  have hjn : j < n := by
    rw [hlen]
    simpa using hjlen
  have hbmem : b ∈ first :: others := List.getElem?_mem hb
  have hxj : out[j]? = some out[j] := List.getElem?_eq_getElem (by omega)
  have hxt : out[j].Time = b.Time := by
    have h1 : (out.map (fun b => b.Time))[j]? = some out[j].Time := by
      rw [List.getElem?_map, hxj]
      rfl
    rw [htimes, List.getElem?_iterate _ _ _ _ hjn] at h1
    rw [htime j b hb]
    exact (Option.some.inj h1).symm
  have hxmem : out[j] ∈ out := List.getElem?_mem hxj
  refine ⟨out[j], hxj, hxt, ?_, ?_⟩
  · rw [hname _ hxmem, hxt]
    exact (hdaily b hbmem).2.symm
  · intro key
    rw [htal _ hxmem key, hxt]
    have hb2 : b.Time = (daily loc).apply b.Time := (hdaily b hbmem).1
    rw [hb2]
    exact foldedAt_of_nodup (daily loc) (first :: others) hnd b hbmem key

/-- C10 (witness): the three consecutive daily buckets of
TestTimeSeriesCombine come back from Rebucket at daily resolution as they are. -/
theorem Rebucket_daily_identity_witness :
    (∀ b ∈ Examples.seriesA,
      b.Time = applyDaily Examples.utc b.Time ∧ b.Name = (daily Examples.utc).label b.Time) ∧
    ∃ out : TimeSeries,
      (∃ fuel0, ∀ fuel, fuel0 ≤ fuel →
        Rebucket fuel Examples.seriesA (daily Examples.utc) (Time.Date Examples.utc 2024 4 3)
          = Run.result out) ∧
      out.length = 3 ∧
      ∃ x : TimeBucket, out[2]? = some x ∧ x.Name = "2024-04-03" ∧
        GoMap.find x.tallies "john" = some (Examples.addedOnly 7) := by
  have hd : ∀ b ∈ Examples.seriesA,
      b.Time = applyDaily Examples.utc b.Time ∧ b.Name = (daily Examples.utc).label b.Time := by
    decide
  obtain ⟨out, hrun, hlen, hsame⟩ :=
    Rebucket_daily_identity Examples.utc
      (Examples.aprilBucket 1 "2024-04-01"
        [("alice", Examples.addedOnly 3), ("bob", Examples.addedOnly 2)])
      [Examples.aprilBucket 2 "2024-04-02" [("bob", Examples.addedOnly 1)],
       Examples.aprilBucket 3 "2024-04-03"
        [("bob", Examples.addedOnly 4), ("john", Examples.addedOnly 7)]]
      (Examples.aprilBucket 3 "2024-04-03"
        [("bob", Examples.addedOnly 4), ("john", Examples.addedOnly 7)])
      (by decide) hd
      (List.chain'_cons.mpr ⟨by decide, List.chain'_cons.mpr ⟨by decide, List.chain'_singleton _⟩⟩)
      (by decide)
  refine ⟨hd, out, hrun, hlen, ?_⟩
  obtain ⟨x, hx, -, hxn, hxtal⟩ := hsame 2
    (Examples.aprilBucket 3 "2024-04-03"
      [("bob", Examples.addedOnly 4), ("john", Examples.addedOnly 7)]) (by simp)
  exact ⟨x, hx, hxn, by rw [hxtal "john"]; decide⟩

/-! ## Theorems: the parser of git log output -/

set_option maxRecDepth 100000

section ParserLemmas

theorem splitNChars_piece (sep : Char) (a rest : List Char) (n : Nat) (h : sep ∉ a) :
    strings.splitNChars sep (a ++ sep :: rest) (n + 2)
      = a :: strings.splitNChars sep rest (n + 1) := by
  induction a with
  | nil => simp [strings.splitNChars]
  | cons c a ih =>
    have hc : c ≠ sep := fun e => h (by simp [e])
    have ha : sep ∉ a := fun e => h (by simp [e])
    simp [strings.splitNChars, hc, ih ha, strings.consHead]

theorem splitChars_length (sep : Char) (s : List Char) :
    (strings.splitChars sep s).length = s.count sep + 1 := by
  induction s with
  | nil => simp [strings.splitChars]
  | cons c s ih =>
    by_cases hc : c = sep
    · subst hc
      simp [strings.splitChars, ih]
    · have hlen : ∀ l : List (List Char), l.length = s.count sep + 1 →
          (strings.consHead c l).length = s.count sep + 1 := by
        intro l hl
        cases l with
        | nil => simp at hl
        | cons p ps => simpa [strings.consHead] using hl
      simp [strings.splitChars, hc, hlen _ ih, List.count_cons]

theorem parseDigits_digits (ds : List Char) (acc n : Nat)
    (h : strconv.parseDigits ds acc = some n) : ∀ c ∈ ds, (strconv.digitValue c).isSome := by
  induction ds generalizing acc with
  | nil => simp
  | cons d ds ih =>
    intro c hc
    simp only [strconv.parseDigits] at h
    cases hd : strconv.digitValue d with
    | none => simp [hd] at h
    | some v =>
      simp only [hd] at h
      rcases List.mem_cons.mp hc with rfl | hc
      · simp [hd]
      · exact ih _ h c hc

theorem magnitude_digits (ds : List Char) (n : Nat) (h : strconv.magnitude ds = some n) :
    ds ≠ [] ∧ ∀ c ∈ ds, (strconv.digitValue c).isSome := by
  unfold strconv.magnitude at h
  cases ds with
  | nil => simp at h
  | cons d ds =>
    simp only [List.isEmpty_cons, Bool.false_eq_true, if_false] at h
    exact ⟨by simp, parseDigits_digits _ _ _ h⟩

/-- A string that Atoi accepts is not empty and has no tab in it. -/
theorem Atoi_no_tab (s : String) (v : Int) (h : strconv.Atoi s = some v) :
    s.length > 0 ∧ '\t' ∉ s.data := by
  have key : ∀ ds : List Char, (strconv.magnitude ds).isSome → ds ≠ [] ∧ '\t' ∉ ds := by
    intro ds hds
    obtain ⟨n, hn⟩ := Option.isSome_iff_exists.mp hds
    obtain ⟨h1, h2⟩ := magnitude_digits ds n hn
    refine ⟨h1, fun hmem => ?_⟩
    have := h2 _ hmem
    revert this
    decide
  unfold strconv.Atoi at h
  split at h
  · rename_i ds hs
    cases hm : strconv.magnitude ds with
    | none => simp [hm] at h
    | some n =>
      obtain ⟨h1, h2⟩ := key ds (by simp [hm])
      simp only [String.length, hs]
      refine ⟨by simp, ?_⟩
      intro hmem
      rcases List.mem_cons.mp hmem with e | e
      · exact absurd e (by decide)
      · exact h2 e
  · rename_i ds hs
    cases hm : strconv.magnitude ds with
    | none => simp [hm] at h
    | some n =>
      obtain ⟨h1, h2⟩ := key ds (by simp [hm])
      simp only [String.length, hs]
      refine ⟨by simp, ?_⟩
      intro hmem
      rcases List.mem_cons.mp hmem with e | e
      · exact absurd e (by decide)
      · exact h2 e
  · rename_i ds _ _
    cases hm : strconv.magnitude s.data with
    | none => simp [hm] at h
    | some n =>
      obtain ⟨h1, h2⟩ := key s.data (by simp [hm])
      refine ⟨?_, h2⟩
      simp only [String.length]
      exact List.length_pos.mpr h1

end ParserLemmas

section RevLemmas

theorem ends_revClass_cons (c : Char) (s : List Char) :
    Regexp.ends (.cls false ['^'] [('a', 'f'), ('0', '9')]) (c :: s)
      = if revClass c then [s] else [] := by
  simp [Regexp.ends, revClass]

theorem ends_revClass_nil :
    Regexp.ends (.cls false ['^'] [('a', 'f'), ('0', '9')]) [] = [] := by
  simp [Regexp.ends]

/-- Whatever the repetition of the class leaves over, it has consumed
characters of the class only. -/
theorem iterate_revClass_consumed (n : Nat) (s r : List Char)
    (h : r ∈ Regexp.iterate (Regexp.ends (.cls false ['^'] [('a', 'f'), ('0', '9')])) n s) :
    ∃ pre, s = pre ++ r ∧ ∀ c ∈ pre, revClass c = true := by
  induction n generalizing s with
  | zero =>
    simp only [Regexp.iterate, List.mem_singleton] at h
    exact ⟨[], by simp [h], by simp⟩
  | succ n ih =>
    simp only [Regexp.iterate, List.mem_append, List.mem_flatMap, List.mem_singleton] at h
    rcases h with ⟨m, hm, hr⟩ | h
    · cases s with
      | nil => simp [ends_revClass_nil] at hm
      | cons c s =>
        rw [ends_revClass_cons] at hm
        by_cases hc : revClass c = true
        · simp only [hc, if_true, List.mem_singleton] at hm
          subst hm
          obtain ⟨pre, hpre, hall⟩ := ih _ hr
          refine ⟨c :: pre, by simp [hpre], ?_⟩
          intro d hd
          rcases List.mem_cons.mp hd with rfl | hd
          · exact hc
          · exact hall d hd
        · simp [hc] at hm
    · exact ⟨[], by simp [h], by simp⟩

/-- With enough fuel the repetition of the class can consume a string of class
characters entirely. -/
theorem iterate_revClass_all (s : List Char) (n : Nat) (hn : s.length ≤ n)
    (h : ∀ c ∈ s, revClass c = true) :
    [] ∈ Regexp.iterate (Regexp.ends (.cls false ['^'] [('a', 'f'), ('0', '9')])) n s := by
  induction s generalizing n with
  | nil => cases n <;> simp [Regexp.iterate, ends_revClass_nil]
  | cons c s ih =>
    cases n with
    | zero => simp at hn
    | succ n =>
      have hc : revClass c = true := h c (by simp)
      simp only [Regexp.iterate, List.mem_append, List.mem_flatMap]
      left
      refine ⟨s, by simp [ends_revClass_cons, hc], ?_⟩
      exact ih n (by simpa using hn) (fun d hd => h d (by simp [hd]))

/-- The pattern of commitHashRegexp matches exactly the non-empty strings of
class characters. -/
theorem commitHashRegexp_matchWhole (s : String) :
    commitHashRegexp.matchWhole s = true ↔ s.data ≠ [] ∧ ∀ c ∈ s.data, revClass c = true := by
  unfold Regexp.matchWhole commitHashRegexp
  rw [List.any_eq_true]
  constructor
  · rintro ⟨r, hr, hempty⟩
    have hr0 : r = [] := by simpa using hempty
    subst hr0
    simp only [Regexp.ends, List.mem_flatMap] at hr
    obtain ⟨m, hm, hr⟩ := hr
    cases hs : s.data with
    | nil => simp [hs] at hm
    | cons c rest =>
      rw [hs] at hm hr
      refine ⟨by simp, ?_⟩
      by_cases hc : revClass c = true
      · have hm2 : m = rest := by
          have := hm
          simp only [revClass] at hc
          simpa [hc] using this
        subst hm2
        obtain ⟨pre, hpre, hall⟩ := iterate_revClass_consumed _ _ _ hr
        intro d hd
        rcases List.mem_cons.mp hd with rfl | hd
        · exact hc
        · exact hall d (by simpa [hpre] using hd)
      · exfalso
        simp only [revClass] at hc
        simp [hc] at hm
  · rintro ⟨hne, hall⟩
    refine ⟨[], ?_, by simp⟩
    cases hs : s.data with
    | nil => exact absurd hs hne
    | cons c rest =>
      rw [hs] at hall
      have hc : revClass c = true := hall c (by simp)
      simp only [Regexp.ends, List.mem_flatMap]
      refine ⟨rest, ?_, ?_⟩
      · simp only [revClass] at hc
        simp [hc]
      · exact iterate_revClass_all rest _ (by simp) (fun d hd => hall d (by simp [hd]))

/-- Source: isRev, in closed form: a non-empty string of the characters
`^`, `a` to `f` and `0` to `9`, 40 or 41 characters long. -/
theorem isRev_iff (s : String) :
    isRev s = true ↔ (∀ c ∈ s.data, revClass c = true) ∧ (s.length = 40 ∨ s.length = 41) := by
  unfold isRev
  simp only [Bool.and_eq_true, Bool.or_eq_true, beq_iff_eq, commitHashRegexp_matchWhole]
  constructor
  · rintro ⟨⟨_, h⟩, hl⟩
    exact ⟨h, hl⟩
  · rintro ⟨h, hl⟩
    refine ⟨⟨?_, h⟩, hl⟩
    intro he
    simp [String.length, he] at hl

theorem isRev_of_isFullHash (s : String) (h : isFullHash s = true) : isRev s = true := by
  rw [isRev_iff]
  simp only [isFullHash, Bool.and_eq_true, beq_iff_eq, List.all_eq_true] at h
  refine ⟨fun c hc => ?_, Or.inl h.1⟩
  have := h.2 c hc
  simp only [isHexDigit, Bool.or_eq_true, decide_eq_true_eq] at this
  simp only [revClass, Regexp.inClass, List.any_cons, List.any_nil, Bool.or_false,
    Bool.or_eq_true, decide_eq_true_eq]
  right
  rcases this with h1 | h1
  · right; exact h1
  · left; exact h1

theorem isRev_false_of_tab (s : String) (h : '\t' ∈ s.data) : isRev s = false := by
  cases hr : isRev s with
  | false => rfl
  | true =>
    have := ((isRev_iff s).mp hr).1 _ h
    revert this
    decide

end RevLemmas

section ParseLoopLemmas

theorem ParseCommits.loop_allowed (now : Time) (lines : LineSeq) (st : ParseState) (c : Commit)
    (h : (c, none) ∈ ParseCommits.loop now st lines) : allowCommit c now = true := by
  induction lines generalizing st with
  | nil =>
    simp only [ParseCommits.loop] at h
    split at h
    · rename_i hcond
      simp only [List.mem_singleton, Prod.mk.injEq, and_true] at h
      subst h
      simp only [Bool.and_eq_true] at hcond
      exact hcond.2
    · simp at h
  | cons l rest ih =>
    obtain ⟨line, err⟩ := l
    cases err with
    | some e => simp [ParseCommits.loop] at h
    | none =>
      simp only [ParseCommits.loop] at h
      have hy : ∀ done : Bool,
          (c, none) ∈ (if (done && allowCommit st.commit now) = true
            then [(st.commit, (none : Option String))] else []) → allowCommit c now = true := by
        intro done hmem
        split at hmem
        · rename_i hcond
          simp only [List.mem_singleton, Prod.mk.injEq, and_true] at hmem
          subst hmem
          simp only [Bool.and_eq_true] at hcond
          exact hcond.2
        · simp at hmem
      split at h
      · rcases List.mem_append.mp h with h | h
        · exact hy _ h
        · exact ih _ h
      · split at h
        · rcases List.mem_append.mp h with h | h
          · exact hy _ h
          · simp at h
        · rcases List.mem_append.mp h with h | h
          · exact hy _ h
          · exact ih _ h

theorem allowCommit_iff (c : Commit) (now : Time) :
    allowCommit c now = true ↔
      (c.AuthorName ≠ "" ∨ c.AuthorEmail ≠ "") ∧ c.Date.nanos ≤ now.nanos := by
  unfold allowCommit Time.After
  by_cases h1 : c.AuthorName = "" <;> by_cases h2 : c.AuthorEmail = "" <;>
    by_cases h3 : now.nanos < c.Date.nanos <;> simp [h1, h2, h3] <;> omega

end ParseLoopLemmas

/-- C11: every commit that ParseCommits yields without an error has a non-empty
author name or a non-empty author email, and a date that is not after `now`,
the wall-clock time read when parsing started. -/
theorem ParseCommits_yields_allowed (now : Time) (lines : LineSeq) (c : Commit)
    (h : (c, none) ∈ ParseCommits now lines) :
    (c.AuthorName ≠ "" ∨ c.AuthorEmail ≠ "") ∧ c.Date.After now = false ∧
      c.Date.nanos ≤ now.nanos := by
  have := (allowCommit_iff c now).mp (ParseCommits.loop_allowed now lines _ c h)
  refine ⟨this.1, ?_, this.2⟩
  simp only [Time.After, decide_eq_false_iff_not, not_lt]
  exact this.2

/-- C11 (witness): the commit of bob is yielded from two records; it has a name
and a date before the time of parsing. -/
theorem ParseCommits_yields_allowed_witness :
    (Examples.bobRecord.commit, none)
        ∈ ParseCommits Examples.parseNow (recordLines [Examples.bobRecord, Examples.jimRecord]) ∧
      (Examples.bobRecord.commit.AuthorName ≠ "" ∨ Examples.bobRecord.commit.AuthorEmail ≠ "") ∧
      Examples.bobRecord.commit.Date.After Examples.parseNow = false ∧
      Examples.bobRecord.commit.Date.nanos ≤ Examples.parseNow.nanos :=
  ⟨by decide, ParseCommits_yields_allowed Examples.parseNow
    (recordLines [Examples.bobRecord, Examples.jimRecord]) Examples.bobRecord.commit (by decide)⟩

/-- The commit dated at the greatest int64 second is yielded: `time.Unix` wraps
its date to an instant of the far past, which is not after the time of
parsing. -/
theorem ParseCommits_yields_wrapped_timestamp :
    (Examples.wrappedRecord.commit, none)
        ∈ ParseCommits Examples.parseNow
          (recordLines [Examples.wrappedRecord, Examples.jimRecord]) ∧
      Examples.wrappedRecord.commit.Date.Before Examples.parseNow = true := by
  decide

section ParseStepLemmas

theorem ParseCommits.loop_after (now : Time) (pre : List String) (rest : LineSeq)
    (st st2 : ParseState) (ys : List Commit)
    (h : ParseCommits.after now st pre = some (ys, st2)) :
    ParseCommits.loop now st (pre.map (fun l => (l, none)) ++ rest)
      = WithoutErrors ys ++ ParseCommits.loop now st2 rest := by
  induction pre generalizing st ys with
  | nil =>
    simp only [ParseCommits.after, Option.some.injEq, Prod.mk.injEq] at h
    obtain ⟨h1, h2⟩ := h
    subst h1 h2
    simp [WithoutErrors]
  | cons line pre ih =>
    simp only [ParseCommits.after] at h
    simp only [List.map_cons, List.cons_append, ParseCommits.loop]
    have hy : ∀ b : Bool, (if b = true then [(st.commit, (none : Option String))] else [])
        = WithoutErrors (if b = true then [st.commit] else []) := by
      intro b; cases b <;> simp [WithoutErrors]
    split at h
    · rename_i hd
      rw [if_pos hd]
      obtain ⟨⟨ys1, st3⟩, h3, h4⟩ := Option.map_eq_some'.mp h
      simp only [Prod.mk.injEq] at h4
      obtain ⟨h5, h6⟩ := h4
      subst h5 h6
      have h7 := ih _ _ h3
      simp only [List.append_eq] at h7 ⊢
      rw [h7, hy]
      simp [WithoutErrors]
    · rename_i hd
      rw [if_neg hd]
      split at h
      · simp at h
      · rename_i st4 hp
        obtain ⟨⟨ys1, st3⟩, h3, h4⟩ := Option.map_eq_some'.mp h
        simp only [Prod.mk.injEq] at h4
        obtain ⟨h5, h6⟩ := h4
        subst h5 h6
        have h7 := ih _ _ h3
        simp only [List.append_eq] at h7 ⊢
        rw [h7, hy]
        simp [WithoutErrors]

/-- A line that is no commit boundary and that the switch accepts moves the
parser to the next state and yields nothing. -/
theorem ParseCommits.loop_line (now : Time) (st st2 : ParseState) (line : String)
    (rest : LineSeq)
    (hnd : st.linesThisCommit < 6 ∨ (line.length ≠ 0 ∧ isRev line = false))
    (hp : parseLine st line = .ok st2) :
    ParseCommits.loop now st ((line, none) :: rest) = ParseCommits.loop now st2 rest := by
  have hdone : (decide (st.linesThisCommit ≥ 6) && (line.length == 0 || isRev line)) = false := by
    rcases hnd with h | ⟨h1, h2⟩
    · have : ¬ st.linesThisCommit ≥ 6 := by omega
      simp [this]
    · simp [h1, h2]
  simp only [ParseCommits.loop, hdone, Bool.false_and, Bool.false_eq_true, if_false, hp,
    List.nil_append]

/-- A line that the switch rejects, and that is no commit boundary, ends the
sequence with an error. -/
theorem ParseCommits.loop_line_error (now : Time) (st : ParseState) (line e : String)
    (rest : LineSeq)
    (hnd : st.linesThisCommit < 6 ∨ (line.length ≠ 0 ∧ isRev line = false))
    (hp : parseLine st line = .error e) :
    ParseCommits.loop now st ((line, none) :: rest) = [(st.commit, some e)] := by
  have hdone : (decide (st.linesThisCommit ≥ 6) && (line.length == 0 || isRev line)) = false := by
    rcases hnd with h | ⟨h1, h2⟩
    · have : ¬ st.linesThisCommit ≥ 6 := by omega
      simp [this]
    · simp [h1, h2]
  simp only [ParseCommits.loop, hdone, Bool.false_and, Bool.false_eq_true, if_false, hp,
    List.nil_append]

/-- A blank line after the header ends the commit. -/
theorem ParseCommits.loop_blank (now : Time) (st : ParseState) (rest : LineSeq)
    (h6 : 6 ≤ st.linesThisCommit) :
    ParseCommits.loop now st (("", none) :: rest)
      = (if allowCommit st.commit now then [(st.commit, none)] else [])
          ++ ParseCommits.loop now ParseState.init rest := by
  simp [ParseCommits.loop, h6]

/-- A line shaped like a revision after the header ends the commit and is the
hash of the next one. -/
theorem ParseCommits.loop_rev (now : Time) (st : ParseState) (line : String) (rest : LineSeq)
    (h6 : 6 ≤ st.linesThisCommit) (hrev : isRev line = true) :
    ParseCommits.loop now st ((line, none) :: rest)
      = (if allowCommit st.commit now then [(st.commit, none)] else [])
          ++ ParseCommits.loop now
              { commit := { Commit.zero with Hash := line }, diff := none, linesThisCommit := 1 }
              rest := by
  have hlen : line.length ≠ 0 := by
    have := ((isRev_iff line).mp hrev).2
    omega
  simp [ParseCommits.loop, h6, hrev, hlen, parseLine, ParseState.init]

end ParseStepLemmas

section MalformedLemmas

theorem parseCounts_bad (d : FileDiff) (added removed : String)
    (h : (isBadCount added || isBadCount removed) = true) :
    parseCounts d added removed = none := by
  unfold parseCounts parseLinesChanged
  simp only [isBadCount, Bool.or_eq_true, Bool.and_eq_true, bne_iff_ne, ne_eq,
    Option.isNone_iff_eq_none] at h
  by_cases ha : added = "-"
  · subst ha
    rcases h with h | h
    · exact absurd rfl h.1
    · simp [h.1, h.2]
  · cases hA : strconv.Atoi added with
    | none => simp [ha, hA]
    | some n =>
      rcases h with h | h
      · rw [hA] at h; simp at h
      · simp [ha, hA, h.1, h.2]

theorem parseLine_malformed (st : ParseState) (line : String) (h : Malformed st line = true) :
    (st.linesThisCommit < 6 ∨ (line.length ≠ 0 ∧ isRev line = false)) ∧
      ∃ e, parseLine st line = .error e := by
  unfold Malformed at h
  rcases Bool.or_eq_true_iff.mp h with h | h
  · simp only [Bool.and_eq_true, beq_iff_eq, Option.isNone_iff_eq_none] at h
    refine ⟨Or.inl (by omega), ?_⟩
    simp [parseLine, h.1, h.2]
  · simp only [Bool.and_eq_true, decide_eq_true_eq, Option.isNone_iff_eq_none, bne_iff_ne, ne_eq,
      Bool.not_eq_true'] at h
    obtain ⟨⟨⟨⟨h6, hdiff⟩, hlen⟩, hrev⟩, htok⟩ := h
    refine ⟨Or.inr ⟨hlen, hrev⟩, ?_⟩
    obtain ⟨n, hn⟩ := Nat.exists_eq_add_of_le h6
    have hn2 : st.linesThisCommit = n + 6 := by omega
    simp only [parseLine, hn2, parseDiffLine, hdiff]
    unfold diffTokens at htok
    split at htok
    · rename_i a r p heq
      simp only [heq, parseCounts_bad _ _ _ htok]
      exact ⟨_, rfl⟩
    · rename_i a r heq
      simp only [heq, parseCounts_bad _ _ _ htok]
      exact ⟨_, rfl⟩
    · exact ⟨_, rfl⟩

end MalformedLemmas

section RecordLemmas

theorem isCount_shape (s : String) (h : isCount s = true) : s.length > 0 ∧ '\t' ∉ s.data := by
  simp only [isCount, Bool.or_eq_true, beq_iff_eq] at h
  rcases h with h | h
  · subst h
    decide
  · obtain ⟨v, hv⟩ := Option.isSome_iff_exists.mp h
    exact Atoi_no_tab s v hv

theorem parseCounts_zero (added removed : String) (ha : isCount added = true)
    (hr : isCount removed = true) :
    parseCounts FileDiff.zero added removed
      = some { Path := "", LinesAdded := countValue added, LinesRemoved := countValue removed } := by
  have hval : ∀ s : String, isCount s = true → s ≠ "-" →
      strconv.Atoi s = some (countValue s) := by
    intro s hs hne
    simp only [isCount, Bool.or_eq_true, beq_iff_eq] at hs
    rcases hs with hs | hs
    · exact absurd hs hne
    · obtain ⟨v, hv⟩ := Option.isSome_iff_exists.mp hs
      simp [countValue, hne, hv]
  have hdash : countValue "-" = 0 := by simp only [countValue, if_true]
  unfold parseCounts parseLinesChanged
  by_cases h1 : added = "-" <;> by_cases h2 : removed = "-"
  · subst h1 h2
    simp only [bne_self_eq_false, Bool.false_eq_true, if_false, hdash, FileDiff.zero]
  · subst h1
    have h2b : (removed != "-") = true := by simpa using h2
    simp only [bne_self_eq_false, Bool.false_eq_true, if_false, h2b, if_true,
      hval removed hr h2, hdash, FileDiff.zero]
  · subst h2
    have h1b : (added != "-") = true := by simpa using h1
    simp only [bne_self_eq_false, Bool.false_eq_true, if_false, h1b, if_true,
      hval added ha h1, hdash, FileDiff.zero]
  · have h1b : (added != "-") = true := by simpa using h1
    have h2b : (removed != "-") = true := by simpa using h2
    simp only [h1b, h2b, if_true, hval added ha h1, hval removed hr h2, FileDiff.zero]

theorem SplitN_three (a r p : String) (ha : '\t' ∉ a.data) (hr : '\t' ∉ r.data) :
    strings.SplitN (a ++ "\t" ++ r ++ "\t" ++ p) '\t' 3 = [a, r, p] := by
  have hdata : (a ++ "\t" ++ r ++ "\t" ++ p).data = a.data ++ '\t' :: (r.data ++ '\t' :: p.data) := by
    simp [String.data_append]
  unfold strings.SplitN
  rw [hdata, splitNChars_piece '\t' a.data _ 1 ha, splitNChars_piece '\t' r.data _ 0 hr]
  simp [strings.splitNChars]

theorem diffTokens_ordinary (a r p : String) (ha : isCount a = true) (hr : isCount r = true)
    (hp : p.length > 0) : diffTokens (a ++ "\t" ++ r ++ "\t" ++ p) = [a, r, p] := by
  unfold diffTokens
  rw [SplitN_three a r p (isCount_shape a ha).2 (isCount_shape r hr).2]
  simp [List.filter, (isCount_shape a ha).1, (isCount_shape r hr).1, hp]

theorem diffTokens_rename (a r : String) (ha : isCount a = true) (hr : isCount r = true) :
    diffTokens (a ++ "\t" ++ r ++ "\t") = [a, r] := by
  have h := SplitN_three a r "" (isCount_shape a ha).2 (isCount_shape r hr).2
  have he : a ++ "\t" ++ r ++ "\t" ++ "" = a ++ "\t" ++ r ++ "\t" := by simp
  rw [he] at h
  unfold diffTokens
  rw [h]
  simp [List.filter, (isCount_shape a ha).1, (isCount_shape r hr).1]

theorem countsLine_not_boundary (a r p : String) :
    (a ++ "\t" ++ r ++ "\t" ++ p).length ≠ 0 ∧ isRev (a ++ "\t" ++ r ++ "\t" ++ p) = false := by
  have hmem : '\t' ∈ (a ++ "\t" ++ r ++ "\t" ++ p).data := by
    simp [String.data_append]
  refine ⟨?_, isRev_false_of_tab _ hmem⟩
  simp only [String.length]
  exact Nat.ne_of_gt (List.length_pos_of_mem hmem)

end RecordLemmas

section EntryLemmas

theorem parseLine_ordinary (st : ParseState) (h : BetweenEntries st) (a r p : String)
    (ha : isCount a = true) (hr : isCount r = true) (hp : p.length > 0) :
    parseLine st (a ++ "\t" ++ r ++ "\t" ++ p)
      = .ok { commit := { st.commit with FileDiffs := st.commit.FileDiffs ++
                [{ Path := p, LinesAdded := countValue a, LinesRemoved := countValue r }] }
              diff := none
              linesThisCommit := st.linesThisCommit + 1 } := by
  obtain ⟨n, hn⟩ := Nat.exists_eq_add_of_le h.header
  have hn2 : st.linesThisCommit = n + 6 := by omega
  have htok := diffTokens_ordinary a r p ha hr hp
  unfold diffTokens at htok
  simp only [parseLine, hn2, parseDiffLine, h.noDiff, htok, parseCounts_zero a r ha hr]

theorem parseLine_rename_counts (st : ParseState) (h : BetweenEntries st) (a r : String)
    (ha : isCount a = true) (hr : isCount r = true) :
    parseLine st (a ++ "\t" ++ r ++ "\t")
      = .ok { commit := st.commit
              diff := some { Path := "", LinesAdded := countValue a, LinesRemoved := countValue r }
              linesThisCommit := st.linesThisCommit + 1 } := by
  obtain ⟨n, hn⟩ := Nat.exists_eq_add_of_le h.header
  have hn2 : st.linesThisCommit = n + 6 := by omega
  have htok := diffTokens_rename a r ha hr
  unfold diffTokens at htok
  simp only [parseLine, hn2, parseDiffLine, h.noDiff, htok, parseCounts_zero a r ha hr]

theorem parseLine_pending (st : ParseState) (h6 : 6 ≤ st.linesThisCommit) (d : FileDiff)
    (hd : st.diff = some d) (line : String) :
    parseLine st line = .ok
      (if d.Path.length > 0 then
        { commit := { st.commit with FileDiffs := st.commit.FileDiffs ++ [{ d with Path := line }] }
          diff := none
          linesThisCommit := st.linesThisCommit + 1 }
      else
        { commit := st.commit
          diff := some { d with Path := line }
          linesThisCommit := st.linesThisCommit + 1 }) := by
  obtain ⟨n, hn⟩ := Nat.exists_eq_add_of_le h6
  have hn2 : st.linesThisCommit = n + 6 := by omega
  by_cases hp : d.Path.length > 0
  · simp only [parseLine, hn2, parseDiffLine, hd, hp, if_true]
  · simp only [parseLine, hn2, parseDiffLine, hd, hp, if_false]

/-- Reading the lines of one well-formed entry appends the entry's file diff. -/
theorem ParseCommits.loop_entry (now : Time) (st : ParseState) (hst : BetweenEntries st)
    (e : DiffEntry) (hwf : e.WellFormed = true) :
    ∃ st2, BetweenEntries st2 ∧
      st2.commit = { st.commit with FileDiffs := st.commit.FileDiffs ++ [e.fileDiff] } ∧
      ∀ rest, ParseCommits.loop now st (e.lines.map (fun l => (l, none)) ++ rest)
        = ParseCommits.loop now st2 rest := by
  cases e with
  | ordinary a r p =>
    simp only [DiffEntry.WellFormed, Bool.and_eq_true, decide_eq_true_eq] at hwf
    obtain ⟨⟨ha, hr⟩, hp⟩ := hwf
    have h1 := parseLine_ordinary st hst a r p ha hr hp
    refine ⟨{ commit := { st.commit with FileDiffs := st.commit.FileDiffs ++
                [{ Path := p, LinesAdded := countValue a, LinesRemoved := countValue r }] }
              diff := none
              linesThisCommit := st.linesThisCommit + 1 }, ?_, ?_, fun rest => ?_⟩
    · exact ⟨by have := hst.header; simp only []; omega, rfl⟩
    · rfl
    · simp only [DiffEntry.lines, List.map_cons, List.map_nil, List.cons_append, List.nil_append]
      exact ParseCommits.loop_line now st _ _ rest (Or.inr (countsLine_not_boundary a r p)) h1
  | rename a r o n =>
    simp only [DiffEntry.WellFormed, Bool.and_eq_true, decide_eq_true_eq,
      Bool.not_eq_true'] at hwf
    obtain ⟨⟨⟨⟨⟨ha, hr⟩, ho⟩, hn⟩, hro⟩, hrn⟩ := hwf
    have h1 := parseLine_rename_counts st hst a r ha hr
    have hb1 := countsLine_not_boundary a r ""
    have he : a ++ "\t" ++ r ++ "\t" ++ "" = a ++ "\t" ++ r ++ "\t" := by simp
    rw [he] at hb1
    have h2 := parseLine_pending
      { commit := st.commit
        diff := some { Path := "", LinesAdded := countValue a, LinesRemoved := countValue r }
        linesThisCommit := st.linesThisCommit + 1 }
      (by have := hst.header; simp only []; omega) _ rfl o
    have h3 := parseLine_pending
      { commit := st.commit
        diff := some { Path := o, LinesAdded := countValue a, LinesRemoved := countValue r }
        linesThisCommit := st.linesThisCommit + 1 + 1 }
      (by have := hst.header; simp only []; omega) _ rfl n
    have hz : ¬ ("".length > 0) := by decide
    simp only [hz, if_false] at h2
    simp only [ho, if_true] at h3
    refine ⟨{ commit := { st.commit with FileDiffs := st.commit.FileDiffs ++
                [{ Path := n, LinesAdded := countValue a, LinesRemoved := countValue r }] }
              diff := none
              linesThisCommit := st.linesThisCommit + 1 + 1 + 1 }, ?_, ?_, fun rest => ?_⟩
    · exact ⟨by have := hst.header; simp only []; omega, rfl⟩
    · rfl
    · simp only [DiffEntry.lines, List.map_cons, List.map_nil, List.cons_append, List.nil_append]
      rw [ParseCommits.loop_line now st _ _ _ (Or.inr hb1) h1,
        ParseCommits.loop_line now _ _ o _ (Or.inr ⟨by omega, hro⟩) h2,
        ParseCommits.loop_line now _ _ n _ (Or.inr ⟨by omega, hrn⟩) h3]

/-- Reading the lines of a list of well-formed entries appends their file
diffs, in order. -/
theorem ParseCommits.loop_entries (now : Time) (es : List DiffEntry)
    (hwf : ∀ e ∈ es, e.WellFormed = true) (st : ParseState) (hst : BetweenEntries st) :
    ∃ st2, BetweenEntries st2 ∧
      st2.commit = { st.commit with FileDiffs := st.commit.FileDiffs ++ es.map DiffEntry.fileDiff } ∧
      ∀ rest, ParseCommits.loop now st
          ((es.flatMap DiffEntry.lines).map (fun l => (l, none)) ++ rest)
        = ParseCommits.loop now st2 rest := by
  induction es generalizing st with
  | nil => exact ⟨st, hst, by simp, fun rest => by simp⟩
  | cons e es ih =>
    obtain ⟨st1, hb1, hc1, hl1⟩ := ParseCommits.loop_entry now st hst e (hwf e (by simp))
    obtain ⟨st2, hb2, hc2, hl2⟩ := ih (fun x hx => hwf x (by simp [hx])) st1 hb1
    refine ⟨st2, hb2, ?_, fun rest => ?_⟩
    · rw [hc2, hc1]
      simp
    · simp only [List.flatMap_cons, List.map_append, List.append_assoc]
      rw [hl1, hl2]

end EntryLemmas

section RecordLoopLemmas

theorem parentLine_spaces (ps : List String) (h : ∀ p ∈ ps, ' ' ∉ p.data) :
    (LogRecord.parentLine ps).data.count ' ' = ps.length - 1 := by
  induction ps with
  | nil => simp [LogRecord.parentLine]
  | cons p ps ih =>
    cases ps with
    | nil =>
      simp only [LogRecord.parentLine, List.length_singleton, Nat.sub_self]
      exact List.count_eq_zero.mpr (h p (by simp))
    | cons q rest =>
      have hp : p.data.count ' ' = 0 := List.count_eq_zero.mpr (h p (by simp))
      have := ih (fun x hx => h x (by simp [hx]))
      simp only [LogRecord.parentLine, String.data_append, List.count_append, hp, this]
      have hs : (" " : String).data = [' '] := rfl
      simp only [hs, List.count_cons_self, List.count_nil, List.length_cons]
      omega

theorem parentLine_isMerge (ps : List String) (h : ∀ p ∈ ps, ' ' ∉ p.data) :
    decide ((strings.Split (LogRecord.parentLine ps) ' ').length > 1) = decide (ps.length > 1) := by
  unfold strings.Split
  rw [List.length_map, splitChars_length, parentLine_spaces ps h]
  by_cases h1 : ps.length > 1
  · have : ps.length - 1 + 1 > 1 := by omega
    simp [h1, this]
  · have : ¬ ps.length - 1 + 1 > 1 := by omega
    simp [h1, this]

theorem ParseCommits.loop_hash (now : Time) (st : ParseState) (ys : List Commit)
    (hst : RecordStart now st ys) (hash : String) (hrev : isRev hash = true) (rest : LineSeq) :
    ParseCommits.loop now st ((hash, none) :: rest)
      = WithoutErrors ys ++ ParseCommits.loop now
          { commit := { Commit.zero with Hash := hash }, diff := none, linesThisCommit := 1 }
          rest := by
  rcases hst with ⟨h1, h2⟩ | ⟨h1, h2, h3⟩
  · subst h1 h2
    rw [ParseCommits.loop_line now ParseState.init
      { commit := { Commit.zero with Hash := hash }, diff := none, linesThisCommit := 1 } hash rest
      (Or.inl (by simp [ParseState.init])) (by simp [parseLine, ParseState.init])]
    simp [WithoutErrors]
  · subst h3
    rw [ParseCommits.loop_rev now st hash rest h1.header hrev, h2]
    simp [WithoutErrors]

theorem ParseCommits.loop_header (now : Time) (hash shortHash parents name email ts : String)
    (v : Int) (hts : strconv.Atoi ts = some v) (rest : LineSeq) :
    ParseCommits.loop now
        { commit := { Commit.zero with Hash := hash }, diff := none, linesThisCommit := 1 }
        ((shortHash, none) :: (parents, none) :: (name, none) :: (email, none) :: (ts, none) :: rest)
      = ParseCommits.loop now
          { commit :=
              { Hash := hash
                ShortHash := shortHash
                IsMerge := decide ((strings.Split parents ' ').length > 1)
                AuthorName := name
                AuthorEmail := email
                Date := Time.ofUnix v
                FileDiffs := [] }
            diff := none
            linesThisCommit := 6 }
          rest := by
  rw [ParseCommits.loop_line now _ _ shortHash _ (Or.inl (by simp)) (by simp only [parseLine]; rfl),
    ParseCommits.loop_line now _ _ parents _ (Or.inl (by simp)) (by simp only [parseLine]; rfl),
    ParseCommits.loop_line now _ _ name _ (Or.inl (by simp)) (by simp only [parseLine]; rfl),
    ParseCommits.loop_line now _ _ email _ (Or.inl (by simp)) (by simp only [parseLine]; rfl),
    ParseCommits.loop_line now _ _ ts _ (Or.inl (by simp)) (by simp only [parseLine, hts]; rfl)]
  rfl

theorem LogRecord.commit_of_header (r : LogRecord) (hwf : r.WellFormed = true) (v : Int)
    (hts : strconv.Atoi r.timestamp = some v) (c : Commit)
    (hc : c = { ({ Hash := r.hash
                   ShortHash := r.shortHash
                   IsMerge := decide ((strings.Split (LogRecord.parentLine r.parents) ' ').length > 1)
                   AuthorName := r.authorName
                   AuthorEmail := r.authorEmail
                   Date := Time.ofUnix v
                   FileDiffs := [] } : Commit) with
                FileDiffs := [] ++ r.diffs.map DiffEntry.fileDiff }) :
    c = r.commit := by
  simp only [LogRecord.WellFormed, Bool.and_eq_true, List.all_eq_true, Bool.not_eq_true',
    List.contains_eq_any_beq] at hwf
  have hpar : ∀ p ∈ r.parents, ' ' ∉ p.data := by
    intro p hp hmem
    have := hwf.1.1.2 p hp
    simp only [List.any_eq_false, beq_iff_eq] at this
    exact this _ hmem rfl
  subst hc
  simp only [LogRecord.commit, parentLine_isMerge r.parents hpar, hts, Option.getD_some,
    List.nil_append]

/-- Reading the lines of well-formed records, from the start of a record on,
yields what was pending and then the commits of the records, in order. -/
theorem ParseCommits.loop_records (now : Time) (rs : List LogRecord)
    (hwf : ∀ r ∈ rs, r.WellFormed = true) (hallow : ∀ r ∈ rs, allowCommit r.commit now = true)
    (st : ParseState) (ys : List Commit) (hst : RecordStart now st ys) :
    ParseCommits.loop now st (recordLines rs)
      = WithoutErrors (ys ++ rs.map LogRecord.commit) := by
  induction rs generalizing st ys with
  | nil =>
    rcases hst with ⟨h1, h2⟩ | ⟨h1, h2, h3⟩
    · subst h1 h2
      simp [recordLines, ParseCommits.loop, ParseState.init, WithoutErrors]
    · subst h3
      have := h1.header
      have hpos : decide (st.linesThisCommit > 0) = true := by simp; omega
      simp [recordLines, ParseCommits.loop, hpos, h2, WithoutErrors]
  | cons r rs ih =>
    have hwfr := hwf r (by simp)
    have hallowr := hallow r (by simp)
    have hwf2 := hwfr
    simp only [LogRecord.WellFormed, Bool.and_eq_true, List.all_eq_true] at hwf2
    obtain ⟨⟨⟨hhash, _⟩, hts⟩, hdiffs⟩ := hwf2
    obtain ⟨v, hv⟩ := Option.isSome_iff_exists.mp hts
    obtain ⟨st2, hb2, hc2, hl2⟩ := ParseCommits.loop_entries now r.diffs hdiffs
      { commit :=
          { Hash := r.hash
            ShortHash := r.shortHash
            IsMerge := decide ((strings.Split (LogRecord.parentLine r.parents) ' ').length > 1)
            AuthorName := r.authorName
            AuthorEmail := r.authorEmail
            Date := Time.ofUnix v
            FileDiffs := [] }
        diff := none
        linesThisCommit := 6 } ⟨by simp, rfl⟩
    have hcommit : st2.commit = r.commit := LogRecord.commit_of_header r hwfr v hv _ hc2
    have hlines : recordLines (r :: rs)
        = (r.hash, none) :: (r.shortHash, none) :: (LogRecord.parentLine r.parents, none) ::
            (r.authorName, none) :: (r.authorEmail, none) :: (r.timestamp, none) ::
            ((r.diffs.flatMap DiffEntry.lines).map (fun l => (l, (none : Option String))) ++
              ((if r.blankAfter then [("", none)] else []) ++ recordLines rs)) := by
      cases hb : r.blankAfter <;>
        simp [recordLines, LogRecord.lines, hb, List.flatMap_cons, List.map_append]
    rw [hlines, ParseCommits.loop_hash now st ys hst r.hash (isRev_of_isFullHash _ hhash),
      ParseCommits.loop_header now r.hash r.shortHash _ r.authorName r.authorEmail r.timestamp v hv,
      hl2]
    cases hb : r.blankAfter with
    | true =>
      simp only [if_true, List.singleton_append]
      rw [ParseCommits.loop_blank now st2 _ hb2.header, hcommit, hallowr,
        ih (fun x hx => hwf x (by simp [hx])) (fun x hx => hallow x (by simp [hx]))
          ParseState.init [] (Or.inl ⟨rfl, rfl⟩)]
      simp [WithoutErrors]
    | false =>
      simp only [Bool.false_eq_true, if_false, List.nil_append]
      rw [ih (fun x hx => hwf x (by simp [hx])) (fun x hx => hallow x (by simp [hx]))
          st2 [st2.commit] (Or.inr ⟨hb2, by rw [hcommit]; exact hallowr, rfl⟩), hcommit]
      simp [WithoutErrors]

end RecordLoopLemmas

/-- C12: for well-formed commit records whose file-diff entries are ordinary
lines, whose commits have a name or an email and a date not after `now`,
ParseCommits yields exactly the commits of the records, in order and without
error: Hash, ShortHash, AuthorName, AuthorEmail and Date from the header
lines, IsMerge true exactly when the parent line lists more than one parent,
one FileDiff per diff line, a count written `-` being 0. -/
theorem ParseCommits_wellFormed_records (now : Time) (rs : List LogRecord)
    (hwf : ∀ r ∈ rs, r.WellFormed = true)
    (hord : ∀ r ∈ rs, ∀ e ∈ r.diffs, e.isOrdinary = true)
    (hallow : ∀ r ∈ rs, (r.authorName ≠ "" ∨ r.authorEmail ≠ "") ∧
      r.commit.Date.nanos ≤ now.nanos) :
    ParseCommits now (recordLines rs) = WithoutErrors (rs.map LogRecord.commit) ∧
      ∀ r ∈ rs, r.commit.FileDiffs.length = (r.diffs.flatMap DiffEntry.lines).length := by
  refine ⟨?_, ?_⟩
  · have := ParseCommits.loop_records now rs hwf
      (fun r hr => (allowCommit_iff _ _).mpr (hallow r hr)) ParseState.init [] (Or.inl ⟨rfl, rfl⟩)
    simpa [ParseCommits] using this
  · intro r hr
    have h := hord r hr
    simp only [LogRecord.commit, List.length_map]
    generalize r.diffs = es at h
    induction es with
    | nil => simp
    | cons e es ih =>
      have he := h e (by simp)
      cases e with
      | ordinary a b p =>
        simp only [List.flatMap_cons, List.length_append, List.length_cons, DiffEntry.lines,
          List.length_nil]
        rw [← ih (fun x hx => h x (by simp [hx]))]
        omega
      | rename a b o n => simp [DiffEntry.isOrdinary] at he

/-- C12 (witness): two records, the first directly followed by the second; bob
has two parents and the diffs +3 -5 of foo/bar.txt and the binary bin.dat. -/
theorem ParseCommits_wellFormed_records_witness :
    ParseCommits Examples.parseNow (recordLines [Examples.bobRecord, Examples.jimPlainRecord])
      = WithoutErrors [Examples.bobRecord.commit, Examples.jimPlainRecord.commit] ∧
    Examples.bobRecord.commit.FileDiffs
      = [{ Path := "foo/bar.txt", LinesAdded := 3, LinesRemoved := 5 },
         { Path := "bin.dat", LinesAdded := 0, LinesRemoved := 0 }] ∧
    Examples.bobRecord.commit.IsMerge = true :=
  ⟨(ParseCommits_wellFormed_records Examples.parseNow
      [Examples.bobRecord, Examples.jimPlainRecord] (by decide) (by decide) (by decide)).1,
    by decide, by decide⟩

/-- C13 (counterexample): when the old path of a rename is a file name of
forty hexadecimal digits, the parser takes it for the hash of the next commit;
the commit comes out without any file diff. -/
theorem ParseCommits_rename_of_hash_named_file :
    ParseCommits Examples.parseNow Examples.hashNamedRename
      = [(Examples.bobHeaderCommit, none)] ∧ Examples.bobHeaderCommit.FileDiffs = [] := by
  decide

/-- C13 (amended): in a sequence of well-formed records, a rename entry whose
two path tokens are non-empty and not shaped like a revision adds exactly one
FileDiff to its commit, at the place of the entry, with the counts of the
entry and the new path. -/
theorem ParseCommits_rename_entry (now : Time) (before after : List LogRecord) (r : LogRecord)
    (pre post : List DiffEntry) (added removed oldPath newPath : String)
    (hr : r.diffs = pre ++ DiffEntry.rename added removed oldPath newPath :: post)
    (hwf : ∀ x ∈ before ++ r :: after, x.WellFormed = true)
    (hallow : ∀ x ∈ before ++ r :: after, (x.authorName ≠ "" ∨ x.authorEmail ≠ "") ∧
      x.commit.Date.nanos ≤ now.nanos) :
    ParseCommits now (recordLines (before ++ r :: after))
      = WithoutErrors (before.map LogRecord.commit ++
          { r.commit with FileDiffs := pre.map DiffEntry.fileDiff ++
              { Path := newPath, LinesAdded := countValue added,
                LinesRemoved := countValue removed } :: post.map DiffEntry.fileDiff }
          :: after.map LogRecord.commit) := by
  have := ParseCommits.loop_records now (before ++ r :: after) hwf
    (fun x hx => (allowCommit_iff _ _).mpr (hallow x hx)) ParseState.init [] (Or.inl ⟨rfl, rfl⟩)
  have hc : r.commit = { r.commit with FileDiffs := pre.map DiffEntry.fileDiff ++
      { Path := newPath, LinesAdded := countValue added,
        LinesRemoved := countValue removed } :: post.map DiffEntry.fileDiff } := by
    simp [LogRecord.commit, hr, DiffEntry.fileDiff]
  rw [← hc]
  simpa [ParseCommits] using this

/-- C13 (witness): the rename of file-rename/bar.go to file-rename/bim.go in the
second of two records gives the one file diff +1 -2 of file-rename/bim.go. -/
theorem ParseCommits_rename_entry_witness :
    ParseCommits Examples.parseNow (recordLines [Examples.bobRecord, Examples.jimRecord])
      = WithoutErrors [Examples.bobRecord.commit,
          { Examples.jimRecord.commit with FileDiffs :=
              [{ Path := "a.txt", LinesAdded := 1, LinesRemoved := 0 },
               { Path := "file-rename/bim.go", LinesAdded := 1, LinesRemoved := 2 }] }] := by
  have h := ParseCommits_rename_entry Examples.parseNow [Examples.bobRecord] [] Examples.jimRecord
    [.ordinary "1" "0" "a.txt"] [] "1" "2" "file-rename/bar.go" "file-rename/bim.go" rfl
    (by decide) (by decide)
  have e1 : countValue "1" = 1 := by decide
  have e2 : countValue "2" = 2 := by decide
  have e0 : countValue "0" = 0 := by decide
  simpa [DiffEntry.fileDiff, e0, e1, e2] using h

/-- C14 (counterexample): a file-diff line with a tab in its path has four
non-empty tab-separated tokens, and ParseCommits accepts it, the path being all
that follows the second tab. -/
theorem ParseCommits_tab_in_path_accepted :
    ((strings.Split "1\t2\ta\tb" '\t').filter (fun p => p.length > 0)).length = 4 ∧
    ParseCommits Examples.parseNow Examples.tabInPath
      = [({ Examples.bobHeaderCommit with
            FileDiffs := [{ Path := "a\tb", LinesAdded := 1, LinesRemoved := 2 }] }, none)] := by
  decide

/-- C14 (amended): when the lines before a malformed line have been read without
error, ParseCommits yields the commits completed by those lines, then one
error at the malformed line, and nothing after it, whatever follows. A line is
malformed when it is in the position of the timestamp and is not a decimal
integer, or it is a file-diff line with no rename pending that does not split,
at its first two tabs, into two or three non-empty pieces, or one of whose two
counts is neither `-` nor an integer. -/
theorem ParseCommits_malformed_line (now : Time) (pre : List String) (bad : String)
    (post : LineSeq) (ys : List Commit) (st : ParseState)
    (hpre : ParseCommits.after now ParseState.init pre = some (ys, st))
    (hbad : Malformed st bad = true) :
    ∃ e, ParseCommits now (pre.map (fun l => (l, none)) ++ (bad, none) :: post)
      = WithoutErrors ys ++ [(st.commit, some e)] := by
  obtain ⟨hnd, e, he⟩ := parseLine_malformed st bad hbad
  refine ⟨e, ?_⟩
  unfold ParseCommits
  rw [ParseCommits.loop_after now pre _ _ _ _ hpre, ParseCommits.loop_line_error now st bad e post hnd he]

/-- C14 (witness): after one record and the header of a second, a file-diff
line whose second count is `x` ends the sequence with an error; the first
commit has been yielded, the line after the bad one is not read. -/
theorem ParseCommits_malformed_line_witness :
    ∃ e, ParseCommits Examples.parseNow
        ((Examples.bobRecord.lines ++ Examples.bobHeader).map (fun l => (l, none)) ++
          ("3\tx\tfoo.txt", none) :: [("1\t2\tbar.txt", none)])
      = WithoutErrors [Examples.bobRecord.commit] ++ [(Examples.bobHeaderCommit, some e)] :=
  ParseCommits_malformed_line Examples.parseNow (Examples.bobRecord.lines ++ Examples.bobHeader)
    "3\tx\tfoo.txt" [("1\t2\tbar.txt", none)] [Examples.bobRecord.commit]
    { commit := Examples.bobHeaderCommit, diff := none, linesThisCommit := 6 }
    (by decide) (by decide)

/-! ## Theorems: the record reader and the pathspecs -/

section PathspecLemmas

theorem ends_lits (cs s : List Char) :
    Regexp.ends (Regexp.lits cs) s = if cs.isPrefixOf s then [s.drop cs.length] else [] := by
  induction cs generalizing s with
  | nil => simp [Regexp.lits, Regexp.ends]
  | cons c cs ih =>
    cases s with
    | nil => simp [Regexp.lits, Regexp.ends]
    | cons d s =>
      by_cases h : d = c
      · subst h
        simp [Regexp.lits, Regexp.ends, ih]
      · have h2 : ¬ c = d := fun e => h e.symm
        simp [Regexp.lits, Regexp.ends, h, h2]

theorem ends_alt (a b : Regexp) (s : List Char) :
    Regexp.ends (.alt a b) s = Regexp.ends a s ++ Regexp.ends b s := rfl

theorem ends_seq (a b : Regexp) (s : List Char) :
    Regexp.ends (.seq a b) s = (Regexp.ends a s).flatMap (Regexp.ends b) := rfl

theorem ends_opt (a : Regexp) (s : List Char) :
    Regexp.ends (.opt a) s = Regexp.ends a s ++ [s] := rfl

theorem ends_lit (c : Char) (s : List Char) :
    Regexp.ends (.lit c) s = if [c].isPrefixOf s then [s.drop 1] else [] := by
  cases s with
  | nil => simp [Regexp.ends]
  | cons d s =>
    by_cases h : d = c
    · subst h; simp [Regexp.ends, List.isPrefixOf]
    · have h2 : ¬ c = d := fun e => h e.symm
      simp [Regexp.ends, List.isPrefixOf, h, h2]

theorem ends_cls (negated : Bool) (chars : List Char) (ranges : List (Char × Char))
    (s : List Char) :
    Regexp.ends (.cls negated chars ranges) s
      = match s with
        | d :: rest => if Regexp.inClass chars ranges d != negated then [rest] else []
        | [] => [] := by
  cases s <;> rfl

/-- The matches of the magic `:!` or `:^` followed by whatever `tail` matches. -/
theorem ends_bang (tail : Regexp) (s : List Char) :
    Regexp.ends (.seq (.lit ':') (.seq (.cls false ['!', '^'] []) tail)) s
      = match s with
        | ':' :: '!' :: rest => Regexp.ends tail rest
        | ':' :: '^' :: rest => Regexp.ends tail rest
        | _ => [] := by
  rw [ends_seq, ends_lit]
  cases s with
  | nil => simp [List.isPrefixOf]
  | cons c t =>
    by_cases hc : c = ':'
    · subst hc
      cases t with
      | nil => simp [List.isPrefixOf, ends_seq, ends_cls]
      | cons d u =>
        by_cases hd1 : d = '!'
        · subst hd1; simp [List.isPrefixOf, ends_seq, ends_cls, Regexp.inClass]
        · by_cases hd2 : d = '^'
          · subst hd2; simp [List.isPrefixOf, ends_seq, ends_cls, Regexp.inClass]
          · have h1 : ¬ '!' = d := fun e => hd1 e.symm
            have h2 : ¬ '^' = d := fun e => hd2 e.symm
            have hm : (match (':' :: d :: u : List Char) with
                | ':' :: '!' :: rest => Regexp.ends tail rest
                | ':' :: '^' :: rest => Regexp.ends tail rest
                | _ => []) = [] := by
              split
              · rename_i heq; simp only [List.cons.injEq, true_and] at heq; exact absurd heq.1 hd1
              · rename_i heq; simp only [List.cons.injEq, true_and] at heq; exact absurd heq.1 hd2
              · rfl
            rw [hm]
            simp [List.isPrefixOf, ends_seq, ends_cls, Regexp.inClass, hd1, hd2, h1, h2]
    · have h1 : ¬ ':' = c := fun e => hc e.symm
      have hm : (match (c :: t : List Char) with
          | ':' :: '!' :: rest => Regexp.ends tail rest
          | ':' :: '^' :: rest => Regexp.ends tail rest
          | _ => []) = [] := by
        split
        · rename_i heq; simp only [List.cons.injEq] at heq; exact absurd heq.1 hc
        · rename_i heq; simp only [List.cons.injEq] at heq; exact absurd heq.1 hc
        · rfl
      rw [hm]
      simp [List.isPrefixOf, hc, h1]

end PathspecLemmas

section PathspecLemmas2

theorem IsSupportedPathspec_eq (p : String) :
    IsSupportedPathspec p = acceptsExcludeMagicOnly p := by
  unfold IsSupportedPathspec acceptsExcludeMagicOnly Regexp.matchPrefix excludePathspecRegexp
  rw [ends_alt, ends_alt, ends_bang, ends_bang, ends_lits]
  cases hs : p.data with
  | nil => simp [String.length, hs]
  | cons c t =>
    by_cases hc : c = ':'
    · subst hc
      simp only [String.length, hs, List.length_cons, Nat.zero_lt_succ, List.head?_cons,
        true_and, if_true]
      cases t with
      | nil => simp [List.isPrefixOf]
      | cons d u =>
        by_cases hd1 : d = '!'
        · subst hd1
          cases u with
          | nil => simp [List.isPrefixOf, ends_lit, ends_cls]
          | cons e v =>
            by_cases he1 : e = ':'
            · subst he1; simp [List.isPrefixOf, ends_lit, ends_cls, Regexp.inClass]
            · have he1b : ¬ ':' = e := fun h => he1 h.symm
              by_cases he2 : e = '!'
              · subst he2; simp [List.isPrefixOf, ends_lit, ends_cls, Regexp.inClass]
              · by_cases he3 : e = '^'
                · subst he3; simp [List.isPrefixOf, ends_lit, ends_cls, Regexp.inClass]
                · by_cases he4 : e = '/'
                  · subst he4; simp [List.isPrefixOf, ends_lit, ends_cls, Regexp.inClass]
                  · simp [List.isPrefixOf, ends_lit, ends_cls, Regexp.inClass, he1, he1b, he2,
                      he3, he4]
        · by_cases hd2 : d = '^'
          · subst hd2
            cases u with
            | nil => simp [List.isPrefixOf, ends_lit, ends_cls]
            | cons e v =>
              by_cases he1 : e = ':'
              · subst he1; simp [List.isPrefixOf, ends_lit, ends_cls, Regexp.inClass]
              · have he1b : ¬ ':' = e := fun h => he1 h.symm
                by_cases he2 : e = '!'
                · subst he2; simp [List.isPrefixOf, ends_lit, ends_cls, Regexp.inClass]
                · by_cases he3 : e = '^'
                  · subst he3; simp [List.isPrefixOf, ends_lit, ends_cls, Regexp.inClass]
                  · by_cases he4 : e = '/'
                    · subst he4; simp [List.isPrefixOf, ends_lit, ends_cls, Regexp.inClass]
                    · simp [List.isPrefixOf, ends_lit, ends_cls, Regexp.inClass, he1, he1b, he2,
                        he3, he4]
          · have hm : ∀ k : List Char → List (List Char),
                (match (':' :: d :: u : List Char) with
                  | ':' :: '!' :: rest => k rest
                  | ':' :: '^' :: rest => k rest
                  | _ => []) = [] := by
              intro k
              split
              · rename_i heq; simp only [List.cons.injEq, true_and] at heq; exact absurd heq.1 hd1
              · rename_i heq; simp only [List.cons.injEq, true_and] at heq; exact absurd heq.1 hd2
              · rfl
            rw [hm, hm]
            cases u with
            | nil => simp [List.isPrefixOf]
            | cons e v =>
              cases hb : (":(exclude)".data.isPrefixOf (':' :: d :: e :: v))
              · simp only [hb, Bool.false_eq_true, if_false]
                simp [hd1, hd2]
              · simp only [hb, if_true]
                simp [hd1, hd2]
    · have hc2 : ¬ (some c = some ':') := by simpa using hc
      simp only [hs, List.head?_cons, hc2, and_false, if_false]
      split
      · rename_i rest heq
        simp only [List.cons.injEq] at heq
        exact absurd heq.1 hc
      · rfl

theorem stripPrefix_eq (p : String) :
    excludeStripRegexp.stripPrefix p = withoutMagic p := by
  unfold Regexp.stripPrefix excludeStripRegexp withoutMagic
  rw [ends_alt, ends_bang, ends_lits]
  cases hs : p.data with
  | nil => simp [List.isPrefixOf]
  | cons c t =>
    by_cases hc : c = ':'
    · subst hc
      cases t with
      | nil => simp [List.isPrefixOf]
      | cons d u =>
        by_cases hd1 : d = '!'
        · subst hd1
          cases u with
          | nil => simp [List.isPrefixOf, ends_opt, ends_lit]
          | cons e v =>
            by_cases he : e = ':'
            · subst he; simp [List.isPrefixOf, ends_opt, ends_lit]
            · have heb : ¬ ':' = e := fun h => he h.symm
              simp [List.isPrefixOf, ends_opt, ends_lit, he, heb]
        · by_cases hd2 : d = '^'
          · subst hd2
            cases u with
            | nil => simp [List.isPrefixOf, ends_opt, ends_lit]
            | cons e v =>
              by_cases he : e = ':'
              · subst he; simp [List.isPrefixOf, ends_opt, ends_lit]
              · have heb : ¬ ':' = e := fun h => he h.symm
                simp [List.isPrefixOf, ends_opt, ends_lit, he, heb]
          · have hm : ∀ k : List Char → List (List Char),
                (match (':' :: d :: u : List Char) with
                  | ':' :: '!' :: rest => k rest
                  | ':' :: '^' :: rest => k rest
                  | _ => []) = [] := by
              intro k
              split
              · rename_i heq; simp only [List.cons.injEq, true_and] at heq; exact absurd heq.1 hd1
              · rename_i heq; simp only [List.cons.injEq, true_and] at heq; exact absurd heq.1 hd2
              · rfl
            rw [hm]
            have h1 : ¬ '!' = d := fun e => hd1 e.symm
            have h2 : ¬ '^' = d := fun e => hd2 e.symm
            by_cases hp : (":(exclude)".data.isPrefixOf (':' :: d :: u)) = true
            · simp only [hp, if_true, List.nil_append]
              rfl
            · simp only [hp, if_false, List.nil_append, Bool.false_eq_true]
              simp [List.isPrefixOf, hd1, hd2, h1, h2, ← hs]
    · have h1 : ¬ ':' = c := fun e => hc e.symm
      have hm : ∀ k : List Char → List (List Char),
          (match (c :: t : List Char) with
            | ':' :: '!' :: rest => k rest
            | ':' :: '^' :: rest => k rest
            | _ => []) = [] := by
        intro k
        split
        · rename_i heq; simp only [List.cons.injEq] at heq; exact absurd heq.1 hc
        · rename_i heq; simp only [List.cons.injEq] at heq; exact absurd heq.1 hc
        · rfl
      rw [hm]
      simp [List.isPrefixOf, hc, h1, ← hs]

end PathspecLemmas2

section SplitLemmas

theorem bytes.IndexByte_absent (data : List Nat) (c : Nat) (h : c ∉ data) :
    bytes.IndexByte data c = -1 := by
  induction data with
  | nil => rfl
  | cons b rest ih =>
    have hb : b ≠ c := fun e => h (by simp [e])
    have hr : c ∉ rest := fun e => h (by simp [e])
    simp [bytes.IndexByte, hb, ih hr]

end SplitLemmas

/-- C15: the split function of StdoutLogLines does not split at a delimiter
that is the first byte of the buffer when the buffer holds no delimiter of the
other kind: for a buffer that starts with a newline and holds no NUL it asks for
more data, and at the end of the stream it returns the whole buffer, newline
included, as the final token, where the token should be empty and the advance
one. -/
theorem StdoutLogLines.split_leading_newline (rest : List Nat) (atEOF : Bool)
    (h : 0 ∉ rest) :
    StdoutLogLines.split (10 :: rest) atEOF
      = if atEOF then
          { advance := 0, token := some (10 :: rest), err := some SplitError.ErrFinalToken }
        else { advance := 0, token := none, err := none } := by
  have h0 : bytes.IndexByte (10 :: rest) 0 = -1 :=
    bytes.IndexByte_absent _ _ (by simp [h])
  have h1 : bytes.IndexByte (10 :: rest) 10 = 0 := by simp [bytes.IndexByte]
  unfold StdoutLogLines.split
  simp only [h0, h1]
  cases atEOF <;> simp

/-- C15 (witness): the buffer newline, `abc`: no token when more data may come,
and the whole buffer as the final token at the end of the stream. -/
theorem StdoutLogLines.split_leading_newline_witness :
    StdoutLogLines.split Examples.leadingNewline false
        = { advance := 0, token := none, err := none } ∧
      StdoutLogLines.split Examples.leadingNewline true
        = { advance := 0, token := some [10, 97, 98, 99],
            err := some SplitError.ErrFinalToken } :=
  ⟨StdoutLogLines.split_leading_newline [97, 98, 99] false (by decide),
    StdoutLogLines.split_leading_newline [97, 98, 99] true (by decide)⟩

/-- C16: IsSupportedPathspec accepts every pathspec that does not start with
`:`, and of those that do exactly the ones that start with `:(exclude)`, or with
`:!` or `:^` followed by `:` or by a character other than `!`, `^` and `/`;
`:(top)x`, `:/x`, `:(icase,exclude)x` and `:!/x` are rejected. -/
theorem IsSupportedPathspec_spec :
    (∀ p : String, IsSupportedPathspec p = acceptsExcludeMagicOnly p) ∧
      IsSupportedPathspec ":(top)x" = false ∧ IsSupportedPathspec ":/x" = false ∧
      IsSupportedPathspec ":(icase,exclude)x" = false ∧ IsSupportedPathspec ":!/x" = false ∧
      IsSupportedPathspec ":(exclude)vendor/" = true ∧ IsSupportedPathspec ":!:vendor/" = true ∧
      IsSupportedPathspec ":^*.txt" = true ∧ IsSupportedPathspec "vendor/" = true :=
  ⟨IsSupportedPathspec_eq, by decide, by decide, by decide, by decide, by decide, by decide,
    by decide, by decide⟩

section SplitPathspecsLemmas

theorem SplitPathspecs.foldl_eq (ps : List String) (acc : List String × List String) :
    ps.foldl SplitPathspecs.step acc
      = (acc.1 ++ ps.filter (fun p => p.length != 0 && !startsWithColon p),
         acc.2 ++ (ps.filter startsWithColon).map withoutMagic) := by
  induction ps generalizing acc with
  | nil => simp
  | cons p ps ih =>
    rw [List.foldl_cons, ih]
    unfold SplitPathspecs.step
    by_cases h0 : p.length = 0
    · have hd : p.data = [] := List.length_eq_zero.mp h0
      simp [h0, startsWithColon, hd]
    · by_cases hc : p.data.head? = some ':'
      · simp [h0, startsWithColon, hc, stripPrefix_eq]
      · simp [h0, startsWithColon, hc]

end SplitPathspecsLemmas

/-- C17 (counterexample): the empty pathspec: IsSupportedPathspec accepts
it, and SplitPathspecs puts it in neither of its results. -/
theorem SplitPathspecs_drops_empty :
    IsSupportedPathspec "" = true ∧ SplitPathspecs [""] = ([], []) := by
  decide

/-- C17 (amended): SplitPathspecs puts every non-empty pathspec in exactly one
of its two results, the includes when it does not start with `:` and the
excludes, without its magic, when it does; the empty pathspec is in neither;
for a list, both results keep the input order. -/
theorem SplitPathspecs_spec (ps : List String) :
    SplitPathspecs ps
        = (ps.filter (fun p => p.length != 0 && !startsWithColon p),
           (ps.filter startsWithColon).map withoutMagic) ∧
      ∀ P : String, SplitPathspecs [P]
        = if P.length = 0 then ([], [])
          else if startsWithColon P then ([], [withoutMagic P]) else ([P], []) := by
  refine ⟨by simp [SplitPathspecs, SplitPathspecs.foldl_eq], fun P => ?_⟩
  simp only [SplitPathspecs, SplitPathspecs.foldl_eq]
  by_cases h0 : P.length = 0
  · have hd : P.data = [] := List.length_eq_zero.mp h0
    simp [h0, startsWithColon, hd]
  · by_cases hc : startsWithColon P = true
    · simp [h0, hc]
    · simp [h0, hc]

section LimitLemmas

theorem LimitDiffsByPathspec.matchAny_eq (PathMatch : String → String → Option Bool)
    (path : String) (ps : List String)
    (h : ∀ p ∈ ps, (PathspecMatch PathMatch p path).isSome = true) :
    LimitDiffsByPathspec.matchAny PathMatch path ps
      = some (ps.any (fun p => PathspecMatch PathMatch p path == some true)) := by
  induction ps with
  | nil => rfl
  | cons p ps ih =>
    have hp := h p (by simp)
    have ih2 := ih (fun x hx => h x (by simp [hx]))
    obtain ⟨b, hb⟩ := Option.isSome_iff_exists.mp hp
    cases b <;> simp [LimitDiffsByPathspec.matchAny, hb, ih2]

theorem LimitDiffsByPathspec.filter_eq (PathMatch : String → String → Option Bool)
    (includes excludes : List String) (diffs : List FileDiff)
    (h : ∀ d ∈ diffs, ∀ p ∈ includes ++ excludes,
      (PathspecMatch PathMatch p d.Path).isSome = true) :
    LimitDiffsByPathspec.filter PathMatch includes excludes diffs
      = some (diffs.filter (keptByPathspecs PathMatch includes excludes)) := by
  induction diffs with
  | nil => rfl
  | cons d rest ih =>
    have hd := h d (by simp)
    have ih2 := ih (fun x hx => h x (by simp [hx]))
    have hi := LimitDiffsByPathspec.matchAny_eq PathMatch d.Path includes
      (fun p hp => hd p (by simp [hp]))
    have he := LimitDiffsByPathspec.matchAny_eq PathMatch d.Path excludes
      (fun p hp => hd p (by simp [hp]))
    simp only [LimitDiffsByPathspec.filter, hi, he, ih2, List.filter_cons, keptByPathspecs]

theorem LimitDiffsByPathspec.loop_eq (PathMatch : String → String → Option Bool)
    (includes excludes : List String) (commits : List Commit)
    (h : ∀ c ∈ commits, ∀ d ∈ c.FileDiffs, ∀ p ∈ includes ++ excludes,
      (PathspecMatch PathMatch p d.Path).isSome = true) :
    LimitDiffsByPathspec.loop PathMatch includes excludes (WithoutErrors commits)
      = some (WithoutErrors (commits.map
          (Commit.restrictDiffs (keptByPathspecs PathMatch includes excludes)))) := by
  induction commits with
  | nil => rfl
  | cons c rest ih =>
    have hc := LimitDiffsByPathspec.filter_eq PathMatch includes excludes c.FileDiffs
      (h c (by simp))
    have ih2 := ih (fun x hx => h x (by simp [hx]))
    simp only [WithoutErrors, List.map_cons] at ih2 ⊢
    simp only [LimitDiffsByPathspec.loop, hc, ih2, Commit.restrictDiffs]

end LimitLemmas

/-- C18: on the one supported pathspec `:(exclude)` and an error-free sequence
of one commit with file diffs, LimitDiffsByPathspec yields nothing where the
claim promises the commit with its FileDiffs restricted: the pathspec is all
magic, what SplitPathspecs leaves of it is the empty string, and PathspecMatch
panics on it at the first file diff, whatever the matcher. -/
theorem LimitDiffsByPathspec_empty_exclusion_panics :
    IsSupportedPathspec ":(exclude)" = true ∧
      ∀ PathMatch : String → String → Option Bool,
        LimitDiffsByPathspec PathMatch (WithoutErrors [Examples.scenarioCommit]) [":(exclude)"]
          = none := by
  refine ⟨by decide, fun PathMatch => ?_⟩
  have hs : SplitPathspecs [":(exclude)"] = ([], [""]) := by decide
  have hf : [":(exclude)"].find? (fun p => !IsSupportedPathspec p) = none := by decide
  simp only [LimitDiffsByPathspec, hs, hf]
  rfl

/-- Where PathspecMatch does not panic, the filter restricts the file diffs:
for an error-free commit sequence and a non-empty list of
supported pathspecs on none of which PathspecMatch panics for the paths of the
sequence, LimitDiffsByPathspec yields the same commits in the same order, every
field but FileDiffs unchanged, and each FileDiffs restricted, order preserved,
to the diffs whose path matches at least one include pathspec and no exclude
pathspec; with an empty pathspec list the sequence is returned unchanged. -/
theorem LimitDiffsByPathspec_spec (PathMatch : String → String → Option Bool)
    (commits : List Commit) (pathspecs : List String) (hne : pathspecs ≠ [])
    (hsup : ∀ p ∈ pathspecs, IsSupportedPathspec p = true)
    (hok : ∀ c ∈ commits, ∀ d ∈ c.FileDiffs,
      ∀ p ∈ (SplitPathspecs pathspecs).1 ++ (SplitPathspecs pathspecs).2,
        (PathspecMatch PathMatch p d.Path).isSome = true) :
    LimitDiffsByPathspec PathMatch (WithoutErrors commits) pathspecs
        = some (WithoutErrors (commits.map (Commit.restrictDiffs
            (keptByPathspecs PathMatch (SplitPathspecs pathspecs).1
              (SplitPathspecs pathspecs).2)))) ∧
      ∀ seq : CommitSeq, LimitDiffsByPathspec PathMatch seq [] = some seq := by
  refine ⟨?_, fun seq => rfl⟩
  have hlen : (pathspecs.length == 0) = false := by
    cases pathspecs with
    | nil => exact absurd rfl hne
    | cons p ps => rfl
  have hfind : pathspecs.find? (fun p => !IsSupportedPathspec p) = none := by
    rw [List.find?_eq_none]
    intro p hp
    simp [hsup p hp]
  simp only [LimitDiffsByPathspec, hlen, hfind, Bool.false_eq_true, if_false]
  exact LimitDiffsByPathspec.loop_eq PathMatch _ _ commits hok

/-- With the pathspecs a.txt and :!vendor/ the commit of the scenario keeps its
one diff of a.txt. -/
theorem LimitDiffsByPathspec_spec_witness :
    LimitDiffsByPathspec doublestar.PathMatch (WithoutErrors [Examples.scenarioCommit])
        ["a.txt", ":!vendor/"]
      = some (WithoutErrors [{ Examples.scenarioCommit with
          FileDiffs := [{ Path := "a.txt", LinesAdded := 1, LinesRemoved := 0 }] }]) := by
  have h := (LimitDiffsByPathspec_spec doublestar.PathMatch [Examples.scenarioCommit]
    ["a.txt", ":!vendor/"] (by decide) (by decide) (by decide)).1
  rw [h]
  decide

section StarLemmas

theorem filepath.Join_doublestar : filepath.Join ["**/"] = "**" := by decide

end StarLemmas

/-- C19: for a pathspec that starts with `*`, PathspecMatch matches every path
that the glob `**` matches, whether or not the pathspec itself matches it: the
third test is made with `filepath.Join("**/")`, which does not contain the
pathspec. -/
theorem PathspecMatch_leading_star (PathMatch : String → String → Option Bool)
    (pathspec path : String) (hstar : pathspec.data.head? = some '*')
    (h1 : (PathMatch pathspec path).isSome = true)
    (h2 : (PathMatch (filepath.Join [pathspec, "**"]) path).isSome = true)
    (h3 : PathMatch "**" path = some true) :
    PathspecMatch PathMatch pathspec path = some true := by
  have hlen : (pathspec.length == 0) = false := by
    cases hd : pathspec.data with
    | nil => rw [hd] at hstar; simp at hstar
    | cons c cs => simp [String.length, hd]
  obtain ⟨b1, hb1⟩ := Option.isSome_iff_exists.mp h1
  obtain ⟨b2, hb2⟩ := Option.isSome_iff_exists.mp h2
  unfold PathspecMatch
  simp only [hlen, Bool.false_eq_true, if_false, hb1, hb2, hstar, if_true,
    filepath.Join_doublestar, h3]
  cases b1 <;> cases b2 <;> rfl

/-- C19 (witness): the glob `*.txt` does not match c.md, yet PathspecMatch
returns true for it, and with the pathspecs *.txt and :!vendor/ the commit of
the scenario keeps the diffs of a.txt and of c.md. -/
theorem PathspecMatch_leading_star_witness :
    doublestar.PathMatch "*.txt" "c.md" = some false ∧
      PathspecMatch doublestar.PathMatch "*.txt" "c.md" = some true ∧
      LimitDiffsByPathspec doublestar.PathMatch (WithoutErrors [Examples.scenarioCommit])
          ["*.txt", ":!vendor/"]
        = some (WithoutErrors [{ Examples.scenarioCommit with
            FileDiffs := [{ Path := "a.txt", LinesAdded := 1, LinesRemoved := 0 },
                          { Path := "c.md", LinesAdded := 3, LinesRemoved := 0 }] }]) :=
  ⟨by decide,
    PathspecMatch_leading_star doublestar.PathMatch "*.txt" "c.md" (by decide) (by decide)
      (by decide) (by decide),
    by decide⟩

/-! ## Theorems: the gob cache backend -/

section GobLemmas

theorem binary.uint32_putUint32 (n : Nat) (h : n < 2 ^ 32) :
    binary.uint32 (binary.putUint32 n) = n := by
  simp only [binary.uint32, binary.putUint32, List.getD_cons_zero, List.getD_cons_succ]
  omega

theorem File.Read_append (a rest : List Nat) :
    File.Read a.length (a ++ rest) = (a, rest) := by
  simp [File.Read]

/-- Reading the length and the data of a record gives back the data. -/
theorem GobBackend.read_record (encode : List Commit → List Nat) (commits : List Commit)
    (rest : List Nat) (hsize : (encode commits).length ≤ 0x7FFFFFFF) :
    File.Read (binary.uint32 (File.Read 4 (GobBackend.record encode commits ++ rest)).1)
        (File.Read 4 (GobBackend.record encode commits ++ rest)).2
      = (encode commits, rest) := by
  have hmod : (encode commits).length % 2 ^ 32 = (encode commits).length := by
    apply Nat.mod_eq_of_lt
    omega
  have h4 : File.Read 4 (GobBackend.record encode commits ++ rest)
      = (binary.putUint32 (encode commits).length, encode commits ++ rest) := by
    have := File.Read_append (binary.putUint32 (encode commits).length) (encode commits ++ rest)
    unfold GobBackend.record
    rw [hmod, List.append_assoc]
    simpa [binary.putUint32] using this
  rw [h4]
  simp only []
  rw [binary.uint32_putUint32 _ (by omega)]
  exact File.Read_append _ _

theorem GobBackend.record_ne_nil (encode : List Commit → List Nat) (commits : List Commit)
    (rest : List Nat) : (GobBackend.record encode commits ++ rest).isEmpty = false := by
  simp [GobBackend.record, binary.putUint32]

/-- The commits of one array whose hashes are pairwise distinct and not yet
seen: those looked for are yielded, in order, and none is a duplicate. -/
theorem GobBackend.Get.yieldMatching_distinct (lookingFor : Finset String) (cs : List Commit)
    (seen : Finset String) (hseen : ∀ c ∈ cs, c.Hash ∉ seen)
    (hnodup : (cs.map Commit.Hash).Nodup) :
    ∃ seen2, GobBackend.Get.yieldMatching lookingFor seen cs
        = (WithoutErrors (cs.filter (fun c => decide (c.Hash ∈ lookingFor))), some seen2) ∧
      ∀ h ∈ seen2, h ∈ seen ∨ h ∈ cs.map Commit.Hash := by
  induction cs generalizing seen with
  | nil => exact ⟨seen, rfl, fun h hh => Or.inl hh⟩
  | cons c rest ih =>
    have hc : c.Hash ∉ seen := hseen c (by simp)
    simp only [List.map_cons, List.nodup_cons] at hnodup
    by_cases hl : c.Hash ∈ lookingFor
    · have hrest : ∀ x ∈ rest, x.Hash ∉ insert c.Hash seen := by
        intro x hx hmem
        rcases Finset.mem_insert.mp hmem with e | e
        · exact hnodup.1 (by rw [← e]; exact List.mem_map_of_mem _ hx)
        · exact hseen x (by simp [hx]) e
      obtain ⟨seen2, h1, h2⟩ := ih (insert c.Hash seen) hrest hnodup.2
      refine ⟨seen2, ?_, ?_⟩
      · simp [GobBackend.Get.yieldMatching, hl, hc, h1, WithoutErrors]
      · intro h hh
        rcases h2 h hh with e | e
        · rcases Finset.mem_insert.mp e with e | e
          · right; simp [e]
          · left; exact e
        · right; simp only [List.map_cons, List.mem_cons]; right; exact e
    · obtain ⟨seen2, h1, h2⟩ := ih seen (fun x hx => hseen x (by simp [hx])) hnodup.2
      refine ⟨seen2, ?_, ?_⟩
      · simp [GobBackend.Get.yieldMatching, hl, h1]
      · intro h hh
        rcases h2 h hh with e | e
        · left; exact e
        · right; simp only [List.map_cons, List.mem_cons]; right; exact e

/-- Reading a file of records of arrays whose hashes are pairwise distinct and
not yet seen, with fuel for one more round than there are records. -/
theorem GobBackend.Get.loop_of_records (encode : List Commit → List Nat)
    (decode : List Nat → Option (List Commit)) (lookingFor : Finset String)
    (batches : List (List Commit))
    (hcodec : ∀ b ∈ batches, decode (encode b) = some b)
    (hsize : ∀ b ∈ batches, (encode b).length ≤ 0x7FFFFFFF)
    (hnodup : (batches.flatten.map Commit.Hash).Nodup)
    (seen : Finset String) (hseen : ∀ c ∈ batches.flatten, c.Hash ∉ seen)
    (fuel : Nat) (hfuel : batches.length < fuel) :
    GobBackend.Get.loop decode lookingFor fuel seen (batches.flatMap (GobBackend.record encode))
      = some (WithoutErrors (batches.flatten.filter (fun c => decide (c.Hash ∈ lookingFor)))) := by
  induction batches generalizing seen fuel with
  | nil =>
    cases fuel with
    | zero => simp at hfuel
    | succ n => simp [GobBackend.Get.loop, WithoutErrors]
  | cons b rest ih =>
    cases fuel with
    | zero => simp at hfuel
    | succ n =>
      simp only [List.flatten_cons, List.map_append, List.nodup_append] at hnodup
      obtain ⟨hn1, hn2, hdisj⟩ := hnodup
      obtain ⟨seen2, hy1, hy2⟩ := GobBackend.Get.yieldMatching_distinct lookingFor b seen
        (fun c hc => hseen c (by simp [hc])) hn1
      have hseen2 : ∀ c ∈ rest.flatten, c.Hash ∉ seen2 := by
        intro c hc hmem
        rcases hy2 _ hmem with e | e
        · exact hseen c (by simp only [List.flatten_cons, List.mem_append]; right; exact hc) e
        · exact hdisj e (List.mem_map_of_mem _ hc)
      have ih2 := ih (fun x hx => hcodec x (by simp [hx])) (fun x hx => hsize x (by simp [hx]))
        hn2 seen2 hseen2 n (by simpa using hfuel)
      simp only [List.flatMap_cons, GobBackend.Get.loop, GobBackend.record_ne_nil,
        Bool.false_eq_true, if_false,
        GobBackend.read_record encode b _ (hsize b (by simp)), hcodec b (by simp), hy1, ih2]
      simp [WithoutErrors]

/-- A sequence of Add calls that all return without error appends one record
per array to the file, and every encoding is within the size Add allows. -/
theorem GobBackend.AddAll_file (encode : List Commit → List Nat) (batches : List (List Commit))
    (b b2 : GobBackend) (hopen : b.wasOpened = true)
    (h : GobBackend.AddAll encode b batches = some (b2, none)) :
    b2.wasOpened = true ∧
      (batches ≠ [] → b2.file
        = some (b.file.getD [] ++ batches.flatMap (GobBackend.record encode))) ∧
      (batches = [] → b2 = b) ∧
      ∀ x ∈ batches, (encode x).length ≤ 0x7FFFFFFF := by
  induction batches generalizing b with
  | nil =>
    simp only [GobBackend.AddAll, Option.some.injEq, Prod.mk.injEq, and_true] at h
    subst h
    exact ⟨hopen, fun hne => absurd rfl hne, fun _ => rfl, by simp⟩
  | cons x rest ih =>
    simp only [GobBackend.AddAll, GobBackend.Add, hopen, Bool.not_true, Bool.false_eq_true,
      if_false] at h
    cases hd : b.dirExists with
    | false => simp [hd] at h
    | true =>
    simp only [hd, Bool.not_true, Bool.false_eq_true, if_false] at h
    by_cases hx : (encode x).length > 0x7FFFFFFF
    · simp [hx] at h
    · simp only [hx, if_false] at h
      obtain ⟨ho, hfile, hnil, hsz⟩ := ih _ (by simp [hopen]) h
      refine ⟨ho, fun _ => ?_, fun hne => by simp at hne, ?_⟩
      · cases rest with
        | nil =>
          have := hnil rfl
          subst this
          simp [GobBackend.record]
        | cons y ys =>
          rw [hfile (by simp)]
          simp [GobBackend.record]
      · intro y hy
        rcases List.mem_cons.mp hy with e | e
        · subst e; omega
        · exact hsz y e

end GobLemmas

/-- C20: after a sequence of Add calls on a freshly opened backend that all
return without error, for arrays of commits with pairwise distinct hashes that
the gob encoding brings back unchanged, Get(revs) yields, without error,
exactly the stored commits whose hash is in revs, each once, equal to what was
added and in the order of adding; the loop of Get ends within one round more
than there were Add calls. -/
theorem GobBackend_round_trip (encode : List Commit → List Nat)
    (decode : List Nat → Option (List Commit)) (b0 b : GobBackend)
    (batches : List (List Commit)) (revs : List String) (fuel : Nat)
    (hfresh : b0.file = none)
    (hcodec : ∀ x ∈ batches, decode (encode x) = some x)
    (hdistinct : (batches.flatten.map Commit.Hash).Nodup)
    (hadd : GobBackend.AddAll encode b0.Open batches = some (b, none))
    (hfuel : batches.length < fuel) :
    GobBackend.Get decode fuel b revs
      = .result (WithoutErrors (batches.flatten.filter (fun c => decide (c.Hash ∈ revs)))) := by
  obtain ⟨ho, hfile, hnil, hsz⟩ := GobBackend.AddAll_file encode batches b0.Open b rfl hadd
  cases batches with
  | nil =>
    have := hnil rfl
    subst this
    simp [GobBackend.Get, GobBackend.Open, hfresh, WithoutErrors]
  | cons x rest =>
    have hf := hfile (by simp)
    simp only [GobBackend.Open, hfresh, Option.getD_none, List.nil_append] at hf
    have hloop := GobBackend.Get.loop_of_records encode decode revs.toFinset (x :: rest) hcodec hsz
      hdistinct ∅ (by simp) fuel hfuel
    simp only [GobBackend.Get, ho, Bool.not_true, Bool.false_eq_true, if_false, hf, hloop]
    simp

/-- C20 (witness): the two commits of TestGobAddGetAddGet, added one by one, are
both returned, in the order of adding, and nothing for a hash never added. -/
theorem GobBackend_round_trip_witness :
    ∃ b, GobBackend.AddAll Examples.toyEncode Examples.closedBackend.Open
        [[Examples.commitOne], [Examples.commitTwo]] = some (b, none) ∧
      GobBackend.Get Examples.toyDecode 3 b
          [Examples.commitTwo.Hash, "0000", Examples.commitOne.Hash]
        = .result (WithoutErrors [Examples.commitOne, Examples.commitTwo]) := by
  have hsome : (GobBackend.AddAll Examples.toyEncode Examples.closedBackend.Open
      [[Examples.commitOne], [Examples.commitTwo]]).isSome = true := by decide
  obtain ⟨⟨b, e⟩, hb⟩ := Option.isSome_iff_exists.mp hsome
  have he : e = none := by
    have : ((GobBackend.AddAll Examples.toyEncode Examples.closedBackend.Open
      [[Examples.commitOne], [Examples.commitTwo]]).map Prod.snd) = some none := by decide
    rw [hb] at this
    simpa using this
  subst he
  refine ⟨b, hb, ?_⟩
  have h := GobBackend_round_trip Examples.toyEncode Examples.toyDecode Examples.closedBackend b
    [[Examples.commitOne], [Examples.commitTwo]]
    [Examples.commitTwo.Hash, "0000", Examples.commitOne.Hash] 3 rfl (by decide) (by decide) hb
    (by decide)
  rw [h]
  decide

section GobDuplicateLemmas

theorem GobBackend.Get.yieldMatching_append (lookingFor : Finset String) (xs ys : List Commit)
    (seen : Finset String) :
    GobBackend.Get.yieldMatching lookingFor seen (xs ++ ys)
      = match (GobBackend.Get.yieldMatching lookingFor seen xs).2 with
        | none => GobBackend.Get.yieldMatching lookingFor seen xs
        | some seen2 =>
          ((GobBackend.Get.yieldMatching lookingFor seen xs).1
              ++ (GobBackend.Get.yieldMatching lookingFor seen2 ys).1,
            (GobBackend.Get.yieldMatching lookingFor seen2 ys).2) := by
  induction xs generalizing seen with
  | nil => simp [GobBackend.Get.yieldMatching]
  | cons c rest ih =>
    by_cases hl : c.Hash ∈ lookingFor
    · by_cases hs : c.Hash ∈ seen
      · simp [GobBackend.Get.yieldMatching, hl, hs]
      · have h := ih (insert c.Hash seen)
        simp only [List.cons_append, GobBackend.Get.yieldMatching, hl, hs, if_true, if_false,
          List.append_eq]
        rw [h]
        cases hr : (GobBackend.Get.yieldMatching lookingFor (insert c.Hash seen) rest).2 <;>
          simp [hr]
    · have h := ih seen
      simp only [List.cons_append, GobBackend.Get.yieldMatching, hl, if_false, List.append_eq]
      exact h

/-- Reading a file of records is reading the commits of all records as one
array, whether or not a hash occurs twice. -/
theorem GobBackend.Get.loop_flatten (encode : List Commit → List Nat)
    (decode : List Nat → Option (List Commit)) (lookingFor : Finset String)
    (batches : List (List Commit))
    (hcodec : ∀ b ∈ batches, decode (encode b) = some b)
    (hsize : ∀ b ∈ batches, (encode b).length ≤ 0x7FFFFFFF)
    (seen : Finset String) (fuel : Nat) (hfuel : batches.length < fuel) :
    GobBackend.Get.loop decode lookingFor fuel seen (batches.flatMap (GobBackend.record encode))
      = some (GobBackend.Get.yieldMatching lookingFor seen batches.flatten).1 := by
  induction batches generalizing seen fuel with
  | nil =>
    cases fuel with
    | zero => simp at hfuel
    | succ n => simp [GobBackend.Get.loop, GobBackend.Get.yieldMatching]
  | cons b rest ih =>
    cases fuel with
    | zero => simp at hfuel
    | succ n =>
      have ih2 := fun seen2 => ih (fun x hx => hcodec x (by simp [hx]))
        (fun x hx => hsize x (by simp [hx])) seen2 n (by simpa using hfuel)
      simp only [List.flatMap_cons, GobBackend.Get.loop, GobBackend.record_ne_nil,
        Bool.false_eq_true, if_false,
        GobBackend.read_record encode b _ (hsize b (by simp)), hcodec b (by simp),
        List.flatten_cons, GobBackend.Get.yieldMatching_append]
      cases hr : (GobBackend.Get.yieldMatching lookingFor seen b).2 with
      | none => simp
      | some seen2 => simp [ih2 seen2]

/-- When a requested hash has been seen or occurs twice in the array, the
commits are yielded up to the first one whose hash was seen, and that one is
yielded with the error. -/
theorem GobBackend.Get.yieldMatching_duplicate (lookingFor : Finset String) (xs : List Commit)
    (seen : Finset String)
    (h : (∃ c ∈ xs, c.Hash ∈ lookingFor ∧ c.Hash ∈ seen) ∨
      ¬ ((xs.filter (fun c => decide (c.Hash ∈ lookingFor))).map Commit.Hash).Nodup) :
    ∃ pre c, GobBackend.Get.yieldMatching lookingFor seen xs
        = (WithoutErrors pre ++ [(c, some ("duplicate commit in cache: " ++ c.Hash))], none) ∧
      c.Hash ∈ lookingFor ∧ (c.Hash ∈ seen ∨ c.Hash ∈ pre.map Commit.Hash) ∧
      (pre ++ [c]) <+: xs.filter (fun c => decide (c.Hash ∈ lookingFor)) ∧
      (pre.map Commit.Hash).Nodup ∧ ∀ p ∈ pre, p.Hash ∉ seen := by
  induction xs generalizing seen with
  | nil => simp at h
  | cons x rest ih =>
    by_cases hl : x.Hash ∈ lookingFor
    · by_cases hs : x.Hash ∈ seen
      · refine ⟨[], x, ?_, hl, Or.inl hs, ?_, by simp, by simp⟩
        · simp [GobBackend.Get.yieldMatching, hl, hs, WithoutErrors]
        · simp [hl]
      · have h2 : (∃ c ∈ rest, c.Hash ∈ lookingFor ∧ c.Hash ∈ insert x.Hash seen) ∨
            ¬ ((rest.filter (fun c => decide (c.Hash ∈ lookingFor))).map Commit.Hash).Nodup := by
          rcases h with ⟨c, hc, hcl, hcs⟩ | h
          · rcases List.mem_cons.mp hc with e | e
            · subst e; exact absurd hcs hs
            · exact Or.inl ⟨c, e, hcl, Finset.mem_insert_of_mem hcs⟩
          · simp only [List.filter_cons, hl, decide_True, if_true, List.map_cons,
              List.nodup_cons, not_and_or, not_not] at h
            rcases h with h | h
            · obtain ⟨c, hc, hce⟩ := List.mem_map.mp h
              have hc2 := List.mem_filter.mp hc
              refine Or.inl ⟨c, hc2.1, by simpa using hc2.2, ?_⟩
              rw [hce]
              exact Finset.mem_insert_self _ _
            · exact Or.inr h
        obtain ⟨pre, c, h1, h2c, h3, h4, h5, h6⟩ := ih (insert x.Hash seen) h2
        refine ⟨x :: pre, c, ?_, h2c, ?_, ?_, ?_, ?_⟩
        · simp [GobBackend.Get.yieldMatching, hl, hs, h1, WithoutErrors]
        · rcases h3 with h3 | h3
          · rcases Finset.mem_insert.mp h3 with e | e
            · right; simp [e]
            · left; exact e
          · right; simp [h3]
        · simp only [List.filter_cons, hl, decide_True, if_true, List.cons_append]
          exact (List.prefix_cons_inj x).mpr h4
        · simp only [List.map_cons, List.nodup_cons]
          refine ⟨?_, h5⟩
          intro hmem
          obtain ⟨p, hp, hpe⟩ := List.mem_map.mp hmem
          exact h6 p hp (by rw [hpe]; exact Finset.mem_insert_self _ _)
        · intro p hp
          rcases List.mem_cons.mp hp with e | e
          · subst e; exact hs
          · exact fun hmem => h6 p e (Finset.mem_insert_of_mem hmem)
    · have h2 : (∃ c ∈ rest, c.Hash ∈ lookingFor ∧ c.Hash ∈ seen) ∨
          ¬ ((rest.filter (fun c => decide (c.Hash ∈ lookingFor))).map Commit.Hash).Nodup := by
        rcases h with ⟨c, hc, hcl, hcs⟩ | h
        · rcases List.mem_cons.mp hc with e | e
          · subst e; exact absurd hcl hl
          · exact Or.inl ⟨c, e, hcl, hcs⟩
        · right
          simpa [List.filter_cons, hl] using h
      obtain ⟨pre, c, h1, h2c, h3, h4, h5, h6⟩ := ih seen h2
      refine ⟨pre, c, ?_, h2c, h3, ?_, h5, h6⟩
      · simp [GobBackend.Get.yieldMatching, hl, h1]
      · simpa [List.filter_cons, hl] using h4

end GobDuplicateLemmas

/-- C21 (counterexample): the same commit added twice, then Get for a revision
that is not the duplicated hash: the sequence is empty and carries no error.
(Get for the duplicated hash yields the commit, then the error that names the
hash.) -/
theorem GobBackend_unrequested_duplicate :
    GobBackend.AddAll Examples.toyEncode Examples.closedBackend.Open
        [[Examples.commitOne], [Examples.commitOne]] = some (Examples.twiceAdded, none) ∧
      GobBackend.Get Examples.toyDecode 3 Examples.twiceAdded ["0000"] = .result [] ∧
      GobBackend.Get Examples.toyDecode 3 Examples.twiceAdded [Examples.commitOne.Hash]
        = .result [(Examples.commitOne, none),
            (Examples.commitOne,
              some "duplicate commit in cache: 1e9ea7662b1001d860471a4cece5e2f1de8062fb")] := by
  decide

/-- C21 (amended): after Add calls on a freshly opened backend that all return
without error, when some requested hash occurs twice in what was stored, Get
yields the requested commits up to the second occurrence of the first hash to
come twice, each once and without error, and then that commit with an error
that names its hash; nothing follows. -/
theorem GobBackend_duplicate_detected (encode : List Commit → List Nat)
    (decode : List Nat → Option (List Commit)) (b0 b : GobBackend)
    (batches : List (List Commit)) (revs : List String) (fuel : Nat)
    (hfresh : b0.file = none)
    (hcodec : ∀ x ∈ batches, decode (encode x) = some x)
    (hadd : GobBackend.AddAll encode b0.Open batches = some (b, none))
    (hfuel : batches.length < fuel)
    (hdup : ¬ ((batches.flatten.filter (fun c => decide (c.Hash ∈ revs))).map
      Commit.Hash).Nodup) :
    ∃ pre c, GobBackend.Get decode fuel b revs
        = .result (WithoutErrors pre ++
            [(c, some ("duplicate commit in cache: " ++ c.Hash))]) ∧
      c.Hash ∈ revs ∧ c.Hash ∈ pre.map Commit.Hash ∧ (pre.map Commit.Hash).Nodup ∧
      (pre ++ [c]) <+: batches.flatten.filter (fun c => decide (c.Hash ∈ revs)) := by
  obtain ⟨ho, hfile, hnil, hsz⟩ := GobBackend.AddAll_file encode batches b0.Open b rfl hadd
  have hne : batches ≠ [] := by
    intro e
    subst e
    simp at hdup
  have hf := hfile hne
  simp only [GobBackend.Open, hfresh, Option.getD_none, List.nil_append] at hf
  have hdup2 : ¬ ((batches.flatten.filter (fun c => decide (c.Hash ∈ revs.toFinset))).map
      Commit.Hash).Nodup := by
    simpa using hdup
  obtain ⟨pre, c, h1, h2, h3, h4, h5, -⟩ :=
    GobBackend.Get.yieldMatching_duplicate revs.toFinset batches.flatten ∅ (Or.inr hdup2)
  refine ⟨pre, c, ?_, by simpa using h2, ?_, h5, by simpa using h4⟩
  · have hloop := GobBackend.Get.loop_flatten encode decode revs.toFinset batches hcodec hsz ∅
      fuel hfuel
    simp only [GobBackend.Get, ho, Bool.not_true, Bool.false_eq_true, if_false, hf, hloop, h1]
  · rcases h3 with h3 | h3
    · simp at h3
    · exact h3

/-- C21 (witness): Add([C]); Add([C]); Get([C.Hash]) yields C and then the
error that names C.Hash. -/
theorem GobBackend_duplicate_detected_witness :
    ∃ pre c, GobBackend.Get Examples.toyDecode 3 Examples.twiceAdded [Examples.commitOne.Hash]
        = .result (WithoutErrors pre ++
            [(c, some ("duplicate commit in cache: " ++ c.Hash))]) ∧
      c.Hash = Examples.commitOne.Hash := by
  obtain ⟨pre, c, h1, h2, -, -, -⟩ :=
    GobBackend_duplicate_detected Examples.toyEncode Examples.toyDecode Examples.closedBackend
      Examples.twiceAdded [[Examples.commitOne], [Examples.commitOne]]
      [Examples.commitOne.Hash] 3 rfl (by decide) (by decide) (by decide) (by decide)
  exact ⟨pre, c, h1, by simpa using h2⟩

/-- C22: after a cache failure the orchestrator wipes the cache with Clear,
which on the gob backend removes the cache directory; the first Add of the
cache writer then fails to open the cache file, for every chunk of commits, and
the cache writer returns that error. -/
theorem runCacher_fails_after_wipe (encode : List Commit → List Nat) (b : GobBackend)
    (chunk : List Commit) (rest : List (List Commit)) (hopen : b.wasOpened = true) :
    (handleCacheFailure b).2 = none ∧
      ∃ b2, runCacher encode (handleCacheFailure b).1 (chunk :: rest)
        = some (b2, some "error in cacher: open: no such file or directory") := by
  refine ⟨rfl, { b.Clear with isDirty := true }, ?_⟩
  simp [runCacher, handleCacheFailure, GobBackend.Add, GobBackend.Clear, hopen]

/-- C22 (witness): the cache of the duplicate example, wiped after the failed
Get: adding the second commit fails. -/
theorem runCacher_fails_after_wipe_witness :
    ∃ b2, runCacher Examples.toyEncode (handleCacheFailure Examples.twiceAdded).1
        [[Examples.commitTwo]]
      = some (b2, some "error in cacher: open: no such file or directory") :=
  (runCacher_fails_after_wipe Examples.toyEncode Examples.twiceAdded [Examples.commitTwo] []
    rfl).2

/-- C25: isRev is true exactly for the strings of 40 or 41 characters that are
all `^`, `a` to `f` or `0` to `9`: also for 41 hexadecimal digits and for 40
characters with `^` in the middle, which are no full-length hashes. -/
theorem isRev_accepts_more :
    (∀ s : String, isRev s = true ↔
      (∀ c ∈ s.data, c = '^' ∨ ('a'.toNat ≤ c.toNat ∧ c.toNat ≤ 'f'.toNat) ∨
        ('0'.toNat ≤ c.toNat ∧ c.toNat ≤ '9'.toNat)) ∧ (s.length = 40 ∨ s.length = 41)) ∧
      isRev Examples.hex41 = true ∧ isRev Examples.caretInside = true ∧
      isRev Examples.caretInFront = true := by
  refine ⟨fun s => ?_, by decide, by decide, by decide⟩
  rw [isRev_iff]
  simp [revClass, Regexp.inClass]

/-- C29: on the list of the one supported exclusion `:^:` and an error-free
sequence of one commit with file diffs, LimitDiffsByPathspec yields nothing
where the claim promises the commit with an empty FileDiffs list: what
SplitPathspecs leaves of `:^:` is the empty string and PathspecMatch panics on
it at the first file diff, whatever the matcher. -/
theorem LimitDiffsByPathspec_bare_caret_exclusion :
    IsSupportedPathspec ":^:" = true ∧ startsWithColon ":^:" = true ∧
      ∀ PathMatch : String → String → Option Bool,
        LimitDiffsByPathspec PathMatch (WithoutErrors [Examples.scenarioCommit]) [":^:"]
          = none := by
  refine ⟨by decide, by decide, fun PathMatch => ?_⟩
  have hs : SplitPathspecs [":^:"] = ([], [""]) := by decide
  have hf : [":^:"].find? (fun p => !IsSupportedPathspec p) = none := by decide
  simp only [LimitDiffsByPathspec, hs, hf]
  rfl

/-- Exclusions alone include nothing where PathspecMatch does not panic: for an
error-free commit sequence and a non-empty list of
supported pathspecs that all are exclusions, when PathspecMatch panics on none
of the stripped exclusions for the paths of the sequence, LimitDiffsByPathspec
yields every commit with an empty FileDiffs list, whatever the paths of its
diffs. -/
theorem LimitDiffsByPathspec_only_exclusions (PathMatch : String → String → Option Bool)
    (commits : List Commit) (pathspecs : List String) (hne : pathspecs ≠ [])
    (hsup : ∀ p ∈ pathspecs, IsSupportedPathspec p = true)
    (hexcl : ∀ p ∈ pathspecs, startsWithColon p = true)
    (hok : ∀ c ∈ commits, ∀ d ∈ c.FileDiffs, ∀ p ∈ (SplitPathspecs pathspecs).2,
      (PathspecMatch PathMatch p d.Path).isSome = true) :
    LimitDiffsByPathspec PathMatch (WithoutErrors commits) pathspecs
      = some (WithoutErrors (commits.map (fun c => { c with FileDiffs := [] }))) := by
  have hlen : (pathspecs.length == 0) = false := by
    cases pathspecs with
    | nil => exact absurd rfl hne
    | cons p ps => rfl
  have hfind : pathspecs.find? (fun p => !IsSupportedPathspec p) = none := by
    rw [List.find?_eq_none]
    intro p hp
    simp [hsup p hp]
  have hinc : (SplitPathspecs pathspecs).1 = [] := by
    simp only [SplitPathspecs, SplitPathspecs.foldl_eq, List.nil_append]
    rw [List.filter_eq_nil_iff]
    intro p hp
    simp [hexcl p hp]
  have hok2 : ∀ c ∈ commits, ∀ d ∈ c.FileDiffs,
      ∀ p ∈ (SplitPathspecs pathspecs).1 ++ (SplitPathspecs pathspecs).2,
        (PathspecMatch PathMatch p d.Path).isSome = true := by
    intro c hc d hd p hp
    rw [hinc, List.nil_append] at hp
    exact hok c hc d hd p hp
  simp only [LimitDiffsByPathspec, hlen, hfind, Bool.false_eq_true, if_false]
  rw [LimitDiffsByPathspec.loop_eq PathMatch _ _ commits hok2, hinc]
  congr 2
  apply List.map_congr_left
  intro c _
  simp [Commit.restrictDiffs, keptByPathspecs]

/-- With the one pathspec :!vendor/ the commit of the scenario is yielded
without file diffs. -/
theorem LimitDiffsByPathspec_only_exclusions_witness :
    LimitDiffsByPathspec doublestar.PathMatch (WithoutErrors [Examples.scenarioCommit])
        [":!vendor/"]
      = some (WithoutErrors [{ Examples.scenarioCommit with FileDiffs := [] }]) :=
  LimitDiffsByPathspec_only_exclusions doublestar.PathMatch [Examples.scenarioCommit]
    [":!vendor/"] (by decide) (by decide) (by decide) (by decide)

/-- C30: the pathspecs `:!:`, `:^:` and `:(exclude)` pass IsSupportedPathspec,
SplitPathspecs makes the empty exclude pattern of each, PathspecMatch panics on
the empty pattern for every path, and so does LimitDiffsByPathspec on a commit
with a file diff, whatever the matcher. -/
theorem LimitDiffsByPathspec_validated_panics :
    (IsSupportedPathspec ":!:" = true ∧ IsSupportedPathspec ":^:" = true ∧
        IsSupportedPathspec ":(exclude)" = true) ∧
      (SplitPathspecs [":!:"] = ([], [""]) ∧ SplitPathspecs [":^:"] = ([], [""]) ∧
        SplitPathspecs [":(exclude)"] = ([], [""])) ∧
      (∀ (PathMatch : String → String → Option Bool) (path : String),
        PathspecMatch PathMatch "" path = none) ∧
      ∀ PathMatch : String → String → Option Bool,
        LimitDiffsByPathspec PathMatch (WithoutErrors [Examples.commitOne]) [":!:"] = none ∧
        LimitDiffsByPathspec PathMatch (WithoutErrors [Examples.commitOne]) [":^:"] = none ∧
        LimitDiffsByPathspec PathMatch (WithoutErrors [Examples.commitOne]) [":(exclude)"]
          = none := by
  have h1 : SplitPathspecs [":!:"] = ([], [""]) := by decide
  have h2 : SplitPathspecs [":^:"] = ([], [""]) := by decide
  have h3 : SplitPathspecs [":(exclude)"] = ([], [""]) := by decide
  have f1 : [":!:"].find? (fun p => !IsSupportedPathspec p) = none := by decide
  have f2 : [":^:"].find? (fun p => !IsSupportedPathspec p) = none := by decide
  have f3 : [":(exclude)"].find? (fun p => !IsSupportedPathspec p) = none := by decide
  refine ⟨by decide, ⟨h1, h2, h3⟩, fun PathMatch path => rfl, fun PathMatch => ⟨?_, ?_, ?_⟩⟩
  · simp only [LimitDiffsByPathspec, h1, f1]
    rfl
  · simp only [LimitDiffsByPathspec, h2, f2]
    rfl
  · simp only [LimitDiffsByPathspec, h3, f3]
    rfl

/-- C26: with no revisions the fan-out returns the nil series, and on it
concurrent.TallyCommitsTimeline indexes into the empty bucket list and panics,
for every end time; tally.TallyCommitsTimeline, on the empty commit sequence of
its test, returns the empty series without error. -/
theorem concurrent_TallyCommitsTimeline_empty_panics :
    tallyFanOutFanIn.early ([] : TimeSeries) (.ok []) = some (.ok []) ∧
      (∀ (loc : Location) (fuel : Nat) (endTime : Time),
        concurrent.TallyCommitsTimeline loc fuel (.ok []) endTime = .panic) ∧
      ∀ (loc : Location) (fuel : Nat) (endTime : Time),
        TallyCommitsTimeline loc Examples.parseNow (fuel + 1) (WithoutErrors [])
          Examples.emptyTimelineOpts endTime = .result (.ok []) := by
  refine ⟨rfl, fun loc fuel endTime => ?_, fun loc fuel endTime => ?_⟩
  · by_cases h : endTime.IsZero = true <;>
      simp [concurrent.TallyCommitsTimeline, indexSlice, h]
  · have hmode : ¬ (Examples.emptyTimelineOpts.Mode = TallyMode.LastModifiedMode ∨
        Examples.emptyTimelineOpts.Mode = TallyMode.FirstModifiedMode) := by decide
    have hnow : (Examples.parseNow.Before Time.zero || Examples.parseNow.Equal Time.zero)
        = false := by decide
    simp only [TallyCommitsTimeline, TallyCommitsByDate, hmode, if_false, WithoutErrors,
      List.map_nil, TallyCommitsByDate.loop, TallyCommitsByDate.dense, hnow,
      Bool.false_eq_true]
    rfl

/-- C28: two commits of alice that change no file and one of bob that changes
one file, all on one day, in files mode: the bucket of that day, ranked, has
alice as its winner with value 2, and the overall value 1. -/
theorem TimeBucket_Rank_files_total_below_winner :
    TallyCommitsTimeline Examples.utc Examples.parseNow 3 (WithoutErrors Examples.quietDay)
        Examples.filesOpts Time.zero = .result (.ok [Examples.quietDayBucket]) ∧
      (Examples.quietDayBucket.Rank TallyMode.FilesMode).map
          (fun r => (r.Tally.AuthorName, r.Value TallyMode.FilesMode,
            r.TotalValue TallyMode.FilesMode))
        = some ("alice", some 2, some 1) := by
  decide

section ChunkLemmas

theorem find_tallyDiff (c : Commit) (pt : GoMap String Tally) (d : FileDiff) (p : String) :
    GoMap.find (tallyDiff c pt d) p = diffUpdate c p (GoMap.find pt p) d := by
  unfold tallyDiff diffUpdate
  rw [GoMap.find_put]
  by_cases h : p = d.Path
  · subst h
    simp only [if_true]
    cases hf : GoMap.find pt d.Path <;> cases hm : c.IsMerge <;>
      simp [Tally.changed, Tally.seen, Tally.started, hm]
  · have h2 : ¬ d.Path = p := fun e => h e.symm
    simp [h, h2]

theorem find_foldl_tallyDiff (c : Commit) (ds : List FileDiff) (p : String) :
    ∀ pt : GoMap String Tally,
      GoMap.find (ds.foldl (tallyDiff c) pt) p = ds.foldl (diffUpdate c p) (GoMap.find pt p) := by
  induction ds with
  | nil => intro pt; rfl
  | cons d rest ih =>
    intro pt
    rw [List.foldl_cons, ih, find_tallyDiff, List.foldl_cons]

theorem find_tallyNoDiff (c : Commit) (pt : GoMap String Tally) (p : String) :
    GoMap.find (tallyNoDiff c pt) p
      = if p = NoDiffPathname then some (Tally.seen c ((GoMap.find pt p).getD (Tally.started c)))
        else GoMap.find pt p := by
  unfold tallyNoDiff
  rw [GoMap.find_put]
  by_cases h : p = NoDiffPathname
  · subst h
    simp only [if_true]
    cases hf : GoMap.find pt NoDiffPathname <;> simp [Tally.seen, Tally.started, Tally.zero]
  · simp [h]

theorem find_tallyCommitPaths (c : Commit) (pt : GoMap String Tally) (p : String) :
    GoMap.find (tallyCommitPaths c pt) p = pathUpdate c p (GoMap.find pt p) := by
  unfold tallyCommitPaths pathUpdate
  by_cases h : c.FileDiffs.length = 0
  · simp only [h, if_true, find_tallyNoDiff]
  · simp only [h, if_false, find_foldl_tallyDiff]

theorem tallyAt_tallyCommitByPath (opts : TallyOpts) (m : TalliesByPath) (c : Commit)
    (key p : String) :
    tallyAt (tallyCommitByPath opts m c) key p = keyUpdate opts key p (tallyAt m key p) c := by
  unfold tallyCommitByPath keyUpdate
  by_cases hs : (c.IsMerge && !opts.CountMerges) = true
  · simp only [hs, if_true]
  · simp only [hs, if_false, Bool.false_eq_true]
    unfold tallyAt
    rw [GoMap.find_put]
    by_cases hk : key = opts.Key c
    · subst hk
      simp only [if_true, find_tallyCommitPaths]
      cases hf : GoMap.find m (opts.Key c) <;> simp [GoMap.find]
    · have hk2 : ¬ opts.Key c = key := fun e => hk e.symm
      simp only [hk, hk2, if_false]

theorem tallyAt_foldl (opts : TallyOpts) (cs : List Commit) (key p : String) :
    ∀ m : TalliesByPath,
      tallyAt (cs.foldl (tallyCommitByPath opts) m) key p
        = cs.foldl (keyUpdate opts key p) (tallyAt m key p) := by
  induction cs with
  | nil => intro m; rfl
  | cons c rest ih =>
    intro m
    rw [List.foldl_cons, ih, tallyAt_tallyCommitByPath, List.foldl_cons]

theorem find_foldl_Combine_path (left : GoMap String Tally) (p : String)
    (hnd : (GoMap.keys left).Nodup) :
    ∀ right : GoMap String Tally,
      GoMap.find (left.foldl TalliesByPath.Combine.path right) p
        = combineAt (GoMap.find left p) (GoMap.find right p) := by
  induction left with
  | nil => intro right; rfl
  | cons kv rest ih =>
    intro right
    obtain ⟨q, l⟩ := kv
    have hnd2 : (GoMap.keys rest).Nodup := (List.nodup_cons.mp hnd).2
    have hq : q ∉ GoMap.keys rest := (List.nodup_cons.mp hnd).1
    rw [List.foldl_cons, ih hnd2]
    unfold TalliesByPath.Combine.path
    rw [GoMap.find_put]
    by_cases h : p = q
    · subst h
      have hnone : GoMap.find rest p = none := (GoMap.find_eq_none_iff rest p).mpr hq
      simp only [hnone, GoMap.find, if_true, combineAt]
      cases hf : GoMap.find right p <;> simp
    · have h2 : ¬ q = p := fun e => h e.symm
      simp only [h, if_false, GoMap.find, h2]

theorem find_foldl_Combine_author (left : TalliesByPath) (key : String)
    (hnd : (GoMap.keys left).Nodup) :
    ∀ right : TalliesByPath,
      GoMap.find (left.foldl TalliesByPath.Combine.author right) key
        = match GoMap.find left key with
          | none => GoMap.find right key
          | some pt =>
            some (pt.foldl TalliesByPath.Combine.path ((GoMap.find right key).getD [])) := by
  induction left with
  | nil => intro right; rfl
  | cons kv rest ih =>
    intro right
    obtain ⟨q, pt⟩ := kv
    have hnd2 : (GoMap.keys rest).Nodup := (List.nodup_cons.mp hnd).2
    have hq : q ∉ GoMap.keys rest := (List.nodup_cons.mp hnd).1
    rw [List.foldl_cons, ih hnd2]
    unfold TalliesByPath.Combine.author
    rw [GoMap.find_put]
    by_cases h : key = q
    · subst h
      have hnone : GoMap.find rest key = none := (GoMap.find_eq_none_iff rest key).mpr hq
      simp only [hnone, GoMap.find, if_true]
      cases hf : GoMap.find right key <;> simp
    · have h2 : ¬ q = key := fun e => h e.symm
      simp only [h, if_false, GoMap.find, h2]

theorem tallyAt_Combine (left right : TalliesByPath) (key p : String)
    (hnd : (GoMap.keys left).Nodup)
    (hpaths : ∀ kv ∈ left, (GoMap.keys kv.2).Nodup) :
    tallyAt (left.Combine right) key p = combineAt (tallyAt left key p) (tallyAt right key p) := by
  unfold tallyAt TalliesByPath.Combine
  rw [find_foldl_Combine_author left key hnd]
  cases hl : GoMap.find left key with
  | none => simp [combineAt]
  | some pt =>
    have hmem := GoMap.find_mem left key pt hl
    have hndpt := hpaths _ hmem
    simp only [find_foldl_Combine_path pt p hndpt]
    cases hr : GoMap.find right key <;> simp [GoMap.find]

theorem find_Combine_isSome (left right : TalliesByPath) (key : String)
    (hnd : (GoMap.keys left).Nodup) :
    (GoMap.find (left.Combine right) key).isSome
      = ((GoMap.find left key).isSome || (GoMap.find right key).isSome) := by
  unfold TalliesByPath.Combine
  rw [find_foldl_Combine_author left key hnd]
  cases hl : GoMap.find left key <;> simp

end ChunkLemmas

section NormLemmas

theorem Tally.norm_eq_iff (a b : Tally) :
    a.norm = b.norm ↔
      a.commitset = b.commitset ∧ a.added = b.added ∧ a.removed = b.removed ∧
      a.fileset = b.fileset ∧
      min sentinelTime.nanos a.firstCommitTime.nanos
        = min sentinelTime.nanos b.firstCommitTime.nanos ∧
      a.lastCommitTime = b.lastCommitTime ∧ a.numTallied = b.numTallied := by
  cases a
  cases b
  simp only [Tally.norm, Tally.mk.injEq, true_and]
  constructor
  · rintro ⟨h1, h2, h3, h4, h5, h6, h7⟩
    refine ⟨h1, h2, h3, h4, ?_, h6, h7⟩
    have := congrArg Time.nanos h5
    simpa [timeutils.Min_nanos] using this
  · rintro ⟨h1, h2, h3, h4, h5, h6, h7⟩
    refine ⟨h1, h2, h3, h4, ?_, h6, h7⟩
    exact Time.ext_nanos (by simpa [timeutils.Min_nanos] using h5)

theorem Option.map_norm_eq_iff (o o2 : Option Tally) :
    o.map Tally.norm = o2.map Tally.norm ↔
      match o, o2 with
      | some a, some b => a.norm = b.norm
      | none, none => True
      | _, _ => False := by
  cases o <;> cases o2 <;> simp

theorem Good.unchanged : Good (fun o => o) :=
  ⟨fun _ _ h => h, fun _ _ _ => rfl, fun _ h => h⟩

theorem Good.comp (f g : Option Tally → Option Tally) (hf : Good f) (hg : Good g) :
    Good (fun o => g (f o)) := by
  refine ⟨fun o o2 h => hg.congr _ _ (hf.congr _ _ h), fun l r hl => ?_,
    fun o h => hg.keeps _ (hf.keeps _ h)⟩
  rw [hg.comm l (f r) hl]
  exact hg.congr _ _ (hf.comm l r hl)

theorem Good.seen (c : Commit) :
    Good (fun o => some (Tally.seen c (o.getD (Tally.started c)))) := by
  refine ⟨fun o o2 h => ?_, fun l r hl => ?_, fun _ _ => rfl⟩
  · rw [Option.map_norm_eq_iff] at h
    cases o with
    | none =>
      cases o2 with
      | none => rfl
      | some b => exact False.elim h
    | some a =>
      cases o2 with
      | none => exact False.elim h
      | some b =>
        simp only [Option.map_some', Option.some.injEq, Option.getD_some] at h ⊢
        rw [Tally.norm_eq_iff] at h ⊢
        obtain ⟨h1, h2, h3, h4, h5, h6, h7⟩ := h
        simp only [Tally.seen, timeutils.Min_nanos, h1, h2, h3, h4, h6, h7, true_and]
        rw [← min_assoc, h5, min_assoc]
        exact ⟨rfl, trivial⟩
  · simp only [combineAt, Option.map_some', Option.some.injEq, Option.getD_some]
    rw [Tally.norm_eq_iff]
    cases r with
    | none =>
      simp only [Option.getD_none, Tally.seen, Tally.started, Tally.Combine, Tally.zero,
        unionInPlace, timeutils.Min_nanos]
      refine ⟨by ext x; simp [or_comm], by simp, by simp, by simp, ?_, ?_, by simp⟩
      · simp only [Time.ofUnix, sentinelTime]
        omega
      · apply Time.ext_nanos
        simp only [timeutils.Max_nanos]
        omega
    | some r0 =>
      simp only [Option.getD_some, Tally.seen, Tally.Combine, unionInPlace,
        timeutils.Min_nanos]
      refine ⟨by simp, trivial, trivial, trivial, ?_, ?_, trivial⟩
      · omega
      · apply Time.ext_nanos
        simp only [timeutils.Max_nanos]
        omega

end NormLemmas

section GoodLemmas

theorem Good.changed (c : Commit) (d : FileDiff) :
    Good (fun o => some (Tally.changed c d (o.getD (Tally.started c)))) := by
  cases hm : c.IsMerge with
  | true =>
    have h := Good.seen c
    simpa [Tally.changed, hm] using h
  | false =>
    refine ⟨fun o o2 h => ?_, fun l r hl => ?_, fun _ _ => rfl⟩
    · rw [Option.map_norm_eq_iff] at h
      cases o with
      | none =>
        cases o2 with
        | none => rfl
        | some b => exact False.elim h
      | some a =>
        cases o2 with
        | none => exact False.elim h
        | some b =>
          simp only [Option.map_some', Option.some.injEq, Option.getD_some] at h ⊢
          rw [Tally.norm_eq_iff] at h ⊢
          obtain ⟨h1, h2, h3, h4, h5, h6, h7⟩ := h
          simp only [Tally.changed, hm, Tally.seen, timeutils.Min_nanos, h1, h2, h3, h4, h6,
            Bool.not_false, if_true, true_and]
          rw [← min_assoc, h5, min_assoc]
          exact ⟨rfl, trivial⟩
    · simp only [combineAt, Option.map_some', Option.some.injEq, Option.getD_some]
      rw [Tally.norm_eq_iff]
      cases r with
      | none =>
        simp only [Option.getD_none, Tally.changed, hm, Tally.seen, Tally.started,
          Tally.Combine, Tally.zero, unionInPlace, timeutils.Min_nanos, Bool.not_false, if_true]
        refine ⟨by ext x; simp [or_comm], by simp, by simp, by simp, ?_, ?_, ?_⟩
        · simp only [Time.ofUnix, sentinelTime]
          omega
        · apply Time.ext_nanos
          simp only [timeutils.Max_nanos]
          omega
        · omega
      | some r0 =>
        simp only [Option.getD_some, Tally.changed, hm, Tally.seen, Tally.Combine, unionInPlace,
          timeutils.Min_nanos, Bool.not_false, if_true]
        refine ⟨by simp, by omega, by omega, trivial, ?_, ?_, ?_⟩
        · omega
        · apply Time.ext_nanos
          simp only [timeutils.Max_nanos]
          omega
        · omega

theorem Good.diffUpdate (c : Commit) (p : String) (d : FileDiff) :
    Good (fun o => diffUpdate c p o d) := by
  unfold GitAuthor.diffUpdate
  by_cases h : d.Path = p
  · simpa [h] using Good.changed c d
  · simpa [h] using Good.unchanged

theorem Good.foldl_diffUpdate (c : Commit) (p : String) (ds : List FileDiff) :
    Good (fun o => ds.foldl (GitAuthor.diffUpdate c p) o) := by
  induction ds with
  | nil => exact Good.unchanged
  | cons d rest ih =>
    simp only [List.foldl_cons]
    exact Good.comp _ _ (Good.diffUpdate c p d) ih

theorem Good.pathUpdate (c : Commit) (p : String) : Good (pathUpdate c p) := by
  unfold GitAuthor.pathUpdate
  by_cases h : c.FileDiffs.length = 0
  · by_cases hp : p = NoDiffPathname
    · simpa [h, hp] using Good.seen c
    · simpa [h, hp] using Good.unchanged
  · simpa [h] using Good.foldl_diffUpdate c p c.FileDiffs

theorem Good.keyUpdate (opts : TallyOpts) (key p : String) (c : Commit) :
    Good (fun o => keyUpdate opts key p o c) := by
  unfold GitAuthor.keyUpdate
  by_cases hs : (c.IsMerge && !opts.CountMerges) = true
  · simpa [hs] using Good.unchanged
  · by_cases hk : opts.Key c = key
    · simpa [hs, hk] using Good.pathUpdate c p
    · simpa [hs, hk] using Good.unchanged

theorem Good.foldl_keyUpdate (opts : TallyOpts) (key p : String) (cs : List Commit) :
    Good (fun o => cs.foldl (GitAuthor.keyUpdate opts key p) o) := by
  induction cs with
  | nil => exact Good.unchanged
  | cons c rest ih =>
    simp only [List.foldl_cons]
    exact Good.comp _ _ (Good.keyUpdate opts key p c) ih

end GoodLemmas

section ChunkInvariants

theorem foldl_diffUpdate_isSome (c : Commit) (p : String) (ds : List FileDiff) :
    ∀ o : Option Tally, o.isSome = true → (ds.foldl (diffUpdate c p) o).isSome = true :=
  fun o h => (Good.foldl_diffUpdate c p ds).keeps o h

theorem foldl_diffUpdate_forall (P : Tally → Prop) (c : Commit) (p : String)
    (hchg : ∀ d t, P t → P (Tally.changed c d t)) (ds : List FileDiff) :
    ∀ o : Option Tally, (∀ t, o = some t → P t) → (o = none → P (Tally.started c)) →
      ∀ t, ds.foldl (diffUpdate c p) o = some t → P t := by
  induction ds with
  | nil =>
    intro o ho _ t ht
    exact ho t ht
  | cons d rest ih =>
    intro o ho hs t ht
    rw [List.foldl_cons] at ht
    refine ih (diffUpdate c p o d) ?_ ?_ t ht
    · intro u hu
      unfold diffUpdate at hu
      by_cases h : d.Path = p
      · simp only [h, if_true, Option.some.injEq] at hu
        subst hu
        apply hchg
        cases o with
        | none => exact hs rfl
        | some a => exact ho a rfl
      · simp only [h, if_false] at hu
        exact ho u hu
    · intro hn
      unfold diffUpdate at hn
      by_cases h : d.Path = p
      · simp [h] at hn
      · simp only [h, if_false] at hn
        exact hs hn

theorem keyUpdate_forall (P : Tally → Prop) (opts : TallyOpts) (key p : String) (c : Commit)
    (hseen : ∀ t, P t → P (Tally.seen c t))
    (hchg : ∀ d t, P t → P (Tally.changed c d t))
    (o : Option Tally) (ho : ∀ t, o = some t → P t) (hs : o = none → P (Tally.started c)) :
    ∀ t, keyUpdate opts key p o c = some t → P t := by
  intro t ht
  unfold keyUpdate at ht
  by_cases hskip : (c.IsMerge && !opts.CountMerges) = true
  · simp only [hskip, if_true] at ht
    exact ho t ht
  · by_cases hk : opts.Key c = key
    · simp only [hskip, hk, if_true, if_false, Bool.false_eq_true] at ht
      unfold pathUpdate at ht
      by_cases h0 : c.FileDiffs.length = 0
      · by_cases hp : p = NoDiffPathname
        · simp only [h0, hp, if_true, Option.some.injEq] at ht
          subst ht
          apply hseen
          cases o with
          | none => exact hs rfl
          | some a => exact ho a rfl
        · simp only [h0, hp, if_true, if_false] at ht
          exact ho t ht
      · simp only [h0, if_false] at ht
        exact foldl_diffUpdate_forall P c p hchg c.FileDiffs o ho hs t ht
    · simp only [hskip, hk, if_false, Bool.false_eq_true] at ht
      exact ho t ht

theorem foldl_keyUpdate_forall (P : Tally → Prop) (opts : TallyOpts) (key p : String)
    (cs : List Commit)
    (hseen : ∀ c ∈ cs, ∀ t, P t → P (Tally.seen c t))
    (hchg : ∀ c ∈ cs, ∀ d t, P t → P (Tally.changed c d t)) :
    ∀ o : Option Tally, (∀ t, o = some t → P t) →
      (o = none → ∀ c ∈ cs, P (Tally.started c)) →
      ∀ t, cs.foldl (keyUpdate opts key p) o = some t → P t := by
  induction cs with
  | nil =>
    intro o ho _ t ht
    exact ho t ht
  | cons c rest ih =>
    intro o ho hs t ht
    rw [List.foldl_cons] at ht
    refine ih (fun x hx => hseen x (by simp [hx])) (fun x hx => hchg x (by simp [hx]))
      (keyUpdate opts key p o c) ?_ ?_ t ht
    · exact keyUpdate_forall P opts key p c (hseen c (by simp)) (hchg c (by simp)) o ho
        (fun hn => hs hn c (by simp))
    · intro hn x hx
      have hnone : o = none := by
        cases o with
        | none => rfl
        | some a =>
          have := (Good.keyUpdate opts key p c).keeps (some a) rfl
          rw [hn] at this
          exact absurd this (by simp)
      exact hs hnone x (by simp [hx])

theorem foldl_keyUpdate_counted (opts : TallyOpts) (key p : String) (cs : List Commit)
    (o : Option Tally) (ho : ∀ t, o = some t → t.Counted) :
    ∀ t, cs.foldl (keyUpdate opts key p) o = some t → t.Counted := by
  refine foldl_keyUpdate_forall Tally.Counted opts key p cs ?_ ?_ o ho ?_
  · intro c _ t ht
    refine ⟨ht.1, ?_⟩
    simp only [Tally.seen, timeutils.Max_nanos]
    exact le_trans ht.2 (le_max_left _ _)
  · intro c _ d t ht
    unfold Tally.changed
    cases hm : c.IsMerge
    · refine ⟨Or.inr (by simp), ?_⟩
      simp only [Bool.not_false, if_true, Tally.seen, timeutils.Max_nanos]
      exact le_trans ht.2 (le_max_left _ _)
    · refine ⟨by simpa [Tally.seen] using ht.1, ?_⟩
      simp only [Bool.not_true, Bool.false_eq_true, if_false, Tally.seen, timeutils.Max_nanos]
      exact le_trans ht.2 (le_max_left _ _)
  · intro _ c _
    exact ⟨Or.inl rfl, le_refl _⟩

theorem foldl_keyUpdate_first (opts : TallyOpts) (key p : String) (cs : List Commit)
    (o : Option Tally) (ho : ∀ t, o = some t → t.firstCommitTime.nanos ≤ sentinelTime.nanos)
    (hs : o = none → ∀ c ∈ cs, c.Date.nanos ≤ sentinelTime.nanos) :
    ∀ t, cs.foldl (keyUpdate opts key p) o = some t →
      t.firstCommitTime.nanos ≤ sentinelTime.nanos := by
  refine foldl_keyUpdate_forall (fun t => t.firstCommitTime.nanos ≤ sentinelTime.nanos)
    opts key p cs ?_ ?_ o ho ?_
  · intro c _ t ht
    simp only [Tally.seen, timeutils.Min_nanos]
    exact le_trans (min_le_left _ _) ht
  · intro c _ d t ht
    unfold Tally.changed
    cases hm : c.IsMerge
    · simp only [Bool.not_false, if_true, Tally.seen, timeutils.Min_nanos]
      exact le_trans (min_le_left _ _) ht
    · simp only [Bool.not_true, Bool.false_eq_true, if_false, Tally.seen, timeutils.Min_nanos]
      exact le_trans (min_le_left _ _) ht
  · intro hn c hc
    exact hs hn c hc

theorem find_tallyCommitByPath_isSome (opts : TallyOpts) (m : TalliesByPath) (c : Commit)
    (key : String) :
    (GoMap.find (tallyCommitByPath opts m c) key).isSome
      = ((GoMap.find m key).isSome || (counted opts c && decide (opts.Key c = key))) := by
  unfold tallyCommitByPath counted
  by_cases hs : (c.IsMerge && !opts.CountMerges) = true
  · simp [hs]
  · simp only [hs, if_false, Bool.false_eq_true, GoMap.find_put]
    by_cases hk : key = opts.Key c
    · subst hk
      simp [hs]
    · have hk2 : ¬ opts.Key c = key := fun e => hk e.symm
      simp [hk, hk2]

theorem find_foldl_tallyCommitByPath_isSome (opts : TallyOpts) (cs : List Commit)
    (key : String) :
    ∀ m : TalliesByPath,
      (GoMap.find (cs.foldl (tallyCommitByPath opts) m) key).isSome
        = ((GoMap.find m key).isSome ||
            cs.any (fun c => counted opts c && decide (opts.Key c = key))) := by
  induction cs with
  | nil => intro m; simp
  | cons c rest ih =>
    intro m
    rw [List.foldl_cons, ih, find_tallyCommitByPath_isSome, List.any_cons, Bool.or_assoc]

theorem combineAt_none_norm (l : Tally) (hl : l.Counted) :
    (combineAt (some l) none).map Tally.norm = (some l).map Tally.norm := by
  simp only [combineAt, Option.map_some', Option.some.injEq, Option.getD_none]
  rw [Tally.norm_eq_iff]
  simp only [Tally.Combine, Tally.zero, unionInPlace, timeutils.Min_nanos]
  refine ⟨by simp, by simp, by simp, by simp, ?_, ?_, ?_⟩
  · simp only [Time.ofUnix, sentinelTime]
    omega
  · apply Time.ext_nanos
    simp only [timeutils.Max_nanos]
    exact max_eq_left hl.2
  · rcases hl.1 with h | h <;> simp [h]

end ChunkInvariants

section ChunkMain

theorem combineAt_foldl_norm (opts : TallyOpts) (key p : String) (xs ys : List Commit) :
    (combineAt (xs.foldl (keyUpdate opts key p) none)
        (ys.foldl (keyUpdate opts key p) none)).map Tally.norm
      = (ys.foldl (keyUpdate opts key p) (xs.foldl (keyUpdate opts key p) none)).map
          Tally.norm := by
  cases hl : xs.foldl (keyUpdate opts key p) none with
  | none => rfl
  | some l =>
    have hc : l.Counted :=
      foldl_keyUpdate_counted opts key p xs none (fun t ht => by cases ht) l hl
    have hnn : 0 ≤ l.numTallied := by
      rcases hc.1 with h | h <;> omega
    have hg := Good.foldl_keyUpdate opts key p ys
    rw [hg.comm l none hnn]
    exact hg.congr _ _ (combineAt_none_norm l hc)

theorem sameNumbers_of_norm (a b : Tally) (h : a.norm = b.norm)
    (ha : a.firstCommitTime.nanos ≤ sentinelTime.nanos)
    (hb : b.firstCommitTime.nanos ≤ sentinelTime.nanos) : a.sameNumbers b := by
  rw [Tally.norm_eq_iff] at h
  obtain ⟨h1, h2, h3, -, h5, h6, h7⟩ := h
  refine ⟨h1, h2, h3, h7, ?_, h6⟩
  apply Time.ext_nanos
  rw [min_eq_right ha, min_eq_right hb] at h5
  exact h5

theorem nodup_paths_of_inv (opts : TallyOpts) (m : TalliesByPath) (cs : List Commit)
    (h : ByPathInv opts m cs) : ∀ kv ∈ m, (GoMap.keys kv.2).Nodup := by
  intro kv hkv
  have hf := GoMap.mem_find m kv.1 kv.2 h.nodup hkv
  have hp := (h.paths kv.1).nodup
  simpa [pathsOfKey, hf] using hp

end ChunkMain

/-- C27 (counterexample): a commit dated one second after `time.Unix(1<<62, 0)`
as the first chunk and an empty second chunk: the combined tallies give the
path the first commit time `time.Unix(1<<62, 0)`, the tallies of the whole list
the date of the commit. -/
theorem TalliesByPath_Combine_late_commit :
    TallyCommitsByPath (WithoutErrors [Examples.lateCommit]) Examples.testOpts
        = .ok Examples.lateTallies ∧
      TallyCommitsByPath (WithoutErrors []) Examples.testOpts = .ok [] ∧
      TallyCommitsByPath (WithoutErrors ([Examples.lateCommit] ++ [])) Examples.testOpts
        = .ok Examples.lateTallies ∧
      (tallyAt (Examples.lateTallies.Combine []) "bob@mail.com" "a.txt").map
          (fun t => t.firstCommitTime) = some (Time.ofUnix (2 ^ 62)) ∧
      (tallyAt Examples.lateTallies "bob@mail.com" "a.txt").map
          (fun t => t.firstCommitTime) = some (Time.ofUnix (2 ^ 62 + 1)) := by
  refine ⟨by decide, by decide, by decide, by decide, by decide⟩

/-- C27 (amended): for every two error-free commit lists xs and ys, where no
commit of xs is dated after `time.Unix(1<<62, 0)`, and every options record,
TallyCommitsByPath(xs).Combine(TallyCommitsByPath(ys)) and
TallyCommitsByPath(xs ++ ys) have the same author keys and paths and, for each
author key and path, the same commit set, lines added, lines removed,
numTallied and first and last commit time; every numTallied in either result
is 0 or 1. -/
theorem TalliesByPath_Combine_chunks (opts : TallyOpts) (xs ys : List Commit)
    (hdate : ∀ c ∈ xs, c.Date.After (Time.ofUnix (2 ^ 62)) = false) :
    ∃ left right whole : TalliesByPath,
      TallyCommitsByPath (WithoutErrors xs) opts = .ok left ∧
      TallyCommitsByPath (WithoutErrors ys) opts = .ok right ∧
      TallyCommitsByPath (WithoutErrors (xs ++ ys)) opts = .ok whole ∧
      (∀ key, (GoMap.find (left.Combine right) key).isSome = (GoMap.find whole key).isSome) ∧
      (∀ key path,
        sameEntry (tallyAt (left.Combine right) key path) (tallyAt whole key path)) ∧
      ∀ key path t,
        tallyAt (left.Combine right) key path = some t ∨ tallyAt whole key path = some t →
          t.numTallied = 0 ∨ t.numTallied = 1 := by
  have hinv := ByPathInv.result opts xs
  have hnd := hinv.nodup
  have hndp := nodup_paths_of_inv opts _ xs hinv
  have hd : ∀ c ∈ xs, c.Date.nanos ≤ sentinelTime.nanos := by
    intro c hc
    have := hdate c hc
    simpa [Time.After, sentinelTime] using this
  have hA : ∀ key path,
      tallyAt ((xs.foldl (tallyCommitByPath opts) []).Combine
          (ys.foldl (tallyCommitByPath opts) [])) key path
        = combineAt (xs.foldl (keyUpdate opts key path) none)
            (ys.foldl (keyUpdate opts key path) none) := by
    intro key path
    rw [tallyAt_Combine _ _ key path hnd hndp, tallyAt_foldl, tallyAt_foldl]
    rfl
  have hB : ∀ key path,
      tallyAt ((xs ++ ys).foldl (tallyCommitByPath opts) []) key path
        = ys.foldl (keyUpdate opts key path) (xs.foldl (keyUpdate opts key path) none) := by
    intro key path
    rw [tallyAt_foldl, List.foldl_append]
    rfl
  have hcl : ∀ key path t, xs.foldl (keyUpdate opts key path) none = some t → t.Counted :=
    fun key path => foldl_keyUpdate_counted opts key path xs none (fun t ht => by cases ht)
  have hcr : ∀ key path t, ys.foldl (keyUpdate opts key path) none = some t → t.Counted :=
    fun key path => foldl_keyUpdate_counted opts key path ys none (fun t ht => by cases ht)
  refine ⟨_, _, _, TallyCommitsByPath_WithoutErrors opts xs,
    TallyCommitsByPath_WithoutErrors opts ys, TallyCommitsByPath_WithoutErrors opts (xs ++ ys),
    ?_, ?_, ?_⟩
  · intro key
    rw [find_Combine_isSome _ _ key hnd, find_foldl_tallyCommitByPath_isSome,
      find_foldl_tallyCommitByPath_isSome, find_foldl_tallyCommitByPath_isSome]
    simp [GoMap.find, List.any_append]
  · intro key path
    rw [hA, hB]
    have hn := combineAt_foldl_norm opts key path xs ys
    cases hl : xs.foldl (keyUpdate opts key path) none with
    | none =>
      simp only [combineAt]
      cases hr : ys.foldl (keyUpdate opts key path) none with
      | none => trivial
      | some r => exact ⟨rfl, rfl, rfl, rfl, rfl, rfl⟩
    | some l =>
      rw [hl] at hn
      have hlf : l.firstCommitTime.nanos ≤ sentinelTime.nanos :=
        foldl_keyUpdate_first opts key path xs none (fun t ht => by cases ht)
          (fun _ => hd) l hl
      have hsome := (Good.foldl_keyUpdate opts key path ys).keeps (some l) rfl
      obtain ⟨b, hb⟩ := Option.isSome_iff_exists.mp hsome
      have hbf : b.firstCommitTime.nanos ≤ sentinelTime.nanos :=
        foldl_keyUpdate_first opts key path ys (some l)
          (fun t ht => by cases ht; exact hlf) (fun h => by cases h) b hb
      rw [hb] at hn ⊢
      simp only [combineAt, Option.map_some', Option.some.injEq] at hn ⊢
      refine sameNumbers_of_norm _ b hn ?_ hbf
      simp only [Tally.Combine, timeutils.Min_nanos]
      exact le_trans (min_le_left _ _) hlf
  · intro key path t ht
    rcases ht with ht | ht
    · rw [hA] at ht
      cases hl : xs.foldl (keyUpdate opts key path) none with
      | none =>
        rw [hl] at ht
        exact (hcr key path t ht).1
      | some l =>
        rw [hl] at ht
        simp only [combineAt, Option.some.injEq] at ht
        subst ht
        have h1 := (hcl key path l hl).1
        cases hr : ys.foldl (keyUpdate opts key path) none with
        | none =>
          simp only [Option.getD_none, Tally.Combine, Tally.zero]
          rcases h1 with h | h <;> simp [h]
        | some r =>
          have h2 := (hcr key path r hr).1
          simp only [Option.getD_some, Tally.Combine]
          rcases h1 with h | h <;> rcases h2 with g | g <;> simp [h, g]
    · rw [tallyAt_foldl] at ht
      exact (foldl_keyUpdate_counted opts key path (xs ++ ys) _ (fun t ht => by
        simp [tallyAt, GoMap.find] at ht) t ht).1

/-- C27 (witness): the two commits of TestTallyCommits as two chunks of one
commit each. -/
theorem TalliesByPath_Combine_chunks_witness :
    ∃ left right whole : TalliesByPath,
      TallyCommitsByPath (WithoutErrors (Examples.testCommits.take 1)) Examples.testOpts
        = .ok left ∧
      TallyCommitsByPath (WithoutErrors (Examples.testCommits.drop 1)) Examples.testOpts
        = .ok right ∧
      TallyCommitsByPath
          (WithoutErrors (Examples.testCommits.take 1 ++ Examples.testCommits.drop 1))
          Examples.testOpts = .ok whole ∧
      ∀ key path,
        sameEntry (tallyAt (left.Combine right) key path) (tallyAt whole key path) := by
  obtain ⟨l, r, w, h1, h2, h3, -, h5, -⟩ :=
    TalliesByPath_Combine_chunks Examples.testOpts (Examples.testCommits.take 1)
      (Examples.testCommits.drop 1) (by decide)
  exact ⟨l, r, w, h1, h2, h3, h5⟩

section TouchLemmas

theorem Tally.norm_norm (t : Tally) : t.norm.norm = t.norm := by
  rw [Tally.norm_eq_iff]
  simp [Tally.norm, timeutils.Min_nanos]

theorem Option.map_norm_norm (o : Option Tally) :
    (o.map Tally.norm).map Tally.norm = o.map Tally.norm := by
  cases o <;> simp [Tally.norm_norm]

theorem Touch.apply_congr (e : Touch) (o o2 : Option Tally)
    (h : o.map Tally.norm = o2.map Tally.norm) :
    (e.apply o).map Tally.norm = (e.apply o2).map Tally.norm := by
  rw [Option.map_norm_eq_iff] at h
  cases o with
  | none =>
    cases o2 with
    | none => rfl
    | some b => exact False.elim h
  | some a =>
    cases o2 with
    | none => exact False.elim h
    | some b =>
      simp only [Touch.apply, Touch.step, Option.map_some', Option.some.injEq, Option.getD_some] at h ⊢
      rw [Tally.norm_eq_iff] at h ⊢
      obtain ⟨h1, h2, h3, h4, h5, h6, h7⟩ := h
      simp only [timeutils.Min_nanos, h1, h2, h3, h4, h6, h7, true_and]
      rw [← min_assoc, h5, min_assoc]
      exact ⟨rfl, trivial⟩

theorem Touch.apply_comm (e1 e2 : Touch) (o : Option Tally) :
    (e2.apply (e1.apply o)).map Tally.norm = (e1.apply (e2.apply o)).map Tally.norm := by
  cases o with
  | none =>
    simp only [Touch.apply, Touch.step, Touch.fresh, Option.map_some', Option.some.injEq,
      Option.getD_some, Option.getD_none]
    rw [Tally.norm_eq_iff]
    simp only [timeutils.Min_nanos]
    refine ⟨by ext x; simp [or_comm], by omega, by omega, trivial, by omega, ?_, ?_⟩
    · apply Time.ext_nanos
      simp only [timeutils.Max_nanos]
      omega
    · cases e1.counts <;> cases e2.counts <;> simp
  | some t =>
    simp only [Touch.apply, Touch.step, Option.map_some', Option.some.injEq, Option.getD_some]
    rw [Tally.norm_eq_iff]
    simp only [timeutils.Min_nanos]
    refine ⟨by ext x; simp [or_left_comm], by omega, by omega, trivial, by omega, ?_, ?_⟩
    · apply Time.ext_nanos
      simp only [timeutils.Max_nanos]
      omega
    · cases e1.counts <;> cases e2.counts <;> simp

theorem diffUpdate_eq_touch (c : Commit) (p : String) (o : Option Tally) (d : FileDiff)
    (h : d.Path = p) : diffUpdate c p o d = (Touch.ofDiff c d).apply o := by
  unfold diffUpdate
  simp only [h, if_true, Touch.apply, Touch.step, Touch.fresh, Touch.ofDiff, Option.some.injEq]
  cases o <;> cases hm : c.IsMerge <;>
    simp [Tally.changed, Tally.seen, Tally.started, Tally.zero, hm]

theorem foldl_diffUpdate_eq_touches (c : Commit) (p : String) (ds : List FileDiff) :
    ∀ o : Option Tally,
      ds.foldl (diffUpdate c p) o
        = ((ds.filter (fun d => decide (d.Path = p))).map (Touch.ofDiff c)).foldl
            (fun o e => e.apply o) o := by
  induction ds with
  | nil => intro o; rfl
  | cons d rest ih =>
    intro o
    rw [List.foldl_cons, ih]
    by_cases h : d.Path = p
    · simp [List.filter_cons, h, diffUpdate_eq_touch c p o d h]
    · simp [List.filter_cons, h, diffUpdate]

theorem keyUpdate_eq_touches (opts : TallyOpts) (key p : String) (o : Option Tally)
    (c : Commit) :
    keyUpdate opts key p o c = (touches opts key p c).foldl (fun o e => e.apply o) o := by
  unfold keyUpdate touches
  by_cases hs : (c.IsMerge && !opts.CountMerges) = true
  · simp [hs]
  · by_cases hk : opts.Key c = key
    · simp only [hs, hk, if_true, if_false, Bool.false_eq_true]
      unfold pathUpdate
      by_cases h0 : c.FileDiffs.length = 0
      · by_cases hp : p = NoDiffPathname
        · simp only [h0, hp, if_true, List.foldl_cons, List.foldl_nil, Touch.apply, Touch.step,
            Touch.fresh, Touch.ofCommit, Option.some.injEq]
          cases o <;> simp [Tally.seen, Tally.started, Tally.zero]
        · simp [h0, hp]
      · simp only [h0, if_false, foldl_diffUpdate_eq_touches]
    · simp [hs, hk]

theorem foldl_keyUpdate_eq_touches (opts : TallyOpts) (key p : String) (cs : List Commit) :
    ∀ o : Option Tally,
      cs.foldl (keyUpdate opts key p) o
        = (cs.flatMap (touches opts key p)).foldl (fun o e => e.apply o) o := by
  induction cs with
  | nil => intro o; rfl
  | cons c rest ih =>
    intro o
    rw [List.foldl_cons, ih, keyUpdate_eq_touches, List.flatMap_cons, List.foldl_append]

theorem foldl_touch_norm (es : List Touch) :
    ∀ o : Option Tally,
      (es.foldl (fun o e => e.apply o) o).map Tally.norm
        = es.foldl (fun o e => (e.apply o).map Tally.norm) (o.map Tally.norm) := by
  induction es with
  | nil => intro o; rfl
  | cons e rest ih =>
    intro o
    rw [List.foldl_cons, ih, List.foldl_cons]
    congr 1
    exact Touch.apply_congr e _ _ (Option.map_norm_norm o).symm

/-- The numbers of the tally of a path do not depend on the order of the
commits. -/
theorem foldl_keyUpdate_perm (opts : TallyOpts) (key p : String) (cs cs2 : List Commit)
    (hp : cs2.Perm cs) :
    (cs2.foldl (keyUpdate opts key p) none).map Tally.norm
      = (cs.foldl (keyUpdate opts key p) none).map Tally.norm := by
  rw [foldl_keyUpdate_eq_touches, foldl_keyUpdate_eq_touches, foldl_touch_norm,
    foldl_touch_norm]
  refine List.Perm.foldl_eq' (hp.flatMap_right _) ?_ _
  intro x _ y _ z
  show (y.apply ((x.apply z).map Tally.norm)).map Tally.norm
    = (x.apply ((y.apply z).map Tally.norm)).map Tally.norm
  rw [Touch.apply_congr y _ (x.apply z) (Option.map_norm_norm _),
    Touch.apply_congr x _ (y.apply z) (Option.map_norm_norm _)]
  exact Touch.apply_comm x y z

end TouchLemmas

section ContentLemmas

theorem mem_touches (opts : TallyOpts) (key p : String) (c : Commit) (e : Touch)
    (h : e ∈ touches opts key p c) :
    counted opts c = true ∧ opts.Key c = key ∧ e.name = c.AuthorName ∧
      e.email = c.AuthorEmail := by
  unfold touches at h
  by_cases hs : (c.IsMerge && !opts.CountMerges) = true
  · simp [hs] at h
  · by_cases hk : opts.Key c = key
    · have hc : counted opts c = true := by
        unfold counted
        cases hm : c.IsMerge <;> cases hcm : opts.CountMerges <;> simp_all
      simp only [hs, hk, if_true, if_false, Bool.false_eq_true] at h
      by_cases h0 : c.FileDiffs.length = 0
      · by_cases hp : p = NoDiffPathname
        · simp only [h0, hp, if_true, List.mem_singleton] at h
          subst h
          exact ⟨hc, hk, rfl, rfl⟩
        · simp [h0, hp] at h
      · simp only [h0, if_false, List.mem_map] at h
        obtain ⟨d, -, hd⟩ := h
        subst hd
        exact ⟨hc, hk, rfl, rfl⟩
    · simp [hs, hk] at h

theorem foldl_touch_forall (P : Tally → Prop) (es : List Touch)
    (hfresh : ∀ e ∈ es, P e.fresh) (hstep : ∀ e ∈ es, ∀ t, P t → P (e.step t)) :
    ∀ o : Option Tally, (∀ t, o = some t → P t) →
      ∀ t, es.foldl (fun o e => e.apply o) o = some t → P t := by
  induction es with
  | nil =>
    intro o ho t ht
    exact ho t ht
  | cons e rest ih =>
    intro o ho t ht
    rw [List.foldl_cons] at ht
    refine ih (fun x hx => hfresh x (by simp [hx])) (fun x hx => hstep x (by simp [hx]))
      (e.apply o) ?_ t ht
    intro u hu
    simp only [Touch.apply, Option.some.injEq] at hu
    subst hu
    apply hstep e (by simp)
    cases o with
    | none => exact hfresh e (by simp)
    | some a => exact ho a rfl

theorem Entry.of_foldl (opts : TallyOpts) (cs : List Commit) (key p : String) (t : Tally)
    (h : cs.foldl (keyUpdate opts key p) none = some t) : Entry opts cs key t := by
  rw [foldl_keyUpdate_eq_touches] at h
  have hmem : ∀ e ∈ cs.flatMap (touches opts key p),
      ∃ c ∈ cs, GitAuthor.counted opts c = true ∧ opts.Key c = key ∧ e.name = c.AuthorName ∧
        e.email = c.AuthorEmail := by
    intro e he
    obtain ⟨c, hc, hec⟩ := List.mem_flatMap.mp he
    exact ⟨c, hc, mem_touches opts key p c e hec⟩
  refine foldl_touch_forall (Entry opts cs key) _ ?_ ?_ none (fun t ht => by cases ht) t h
  · intro e he
    obtain ⟨c, hc, h1, h2, h3, h4⟩ := hmem e he
    refine ⟨⟨Or.inl rfl, le_refl _⟩, rfl, ?_, ⟨c, hc, h1, h2, h3⟩, ⟨c, hc, h1, h2, h4⟩⟩
    intro hn
    simpa [Touch.fresh, h3, h4] using hn c hc
  · intro e _ u hu
    refine ⟨⟨?_, ?_⟩, hu.fileset, hu.named, hu.name, hu.email⟩
    · simp only [Touch.step]
      cases e.counts
      · simpa using hu.counted.1
      · exact Or.inr (by simp)
    · simp only [Touch.step, timeutils.Max_nanos]
      exact le_trans hu.counted.2 (le_max_left _ _)

theorem Entry.mono (opts : TallyOpts) (cs cs2 : List Commit) (key : String) (t : Tally)
    (hsub : ∀ c ∈ cs, c ∈ cs2) (h : Entry opts cs key t) : Entry opts cs2 key t := by
  obtain ⟨c1, hc1, h1⟩ := h.name
  obtain ⟨c2, hc2, h2⟩ := h.email
  exact ⟨h.counted, h.fileset, fun hn => h.named (fun c hc => hn c (hsub c hc)),
    ⟨c1, hsub c1 hc1, h1⟩, ⟨c2, hsub c2 hc2, h2⟩⟩

theorem combineAt_congr (l l2 r r2 : Option Tally)
    (hl : l.map Tally.norm = l2.map Tally.norm) (hr : r.map Tally.norm = r2.map Tally.norm) :
    (combineAt l r).map Tally.norm = (combineAt l2 r2).map Tally.norm := by
  rw [Option.map_norm_eq_iff] at hl hr
  cases l with
  | none =>
    cases l2 with
    | some b => exact False.elim hl
    | none =>
      simp only [combineAt]
      rw [Option.map_norm_eq_iff]
      exact hr
  | some a =>
    cases l2 with
    | none => exact False.elim hl
    | some b =>
      simp only [combineAt, Option.map_some', Option.some.injEq]
      simp only [Tally.norm_eq_iff] at hl ⊢
      obtain ⟨h1, h2, h3, h4, h5, h6, h7⟩ := hl
      cases r with
      | none =>
        cases r2 with
        | some y => exact False.elim hr
        | none =>
          simp only [Option.getD_none, Tally.Combine, Tally.zero, unionInPlace,
            timeutils.Min_nanos, h1, h2, h3, h4, h6, h7, true_and]
          refine ⟨?_, trivial⟩
          rw [← min_assoc, h5, min_assoc]
      | some x =>
        cases r2 with
        | none => exact False.elim hr
        | some y =>
          simp only [Tally.norm_eq_iff] at hr
          obtain ⟨g1, g2, g3, g4, g5, g6, g7⟩ := hr
          simp only [Option.getD_some, Tally.Combine, unionInPlace, timeutils.Min_nanos, h1,
            h2, h3, h4, h6, h7, g1, g2, g3, g4, g6, g7, true_and]
          refine ⟨?_, trivial⟩
          omega

theorem Entry.combineAt (opts : TallyOpts) (cs1 cs2 : List Commit) (key : String)
    (l r : Option Tally) (t : Tally)
    (hl : ∀ u, l = some u → Entry opts cs1 key u)
    (hr : ∀ u, r = some u → Entry opts cs2 key u)
    (h : GitAuthor.combineAt l r = some t) : Entry opts (cs1 ++ cs2) key t := by
  cases l with
  | none =>
    simp only [GitAuthor.combineAt] at h
    exact Entry.mono opts cs2 _ key t (fun c hc => by simp [hc]) (hr t h)
  | some a =>
    have ha := Entry.mono opts cs1 (cs1 ++ cs2) key a (fun c hc => by simp [hc]) (hl a rfl)
    simp only [GitAuthor.combineAt, Option.some.injEq] at h
    subst h
    have hor : ∀ x y : String, or x y = x ∨ (x = "" ∧ or x y = y) := by
      intro x y
      by_cases hx : x = ""
      · right
        exact ⟨hx, by simp [or, hx]⟩
      · left
        exact or_of_ne x y hx
    cases r with
    | none =>
      obtain ⟨c1, hc1, h1⟩ := ha.name
      obtain ⟨c2, hc2, h2⟩ := ha.email
      refine ⟨⟨?_, ?_⟩, ?_, ?_, ⟨c1, hc1, ?_⟩, ⟨c2, hc2, ?_⟩⟩
      · simp only [Option.getD_none, Tally.Combine, Tally.zero]
        rcases ha.counted.1 with g | g <;> simp [g]
      · simp only [Option.getD_none, Tally.Combine, Tally.zero, timeutils.Max_nanos]
        exact le_trans ha.counted.2 (le_max_left _ _)
      · simp [Tally.Combine, Tally.zero, unionInPlace, ha.fileset]
      · intro hn
        simpa [Tally.Combine, Tally.zero, or_empty_right] using ha.named hn
      · simpa [Tally.Combine, Tally.zero, or_empty_right] using h1
      · simpa [Tally.Combine, Tally.zero, or_empty_right] using h2
    | some b =>
      have hb := Entry.mono opts cs2 (cs1 ++ cs2) key b (fun c hc => by simp [hc]) (hr b rfl)
      refine ⟨⟨?_, ?_⟩, ?_, ?_, ?_, ?_⟩
      · simp only [Option.getD_some, Tally.Combine]
        rcases ha.counted.1 with g | g <;> rcases hb.counted.1 with g2 | g2 <;> simp [g, g2]
      · simp only [Option.getD_some, Tally.Combine, timeutils.Max_nanos]
        exact le_trans ha.counted.2 (le_max_left _ _)
      · simp [Tally.Combine, unionInPlace, ha.fileset, hb.fileset]
      · intro hn
        simp only [Option.getD_some, Tally.Combine]
        rcases ha.named hn with g | g
        · left
          rw [or_of_ne _ _ g]
          exact g
        · right
          rw [or_of_ne _ _ g]
          exact g
      · simp only [Option.getD_some, Tally.Combine]
        rcases hor a.name b.name with g | ⟨-, g⟩
        · rw [g]
          exact ha.name
        · rw [g]
          exact hb.name
      · simp only [Option.getD_some, Tally.Combine]
        rcases hor a.email b.email with g | ⟨-, g⟩
        · rw [g]
          exact ha.email
        · rw [g]
          exact hb.email

end ContentLemmas

section ObtainableLemmas

theorem tallyAt_eq_find_pathsOfKey (m : TalliesByPath) (key p : String) :
    tallyAt m key p = GoMap.find (pathsOfKey m key) p := by
  unfold tallyAt pathsOfKey
  cases GoMap.find m key <;> simp [GoMap.find]

theorem nodup_pathsOfKey (m : TalliesByPath) (key : String)
    (hp : ∀ kv ∈ m, (GoMap.keys kv.2).Nodup) : (GoMap.keys (pathsOfKey m key)).Nodup := by
  unfold pathsOfKey
  cases hf : GoMap.find m key with
  | none => simp [GoMap.keys]
  | some pt => exact hp _ (GoMap.find_mem m key pt hf)

theorem forall₂_mem_left {α β : Type} (R : α → β → Prop) :
    ∀ (l1 : List α) (l2 : List β), List.Forall₂ R l1 l2 → ∀ a ∈ l1, ∃ b ∈ l2, R a b := by
  intro l1 l2 h
  induction h with
  | nil => intro a ha; simp at ha
  | cons hab _ ih =>
    intro a ha
    rcases List.mem_cons.mp ha with e | e
    · subst e
      exact ⟨_, List.mem_cons_self _ _, hab⟩
    · obtain ⟨b, hb, hr⟩ := ih a e
      exact ⟨b, List.mem_cons_of_mem _ hb, hr⟩

theorem tallyAt_of_reordered (m2 m : TalliesByPath) (hre : TalliesByPath.Reordered m2 m)
    (hnd : (GoMap.keys m).Nodup) (hp : ∀ kv ∈ m, (GoMap.keys kv.2).Nodup) :
    (GoMap.keys m2).Nodup ∧ (∀ kv ∈ m2, (GoMap.keys kv.2).Nodup) ∧
      ∀ key p, tallyAt m2 key p = tallyAt m key p := by
  obtain ⟨mid, hperm, hall⟩ := hre
  have hkeys : GoMap.keys mid = GoMap.keys m := (pathsOfKey_of_forall₂ "" mid m hall).2
  have hndmid : (GoMap.keys mid).Nodup := by
    rw [hkeys]
    exact hnd
  refine ⟨(hperm.map Prod.fst).nodup_iff.mpr hndmid, ?_, ?_⟩
  · intro kv hkv
    obtain ⟨e, he, -, hpe⟩ := forall₂_mem_left _ mid m hall kv (hperm.subset hkv)
    exact ((hpe.map Prod.fst).nodup_iff).mpr (hp e he)
  · intro key p
    rw [tallyAt_eq_find_pathsOfKey, tallyAt_eq_find_pathsOfKey]
    have h1 : pathsOfKey m2 key = pathsOfKey mid key := by
      simp only [pathsOfKey, GoMap.find_perm m2 mid hperm hndmid key]
    rw [h1]
    exact GoMap.find_perm _ _ (pathsOfKey_of_forall₂ key mid m hall).1
      (nodup_pathsOfKey m key hp) p

theorem nodup_foldl_Combine_path (left : GoMap String Tally) :
    ∀ right : GoMap String Tally, (GoMap.keys right).Nodup →
      (GoMap.keys (left.foldl TalliesByPath.Combine.path right)).Nodup := by
  induction left with
  | nil => intro right h; exact h
  | cons kv rest ih =>
    intro right h
    rw [List.foldl_cons]
    exact ih _ (GoMap.nodup_keys_put _ _ _ h)

theorem nodup_Combine (left right : TalliesByPath) (hnd : (GoMap.keys right).Nodup)
    (hp : ∀ kv ∈ right, (GoMap.keys kv.2).Nodup) :
    (GoMap.keys (left.Combine right)).Nodup ∧
      ∀ kv ∈ left.Combine right, (GoMap.keys kv.2).Nodup := by
  unfold TalliesByPath.Combine
  induction left generalizing right with
  | nil => exact ⟨hnd, hp⟩
  | cons e rest ih =>
    rw [List.foldl_cons]
    apply ih
    · exact GoMap.nodup_keys_put _ _ _ hnd
    · unfold TalliesByPath.Combine.author
      refine GoMap.forall_put (fun pt => (GoMap.keys pt).Nodup) right _ _ hp ?_
      apply nodup_foldl_Combine_path
      cases hf : GoMap.find right e.1 with
      | none => simp [GoMap.keys]
      | some pt => exact hp _ (GoMap.find_mem right e.1 pt hf)

theorem Content.of_obtainable (opts : TallyOpts) (cs : List Commit) (m : TalliesByPath)
    (h : Obtainable opts cs m) : Content opts cs m := by
  induction h with
  | tally cs m hre =>
    have hinv := ByPathInv.result opts cs
    obtain ⟨h1, h2, h3⟩ := tallyAt_of_reordered m _ hre hinv.nodup
      (nodup_paths_of_inv opts _ cs hinv)
    refine ⟨h1, h2, ?_, ?_⟩
    · intro key p
      rw [h3, tallyAt_foldl]
      rfl
    · intro key p t ht
      rw [h3, tallyAt_foldl] at ht
      exact Entry.of_foldl opts cs key p t ht
  | combine cs1 cs2 m1 m2 m _ _ hre ih1 ih2 =>
    obtain ⟨n1, n2⟩ := nodup_Combine m1 m2 ih2.nodup ih2.paths
    obtain ⟨h1, h2, h3⟩ := tallyAt_of_reordered m _ hre n1 n2
    refine ⟨h1, h2, ?_, ?_⟩
    · intro key p
      rw [h3, tallyAt_Combine m1 m2 key p ih1.nodup ih1.paths,
        combineAt_congr _ _ _ _ (ih1.numbers key p) (ih2.numbers key p),
        combineAt_foldl_norm, List.foldl_append]
    · intro key p t ht
      rw [h3, tallyAt_Combine m1 m2 key p ih1.nodup ih1.paths] at ht
      exact Entry.combineAt opts cs1 cs2 key _ _ t (ih1.entries key p) (ih2.entries key p) ht

end ObtainableLemmas

section ReduceLemmas

theorem Tally.norm_Combine (a b : Tally) :
    (a.Combine b).norm = (a.norm.Combine b.norm).norm := by
  rw [Tally.norm_eq_iff]
  simp only [Tally.Combine, Tally.norm, unionInPlace, timeutils.Min_nanos]
  refine ⟨trivial, trivial, trivial, trivial, by omega, trivial, trivial⟩

theorem Tally.norm_Combine_right_comm (z x y : Tally) :
    ((z.Combine x).norm.Combine y).norm = ((z.Combine y).norm.Combine x).norm := by
  rw [Tally.norm_eq_iff]
  simp only [Tally.Combine, Tally.norm, unionInPlace, timeutils.Min_nanos]
  refine ⟨Finset.union_right_comm _ _ _, by omega, by omega, Finset.union_right_comm _ _ _,
    by omega, ?_, by omega⟩
  apply Time.ext_nanos
  simp only [timeutils.Max_nanos]
  omega

theorem foldl_Combine_norm (ts : List Tally) :
    ∀ init : Tally,
      (ts.foldl Tally.Combine init).norm
        = (ts.map Tally.norm).foldl (fun a n => (a.Combine n).norm) init.norm := by
  induction ts with
  | nil => intro init; rfl
  | cons t rest ih =>
    intro init
    rw [List.foldl_cons, ih, List.map_cons, List.foldl_cons, Tally.norm_Combine]

theorem reducePaths_eq_foldl (pt : GoMap String Tally) :
    reducePaths pt = (pt.map Prod.snd).foldl Tally.Combine reduceInit := by
  unfold reducePaths
  rw [List.foldl_map]

theorem perm_of_pointwise {β : Type} [DecidableEq β] (g : Tally → β)
    (a b : GoMap String Tally) (ha : (GoMap.keys a).Nodup) (hb : (GoMap.keys b).Nodup)
    (h : ∀ k, (GoMap.find a k).map g = (GoMap.find b k).map g) :
    (a.map (fun kv => (kv.1, g kv.2))).Perm (b.map (fun kv => (kv.1, g kv.2))) := by
  have hmem : ∀ (m : GoMap String Tally), (GoMap.keys m).Nodup → ∀ x : String × β,
      x ∈ m.map (fun kv => (kv.1, g kv.2)) ↔ (GoMap.find m x.1).map g = some x.2 := by
    intro m hm x
    constructor
    · intro hx
      obtain ⟨kv, hkv, hx2⟩ := List.mem_map.mp hx
      subst hx2
      simp [GoMap.mem_find m kv.1 kv.2 hm hkv]
    · intro hx
      cases hf : GoMap.find m x.1 with
      | none => simp [hf] at hx
      | some v =>
        simp only [hf, Option.map_some', Option.some.injEq] at hx
        refine List.mem_map.mpr ⟨(x.1, v), GoMap.find_mem m x.1 v hf, ?_⟩
        simp [hx]
  have hnd : ∀ (m : GoMap String Tally), (GoMap.keys m).Nodup →
      (m.map (fun kv => (kv.1, g kv.2))).Nodup := by
    intro m hm
    apply List.Nodup.of_map Prod.fst
    simpa [GoMap.keys, List.map_map, Function.comp] using hm
  rw [List.perm_ext_iff_of_nodup (hnd a ha) (hnd b hb)]
  intro x
  rw [hmem a ha, hmem b hb, h]

theorem reducePaths_norm_congr (pt pt2 : GoMap String Tally) (h1 : (GoMap.keys pt).Nodup)
    (h2 : (GoMap.keys pt2).Nodup)
    (h : ∀ p, (GoMap.find pt p).map Tally.norm = (GoMap.find pt2 p).map Tally.norm) :
    (reducePaths pt).norm = (reducePaths pt2).norm := by
  rw [reducePaths_eq_foldl, reducePaths_eq_foldl, foldl_Combine_norm, foldl_Combine_norm]
  have hp := (perm_of_pointwise Tally.norm pt pt2 h1 h2 h).map Prod.snd
  simp only [List.map_map] at hp ⊢
  refine List.Perm.foldl_eq' hp ?_ _
  intro x _ y _ z
  exact Tally.norm_Combine_right_comm z x y

theorem foldl_Combine_first (ts : List Tally) :
    ∀ init : Tally, init.firstCommitTime.nanos ≤ sentinelTime.nanos →
      (ts.foldl Tally.Combine init).firstCommitTime.nanos ≤ sentinelTime.nanos := by
  induction ts with
  | nil => intro init h; exact h
  | cons t rest ih =>
    intro init h
    rw [List.foldl_cons]
    apply ih
    simp only [Tally.Combine, timeutils.Min_nanos]
    exact le_trans (min_le_left _ _) h

theorem foldl_Combine_name (ts : List Tally) :
    ∀ init : Tally,
      ((ts.foldl Tally.Combine init).name = init.name ∨
        ∃ t ∈ ts, (ts.foldl Tally.Combine init).name = t.name) ∧
      ((ts.foldl Tally.Combine init).email = init.email ∨
        ∃ t ∈ ts, (ts.foldl Tally.Combine init).email = t.email) := by
  have hor : ∀ x y : String, or x y = x ∨ (x = "" ∧ or x y = y) := by
    intro x y
    by_cases hx : x = ""
    · right
      exact ⟨hx, by simp [or, hx]⟩
    · left
      exact or_of_ne x y hx
  induction ts with
  | nil => intro init; exact ⟨Or.inl rfl, Or.inl rfl⟩
  | cons t rest ih =>
    intro init
    rw [List.foldl_cons]
    obtain ⟨i1, i2⟩ := ih (init.Combine t)
    constructor
    · rcases i1 with i | ⟨u, hu, i⟩
      · rcases hor init.name t.name with g | ⟨-, g⟩
        · left
          rw [i]
          exact g
        · right
          exact ⟨t, by simp, by rw [i]; exact g⟩
      · right
        exact ⟨u, by simp [hu], i⟩
    · rcases i2 with i | ⟨u, hu, i⟩
      · rcases hor init.email t.email with g | ⟨-, g⟩
        · left
          rw [i]
          exact g
        · right
          exact ⟨t, by simp, by rw [i]; exact g⟩
      · right
        exact ⟨u, by simp [hu], i⟩

/-- What holds of the tally Reduce stores for an author, when the by-path
tallies are those a run arrives at for the commits `cs`. -/
theorem Entry.reducePaths (opts : TallyOpts) (cs : List Commit) (m : TalliesByPath)
    (key : String) (hc : Content opts cs m)
    (hpos : (GitAuthor.reducePaths (pathsOfKey m key)).commitset.card > 0) :
    ((∀ c ∈ cs, c.AuthorName ≠ "" ∨ c.AuthorEmail ≠ "") →
      (GitAuthor.reducePaths (pathsOfKey m key)).name ≠ "" ∨
        (GitAuthor.reducePaths (pathsOfKey m key)).email ≠ "") ∧
    (∃ c ∈ cs, GitAuthor.counted opts c = true ∧ opts.Key c = key ∧
      (GitAuthor.reducePaths (pathsOfKey m key)).name = c.AuthorName) ∧
    (∃ c ∈ cs, GitAuthor.counted opts c = true ∧ opts.Key c = key ∧
      (GitAuthor.reducePaths (pathsOfKey m key)).email = c.AuthorEmail) ∧
    (GitAuthor.reducePaths (pathsOfKey m key)).fileset = ∅ ∧
    (GitAuthor.reducePaths (pathsOfKey m key)).firstCommitTime.nanos ≤ sentinelTime.nanos := by
  have hent : ∀ kv ∈ pathsOfKey m key, Entry opts cs key kv.2 := by
    intro kv hkv
    apply hc.entries key kv.1
    rw [tallyAt_eq_find_pathsOfKey]
    exact GoMap.mem_find _ _ _ (nodup_pathsOfKey m key hc.paths) hkv
  have hne : pathsOfKey m key ≠ [] := by
    intro hnil
    rw [hnil] at hpos
    simp [GitAuthor.reducePaths, reduceInit, Tally.zero] at hpos
  obtain ⟨kv0, hkv0⟩ := List.exists_mem_of_ne_nil _ hne
  have hmeas := foldl_Combine_measures (pathsOfKey m key) reduceInit
  have hnames := foldl_Combine_name ((pathsOfKey m key).map Prod.snd) reduceInit
  rw [← reducePaths_eq_foldl] at hnames
  refine ⟨?_, ?_, ?_, ?_, ?_⟩
  · intro hn
    exact hmeas.2.2.2.2.2 (Or.inr ⟨kv0, hkv0, (hent kv0 hkv0).named hn⟩)
  · rcases hnames.1 with h | ⟨t, ht, h⟩
    · obtain ⟨c, hcm, h1, h2, h3⟩ := (hent kv0 hkv0).name
      by_cases hz : kv0.2.name = ""
      · exact ⟨c, hcm, h1, h2, by rw [h, ← h3, hz]; rfl⟩
      · exfalso
        have hall : ∀ ts : List Tally, ∀ init : Tally, init.name = "" →
            (ts.foldl Tally.Combine init).name = "" → ∀ t ∈ ts, t.name = "" := by
          intro ts
          induction ts with
          | nil => intro _ _ _ t ht; simp at ht
          | cons u rest ih =>
            intro init hi hres t ht
            rw [List.foldl_cons] at hres
            have hu : u.name = "" := by
              by_contra hu
              have hcomb : (init.Combine u).name ≠ "" := by
                simp [Tally.Combine, hi, or_empty_left, hu]
              have hkeep : ∀ ts2 : List Tally, ∀ a : Tally, a.name ≠ "" →
                  (ts2.foldl Tally.Combine a).name = a.name := by
                intro ts2
                induction ts2 with
                | nil => intro a _; rfl
                | cons w rest2 ih2 =>
                  intro a ha
                  rw [List.foldl_cons, ih2 _ (by simp [Tally.Combine, or_of_ne _ _ ha, ha])]
                  simp [Tally.Combine, or_of_ne _ _ ha]
              rw [hkeep rest _ hcomb] at hres
              exact hcomb hres
            rcases List.mem_cons.mp ht with e | e
            · rw [e]; exact hu
            · exact ih (init.Combine u) (by simp [Tally.Combine, hi, hu, or_empty_left]) hres t e
        have hres : (GitAuthor.reducePaths (pathsOfKey m key)).name = "" := by
          rw [h]; rfl
        rw [reducePaths_eq_foldl] at hres
        exact hz (hall _ reduceInit rfl hres kv0.2 (List.mem_map.mpr ⟨kv0, hkv0, rfl⟩))
    · obtain ⟨kv, hkv, hkv2⟩ := List.mem_map.mp ht
      obtain ⟨c, hcm, h1, h2, h3⟩ := (hent kv hkv).name
      exact ⟨c, hcm, h1, h2, by rw [h, ← hkv2, h3]⟩
  · rcases hnames.2 with h | ⟨t, ht, h⟩
    · obtain ⟨c, hcm, h1, h2, h3⟩ := (hent kv0 hkv0).email
      by_cases hz : kv0.2.email = ""
      · exact ⟨c, hcm, h1, h2, by rw [h, ← h3, hz]; rfl⟩
      · exfalso
        have hall : ∀ ts : List Tally, ∀ init : Tally, init.email = "" →
            (ts.foldl Tally.Combine init).email = "" → ∀ t ∈ ts, t.email = "" := by
          intro ts
          induction ts with
          | nil => intro _ _ _ t ht; simp at ht
          | cons u rest ih =>
            intro init hi hres t ht
            rw [List.foldl_cons] at hres
            have hu : u.email = "" := by
              by_contra hu
              have hcomb : (init.Combine u).email ≠ "" := by
                simp [Tally.Combine, hi, or_empty_left, hu]
              have hkeep : ∀ ts2 : List Tally, ∀ a : Tally, a.email ≠ "" →
                  (ts2.foldl Tally.Combine a).email = a.email := by
                intro ts2
                induction ts2 with
                | nil => intro a _; rfl
                | cons w rest2 ih2 =>
                  intro a ha
                  rw [List.foldl_cons, ih2 _ (by simp [Tally.Combine, or_of_ne _ _ ha, ha])]
                  simp [Tally.Combine, or_of_ne _ _ ha]
              rw [hkeep rest _ hcomb] at hres
              exact hcomb hres
            rcases List.mem_cons.mp ht with e | e
            · rw [e]; exact hu
            · exact ih (init.Combine u) (by simp [Tally.Combine, hi, hu, or_empty_left]) hres t e
        have hres : (GitAuthor.reducePaths (pathsOfKey m key)).email = "" := by
          rw [h]; rfl
        rw [reducePaths_eq_foldl] at hres
        exact hz (hall _ reduceInit rfl hres kv0.2 (List.mem_map.mpr ⟨kv0, hkv0, rfl⟩))
    · obtain ⟨kv, hkv, hkv2⟩ := List.mem_map.mp ht
      obtain ⟨c, hcm, h1, h2, h3⟩ := (hent kv hkv).email
      exact ⟨c, hcm, h1, h2, by rw [h, ← hkv2, h3]⟩
  · rw [show GitAuthor.reducePaths (pathsOfKey m key)
        = (pathsOfKey m key).foldl (fun runningTally kv => runningTally.Combine kv.2)
            reduceInit from rfl]
    rw [hmeas.2.2.2.2.1 (fun kv hkv => (hent kv hkv).fileset)]
    rfl
  · rw [reducePaths_eq_foldl]
    exact foldl_Combine_first _ reduceInit (le_refl _)

end ReduceLemmas

section DeterminismLemmas

theorem FinalTally.Compare_withoutAuthor (a b : FinalTally) (mode : TallyMode) :
    a.withoutAuthor.Compare b.withoutAuthor mode = a.Compare b mode := by
  cases mode <;> rfl

theorem FinalTally.Compare_eq_zero_iff (a b : FinalTally) (mode : TallyMode) :
    a.Compare b mode = 0 ↔
      a.SortKey mode = b.SortKey mode ∧ a.LastCommitTime.nanos = b.LastCommitTime.nanos := by
  simp only [FinalTally.Compare, Time.Compare]
  by_cases h1 : a.SortKey mode < b.SortKey mode
  · simp only [h1, if_true]
    constructor
    · intro h; omega
    · rintro ⟨h, -⟩; omega
  · by_cases h2 : b.SortKey mode < a.SortKey mode
    · simp only [h1, h2, if_true, if_false]
      constructor
      · intro h; omega
      · rintro ⟨h, -⟩; omega
    · simp only [h1, h2, if_false]
      by_cases h3 : a.LastCommitTime.nanos < b.LastCommitTime.nanos
      · simp only [h3, if_true]
        constructor
        · intro h; omega
        · rintro ⟨-, h⟩; omega
      · by_cases h4 : b.LastCommitTime.nanos < a.LastCommitTime.nanos
        · simp only [h3, h4, if_true, if_false]
          constructor
          · intro h; omega
          · rintro ⟨-, h⟩; omega
        · simp only [h3, h4, if_false, true_iff]
          constructor <;> omega

theorem sorted_SortFunc_Compare (mode : TallyMode) (final : List FinalTally) :
    (SortFunc (fun a b : FinalTally => -a.Compare b mode) final).Pairwise
        (fun a b => 0 ≤ a.Compare b mode) ∧
      (SortFunc (fun a b : FinalTally => -a.Compare b mode) final).Perm final := by
  haveI : IsTotal FinalTally (fun a b => -a.Compare b mode ≤ 0) := by
    constructor
    intro a b
    have ha := FinalTally.Compare_nonneg_iff a b mode
    have hb := FinalTally.Compare_nonneg_iff b a mode
    by_cases hab : 0 ≤ a.Compare b mode
    · left; show -a.Compare b mode ≤ 0; omega
    · right
      show -b.Compare a mode ≤ 0
      have : 0 ≤ b.Compare a mode := by
        rw [hb]
        rw [ha] at hab
        by_cases hk : a.SortKey mode < b.SortKey mode
        · exact Or.inl hk
        · right
          constructor
          · by_contra hne
            exact hab (Or.inl (by omega))
          · by_contra hle
            exact hab (Or.inr ⟨by
              by_contra hne
              exact hab (Or.inl (by omega)), by omega⟩)
      omega
  haveI : IsTrans FinalTally (fun a b => -a.Compare b mode ≤ 0) := by
    constructor
    intro a b c hab hbc
    have hab2 : 0 ≤ a.Compare b mode := by
      have : -a.Compare b mode ≤ 0 := hab
      omega
    have hbc2 : 0 ≤ b.Compare c mode := by
      have : -b.Compare c mode ≤ 0 := hbc
      omega
    rw [FinalTally.Compare_nonneg_iff] at hab2 hbc2
    have : 0 ≤ a.Compare c mode := by
      rw [FinalTally.Compare_nonneg_iff]
      rcases hab2 with h1 | ⟨h1, h1t⟩ <;> rcases hbc2 with h2 | ⟨h2, h2t⟩
      · left; omega
      · left; omega
      · left; omega
      · right; exact ⟨by omega, by omega⟩
    show -a.Compare c mode ≤ 0
    omega
  have hsorted := List.sorted_insertionSort (fun a b : FinalTally => -a.Compare b mode ≤ 0) final
  have hperm := List.perm_insertionSort (fun a b : FinalTally => -a.Compare b mode ≤ 0) final
  refine ⟨?_, hperm⟩
  unfold SortFunc
  refine List.Pairwise.imp ?_ hsorted
  intro a b hab
  have : -a.Compare b mode ≤ 0 := hab
  omega

/-- Two ranked lists that hold the same tallies, seen through `g`, are the
same list seen through `g`, when no two tallies of the first tie. -/
theorem ranked_unique (mode : TallyMode) (g : FinalTally → FinalTally)
    (hg : ∀ a b, (g a).Compare (g b) mode = a.Compare b mode) (r r2 : List FinalTally)
    (hs : r.Pairwise (fun a b => 0 ≤ a.Compare b mode))
    (hs2 : r2.Pairwise (fun a b => 0 ≤ a.Compare b mode))
    (hp : (r.map g).Perm (r2.map g))
    (hnt : r.Pairwise (fun a b => a.Compare b mode ≠ 0)) : r.map g = r2.map g := by
  have hsym : Symmetric (fun a b : FinalTally => a.Compare b mode ≠ 0) := by
    intro a b hab hba
    apply hab
    rw [FinalTally.Compare_eq_zero_iff] at hba ⊢
    exact ⟨hba.1.symm, hba.2.symm⟩
  have hall := List.Pairwise.forall hsym hnt
  refine @List.Perm.eq_of_sorted FinalTally (fun a b => 0 ≤ a.Compare b mode) _ _ ?_ ?_ ?_ hp
  · intro x y hx hy hxy hyx
    have hy2 : y ∈ r.map g := hp.symm.subset hy
    obtain ⟨a, ha, rfl⟩ := List.mem_map.mp hx
    obtain ⟨b, hb, rfl⟩ := List.mem_map.mp hy2
    rw [hg] at hxy hyx
    by_contra hne
    have hab : a ≠ b := fun e => hne (by rw [e])
    apply hall ha hb hab
    rw [FinalTally.Compare_nonneg_iff] at hxy hyx
    rw [FinalTally.Compare_eq_zero_iff]
    rcases hxy with h1 | ⟨h1, h1t⟩ <;> rcases hyx with h2 | ⟨h2, h2t⟩
    · omega
    · omega
    · omega
    · exact ⟨h1, by omega⟩
  · rw [List.pairwise_map]
    exact List.Pairwise.imp (fun {a b} h => by rw [hg]; exact h) hs
  · rw [List.pairwise_map]
    exact List.Pairwise.imp (fun {a b} h => by rw [hg]; exact h) hs2

theorem map_of_map_some {α β γ : Type} (f : α → Option β) (w : β → γ) (G : α → γ) :
    ∀ (v : List α) (F : List β), v.map f = F.map some →
      (∀ a ∈ v, ∀ b, f a = some b → w b = G a) → F.map w = v.map G := by
  intro v
  induction v with
  | nil =>
    intro F h _
    cases F with
    | nil => rfl
    | cons b rest => simp at h
  | cons a rest ih =>
    intro F h hG
    cases F with
    | nil => simp at h
    | cons b restF =>
      simp only [List.map_cons, List.cons.injEq] at h ⊢
      exact ⟨hG a (by simp) b h.1, ih restF h.2 (fun x hx => hG x (by simp [hx]))⟩

theorem withoutAuthor_Final (t : Tally) (f : FinalTally) (h : t.Final = some f) :
    f.withoutAuthor = finalNumbers t := by
  unfold Tally.Final at h
  by_cases hn : t.name = "" ∧ t.email = ""
  · simp [hn] at h
  · simp only [hn, if_false, Option.some.injEq] at h
    subst h
    rfl

theorem finalNumbers_norm (t : Tally) (h : t.firstCommitTime.nanos ≤ sentinelTime.nanos) :
    finalNumbers t.norm = finalNumbers t := by
  have : timeutils.Min sentinelTime t.firstCommitTime = t.firstCommitTime :=
    Time.ext_nanos (by rw [timeutils.Min_nanos]; exact min_eq_right h)
  simp [finalNumbers, Tally.norm, this]

theorem Tally.eq_of_norm (a b : Tally) (h : a.norm = b.norm) (hn : a.name = b.name)
    (he : a.email = b.email) (ha : a.firstCommitTime.nanos ≤ sentinelTime.nanos)
    (hb : b.firstCommitTime.nanos ≤ sentinelTime.nanos) : a = b := by
  rw [Tally.norm_eq_iff] at h
  obtain ⟨h1, h2, h3, h4, h5, h6, h7⟩ := h
  rw [min_eq_right ha, min_eq_right hb] at h5
  cases a
  cases b
  simp only [Tally.mk.injEq]
  exact ⟨hn, he, h1, h2, h3, h4, Time.ext_nanos h5, h6, h7⟩

theorem find_Reduce_visited (opts : TallyOpts) (cs : List Commit) (m : TalliesByPath)
    (v : GoMap String Tally) (hc : Content opts cs m) (hv : v.Perm m.Reduce) :
    (GoMap.keys v).Nodup ∧
      ∀ key, GoMap.find v key =
        if (reducePaths (pathsOfKey m key)).commitset.card > 0
        then some (reducePaths (pathsOfKey m key)) else none := by
  have hnd := nodup_keys_Reduce m
  refine ⟨(hv.map Prod.fst).nodup_iff.mpr hnd, fun key => ?_⟩
  rw [GoMap.find_perm v _ hv hnd key, find_Reduce m key hc.nodup]

theorem reducePaths_norm_of_content (opts : TallyOpts) (cs cs2 : List Commit)
    (m m2 : TalliesByPath) (hperm : cs2.Perm cs) (hc : Content opts cs m)
    (hc2 : Content opts cs2 m2) (key : String) :
    (reducePaths (pathsOfKey m key)).norm = (reducePaths (pathsOfKey m2 key)).norm := by
  apply reducePaths_norm_congr _ _ (nodup_pathsOfKey m key hc.paths)
    (nodup_pathsOfKey m2 key hc2.paths)
  intro p
  rw [← tallyAt_eq_find_pathsOfKey, ← tallyAt_eq_find_pathsOfKey, hc.numbers, hc2.numbers,
    foldl_keyUpdate_perm opts key p cs cs2 hperm]

end DeterminismLemmas

/-- C24 (counterexample): two commits with one email and the names Bob and
Robert, each changing a file of its own, keyed by email: with a.txt visited
first Reduce and Rank give the author the name Bob, with b.txt visited first
the name Robert. -/
theorem Rank_Reduce_name_depends_on_order :
    TallyCommitsByPath (WithoutErrors Examples.twoNames) Examples.testOpts
        = .ok Examples.twoNamesTallies ∧
      TalliesByPath.Reordered Examples.twoNamesSwapped Examples.twoNamesTallies ∧
      (Rank Examples.twoNamesTallies.Reduce TallyMode.LinesMode).map
          (fun r => r.map (fun f => f.AuthorName)) = some ["Bob"] ∧
      (Rank Examples.twoNamesSwapped.Reduce TallyMode.LinesMode).map
          (fun r => r.map (fun f => f.AuthorName)) = some ["Robert"] := by
  refine ⟨by decide, ?_, by decide, by decide⟩
  exact ⟨Examples.twoNamesSwapped, List.Perm.refl _,
    List.Forall₂.cons ⟨rfl, List.Perm.swap _ _ _⟩ List.Forall₂.nil⟩

/-- C24 (amended): for a fixed list of commits that each have a name or an
email, and fixed options, Reduce followed by Rank returns a list, and its
counts, times and order are the same whatever order the commits are tallied in,
whatever order the map entries are visited in and whatever order the results
of the chunks are combined in, provided no two authors tie on both the sort key
of the mode and the last commit time; the names and emails are the same too
when the counted commits of each author key all carry one name and one
email. -/
theorem Rank_Reduce_deterministic (opts : TallyOpts) (mode : TallyMode)
    (cs cs2 : List Commit) (m m2 : TalliesByPath) (v v2 : GoMap String Tally)
    (hnamed : ∀ c ∈ cs, c.AuthorName ≠ "" ∨ c.AuthorEmail ≠ "")
    (hperm : cs2.Perm cs) (hm : Obtainable opts cs m) (hm2 : Obtainable opts cs2 m2)
    (hv : v.Perm m.Reduce) (hv2 : v2.Perm m2.Reduce) :
    ∃ ranked ranked2 : List FinalTally,
      Rank v mode = some ranked ∧ Rank v2 mode = some ranked2 ∧
      (ranked.Pairwise (fun a b => a.Compare b mode ≠ 0) →
        ranked.map FinalTally.withoutAuthor = ranked2.map FinalTally.withoutAuthor ∧
        ((∀ c ∈ cs, ∀ c2 ∈ cs, counted opts c = true → counted opts c2 = true →
            opts.Key c = opts.Key c2 →
            c.AuthorName = c2.AuthorName ∧ c.AuthorEmail = c2.AuthorEmail) →
          ranked = ranked2)) := by
  have hc := Content.of_obtainable opts cs m hm
  have hc2 := Content.of_obtainable opts cs2 m2 hm2
  have hnamed2 : ∀ c ∈ cs2, c.AuthorName ≠ "" ∨ c.AuthorEmail ≠ "" :=
    fun c h => hnamed c (hperm.subset h)
  obtain ⟨nv, fv⟩ := find_Reduce_visited opts cs m v hc hv
  obtain ⟨nv2, fv2⟩ := find_Reduce_visited opts cs2 m2 v2 hc2 hv2
  have hred := reducePaths_norm_of_content opts cs cs2 m m2 hperm hc hc2
  -- every visited tally is the reduced tally of its author
  have hmem : ∀ kv ∈ v, kv.2 = reducePaths (pathsOfKey m kv.1) ∧
      (reducePaths (pathsOfKey m kv.1)).commitset.card > 0 := by
    intro kv hkv
    have hf := GoMap.mem_find v kv.1 kv.2 nv hkv
    rw [fv] at hf
    by_cases hpos : (reducePaths (pathsOfKey m kv.1)).commitset.card > 0
    · rw [if_pos hpos] at hf
      exact ⟨(Option.some.inj hf).symm, hpos⟩
    · rw [if_neg hpos] at hf
      cases hf
  have hmem2 : ∀ kv ∈ v2, kv.2 = reducePaths (pathsOfKey m2 kv.1) ∧
      (reducePaths (pathsOfKey m2 kv.1)).commitset.card > 0 := by
    intro kv hkv
    have hf := GoMap.mem_find v2 kv.1 kv.2 nv2 hkv
    rw [fv2] at hf
    by_cases hpos : (reducePaths (pathsOfKey m2 kv.1)).commitset.card > 0
    · rw [if_pos hpos] at hf
      exact ⟨(Option.some.inj hf).symm, hpos⟩
    · rw [if_neg hpos] at hf
      cases hf
  have hn1 : ∀ kv ∈ v, kv.2.name ≠ "" ∨ kv.2.email ≠ "" := by
    intro kv hkv
    obtain ⟨e, hpos⟩ := hmem kv hkv
    rw [e]
    exact (Entry.reducePaths opts cs m kv.1 hc hpos).1 hnamed
  have hn2 : ∀ kv ∈ v2, kv.2.name ≠ "" ∨ kv.2.email ≠ "" := by
    intro kv hkv
    obtain ⟨e, hpos⟩ := hmem2 kv hkv
    rw [e]
    exact (Entry.reducePaths opts cs2 m2 kv.1 hc2 hpos).1 hnamed2
  have hfirst1 : ∀ kv ∈ v, kv.2.firstCommitTime.nanos ≤ sentinelTime.nanos := by
    intro kv hkv
    obtain ⟨e, hpos⟩ := hmem kv hkv
    rw [e]
    exact (Entry.reducePaths opts cs m kv.1 hc hpos).2.2.2.2
  have hfirst2 : ∀ kv ∈ v2, kv.2.firstCommitTime.nanos ≤ sentinelTime.nanos := by
    intro kv hkv
    obtain ⟨e, hpos⟩ := hmem2 kv hkv
    rw [e]
    exact (Entry.reducePaths opts cs2 m2 kv.1 hc2 hpos).2.2.2.2
  obtain ⟨F, hF, hFm⟩ := Rank.finals_of_named v hn1
  obtain ⟨F2, hF2, hFm2⟩ := Rank.finals_of_named v2 hn2
  obtain ⟨s1, p1⟩ := sorted_SortFunc_Compare mode F
  obtain ⟨s2, p2⟩ := sorted_SortFunc_Compare mode F2
  refine ⟨SortFunc (fun a b : FinalTally => -a.Compare b mode) F,
    SortFunc (fun a b : FinalTally => -a.Compare b mode) F2,
    by simp only [Rank, hF], by simp only [Rank, hF2], fun hnt => ⟨?_, ?_⟩⟩
  · -- the numbers
    apply ranked_unique mode FinalTally.withoutAuthor
      (fun a b => FinalTally.Compare_withoutAuthor a b mode) _ _ s1 s2 ?_ hnt
    have e1 : F.map FinalTally.withoutAuthor
        = (v.map (fun kv => (kv.1, kv.2.norm))).map (fun x => finalNumbers x.2) := by
      rw [List.map_map]
      apply map_of_map_some (fun kv : String × Tally => kv.2.Final) _ _ v F hFm
      intro kv hkv f hf
      rw [withoutAuthor_Final _ _ hf]
      exact (finalNumbers_norm kv.2 (hfirst1 kv hkv)).symm
    have e2 : F2.map FinalTally.withoutAuthor
        = (v2.map (fun kv => (kv.1, kv.2.norm))).map (fun x => finalNumbers x.2) := by
      rw [List.map_map]
      apply map_of_map_some (fun kv : String × Tally => kv.2.Final) _ _ v2 F2 hFm2
      intro kv hkv f hf
      rw [withoutAuthor_Final _ _ hf]
      exact (finalNumbers_norm kv.2 (hfirst2 kv hkv)).symm
    have hpw : (v.map (fun kv => (kv.1, kv.2.norm))).Perm
        (v2.map (fun kv => (kv.1, kv.2.norm))) := by
      apply perm_of_pointwise Tally.norm v v2 nv nv2
      intro key
      rw [fv, fv2]
      have hcs : (reducePaths (pathsOfKey m key)).commitset
          = (reducePaths (pathsOfKey m2 key)).commitset :=
        ((Tally.norm_eq_iff _ _).mp (hred key)).1
      rw [hcs]
      by_cases hpos : (reducePaths (pathsOfKey m2 key)).commitset.card > 0
      · simp only [hpos, if_true, Option.map_some', hred key]
      · simp only [hpos, if_false, Option.map_none']
    refine ((p1.map _).trans ?_).trans (p2.map _).symm
    rw [e1, e2]
    exact hpw.map _
  · -- the names
    intro hone
    have hfull : (v.map (fun kv => (kv.1, id kv.2))).Perm (v2.map (fun kv => (kv.1, id kv.2))) := by
      apply perm_of_pointwise id v v2 nv nv2
      intro key
      rw [fv, fv2]
      have hcs : (reducePaths (pathsOfKey m key)).commitset
          = (reducePaths (pathsOfKey m2 key)).commitset :=
        ((Tally.norm_eq_iff _ _).mp (hred key)).1
      rw [hcs]
      by_cases hpos : (reducePaths (pathsOfKey m2 key)).commitset.card > 0
      · have hpos1 : (reducePaths (pathsOfKey m key)).commitset.card > 0 := by
          rw [hcs]
          exact hpos
        obtain ⟨-, ⟨a, ha, a1, a2, a3⟩, ⟨b, hb, b1, b2, b3⟩, -, af⟩ :=
          Entry.reducePaths opts cs m key hc hpos1
        obtain ⟨-, ⟨a', ha', a1', a2', a3'⟩, ⟨b', hb', b1', b2', b3'⟩, -, af'⟩ :=
          Entry.reducePaths opts cs2 m2 key hc2 hpos
        have hname := (hone a ha a' (hperm.subset ha') a1 a1' (by rw [a2, a2'])).1
        have hemail := (hone b hb b' (hperm.subset hb') b1 b1' (by rw [b2, b2'])).2
        simp only [hpos, if_true, Option.map_some', id, Option.some.injEq]
        exact Tally.eq_of_norm _ _ (hred key) (by rw [a3, a3', hname])
          (by rw [b3, b3', hemail]) af af'
      · simp only [hpos, if_false, Option.map_none']
    have e1 : F.map id
        = (v.map (fun kv => (kv.1, id kv.2))).map (fun x => x.2.Final.getD FinalTally.zero) := by
      rw [List.map_map]
      apply map_of_map_some (fun kv : String × Tally => kv.2.Final) _ _ v F hFm
      intro kv _ f hf
      simp [hf]
    have e2 : F2.map id
        = (v2.map (fun kv => (kv.1, id kv.2))).map (fun x => x.2.Final.getD FinalTally.zero) := by
      rw [List.map_map]
      apply map_of_map_some (fun kv : String × Tally => kv.2.Final) _ _ v2 F2 hFm2
      intro kv _ f hf
      simp [hf]
    have hu := ranked_unique mode id (fun a b => rfl) _ _ s1 s2 ?_ hnt
    · simpa using hu
    · refine ((p1.map _).trans ?_).trans (p2.map _).symm
      rw [e1, e2]
      exact hfull.map _

/-- C24 (witness): the two commits of TestTallyCommits, tallied as one chunk in
one order and as two chunks combined in the other order, rank to the same
list. -/
theorem Rank_Reduce_deterministic_witness :
    ∃ ranked : List FinalTally,
      Rank (Examples.testCommits.foldl (tallyCommitByPath Examples.testOpts) []).Reduce
          TallyMode.LinesMode = some ranked ∧
      Rank ((((Examples.testCommits.drop 1).foldl (tallyCommitByPath Examples.testOpts)
            []).Combine
          ((Examples.testCommits.take 1).foldl (tallyCommitByPath Examples.testOpts)
            [])).Reduce) TallyMode.LinesMode = some ranked := by
  obtain ⟨r, r2, h1, h2, h3⟩ :=
    Rank_Reduce_deterministic Examples.testOpts TallyMode.LinesMode Examples.testCommits
      (Examples.testCommits.drop 1 ++ Examples.testCommits.take 1) _ _ _ _
      (by decide) (List.Perm.swap _ _ _)
      (Obtainable.tally _ _ (TalliesByPath.Reordered.refl _))
      (Obtainable.combine _ _ _ _ _
        (Obtainable.tally _ _ (TalliesByPath.Reordered.refl _))
        (Obtainable.tally _ _ (TalliesByPath.Reordered.refl _))
        (TalliesByPath.Reordered.refl _))
      (List.Perm.refl _) (List.Perm.refl _)
  have hval : Rank (Examples.testCommits.foldl (tallyCommitByPath Examples.testOpts) []).Reduce
      TallyMode.LinesMode
      = some ((Rank (Examples.testCommits.foldl (tallyCommitByPath Examples.testOpts)
          []).Reduce TallyMode.LinesMode).getD []) := by decide
  have hr : r = (Rank (Examples.testCommits.foldl (tallyCommitByPath Examples.testOpts)
      []).Reduce TallyMode.LinesMode).getD [] := by
    rw [h1]
    rfl
  have hnt : r.Pairwise (fun a b => a.Compare b TallyMode.LinesMode ≠ 0) := by
    rw [hr]
    decide
  have heq := (h3 hnt).2 (by decide)
  exact ⟨r, h1, by rw [heq]; exact h2⟩

/-! ## Theorems: the tree of tallies -/

section TreeInsertLemmas

end TreeInsertLemmas

section TreeStructureLemmas

theorem TreeNode.descend_nil (t : TreeNode) : t.descend [] = some t := by
  cases t; rfl

theorem TreeNode.descend_cons (t : TreeNode) (x : String) (q : List String) :
    t.descend (x :: q) =
      match GoMap.find t.Children x with
      | some c => c.descend q
      | none => none := by
  cases t; rfl

theorem TreeNode.total_eq {M : Type} (ms : TallyMeasure M) (key : String) (t : TreeNode) :
    t.total ms key = ms.op (ms.own t.tallies key) (TreeNode.totalList ms key t.Children) := by
  cases t
  simp [TreeNode.total, TreeNode.tallies, TreeNode.Children]

theorem TreeNode.totalList_nil {M : Type} (ms : TallyMeasure M) (key : String) :
    TreeNode.totalList ms key [] = ms.unit := by
  simp [TreeNode.totalList]

theorem TreeNode.totalList_cons {M : Type} (ms : TallyMeasure M) (key : String)
    (kv : String × TreeNode) (rest : List (String × TreeNode)) :
    TreeNode.totalList ms key (kv :: rest)
      = ms.op (kv.2.total ms key) (TreeNode.totalList ms key rest) := by
  obtain ⟨k, c⟩ := kv
  simp [TreeNode.totalList]

theorem TreeNode.All_eq (P : List (String × TreeNode) → GoMap String GitAuthor.Tally → Prop)
    (t : TreeNode) :
    t.All P ↔ (P t.Children t.tallies ∧ TreeNode.AllList P t.Children) := by
  cases t
  simp [TreeNode.All, TreeNode.tallies, TreeNode.Children]

theorem TreeNode.AllList_cons (P : List (String × TreeNode) → GoMap String GitAuthor.Tally → Prop)
    (kv : String × TreeNode) (rest : List (String × TreeNode)) :
    TreeNode.AllList P (kv :: rest) ↔ (kv.2.All P ∧ TreeNode.AllList P rest) := by
  obtain ⟨k, c⟩ := kv
  simp [TreeNode.AllList]

theorem TreeNode.AllList_find (P : List (String × TreeNode) → GoMap String GitAuthor.Tally → Prop) :
    ∀ (cs : List (String × TreeNode)) (x : String) (c : TreeNode),
      TreeNode.AllList P cs → GoMap.find cs x = some c → c.All P := by
  intro cs
  induction cs with
  | nil => intro x c _ h; simp [GoMap.find] at h
  | cons kv rest ih =>
    intro x c hall h
    obtain ⟨k, v⟩ := kv
    rw [TreeNode.AllList_cons] at hall
    by_cases hk : k = x
    · simp only [GoMap.find, hk, if_true, Option.some.injEq] at h
      subst h
      exact hall.1
    · simp only [GoMap.find, hk, if_false] at h
      exact ih x c hall.2 h

theorem TreeNode.All_descend (P : List (String × TreeNode) → GoMap String GitAuthor.Tally → Prop) :
    ∀ (q : List String) (t n : TreeNode), t.All P → t.descend q = some n → n.All P := by
  intro q
  induction q with
  | nil =>
    intro t n h hd
    rw [TreeNode.descend_nil] at hd
    cases hd
    exact h
  | cons x q ih =>
    intro t n h hd
    rw [TreeNode.descend_cons] at hd
    cases hf : GoMap.find t.Children x with
    | none => simp [hf] at hd
    | some c =>
      simp only [hf] at hd
      exact ih c n (TreeNode.AllList_find P _ x c ((TreeNode.All_eq P t).mp h).2 hf) hd

theorem GoMap.put_ne_nil {K V : Type} [DecidableEq K] (m : GoMap K V) (k : K) (v : V) :
    GoMap.put m k v ≠ [] := by
  cases m with
  | nil => simp [GoMap.put]
  | cons kv rest =>
    obtain ⟨k', v'⟩ := kv
    by_cases h : k' = k <;> simp [GoMap.put, h]

theorem TreeNode.Sound_put (tallies : GoMap String GitAuthor.Tally) (key : String) (tally : GitAuthor.Tally)
    (h : TreeNode.Sound tallies) (ht : tally.name ≠ "" ∨ tally.email ≠ "") :
    TreeNode.Sound (GoMap.put tallies key tally) :=
  ⟨GoMap.nodup_keys_put _ _ _ h.1,
    GoMap.forall_put (fun t : GitAuthor.Tally => t.name ≠ "" ∨ t.email ≠ "") _ _ _ h.2 ht⟩

end TreeStructureLemmas

section TreeTotalLemmas

theorem TallyMeasure.op_unit {M : Type} (ms : TallyMeasure M) (a : M) : ms.op a ms.unit = a := by
  rw [ms.comm, ms.unit_op]

theorem TallyMeasure.own_put {M : Type} (ms : TallyMeasure M) (tallies : GoMap String GitAuthor.Tally)
    (k key : String) (t : GitAuthor.Tally) :
    ms.own (GoMap.put tallies k t) key = if key = k then ms.μ t else ms.own tallies key := by
  unfold TallyMeasure.own
  rw [GoMap.find_put]
  by_cases h : key = k <;> simp [h]

end TreeTotalLemmas

section TreeBuildLemmas

theorem TallyMeasure.sum_cons {M : Type} (ms : TallyMeasure M) (t : Tally) (ts : List Tally) :
    ms.sum (t :: ts) = ms.op (ms.μ t) (ms.sum ts) := rfl

end TreeBuildLemmas

section TreeRankLemmas

theorem TallyMeasure.own_merge {M : Type} (ms : TallyMeasure M) (tallies : GoMap String GitAuthor.Tally)
    (kv : String × GitAuthor.Tally) (key : String) :
    ms.own (TreeNode.Rank.merge tallies kv) key
      = if key = kv.1 then ms.op (ms.own tallies kv.1) (ms.μ kv.2) else ms.own tallies key := by
  unfold TreeNode.Rank.merge
  rw [ms.own_put]
  by_cases h : key = kv.1
  · simp only [h, if_true]
    unfold TallyMeasure.own
    cases hf : GoMap.find tallies kv.1 with
    | none => simp only []; rw [ms.fresh, ms.unit_op]
    | some t => simp only []; rw [ms.combine]
  · simp only [h, if_false]

theorem TallyMeasure.own_cons {M : Type} (ms : TallyMeasure M) (kv : String × GitAuthor.Tally)
    (rest : GoMap String GitAuthor.Tally) (key : String) :
    ms.own (kv :: rest) key = if kv.1 = key then ms.μ kv.2 else ms.own rest key := by
  obtain ⟨k, t⟩ := kv
  unfold TallyMeasure.own
  by_cases h : k = key <;> simp [GoMap.find, h]

/-- Merging the tallies of a ranked child into those of its parent adds, for
each author key, the quantity of the child's tally to that of the parent's. -/
theorem TallyMeasure.own_foldl_merge {M : Type} (ms : TallyMeasure M) (key : String) :
    ∀ (child : GoMap String GitAuthor.Tally), (GoMap.keys child).Nodup →
      ∀ tallies : GoMap String GitAuthor.Tally,
        ms.own (child.foldl TreeNode.Rank.merge tallies) key
          = ms.op (ms.own tallies key) (ms.own child key) := by
  intro child
  induction child with
  | nil =>
    intro _ tallies
    simp [TallyMeasure.own, GoMap.find, ms.op_unit]
  | cons kv rest ih =>
    intro hnd tallies
    have h' : kv.1 ∉ GoMap.keys rest ∧ (GoMap.keys rest).Nodup := by
      simpa [GoMap.keys] using hnd
    rw [List.foldl_cons, ih h'.2, ms.own_merge, ms.own_cons]
    by_cases h : key = kv.1
    · have hrest : ms.own rest key = ms.unit := by
        unfold TallyMeasure.own
        rw [h, (GoMap.find_eq_none_iff rest kv.1).mpr h'.1]
      simp only [h, if_true]
      rw [h] at hrest
      rw [hrest, ms.op_unit]
    · have h2 : ¬ kv.1 = key := fun e => h e.symm
      simp only [h, h2, if_false]

theorem Tally.Combine_named_left (a b : Tally) (h : a.name ≠ "" ∨ a.email ≠ "") :
    (a.Combine b).name ≠ "" ∨ (a.Combine b).email ≠ "" := by
  rcases h with h | h
  · left
    simp only [Tally.Combine, GitAuthor.or, h, if_false]
    split_ifs <;> exact h
  · right
    simp only [Tally.Combine, GitAuthor.or, h, if_false]
    split_ifs <;> exact h

theorem TreeNode.Sound_merge (tallies : GoMap String GitAuthor.Tally) (kv : String × GitAuthor.Tally)
    (hs : TreeNode.Sound tallies) (hn : kv.2.name ≠ "" ∨ kv.2.email ≠ "") :
    TreeNode.Sound (TreeNode.Rank.merge tallies kv) := by
  unfold TreeNode.Rank.merge
  apply TreeNode.Sound_put _ _ _ hs
  cases hf : GoMap.find tallies kv.1 with
  | none =>
    simp only []
    rcases hn with h | h
    · left
      simp [Tally.Combine, GitAuthor.or, h]
    · right
      simp [Tally.Combine, GitAuthor.or, h]
  | some t =>
    exact Tally.Combine_named_left t kv.2 (hs.2 (kv.1, t) (GoMap.find_mem _ _ _ hf))

theorem TreeNode.Sound_foldl_merge :
    ∀ (child tallies : GoMap String GitAuthor.Tally), TreeNode.Sound tallies →
      (∀ kv ∈ child, kv.2.name ≠ "" ∨ kv.2.email ≠ "") →
      TreeNode.Sound (child.foldl TreeNode.Rank.merge tallies) := by
  intro child
  induction child with
  | nil => intro tallies hs _; exact hs
  | cons kv rest ih =>
    intro tallies hs hn
    rw [List.foldl_cons]
    exact ih _ (TreeNode.Sound_merge _ _ hs (hn kv (List.mem_cons_self _ _)))
      (fun kv2 h2 => hn kv2 (List.mem_cons_of_mem _ h2))

theorem TreeNode.foldl_merge_ne_nil :
    ∀ (child tallies : GoMap String GitAuthor.Tally), (tallies ≠ [] ∨ child ≠ []) →
      child.foldl TreeNode.Rank.merge tallies ≠ [] := by
  intro child
  induction child with
  | nil => intro tallies h; simpa using h
  | cons kv rest ih =>
    intro tallies _
    rw [List.foldl_cons]
    exact ih _ (Or.inl (by unfold TreeNode.Rank.merge; exact GoMap.put_ne_nil _ _ _))

/-- Rank of a non-empty map of tallies that each have a name or an email
returns a non-empty list. -/
theorem Rank_nonempty (tallies : GoMap String GitAuthor.Tally) (mode : TallyMode)
    (hs : TreeNode.Sound tallies) (hne : tallies ≠ []) :
    ∃ top rest, Rank tallies mode = some (top :: rest) := by
  obtain ⟨final, h1, h2⟩ := Rank.finals_of_named tallies hs.2
  have hlen : final.length = tallies.length := by
    have := congrArg List.length h2
    simpa using this.symm
  have hsort : (SortFunc (fun a b : FinalTally => -a.Compare b mode) final).length
      = final.length := by
    unfold SortFunc
    exact List.length_insertionSort _ _
  cases hr : SortFunc (fun a b : FinalTally => -a.Compare b mode) final with
  | nil =>
    rw [hr] at hsort
    have : tallies.length = 0 := by simp at hsort; omega
    exact absurd (List.length_eq_zero.mp this) hne
  | cons top rest =>
    exact ⟨top, rest, by simp [Rank, h1, hr]⟩

end TreeRankLemmas

section TreeRankedLemmas

theorem TreeNode.Rank_mk (mode : TallyMode) (a : FinalTally) (cs : List (String × TreeNode))
    (w : Bool) (tl : GoMap String GitAuthor.Tally) :
    TreeNode.Rank mode (.mk a cs w tl) =
      match TreeNode.Rank.children mode cs tl with
      | none => none
      | some (children, tallies) =>
        match GitAuthor.Rank tallies mode with
        | none => none
        | some [] => none
        | some (top :: _) => some (.mk top children w tallies) := by
  rw [TreeNode.Rank]

theorem TreeNode.Rank.children_nil (mode : TallyMode) (tl : GoMap String GitAuthor.Tally) :
    TreeNode.Rank.children mode [] tl = some ([], tl) := by
  rw [TreeNode.Rank.children]

theorem TreeNode.Rank.children_cons (mode : TallyMode) (p : String) (child : TreeNode)
    (rest : List (String × TreeNode)) (tl : GoMap String GitAuthor.Tally) :
    TreeNode.Rank.children mode ((p, child) :: rest) tl =
      match TreeNode.Rank mode child with
      | none => none
      | some child =>
        match TreeNode.Rank.children mode rest
            (child.tallies.foldl TreeNode.Rank.merge tl) with
        | none => none
        | some (rest, tallies) => some ((p, child) :: rest, tallies) := by
  rw [TreeNode.Rank.children]

mutual
/-- TreeNode.Rank on a tree of built nodes returns, and the tallies of the
ranked node hold, for each author key, the total of the node; the Tally of the
ranked node is the first of the ranking of these tallies, and the children are
the ranked children. -/
theorem TreeNode.Rank_returns (mode : TallyMode) :
    ∀ t : TreeNode, t.All TreeNode.Built →
      ∃ r, t.Rank mode = some r ∧
        TreeNode.Sound r.tallies ∧ r.tallies ≠ [] ∧
        (∀ (M : Type) (ms : TallyMeasure M) (key : String),
          ms.own r.tallies key = t.total ms key) ∧
        (∃ rest, GitAuthor.Rank r.tallies mode = some (r.Tally :: rest)) ∧
        (∀ x, match GoMap.find t.Children x with
              | some c => ∃ c2, GoMap.find r.Children x = some c2 ∧ c.Rank mode = some c2
              | none => GoMap.find r.Children x = none)
  | .mk a cs w tl => by
    intro h
    rw [TreeNode.All] at h
    obtain ⟨cs2, tl2, hrc, hs2, hne2, hown2, hrel2⟩ :=
      TreeNode.Rank_children_returns mode cs h.2 tl h.1.1
    obtain ⟨top, rest, hrank⟩ := Rank_nonempty tl2 mode hs2 (hne2 h.1.2)
    refine ⟨.mk top cs2 w tl2, ?_, hs2, hne2 h.1.2, ?_, ⟨rest, hrank⟩, hrel2⟩
    · rw [TreeNode.Rank_mk, hrc]
      simp only [hrank]
    · intro M ms key
      rw [TreeNode.total_eq]
      exact hown2 M ms key
/-- The loop of TreeNode.Rank over children that are trees of built nodes
returns, and the tallies it leaves hold, for each author key, the quantity of
the tally it started with and the totals of the children. -/
theorem TreeNode.Rank_children_returns (mode : TallyMode) :
    ∀ cs : List (String × TreeNode), TreeNode.AllList TreeNode.Built cs →
      ∀ tl : GoMap String GitAuthor.Tally, TreeNode.Sound tl →
        ∃ cs2 tl2, TreeNode.Rank.children mode cs tl = some (cs2, tl2) ∧
          TreeNode.Sound tl2 ∧ ((tl ≠ [] ∨ cs ≠ []) → tl2 ≠ []) ∧
          (∀ (M : Type) (ms : TallyMeasure M) (key : String),
            ms.own tl2 key = ms.op (ms.own tl key) (TreeNode.totalList ms key cs)) ∧
          (∀ x, match GoMap.find cs x with
                | some c => ∃ c2, GoMap.find cs2 x = some c2 ∧ c.Rank mode = some c2
                | none => GoMap.find cs2 x = none)
  | [] => by
    intro _ tl hs
    refine ⟨[], tl, TreeNode.Rank.children_nil mode tl, hs, ?_, ?_, ?_⟩
    · intro h
      rcases h with h | h
      · exact h
      · exact absurd rfl h
    · intro M ms key
      rw [TreeNode.totalList_nil, ms.op_unit]
    · intro x
      simp [GoMap.find]
  | (p, c) :: rest => by
    intro h tl hs
    rw [TreeNode.AllList] at h
    obtain ⟨r, hr, hrs, hrne, hrown, -, -⟩ := TreeNode.Rank_returns mode c h.1
    obtain ⟨cs2, tl2, hrc, hs2, hne2, hown2, hrel2⟩ :=
      TreeNode.Rank_children_returns mode rest h.2 (r.tallies.foldl TreeNode.Rank.merge tl)
        (TreeNode.Sound_foldl_merge _ _ hs hrs.2)
    refine ⟨(p, r) :: cs2, tl2, ?_, hs2, ?_, ?_, ?_⟩
    · rw [TreeNode.Rank.children_cons, hr]
      simp only [hrc]
    · intro _
      exact hne2 (Or.inl (TreeNode.foldl_merge_ne_nil _ _ (Or.inr hrne)))
    · intro M ms key
      rw [hown2 M ms key, ms.own_foldl_merge key _ hrs.1, hrown M ms key,
        TreeNode.totalList_cons, ms.assoc]
    · intro x
      by_cases hx : p = x
      · simp only [GoMap.find, hx, if_true]
        exact ⟨r, rfl, hr⟩
      · simp only [GoMap.find, hx, if_false]
        exact hrel2 x
end

end TreeRankedLemmas

section TreePathLemmas

end TreePathLemmas

section TreeSumLemmas

end TreeSumLemmas

section TreeByPathLemmas

end TreeByPathLemmas

section TreeAssembly

end TreeAssembly

section TreeTop

end TreeTop

section TreeClaim

end TreeClaim

section TreeExamples

end TreeExamples

section TreeWitness

end TreeWitness

end GitAuthor
